import Mathlib

/-!
JSON Schema reflection (rammstein4o/jsonschema): a shallow embedding

The Go program walks `reflect.Type` values and builds trees of `*TypeDraft04`
nodes that it mutates in place.  The embedding keeps that shape:

* a type is an identifier into a `TypeEnv`, the table of what `reflect` reports
  about it (kind, name, element type, fields, implemented interfaces);
* a schema node is a record stored in a heap (a list of nodes); a `*TypeDraft04`
  is an address into that heap, so aliasing and in-place mutation are explicit;
* every function that may recurse through the type graph takes a fuel argument
  and returns a `Res`: a value, an abort (Go `panic`) or `timeout` when the fuel
  is used up.
-/

namespace Jsonschema

/-! ## Strings, struct tags and `strconv` -/

/-- Pieces of a character list between occurrences of `sep`. -/
def splitChars (sep : Char) : List Char → List (List Char)
  | [] => [[]]
  | c :: cs =>
    if c = sep then [] :: splitChars sep cs
    else
      match splitChars sep cs with
      | [] => [[c]]
      | piece :: rest => (c :: piece) :: rest

/-- Go `strings.Split(s, sep)` for a one-character separator (the program only
uses `","`, `"="` and `";"`): always at least one piece, `[""]` for `""`. -/
def Split (s : String) (sep : Char) : List String :=
  (splitChars sep s.data).map String.mk

/-- The lower-case mappings of the letters beyond ASCII in the tables of Go's
`unicode` package (Unicode 15.0.0, one letter to one letter), as ranges: first
and last code point, step, and the distance to the lower-case letter. -/
def lowerRanges : List (Nat × Nat × Nat × Int) :=
  [(192, 214, 1, 32), (216, 222, 1, 32), (256, 302, 2, 1), (304, 304, 1, -199), (306, 310, 2, 1),
   (313, 327, 2, 1), (330, 374, 2, 1), (376, 376, 1, -121), (377, 381, 2, 1), (385, 385, 1, 210),
   (386, 388, 2, 1), (390, 390, 1, 206), (391, 391, 1, 1), (393, 394, 1, 205), (395, 395, 1, 1),
   (398, 398, 1, 79), (399, 399, 1, 202), (400, 400, 1, 203), (401, 401, 1, 1),
   (403, 403, 1, 205), (404, 404, 1, 207), (406, 406, 1, 211), (407, 407, 1, 209),
   (408, 408, 1, 1), (412, 412, 1, 211), (413, 413, 1, 213), (415, 415, 1, 214),
   (416, 420, 2, 1), (422, 422, 1, 218), (423, 423, 1, 1), (425, 425, 1, 218), (428, 428, 1, 1),
   (430, 430, 1, 218), (431, 431, 1, 1), (433, 434, 1, 217), (435, 437, 2, 1),
   (439, 439, 1, 219), (440, 440, 1, 1), (444, 444, 1, 1), (452, 452, 1, 2), (453, 453, 1, 1),
   (455, 455, 1, 2), (456, 456, 1, 1), (458, 458, 1, 2), (459, 475, 2, 1), (478, 494, 2, 1),
   (497, 497, 1, 2), (498, 500, 2, 1), (502, 502, 1, -97), (503, 503, 1, -56), (504, 542, 2, 1),
   (544, 544, 1, -130), (546, 562, 2, 1), (570, 570, 1, 10795), (571, 571, 1, 1),
   (573, 573, 1, -163), (574, 574, 1, 10792), (577, 577, 1, 1), (579, 579, 1, -195),
   (580, 580, 1, 69), (581, 581, 1, 71), (582, 590, 2, 1), (880, 882, 2, 1), (886, 886, 1, 1),
   (895, 895, 1, 116), (902, 902, 1, 38), (904, 906, 1, 37), (908, 908, 1, 64),
   (910, 911, 1, 63), (913, 929, 1, 32), (931, 939, 1, 32), (975, 975, 1, 8), (984, 1006, 2, 1),
   (1012, 1012, 1, -60), (1015, 1015, 1, 1), (1017, 1017, 1, -7), (1018, 1018, 1, 1),
   (1021, 1023, 1, -130), (1024, 1039, 1, 80), (1040, 1071, 1, 32), (1120, 1152, 2, 1),
   (1162, 1214, 2, 1), (1216, 1216, 1, 15), (1217, 1229, 2, 1), (1232, 1326, 2, 1),
   (1329, 1366, 1, 48), (4256, 4293, 1, 7264), (4295, 4295, 1, 7264), (4301, 4301, 1, 7264),
   (5024, 5103, 1, 38864), (5104, 5109, 1, 8), (7312, 7354, 1, -3008), (7357, 7359, 1, -3008),
   (7680, 7828, 2, 1), (7838, 7838, 1, -7615), (7840, 7934, 2, 1), (7944, 7951, 1, -8),
   (7960, 7965, 1, -8), (7976, 7983, 1, -8), (7992, 7999, 1, -8), (8008, 8013, 1, -8),
   (8025, 8031, 2, -8), (8040, 8047, 1, -8), (8072, 8079, 1, -8), (8088, 8095, 1, -8),
   (8104, 8111, 1, -8), (8120, 8121, 1, -8), (8122, 8123, 1, -74), (8124, 8124, 1, -9),
   (8136, 8139, 1, -86), (8140, 8140, 1, -9), (8152, 8153, 1, -8), (8154, 8155, 1, -100),
   (8168, 8169, 1, -8), (8170, 8171, 1, -112), (8172, 8172, 1, -7), (8184, 8185, 1, -128),
   (8186, 8187, 1, -126), (8188, 8188, 1, -9), (8486, 8486, 1, -7517), (8490, 8490, 1, -8383),
   (8491, 8491, 1, -8262), (8498, 8498, 1, 28), (8544, 8559, 1, 16), (8579, 8579, 1, 1),
   (9398, 9423, 1, 26), (11264, 11311, 1, 48), (11360, 11360, 1, 1), (11362, 11362, 1, -10743),
   (11363, 11363, 1, -3814), (11364, 11364, 1, -10727), (11367, 11371, 2, 1),
   (11373, 11373, 1, -10780), (11374, 11374, 1, -10749), (11375, 11375, 1, -10783),
   (11376, 11376, 1, -10782), (11378, 11378, 1, 1), (11381, 11381, 1, 1),
   (11390, 11391, 1, -10815), (11392, 11490, 2, 1), (11499, 11501, 2, 1), (11506, 11506, 1, 1),
   (42560, 42604, 2, 1), (42624, 42650, 2, 1), (42786, 42798, 2, 1), (42802, 42862, 2, 1),
   (42873, 42875, 2, 1), (42877, 42877, 1, -35332), (42878, 42886, 2, 1), (42891, 42891, 1, 1),
   (42893, 42893, 1, -42280), (42896, 42898, 2, 1), (42902, 42920, 2, 1),
   (42922, 42922, 1, -42308), (42923, 42923, 1, -42319), (42924, 42924, 1, -42315),
   (42925, 42925, 1, -42305), (42926, 42926, 1, -42308), (42928, 42928, 1, -42258),
   (42929, 42929, 1, -42282), (42930, 42930, 1, -42261), (42931, 42931, 1, 928),
   (42932, 42946, 2, 1), (42948, 42948, 1, -48), (42949, 42949, 1, -42307),
   (42950, 42950, 1, -35384), (42951, 42953, 2, 1), (42960, 42960, 1, 1), (42966, 42968, 2, 1),
   (42997, 42997, 1, 1), (65313, 65338, 1, 32), (66560, 66599, 1, 40), (66736, 66771, 1, 40),
   (66928, 66938, 1, 39), (66940, 66954, 1, 39), (66956, 66962, 1, 39), (66964, 66965, 1, 39),
   (68736, 68786, 1, 64), (71840, 71871, 1, 32), (93760, 93791, 1, 32), (125184, 125217, 1, 34)]

/-- Go `unicode.ToLower`. -/
def unicodeToLower (c : Char) : Char :=
  if c.toNat < 128 then
    (if 'A'.toNat ≤ c.toNat ∧ c.toNat ≤ 'Z'.toNat then Char.ofNat (c.toNat + 32) else c)
  else
    match lowerRanges.find?
        (fun r => r.1 ≤ c.toNat ∧ c.toNat ≤ r.2.1 ∧ (c.toNat - r.1) % r.2.2.1 = 0) with
    | some r => Char.ofNat ((c.toNat : Int) + r.2.2.2).toNat
    | none => c

/-- Go `strings.ToLower`. -/
def ToLower (s : String) : String :=
  String.mk (s.data.map unicodeToLower)

/-- A `reflect.StructTag`, already cut into its `key:"value"` pairs. -/
abbrev StructTag := List (String × String)

/-- Go `StructTag.Lookup`: the value of the first pair with that key. -/
def StructTag.Lookup (tag : StructTag) (key : String) : Option String :=
  match tag with
  | [] => none
  | (k, v) :: rest => if k = key then some v else StructTag.Lookup rest key

/-- Go `StructTag.Get`: the looked-up value, `""` when the key is absent. -/
def StructTag.Get (tag : StructTag) (key : String) : String :=
  (tag.Lookup key).getD ""

/-- Value of a decimal digit character. -/
def digitVal (c : Char) : Option Nat :=
  if '0' ≤ c ∧ c ≤ '9' then some (c.toNat - '0'.toNat) else none

/-- Value of a non-empty run of decimal digits, `none` on any other text. -/
def parseDigits : List Char → Option Nat
  | [] => none
  | cs => cs.foldl (fun acc c => do
      let n ← acc
      let d ← digitVal c
      pure (n * 10 + d)) (some 0)

/-- Largest Go `int` (64-bit platforms). -/
def maxInt : Int := 2 ^ 63 - 1

/-- Smallest Go `int` (64-bit platforms). -/
def minInt : Int := -(2 ^ 63)

/-- Go `strconv.Atoi` followed by dropping the error, as in `i, _ := strconv.Atoi(val)`:
the parsed number, `0` on a syntax error, and the nearest bound of `int` when the
digits are out of range. -/
def Atoi (s : String) : Int :=
  let parsed : Option Int :=
    match s.data with
    | '-' :: ds => (parseDigits ds).map (fun n => -(n : Int))
    | '+' :: ds => (parseDigits ds).map (fun n => (n : Int))
    | ds => (parseDigits ds).map (fun n => (n : Int))
  match parsed with
  | none => 0
  | some v => if v > maxInt then maxInt else if v < minInt then minInt else v

/-- Go `strconv.ParseUint(s, 10, 64)` with the error dropped: no sign allowed,
`0` on a syntax error, `2^64 - 1` when out of range. -/
def ParseUint (s : String) : Nat :=
  match parseDigits s.data with
  | none => 0
  | some v => if v > 2 ^ 64 - 1 then 2 ^ 64 - 1 else v

/-- Go `strconv.ParseBool` with the error dropped. -/
def ParseBool (s : String) : Bool :=
  s = "1" ∨ s = "t" ∨ s = "T" ∨ s = "TRUE" ∨ s = "true" ∨ s = "True"

/-! ## Floating-point numbers (strconv.ParseFloat) -/

/-- A Go `float64`, as its IEEE 754 bit pattern (`math.Float64bits`). -/
abbrev Float64 := Nat

/-- Bit pattern of `math.Inf(1)`. -/
def float64Inf : Float64 := 0x7FF0000000000000

/-- Bit pattern of `math.NaN()`. -/
def float64NaN : Float64 := 0x7FF8000000000001

/-- The sign bit of a `float64`. -/
def float64Sign (neg : Bool) : Float64 := if neg then 2 ^ 63 else 0

/-- Number of binary digits of a natural number (Go `bits.Len`); the first
argument bounds the number of rounds, the last one counts them. -/
def bitLen : Nat → Nat → Nat → Nat
  | 0, _, len => len
  | fuel + 1, n, len => if n = 0 then len else bitLen fuel (n / 2) (len + 1)

/-- The `float64` nearest to the positive rational `num / den`, ties to the even
mantissa (IEEE 754 round-to-nearest-even), infinity when the rounded value is out
of range; `neg` gives the sign.  With `e` the binary exponent of the value (at
least that of the smallest normal number), the mantissa is the value divided by
`2 ^ (e - 52)`, rounded; exponent field and mantissa add up to the bit pattern, a
mantissa rounded up to `2 ^ 53` carrying into the exponent. -/
def roundFloat64 (neg : Bool) (num den : Nat) : Float64 :=
  if num = 0 ∨ den = 0 then float64Sign neg
  else
    let e0 : Int := (bitLen num num 0 : Int) - (bitLen den den 0 : Int)
    let below : Bool :=
      if e0 < 0 then decide (num * 2 ^ (-e0).toNat < den) else decide (num < den * 2 ^ e0.toNat)
    let e : Int := if below then e0 - 1 else e0
    let ex : Int := if e < -1022 then -1022 else e
    let n : Nat := num * 2 ^ (52 - ex).toNat
    let d : Nat := den * 2 ^ (ex - 52).toNat
    let q : Nat := n / d
    let rem : Nat := n % d
    let m : Nat := if 2 * rem > d ∨ (2 * rem = d ∧ q % 2 = 1) then q + 1 else q
    let bits : Nat := (ex + 1022).toNat * 2 ^ 52 + m
    (if bits ≥ float64Inf then float64Inf else bits) + float64Sign neg

/-- Go `lower` of strconv: the byte with bit `0x20` set. -/
def lowerByte (c : Char) : Nat := c.toNat ||| 0x20

/-- Whether the byte is an ASCII decimal digit. -/
def isDigit (c : Char) : Bool := '0'.toNat ≤ c.toNat ∧ c.toNat ≤ '9'.toNat

/-- Whether the byte is one of the hexadecimal letters `a`-`f`, `A`-`F`. -/
def isHexLetter (c : Char) : Bool := 'a'.toNat ≤ lowerByte c ∧ lowerByte c ≤ 'f'.toNat

/-- Go `commonPrefixLenIgnoreCase` of strconv; `prefix` is lower-case. -/
def commonPrefixLenIgnoreCase : List Char → List Char → Nat
  | c :: s, p :: pre =>
    let c1 : Nat := if 'A'.toNat ≤ c.toNat ∧ c.toNat ≤ 'Z'.toNat then c.toNat + 32 else c.toNat
    if c1 ≠ p.toNat then 0 else commonPrefixLenIgnoreCase s pre + 1
  | _, _ => 0

/-- The test on `infinity` in Go `special`: value and number of bytes read. -/
def specialInf (neg : Bool) (nsign : Nat) (s : List Char) : Option (Float64 × Nat) :=
  let n0 := commonPrefixLenIgnoreCase s "infinity".data
  let n := if 3 < n0 ∧ n0 < 8 then 3 else n0
  if n = 3 ∨ n = 8 then some (float64Inf + float64Sign neg, nsign + n) else none

/-- Go `special` of strconv: the texts `inf`, `infinity` (with a sign or without)
and `nan`, in any case; the value and the number of bytes read. -/
def special (s : List Char) : Option (Float64 × Nat) :=
  match s with
  | [] => none
  | c :: rest =>
    if c = '+' then specialInf false 1 rest
    else if c = '-' then specialInf true 1 rest
    else if c = 'i' ∨ c = 'I' then specialInf false 0 s
    else if c = 'n' ∨ c = 'N' then
      if commonPrefixLenIgnoreCase s "nan".data = 3 then some (float64NaN, 3) else none
    else none

/-- The local variables of the digit loop of Go `readFloat`; `mantissa` holds all
the digits read (the loop of the source keeps the first 19 and a flag for the
rest, and the conversion reads the others again). -/
structure Digits where
  mantissa : Nat := 0
  sawdot : Bool := false
  sawdigits : Bool := false
  underscores : Bool := false
  nd : Int := 0
  dp : Int := 0
  deriving DecidableEq, Repr

/-- The digit loop of Go `readFloat`: the variables at the end and the bytes
left. -/
def readDigits (hex : Bool) : List Char → Digits → Digits × List Char
  | [], st => (st, [])
  | c :: rest, st =>
    if c = '_' then readDigits hex rest { st with underscores := true }
    else if c = '.' then
      if st.sawdot then (st, c :: rest)
      else readDigits hex rest { st with sawdot := true, dp := st.nd }
    else if isDigit c then
      if c = '0' ∧ st.nd = 0 then
        readDigits hex rest { st with sawdigits := true, dp := st.dp - 1 }
      else
        readDigits hex rest
          { st with sawdigits := true, nd := st.nd + 1,
                    mantissa := st.mantissa * (if hex then 16 else 10) + (c.toNat - '0'.toNat) }
    else if hex ∧ isHexLetter c then
      readDigits hex rest
        { st with sawdigits := true, nd := st.nd + 1,
                  mantissa := st.mantissa * 16 + (lowerByte c - 'a'.toNat + 10) }
    else (st, c :: rest)

/-- The loop over the digits of the exponent in Go `readFloat`: the exponent
(no longer added to once it has reached 10000), whether an underscore was seen,
and the bytes left. -/
def readExponent : List Char → Nat → Bool → Nat × Bool × List Char
  | [], e, u => (e, u, [])
  | c :: rest, e, u =>
    if c = '_' then readExponent rest e true
    else if isDigit c then
      readExponent rest (if e < 10000 then e * 10 + (c.toNat - '0'.toNat) else e) u
    else (e, u, c :: rest)

/-- The loop of Go `underscoreOK`; `saw` is the last byte class seen (`'0'` digit,
`'_'` underscore, `'!'` other, `'^'` start). -/
def underscoreLoop (hex : Bool) : List Char → Char → Bool
  | [], saw => saw ≠ '_'
  | c :: rest, saw =>
    if isDigit c ∨ (hex ∧ isHexLetter c) then underscoreLoop hex rest '0'
    else if c = '_' then
      if saw ≠ '0' then false else underscoreLoop hex rest '_'
    else if saw = '_' then false
    else underscoreLoop hex rest '!'

/-- Go `underscoreOK` of strconv: underscores stand only between digits or
between a base prefix and a digit. -/
def underscoreOK (s : List Char) : Bool :=
  let s1 := match s with
    | c :: rest => if c = '-' ∨ c = '+' then rest else s
    | [] => s
  match s1 with
  | c0 :: c1 :: rest =>
    if c0 = '0' ∧ (lowerByte c1 = 'b'.toNat ∨ lowerByte c1 = 'o'.toNat ∨ lowerByte c1 = 'x'.toNat) then
      underscoreLoop (lowerByte c1 = 'x'.toNat) rest '0'
    else underscoreLoop false s1 '^'
  | _ => underscoreLoop false s1 '^'

/-- What Go `readFloat` returns when it succeeds: the digits as a number, the
power of the base (ten, or two for a hexadecimal text) to multiply them by, the
sign, whether the text is hexadecimal, and the number of bytes read. -/
structure FloatText where
  mantissa : Nat
  exp : Int
  neg : Bool
  hex : Bool
  read : Nat
  deriving DecidableEq, Repr

/-- Go `readFloat` of strconv: `none` where the source returns `ok = false`. -/
def readFloat (s : List Char) : Option FloatText :=
  match s with
  | [] => none
  | c :: afterSign =>
    let neg : Bool := c = '-'
    let s1 : List Char := if c = '+' ∨ c = '-' then afterSign else s
    let hex : Bool :=
      match s1 with
      | c0 :: c1 :: _ :: _ => c0 = '0' ∧ lowerByte c1 = 'x'.toNat
      | _ => false
    let s2 : List Char := if hex then s1.drop 2 else s1
    let (st, s3) := readDigits hex s2 { }
    if ¬ st.sawdigits then none
    else
      let dp0 : Int := if st.sawdot then st.dp else st.nd
      let dp1 : Int := if hex then dp0 * 4 else dp0
      let ndMant : Int := if hex then st.nd * 4 else st.nd
      let expChar : Nat := if hex then 'p'.toNat else 'e'.toNat
      let tail : Option (Int × Bool × List Char) :=
        match s3 with
        | ce :: s4 =>
          if lowerByte ce = expChar then
            match s4 with
            | [] => none
            | cs :: s5 =>
              let esign : Int := if cs = '-' then -1 else 1
              let s6 : List Char := if cs = '+' ∨ cs = '-' then s5 else s4
              match s6 with
              | [] => none
              | cd :: _ =>
                if ¬ isDigit cd then none
                else
                  let (e, u, s7) := readExponent s6 0 false
                  some (dp1 + (e : Int) * esign, u, s7)
          else if hex then none
          else some (dp1, false, s3)
        | [] => if hex then none else some (dp1, false, s3)
      match tail with
      | none => none
      | some (dp, u, left) =>
        let read : Nat := s.length - left.length
        if (st.underscores ∨ u) ∧ ¬ underscoreOK (s.take read) then none
        else
          some { mantissa := st.mantissa, exp := if st.mantissa ≠ 0 then dp - ndMant else 0,
                 neg := neg, hex := hex, read := read }

/-- Go `strconv.ParseFloat(s, 64)` followed by dropping the error, as in
`f, _ := strconv.ParseFloat(val, 64)`: the nearest `float64` of a well-formed
decimal or hexadecimal text (an infinity when it is out of range), the special
values for `inf`, `infinity` and `nan`, and `0` on a syntax error, which
includes a well-formed number followed by more text. -/
def ParseFloat (s : String) : Float64 :=
  match special s.data with
  | some (f, n) => if n = s.data.length then f else 0
  | none =>
    match readFloat s.data with
    | none => 0
    | some ft =>
      if ft.read ≠ s.data.length then 0
      else
        let base : Nat := if ft.hex then 2 else 10
        if ft.exp < 0 then roundFloat64 ft.neg ft.mantissa (base ^ (-ft.exp).toNat)
        else roundFloat64 ft.neg (ft.mantissa * base ^ ft.exp.toNat) 1

/-! ## Types as `reflect` reports them -/

/-- Go `reflect.Kind`. -/
inductive Kind
  | Invalid | Bool | Int | Int8 | Int16 | Int32 | Int64
  | Uint | Uint8 | Uint16 | Uint32 | Uint64 | Uintptr
  | Float32 | Float64 | Complex64 | Complex128
  | Array | Chan | Func | Interface | Map | Ptr | Slice | String | Struct
  | UnsafePointer
  deriving DecidableEq, Repr

/-- Identity of a `reflect.Type`; `t == u` in Go is equality of identifiers. -/
abbrev TypeId := Nat

/-- Go `reflect.StructField`, the parts the program reads (`Typ` is Go's `Type`;
`PkgPath` is empty exactly for exported fields). -/
structure StructField where
  Name : String
  PkgPath : String := ""
  Typ : TypeId
  Tag : StructTag := []
  Anonymous : Bool := false
  deriving DecidableEq, Repr

/-! ## Schema nodes and the heap -/

/-- Address of a node: a Go `*TypeDraft04`. -/
abbrev Addr := Nat

/-- The dynamic values the program stores in `interface{}` slots (`Enum`,
`Default`, `Examples`, `Extras`). -/
inductive Value
  | str (s : String)
  | int (i : Int)
  | float (f : Float64)
  | strs (l : List String)
  | anys (l : List String)
  deriving DecidableEq, Repr

/-- The struct `TypeDraft04` (declared as `Type` in type.go), field by field.
Pointers to nodes are addresses, `nil` is `none`; maps are association lists;
`Typ` is Go's `Type` field; `AdditionalProperties` holds the raw bytes as text.
-/
structure Node where
  Version : Nat := 0
  Ref : String := ""
  MultipleOf : Int := 0
  Maximum : Int := 0
  ExclusiveMaximum : Bool := false
  Minimum : Int := 0
  ExclusiveMinimum : Bool := false
  MaxLength : Int := 0
  MinLength : Int := 0
  Pattern : String := ""
  AdditionalItems : Option Addr := none
  Items : Option Addr := none
  MaxItems : Int := 0
  MinItems : Int := 0
  UniqueItems : Bool := false
  MaxProperties : Int := 0
  MinProperties : Int := 0
  Required : List String := []
  Properties : Option (List (String × Addr)) := none
  PatternProperties : List (String × Addr) := []
  AdditionalProperties : String := ""
  Dependencies : List (String × Addr) := []
  Enum : List Value := []
  Typ : String := ""
  AllOf : List Addr := []
  AnyOf : List Addr := []
  OneOf : List Addr := []
  Not : Option Addr := none
  Definitions : List (String × Addr) := []
  Title : String := ""
  Description : String := ""
  Default : Option Value := none
  Format : String := ""
  Examples : List Value := []
  Media : Option Addr := none
  BinaryEncoding : String := ""
  Extras : List (String × Value) := []
  deriving DecidableEq, Repr

instance : Inhabited Node := ⟨{}⟩

/-- The store of all nodes allocated so far. -/
abbrev Heap := List Node

/-- The node behind a pointer. -/
def rd (h : Heap) (a : Addr) : Node := h.getD a default

/-- In-place update of the node behind a pointer. -/
def upd (h : Heap) (a : Addr) (f : Node → Node) : Heap := h.set a (f (rd h a))

/-- Allocation of a new node (`&TypeDraft04{...}`): its address and the new heap. -/
def alloc (h : Heap) (n : Node) : Addr × Heap := (h.length, h ++ [n])

/-- Assignment `m[k] = v` on a Go map: replace the entry or add one. -/
def mapSet {α : Type} (m : List (String × α)) (k : String) (v : α) : List (String × α) :=
  match m with
  | [] => [(k, v)]
  | (k', v') :: rest => if k' = k then (k, v) :: rest else (k', v') :: mapSet rest k v

/-- Lookup `m[k]` on a Go map. -/
def mapGet {α : Type} (m : List (String × α)) (k : String) : Option α :=
  match m with
  | [] => none
  | (k', v') :: rest => if k' = k then some v' else mapGet rest k

/-- Go `delete(m, k)`. -/
def mapDelete {α : Type} (m : List (String × α)) (k : String) : List (String × α) :=
  m.filter (fun e => e.1 ≠ k)

/-! Assignments to single members of a node, named after the member. -/

/-- Go `t.Title = v`. -/
def Node.setTitle (v : String) (n : Node) : Node := { n with Title := v }

/-- Go `t.Description = v`. -/
def Node.setDescription (v : String) (n : Node) : Node := { n with Description := v }

/-- Go `t.Type = v`. -/
def Node.setTyp (v : String) (n : Node) : Node := { n with Typ := v }

/-- Go `t.Required = append(t.Required, v)`. -/
def Node.addRequired (v : String) (n : Node) : Node := { n with Required := n.Required ++ [v] }

/-- Go `t.OneOf = append(t.OneOf, a)`. -/
def Node.addOneOf (a : Addr) (n : Node) : Node := { n with OneOf := n.OneOf ++ [a] }

/-- Go `t.Enum = append(t.Enum, v)`. -/
def Node.addEnum (v : Value) (n : Node) : Node := { n with Enum := n.Enum ++ [v] }

/-- Go `t.MinLength = v`. -/
def Node.setMinLength (v : Int) (n : Node) : Node := { n with MinLength := v }

/-- Go `t.MaxLength = v`. -/
def Node.setMaxLength (v : Int) (n : Node) : Node := { n with MaxLength := v }

/-- Go `t.Pattern = v`. -/
def Node.setPattern (v : String) (n : Node) : Node := { n with Pattern := v }

/-- Go `t.Format = v`. -/
def Node.setFormat (v : String) (n : Node) : Node := { n with Format := v }

/-- Go `t.Default = v`. -/
def Node.setDefault (v : Value) (n : Node) : Node := { n with Default := some v }

/-- Go `t.Examples = append(t.Examples, v)`. -/
def Node.addExample (v : Value) (n : Node) : Node := { n with Examples := n.Examples ++ [v] }

/-- Go `t.MultipleOf = v`. -/
def Node.setMultipleOf (v : Int) (n : Node) : Node := { n with MultipleOf := v }

/-- Go `t.Minimum = v`. -/
def Node.setMinimum (v : Int) (n : Node) : Node := { n with Minimum := v }

/-- Go `t.Maximum = v`. -/
def Node.setMaximum (v : Int) (n : Node) : Node := { n with Maximum := v }

/-- Go `t.ExclusiveMaximum = v`. -/
def Node.setExclusiveMaximum (v : Bool) (n : Node) : Node := { n with ExclusiveMaximum := v }

/-- Go `t.ExclusiveMinimum = v`. -/
def Node.setExclusiveMinimum (v : Bool) (n : Node) : Node := { n with ExclusiveMinimum := v }

/-- Go `t.MinItems = v`. -/
def Node.setMinItems (v : Int) (n : Node) : Node := { n with MinItems := v }

/-- Go `t.MaxItems = v`. -/
def Node.setMaxItems (v : Int) (n : Node) : Node := { n with MaxItems := v }

/-- Go `t.UniqueItems = v`. -/
def Node.setUniqueItems (v : Bool) (n : Node) : Node := { n with UniqueItems := v }

/-- Go `t.Items = a`. -/
def Node.setItems (a : Addr) (n : Node) : Node := { n with Items := some a }

/-- Go `t.Media = a`. -/
def Node.setMedia (a : Addr) (n : Node) : Node := { n with Media := some a }

/-- Go `st.Properties.Set(name, property)` on a non-nil ordered map `properties`. -/
def Node.setProperty (properties : List (String × Addr)) (name : String) (property : Addr)
    (n : Node) : Node :=
  { n with Properties := some (mapSet properties name property) }

/-- The `Definitions` map: type name to node. -/
abbrev Definitions := List (String × Addr)

/-- What a run can end in besides a value: a Go panic. -/
inductive Abort
  | unsupportedType (message : String)
  | nilDereference
  deriving DecidableEq, Repr

/-- Outcome of a fuel-bounded run. -/
inductive Res (α : Type)
  | ok (a : α)
  | abort (e : Abort)
  | timeout
  deriving DecidableEq, Repr

/-- Sequencing of runs. -/
def Res.bind {α β : Type} (x : Res α) (f : α → Res β) : Res β :=
  match x with
  | .ok a => f a
  | .abort e => .abort e
  | .timeout => .timeout

instance : Monad Res where
  pure := Res.ok
  bind := Res.bind

/-! ## The tag annotation engine (type.go) -/

/-- One round of the loop of `Type.genericKeywords`: the effect of one tag token
on the node `t`, with `parentType` the enclosing object node. -/
def genericKeyword (t parentType : Addr) (propertyName : String) (h : Heap) (tag : String) :
    Heap :=
  match Split tag '=' with
  | [name, val] =>
    if name = "title" then upd h t (Node.setTitle val)
    else if name = "description" then upd h t (Node.setDescription val)
    else if name = "type" then upd h t (Node.setTyp val)
    else if name = "oneof_required" then
      let typeFound : Option Addr :=
        (rd h parentType).OneOf.foldl
          (fun found i => if (rd h i).Title = val then some i else found) none
      match typeFound with
      | some found => upd h found (Node.addRequired propertyName)
      | none =>
        let (found, h1) := alloc h { Title := val, Required := [] }
        let h2 := upd h1 parentType (Node.addOneOf found)
        upd h2 found (Node.addRequired propertyName)
    else if name = "oneof_type" then
      let h1 := upd h t (Node.setTyp "")
      (Split val ';').foldl
        (fun hh ty =>
          let (a, hh1) := alloc hh { Typ := ty }
          upd hh1 t (Node.addOneOf a))
        h1
    else if name = "enum" then
      if (rd h t).Typ = "string" then
        upd h t (Node.addEnum (Value.str val))
      else if (rd h t).Typ = "integer" then
        upd h t (Node.addEnum (Value.int (Atoi val)))
      else if (rd h t).Typ = "number" then
        upd h t (Node.addEnum (Value.float (ParseFloat val)))
      else h
    else h
  | _ => h

/-- Go `(*Type).genericKeywords`. -/
def genericKeywords (t : Addr) (tags : List String) (parentType : Addr)
    (propertyName : String) (h : Heap) : Heap :=
  tags.foldl (genericKeyword t parentType propertyName) h

/-- One round of the loop of `Type.stringKeywords`. -/
def stringKeyword (t : Addr) (h : Heap) (tag : String) : Heap :=
  match Split tag '=' with
  | [name, val] =>
    if name = "minLength" then upd h t (Node.setMinLength (Atoi val))
    else if name = "maxLength" then upd h t (Node.setMaxLength (Atoi val))
    else if name = "pattern" then upd h t (Node.setPattern val)
    else if name = "format" then
      if val = "date-time" ∨ val = "email" ∨ val = "hostname" ∨ val = "ipv4" ∨ val = "ipv6"
          ∨ val = "uri" then
        upd h t (Node.setFormat val)
      else h
    else if name = "default" then upd h t (Node.setDefault (Value.str val))
    else if name = "example" then
      upd h t (Node.addExample (Value.str val))
    else h
  | _ => h

/-- Go `(*Type).stringKeywords`. -/
def stringKeywords (t : Addr) (tags : List String) (h : Heap) : Heap :=
  tags.foldl (stringKeyword t) h

/-- Whether `strconv.Atoi` reports no error on the text (syntax and range). -/
def atoiOk (s : String) : Bool :=
  let parsed : Option Int :=
    match s.data with
    | '-' :: ds => (parseDigits ds).map (fun n => -(n : Int))
    | '+' :: ds => (parseDigits ds).map (fun n => (n : Int))
    | ds => (parseDigits ds).map (fun n => (n : Int))
  match parsed with
  | none => false
  | some v => minInt ≤ v ∧ v ≤ maxInt

/-- One round of the loop of `Type.numbericKeywords`. -/
def numbericKeyword (t : Addr) (h : Heap) (tag : String) : Heap :=
  match Split tag '=' with
  | [name, val] =>
    if name = "multipleOf" then upd h t (Node.setMultipleOf (Atoi val))
    else if name = "minimum" then upd h t (Node.setMinimum (Atoi val))
    else if name = "maximum" then upd h t (Node.setMaximum (Atoi val))
    else if name = "exclusiveMaximum" then
      upd h t (Node.setExclusiveMaximum (ParseBool val))
    else if name = "exclusiveMinimum" then
      upd h t (Node.setExclusiveMinimum (ParseBool val))
    else if name = "default" then
      upd h t (Node.setDefault (Value.int (Atoi val)))
    else if name = "example" then
      if atoiOk val then
        upd h t (Node.addExample (Value.int (Atoi val)))
      else h
    else h
  | _ => h

/-- Go `(*Type).numbericKeywords`. -/
def numbericKeywords (t : Addr) (tags : List String) (h : Heap) : Heap :=
  tags.foldl (numbericKeyword t) h

/-- One round of the loop of `Type.arrayKeywords`; the state is the heap and the
local `defaultValues`.  Reading `t.Items.Type` when `t.Items` is nil is a nil
pointer dereference. -/
def arrayKeyword (t : Addr) (st : Heap × List String) (tag : String) :
    Res (Heap × List String) :=
  let (h, defaultValues) := st
  match Split tag '=' with
  | [name, val] =>
    if name = "minItems" then .ok (upd h t (Node.setMinItems (Atoi val)), defaultValues)
    else if name = "maxItems" then
      .ok (upd h t (Node.setMaxItems (Atoi val)), defaultValues)
    else if name = "uniqueItems" then
      .ok (upd h t (Node.setUniqueItems true), defaultValues)
    else if name = "default" then .ok (h, defaultValues ++ [val])
    else if name = "enum" then
      match (rd h t).Items with
      | none => .abort Abort.nilDereference
      | some items =>
        if (rd h items).Typ = "string" then
          .ok (upd h items (Node.addEnum (Value.str val)), defaultValues)
        else if (rd h items).Typ = "integer" then
          .ok (upd h items (Node.addEnum (Value.int (Atoi val))),
            defaultValues)
        else if (rd h items).Typ = "number" then
          .ok (upd h items (Node.addEnum (Value.float (ParseFloat val))),
            defaultValues)
        else .ok (h, defaultValues)
    else .ok (h, defaultValues)
  | _ => .ok (h, defaultValues)

/-- The loop of `Type.arrayKeywords` over the tag tokens. -/
def arrayKeywordsLoop (t : Addr) : List String → Heap × List String → Res (Heap × List String)
  | [], st => .ok st
  | tag :: rest, st => (arrayKeyword t st tag).bind (arrayKeywordsLoop t rest)

/-- Go `(*Type).arrayKeywords`. -/
def arrayKeywords (t : Addr) (tags : List String) (h : Heap) : Res Heap :=
  (arrayKeywordsLoop t tags (h, [])).bind fun (h1, defaultValues) =>
    if defaultValues.length > 0 then
      .ok (upd h1 t (Node.setDefault (Value.anys defaultValues)))
    else .ok h1

/-- Go `(*Type).setExtra`, on the extension bag. -/
def setExtraBag (extras : List (String × Value)) (key val : String) : List (String × Value) :=
  match mapGet extras key with
  | some (Value.str existingVal) => mapSet extras key (Value.strs [existingVal, val])
  | some (Value.strs existingVal) => mapSet extras key (Value.strs (existingVal ++ [val]))
  | some (Value.int _) => mapSet extras key (Value.int (Atoi val))
  | some _ => extras
  | none =>
    if key = "minimum" then mapSet extras key (Value.int (Atoi val))
    else mapSet extras key (Value.str val)

/-- Go `(*Type).setExtra`, on a node. -/
def Node.setExtra (key val : String) (n : Node) : Node :=
  { n with Extras := setExtraBag n.Extras key val }

/-- Go `(*Type).setExtra`. -/
def setExtra (t : Addr) (key val : String) (h : Heap) : Heap :=
  upd h t (Node.setExtra key val)

/-- Go `(*Type).extraKeywords`. -/
def extraKeywords (t : Addr) (tags : List String) (h : Heap) : Heap :=
  tags.foldl
    (fun hh tag =>
      match Split tag '=' with
      | [key, val] => setExtra t key val hh
      | _ => hh)
    h

/-- Go `(*Type).structKeywordsFromTags`. -/
def structKeywordsFromTags (t : Addr) (f : StructField) (parentType : Addr)
    (propertyName : String) (h : Heap) : Res Heap :=
  let h1 := upd h t (Node.setDescription (f.Tag.Get "jsonschema_description"))
  let tags := Split (f.Tag.Get "jsonschema") ','
  let h2 := genericKeywords t tags parentType propertyName h1
  let typed : Res Heap :=
    if (rd h2 t).Typ = "string" then .ok (stringKeywords t tags h2)
    else if (rd h2 t).Typ = "number" then .ok (numbericKeywords t tags h2)
    else if (rd h2 t).Typ = "integer" then .ok (numbericKeywords t tags h2)
    else if (rd h2 t).Typ = "array" then arrayKeywords t tags h2
    else .ok h2
  typed.bind fun h3 =>
    let extras := Split (f.Tag.Get "jsonschema_extras") ','
    .ok (extraKeywords t extras h3)

/-! ## The reflector (reflector.go) -/

/-- A freshly built node tree handed over by caller code (a `TypeMapper` result,
a `JSONSchemaType()` result): the root and the further nodes it points to.
Addresses inside are relative to the fragment (0 is the root, `i + 1` is
`rest[i]`); the hooks are taken to build new, non-nil nodes on every call. -/
structure Fragment where
  root : Node
  rest : List Node := []

/-- Relocation of every pointer inside a node by `base`. -/
def shiftNode (base : Nat) (n : Node) : Node :=
  let mv : List (String × Addr) → List (String × Addr) :=
    fun m => m.map (fun e => (e.1, e.2 + base))
  { n with
    AdditionalItems := n.AdditionalItems.map (· + base)
    Items := n.Items.map (· + base)
    Properties := n.Properties.map mv
    PatternProperties := mv n.PatternProperties
    Dependencies := mv n.Dependencies
    AllOf := n.AllOf.map (· + base)
    AnyOf := n.AnyOf.map (· + base)
    OneOf := n.OneOf.map (· + base)
    Not := n.Not.map (· + base)
    Definitions := mv n.Definitions
    Media := n.Media.map (· + base) }

/-- Placing a fragment at the end of the heap; the address of its root. -/
def allocFragment (h : Heap) (f : Fragment) : Addr × Heap :=
  (h.length, h ++ (f.root :: f.rest).map (shiftNode h.length))

/-- What `reflect` and the package-level type variables report.  The variables
`ipType`, `timeType`, `uriType`, `rawMessageType`, `byteSliceType`,
`protoEnumType`, `customType` and `customStructGetFieldDocString` are declared
outside the files at hand, so the types they denote are parameters here. -/
structure TypeEnv where
  /-- Go `t.Kind()`. -/
  kind : TypeId → Kind
  /-- Go `t.Name()`. -/
  name : TypeId → String
  /-- Go `t.PkgPath()`. -/
  pkgPath : TypeId → String
  /-- Go `t.String()`. -/
  str : TypeId → String
  /-- Go `t.Elem()`. -/
  elem : TypeId → TypeId
  /-- Go `t.Key()`. -/
  key : TypeId → TypeId
  /-- Go `t.Len()`. -/
  len : TypeId → Nat
  /-- Go `t.Field(0)`, ..., `t.Field(t.NumField() - 1)`. -/
  fields : TypeId → List StructField
  /-- Go `t.Implements(protoEnumType)`. -/
  implementsProtoEnum : TypeId → Bool
  /-- Go `t.Implements(customType)`, and then what `JSONSchemaType()` builds. -/
  JSONSchemaType : TypeId → Option Fragment
  /-- Go `t.Implements(customStructGetFieldDocString)`, and then `GetFieldDocString`. -/
  GetFieldDocString : TypeId → Option (String → String)
  ipType : TypeId
  timeType : TypeId
  uriType : TypeId
  rawMessageType : TypeId
  /-- Go `byteSliceType.Elem()`, the type `uint8`. -/
  byteType : TypeId

/-- Go `Reflector`.  `IgnoredTypes` lists the dynamic types of the listed values. -/
structure Reflector where
  Version : Nat := 0
  AllowAdditionalProperties : Bool := false
  RequiredFromJSONSchemaTags : Bool := false
  YAMLEmbeddedStructs : Bool := false
  PreferYAMLSchema : Bool := false
  ExpandedStruct : Bool := false
  DoNotReference : Bool := false
  FullyQualifyTypeNames : Bool := false
  IgnoredTypes : List TypeId := []
  TypeMapper : Option (TypeId → Option Fragment) := none
  TypeNamer : Option (TypeId → String) := none
  AdditionalFields : Option (TypeId → List StructField) := none

/-- The version constant `DRAFT04`. -/
def DRAFT04 : Nat := 1

/-- Modelled from the spec: `ignoredByJSONTags` is not in the files at hand; "the
tag marks the field as always-omitted", the `-` name of a serialization tag. -/
def ignoredByJSONTags (tags : List String) : Bool :=
  tags.head? = some "-"

/-- Modelled from the spec: `ignoredByJSONSchemaTags` is not in the files at hand;
"a declarative annotation tag marks the field ignored", written `-`. -/
def ignoredByJSONSchemaTags (tags : List String) : Bool :=
  tags.head? = some "-"

/-- Modelled from the spec: `requiredFromJSONTags` is not in the files at hand;
"default requiredness = tag does NOT specify omit when empty": no `omitempty`
among the options that follow the name, and the field not always-omitted. -/
def requiredFromJSONTags (tags : List String) : Bool :=
  if ignoredByJSONTags tags then false
  else !(tags.tail.contains "omitempty")

/-- Modelled from the spec: `requiredFromJSONSchemaTags` is not in the files at
hand; requiredness "depends on an explicit required annotation tag". -/
def requiredFromJSONSchemaTags (tags : List String) : Bool :=
  if ignoredByJSONSchemaTags tags then false
  else tags.contains "required"

/-- Modelled from the spec: `nullableFromJSONSchemaTags` is not in the files at
hand; "nullability = presence of an explicit nullable annotation tag". -/
def nullableFromJSONSchemaTags (tags : List String) : Bool :=
  if ignoredByJSONSchemaTags tags then false
  else tags.contains "nullable"

/-- Modelled from the spec: `inlineYAMLTags` is not in the files at hand; the
"alternate-format tag explicitly requests inlining", the `inline` option. -/
def inlineYAMLTags (tags : List String) : Bool :=
  tags.contains "inline"

/-- In `reflectFieldName`: the variable `jsonTags` after
`if !exist || r.PreferYAMLSchema { jsonTags = yamlTags; exist = yamlExist }`, the
serialization tag the function reads: the `yaml` tag when there is no `json` tag
or `PreferYAMLSchema` is set, the `json` tag otherwise. -/
def serializationTag (r : Reflector) (f : StructField) : String :=
  if !(f.Tag.Lookup "json").isSome || r.PreferYAMLSchema then (f.Tag.Lookup "yaml").getD ""
  else (f.Tag.Lookup "json").getD ""

/-- In `reflectFieldName`: the variable `exist` after the same step. -/
def serializationTagExists (r : Reflector) (f : StructField) : Bool :=
  if !(f.Tag.Lookup "json").isSome || r.PreferYAMLSchema then (f.Tag.Lookup "yaml").isSome
  else (f.Tag.Lookup "json").isSome

/-- Go `(*Reflector).reflectFieldName`: property name, embed, required, nullable. -/
def reflectFieldName (r : Reflector) (f : StructField) : String × Bool × Bool × Bool :=
  let yamlTags := (f.Tag.Lookup "yaml").getD ""
  let yamlExist := (f.Tag.Lookup "yaml").isSome
  let jsonTags := serializationTag r f
  let exist := serializationTagExists r f
  let jsonTagsList := Split jsonTags ','
  let yamlTagsList := Split yamlTags ','
  if ignoredByJSONTags jsonTagsList then ("", false, false, false)
  else
    let jsonSchemaTags := Split (f.Tag.Get "jsonschema") ','
    if ignoredByJSONSchemaTags jsonSchemaTags then ("", false, false, false)
    else
      let name := f.Name
      let required := requiredFromJSONTags jsonTagsList
      let required :=
        if r.RequiredFromJSONSchemaTags then requiredFromJSONSchemaTags jsonSchemaTags
        else required
      let nullable := nullableFromJSONSchemaTags jsonSchemaTags
      let name := if jsonTagsList.headD "" ≠ "" then jsonTagsList.headD "" else name
      let name := if !f.Anonymous && f.PkgPath ≠ "" then "" else name
      let embed := false
      let (name, embed) :=
        if f.Anonymous && !exist then
          if !r.YAMLEmbeddedStructs then ("", true) else (ToLower name, embed)
        else (name, embed)
      let (name, embed) :=
        if yamlExist && inlineYAMLTags yamlTagsList then ("", true) else (name, embed)
      (name, embed, required, nullable)

/-- Go `(*Reflector).typeName`. -/
def typeName (env : TypeEnv) (r : Reflector) (t : TypeId) : String :=
  let fallback :=
    if r.FullyQualifyTypeNames then env.pkgPath t ++ "." ++ env.name t else env.name t
  match r.TypeNamer with
  | some namer => if namer t ≠ "" then namer t else fallback
  | none => fallback

/-- The mutable state of one reflection pass: the definitions map and the heap. -/
structure State where
  definitions : Definitions := []
  heap : Heap := []
  deriving DecidableEq, Repr

/-- A loop `for _, x := range xs { body(x) }` whose body may abort. -/
def forEach {α : Type} (body : α → State → Res State) : List α → State → Res State
  | [], s => .ok s
  | x :: xs, s => (body x s).bind (forEach body xs)

/-- The reference node `&TypeDraft04{Version: r.Version, Ref: "#/definitions/" + name}`. -/
def refNode (r : Reflector) (name : String) : Node :=
  { Version := r.Version, Ref := "#/definitions/" ++ name }

/-- The node `reflectStruct` registers for a type listed in `IgnoredTypes`. -/
def ignoredNode : Node :=
  { Typ := "object", Properties := some [], AdditionalProperties := "true" }

/-- The node `reflectStruct` creates for a struct type before reflecting its fields. -/
def structNode (r : Reflector) : Node :=
  { Typ := "object", Properties := some [],
    AdditionalProperties := if r.AllowAdditionalProperties then "true" else "false" }

/-- In `handleField`: `if getFieldDocString != nil { property.Description = getFieldDocString(f.Name) }`. -/
def applyFieldDoc (env : TypeEnv) (t : TypeId) (f : StructField) (property : Addr) (h : Heap) :
    Heap :=
  match env.GetFieldDocString t with
  | some getFieldDocString => upd h property (Node.setDescription (getFieldDocString f.Name))
  | none => h

/-- In `handleField`: `if nullable { property = &TypeDraft04{OneOf: {property, {Type: "null"}}} }`. -/
def wrapNullable (nullable : Bool) (property : Addr) (h : Heap) : Addr × Heap :=
  if nullable then
    (h.length + 1, h ++ [{ Typ := "null" }] ++ [{ OneOf := [property, h.length] }])
  else (property, h)

/-- In `handleField`: `st.Properties.Set(name, property)` and, if `required`,
`st.Required = append(st.Required, name)`.  `Properties` being nil is a nil
pointer dereference. -/
def storeProperty (st : Addr) (name : String) (required : Bool) (property : Addr) (h : Heap) :
    Res Heap :=
  match (rd h st).Properties with
  | none => .abort Abort.nilDereference
  | some properties =>
    let h1 := upd h st (Node.setProperty properties name property)
    .ok (if required then upd h1 st (Node.addRequired name) else h1)

/-- The tail of the closure `handleField` in `reflectStructFields`, once the node
for the field's type exists: tag keywords, documentation string, nullable wrapper,
`st.Properties.Set(name, property)` and the `required` entry. -/
def finishField (env : TypeEnv) (t : TypeId) (st : Addr) (f : StructField)
    (name : String) (required nullable : Bool) (property : Addr) (s : State) : Res State :=
  (structKeywordsFromTags property f st name s.heap).bind fun h1 =>
    let wrapped := wrapNullable nullable property (applyFieldDoc env t f property h1)
    (storeProperty st name required wrapped.1 wrapped.2).bind fun h2 =>
      .ok { s with heap := h2 }

/-- In the slice and array case of `reflectTypeToSchema`: `returnType := &TypeDraft04{}`
followed by `if t.Kind() == reflect.Array { MinItems = t.Len(); MaxItems = MinItems }`. -/
def arrayBounds (env : TypeEnv) (t : TypeId) : Node :=
  if env.kind t = Kind.Array then
    { MinItems := (env.len t : Int), MaxItems := (env.len t : Int) }
  else {}

/-- Go `return &TypeDraft04{...}`: the node is allocated and its address returned. -/
def returnNew (s : State) (n : Node) : Res (Addr × State) :=
  .ok (s.heap.length, { s with heap := s.heap ++ [n] })

mutual

/-- Go `(*Reflector).reflectTypeToSchema`. -/
def reflectTypeToSchema (env : TypeEnv) (r : Reflector) :
    Nat → TypeId → State → Res (Addr × State)
  | 0, _, _ => .timeout
  | fuel + 1, t, s =>
    if (mapGet s.definitions (typeName env r t)).isSome && !r.DoNotReference then
      returnNew s { Ref := "#/definitions/" ++ typeName env r t }
    else
      match r.TypeMapper.bind (fun mapper => mapper t) with
      | some mapped =>
        let (a, h) := allocFragment s.heap mapped
        .ok (a, { s with heap := h })
      | none =>
        (reflectCustomType env r fuel t s).bind fun (rt, s) =>
          match rt with
          | some a => .ok (a, s)
          | none =>
            if env.implementsProtoEnum t then
              returnNew
                { s with heap := s.heap ++ [{ Typ := "string" }] ++ [{ Typ := "integer" }] }
                { OneOf := [s.heap.length, s.heap.length + 1] }
            else if t = env.ipType then
              returnNew s { Typ := "string", Format := "ipv4" }
            else
              match env.kind t with
              | Kind.Struct =>
                if t = env.timeType then returnNew s { Typ := "string", Format := "date-time" }
                else if t = env.uriType then returnNew s { Typ := "string", Format := "uri" }
                else reflectStruct env r fuel t s
              | Kind.Map =>
                match env.kind (env.key t) with
                | Kind.Int | Kind.Int8 | Kind.Int16 | Kind.Int32 | Kind.Int64 =>
                  (reflectTypeToSchema env r fuel (env.elem t) s).bind fun (v, s) =>
                    returnNew s
                      { Typ := "object", PatternProperties := [("^[0-9]+$", v)],
                        AdditionalProperties := "false" }
                | _ =>
                  (reflectTypeToSchema env r fuel (env.elem t) s).bind fun (v, s) =>
                    returnNew s
                      { Typ := "object",
                        PatternProperties := mapDelete [(".*", v)] "additionalProperties" }
              | Kind.Slice | Kind.Array =>
                if t = env.rawMessageType then returnNew s { AdditionalProperties := "true" }
                else
                  let returnType := arrayBounds env t
                  if env.kind t = Kind.Slice ∧ env.elem t = env.byteType then
                    returnNew { s with heap := s.heap ++ [{ BinaryEncoding := "base64" }] }
                      (Node.setMedia s.heap.length (Node.setTyp "string" returnType))
                  else
                    (reflectTypeToSchema env r fuel (env.elem t) s).bind fun (items, s) =>
                      returnNew s (Node.setItems items (Node.setTyp "array" returnType))
              | Kind.Interface => returnNew s { AdditionalProperties := "true" }
              | Kind.Int | Kind.Int8 | Kind.Int16 | Kind.Int32 | Kind.Int64
              | Kind.Uint | Kind.Uint8 | Kind.Uint16 | Kind.Uint32 | Kind.Uint64 =>
                returnNew s { Typ := "integer" }
              | Kind.Float32 | Kind.Float64 => returnNew s { Typ := "number" }
              | Kind.Bool => returnNew s { Typ := "boolean" }
              | Kind.String => returnNew s { Typ := "string" }
              | Kind.Ptr => reflectTypeToSchema env r fuel (env.elem t) s
              | _ => .abort (Abort.unsupportedType ("unsupported type " ++ env.str t))
termination_by structural fuel => fuel

/-- Go `(*Reflector).reflectCustomType`; `none` is the nil result. -/
def reflectCustomType (env : TypeEnv) (r : Reflector) :
    Nat → TypeId → State → Res (Option Addr × State)
  | 0, _, _ => .timeout
  | fuel + 1, t, s =>
    if env.kind t = Kind.Ptr then reflectCustomType env r fuel (env.elem t) s
    else
      match env.JSONSchemaType t with
      | some built =>
        let (st, h) := allocFragment s.heap built
        let s : State := { definitions := mapSet s.definitions (typeName env r t) st, heap := h }
        if r.DoNotReference then .ok (some st, s)
        else .ok (some s.heap.length, { s with heap := s.heap ++ [refNode r (typeName env r t)] })
      | none => .ok (none, s)
termination_by structural fuel => fuel

/-- Go `(*Reflector).reflectStruct`. -/
def reflectStruct (env : TypeEnv) (r : Reflector) :
    Nat → TypeId → State → Res (Addr × State)
  | 0, _, _ => .timeout
  | fuel + 1, t, s =>
    (reflectCustomType env r fuel t s).bind fun (custom, s) =>
      match custom with
      | some st => .ok (st, s)
      | none =>
        if r.IgnoredTypes.contains t then
          let st := s.heap.length
          let s : State :=
            { definitions := mapSet s.definitions (typeName env r t) st,
              heap := s.heap ++ [ignoredNode] }
          if r.DoNotReference then .ok (st, s)
          else returnNew s (refNode r (typeName env r t))
        else
          let st := s.heap.length
          let s : State :=
            { definitions := mapSet s.definitions (typeName env r t) st,
              heap := s.heap ++ [structNode r] }
          (reflectStructFields env r fuel st t s).bind fun s =>
            if r.DoNotReference then .ok (st, s)
            else returnNew s (refNode r (typeName env r t))
termination_by structural fuel => fuel

/-- Go `(*Reflector).reflectStructFields`. -/
def reflectStructFields (env : TypeEnv) (r : Reflector) :
    Nat → Addr → TypeId → State → Res State
  | 0, _, _, _ => .timeout
  | fuel + 1, st, t, s =>
    let t := if env.kind t = Kind.Ptr then env.elem t else t
    if env.kind t ≠ Kind.Struct then .ok s
    else
      (forEach (handleField env r fuel st t) (env.fields t) s).bind fun s =>
        match r.AdditionalFields with
        | some additional => forEach (handleField env r fuel st t) (additional t) s
        | none => .ok s
termination_by structural fuel => fuel

/-- The closure `handleField` of `reflectStructFields`, for the struct type `t`
whose fields are being reflected into the node `st`. -/
def handleField (env : TypeEnv) (r : Reflector) :
    Nat → Addr → TypeId → StructField → State → Res State
  | 0, _, _, _, _ => .timeout
  | fuel + 1, st, t, f, s =>
    match reflectFieldName r f with
    | (name, shouldEmbed, required, nullable) =>
      if name = "" then
        if shouldEmbed then reflectStructFields env r fuel st f.Typ s else .ok s
      else
        (reflectTypeToSchema env r fuel f.Typ s).bind fun (property, s) =>
          finishField env t st f name required nullable property s
termination_by structural fuel => fuel

end

/-- The `Reflector` of the package-level `Reflect` and `ReflectFromType`:
`&Reflector{Version: DRAFT04}`. -/
def defaultReflector : Reflector :=
  { Version := DRAFT04 }

/-- The root schema: Go `Schema`, a node and the definitions. -/
structure Schema where
  TypeDraft04 : Addr
  Definitions : Definitions
  deriving DecidableEq, Repr

/-- Go `(*Reflector).ReflectFromType`: the root schema and the heap its nodes live in. -/
def ReflectFromType (env : TypeEnv) (r : Reflector) (fuel : Nat) (t : TypeId) :
    Res (Schema × Heap) :=
  let s : State := {}
  if r.ExpandedStruct then
    let st := s.heap.length
    let s : State := { s with heap := s.heap ++ [{ structNode r with Version := r.Version }] }
    (reflectStructFields env r fuel st t s).bind fun s =>
      (reflectStruct env r fuel t s).bind fun (_, s) =>
        .ok ({ TypeDraft04 := st, Definitions := mapDelete s.definitions (typeName env r t) },
          s.heap)
  else
    (reflectTypeToSchema env r fuel t s).bind fun (root, s) =>
      .ok ({ TypeDraft04 := root, Definitions := s.definitions }, s.heap)

/-! ## Serialization (`MarshalJSON` in type.go, schema.go, version.go)

`encoding/json` is modelled on the struct tags of `Type`: the members appear in
declaration order under their JSON names and every member is tagged `omitempty`,
so a member holding its zero value is left out.  A value the encoder fails on
(an infinite float or a NaN) or outside the modelled fragment (a raw
`additionalProperties` other than a boolean literal) makes the encoding `none`. -/

/-- Go `Version.String`: the canonical URI of a draft, `""` for any other value. -/
def Version.String (v : Nat) : String :=
  if v = 1 then "https://json-schema.org/draft-04/schema#"
  else if v = 2 then "https://json-schema.org/draft-07/schema#"
  else if v = 3 then "https://json-schema.org/draft/2019-09/schema#"
  else if v = 4 then "https://json-schema.org/draft/2020-12/schema#"
  else ""

/-- One hexadecimal digit. -/
def hexDigit (n : Nat) : Char :=
  if n < 10 then Char.ofNat (48 + n) else Char.ofNat (87 + n)

/-- The JSON escape of one character, as `encoding/json` writes it with HTML
escaping on (control characters other than `\b`, `\f`, `\n`, `\r`, `\t` as
`\u00XX`). -/
def escapeChar (c : Char) : List Char :=
  if c = '"' then ['\\', '"']
  else if c = '\\' then ['\\', '\\']
  else if c = '\n' then ['\\', 'n']
  else if c = '\r' then ['\\', 'r']
  else if c = '\t' then ['\\', 't']
  else if c.toNat = 8 then ['\\', 'b']
  else if c.toNat = 12 then ['\\', 'f']
  else if c.toNat < 32 ∨ c = '<' ∨ c = '>' ∨ c = '&' then
    ['\\', 'u', '0', '0', hexDigit (c.toNat / 16), hexDigit (c.toNat % 16)]
  else if c.toNat = 8232 then ['\\', 'u', '2', '0', '2', '8']
  else if c.toNat = 8233 then ['\\', 'u', '2', '0', '2', '9']
  else [c]

/-- A JSON string literal. -/
def jsonString (s : String) : String :=
  String.mk (['"'] ++ (s.data.map escapeChar).flatten ++ ['"'])

/-- Decimal digits of a natural number, most significant first. -/
def natDigits : Nat → Nat → List Char
  | 0, _ => []
  | fuel + 1, n =>
    if n < 10 then [Char.ofNat (48 + n)]
    else natDigits fuel (n / 10) ++ [Char.ofNat (48 + n % 10)]

/-- A JSON integer literal. -/
def jsonInt (i : Int) : String :=
  let digits := String.mk (natDigits (i.natAbs + 1) i.natAbs)
  if i < 0 then "-" ++ digits else digits

/-- Number of decimal digits of a positive natural number (0 for 0); the first
argument bounds the number of rounds, the last one counts them. -/
def decLen : Nat → Nat → Nat → Nat
  | 0, _, len => len
  | fuel + 1, n, len => if n = 0 then len else decLen fuel (n / 10) (len + 1)

/-- A number without its trailing decimal zeros; the first argument bounds the
number of rounds. -/
def dropZeros : Nat → Nat → Nat
  | 0, n => n
  | fuel + 1, n => if n ≠ 0 ∧ n % 10 = 0 then dropZeros fuel (n / 10) else n

/-- The product of a natural number and a power of ten, as a fraction. -/
def scale10 (c : Nat) (k : Int) : Nat × Nat :=
  if k < 0 then (c, 10 ^ (-k).toNat) else (c * 10 ^ k.toNat, 1)

/-- Whether the decimal `c * 10 ^ k` is read back as the given (positive, finite)
`float64`. -/
def readsBack (bits : Float64) (c : Nat) (k : Int) : Bool :=
  roundFloat64 false (scale10 c k).1 (scale10 c k).2 = bits

/-- The search of the shortest decimal for the positive value `num / den` with
bit pattern `bits`: with `n` digits, the decimals just below and just above the
value are tried, and the nearer one that reads back as `bits` is taken; otherwise
one more digit is tried.  `k` is the decimal exponent of the value
(`10 ^ k ≤ num / den < 10 ^ (k + 1)`) and `fuel` the number of lengths left to
try.  The result is the digits as a number and the power of ten to multiply it
by. -/
def shortestFrom (bits : Float64) (num den : Nat) (k : Int) : Nat → Nat → Nat × Int
  | 0, _ => (num, 0)
  | fuel + 1, n =>
    let p : Int := k - (n : Int) + 1
    let c : Nat :=
      if p < 0 then num * 10 ^ (-p).toNat / den else num / (den * 10 ^ p.toNat)
    let down : Bool := readsBack bits c p
    let up : Bool := readsBack bits (c + 1) p
    let nearerUp : Bool :=
      if p < 0 then decide (2 * num * 10 ^ (-p).toNat > (2 * c + 1) * den)
      else decide (2 * num > (2 * c + 1) * den * 10 ^ p.toNat)
    if down ∧ up then (if nearerUp then (c + 1, p) else (c, p))
    else if down then (c, p)
    else if up then (c + 1, p)
    else shortestFrom bits num den k fuel (n + 1)

/-- The digits Go `strconv.FormatFloat(f, fmt, -1, 64)` writes for a positive
finite `float64`: the shortest decimal that `ParseFloat` reads back as the same
value (the nearest to the value among those), as the digits without trailing
zeros and the position of the decimal point counted from the first digit. -/
def shortestDigits (bits : Float64) : List Char × Int :=
  let field : Nat := bits / 2 ^ 52
  let frac : Nat := bits % 2 ^ 52
  let mant : Nat := if field = 0 then frac else frac + 2 ^ 52
  let e : Int := (if field = 0 then 1 else (field : Int)) - 1075
  let num : Nat := if e < 0 then mant else mant * 2 ^ e.toNat
  let den : Nat := if e < 0 then 2 ^ (-e).toNat else 1
  let k0 : Int := (decLen num num 0 : Int) - (decLen den den 0 : Int)
  let below : Bool :=
    if k0 < 0 then decide (num * 10 ^ (-k0).toNat < den) else decide (num < den * 10 ^ k0.toNat)
  let k : Int := if below then k0 - 1 else k0
  let (c, p) := shortestFrom bits num den k 17 1
  let c1 : Nat := dropZeros c c
  (natDigits (c1 + 1) c1, p + (decLen c c 0 : Int))

/-- Go `%f` layout of digits with the decimal point at `dp`. -/
def layoutF (digits : List Char) (dp : Int) : List Char :=
  let whole : List Char :=
    if dp ≤ 0 then ['0']
    else digits.take dp.toNat ++ List.replicate (dp.toNat - digits.length) '0'
  let frac : List Char :=
    if dp ≤ 0 then List.replicate (-dp).toNat '0' ++ digits else digits.drop dp.toNat
  if frac = [] then whole else whole ++ ['.'] ++ frac

/-- Go `%e` layout of digits with the decimal point at `dp`, after the change
encoding/json makes to it: an exponent of one digit is written without the
leading zero. -/
def layoutE (digits : List Char) (dp : Int) : List Char :=
  let first : List Char := digits.take 1
  let rest : List Char := digits.drop 1
  let exp : Int := dp - 1
  let expDigits : List Char := natDigits (exp.natAbs + 1) exp.natAbs
  first ++ (if rest = [] then [] else ['.'] ++ rest) ++ ['e', if exp < 0 then '-' else '+']
    ++ expDigits

/-- The encoding of a `float64` by encoding/json (`floatEncoder`): no encoding
for an infinity or a NaN (the encoder fails), otherwise the shortest decimal
that reads back as the value, in `%f` layout, or in `%e` layout when the
magnitude is below `1e-6` or at least `1e21`. -/
def jsonFloat (f : Float64) : Option String :=
  let neg : Bool := f ≥ 2 ^ 63
  let abs : Float64 := f % 2 ^ 63
  if abs ≥ float64Inf then none
  else
    let sign : List Char := if neg then ['-'] else []
    if abs = 0 then some (String.mk (sign ++ ['0']))
    else
      let (digits, dp) := shortestDigits abs
      if abs < ParseFloat "1e-6" ∨ abs ≥ ParseFloat "1e21" then
        some (String.mk (sign ++ layoutE digits dp))
      else some (String.mk (sign ++ layoutF digits dp))

/-- A JSON array from encoded elements. -/
def jsonArray (items : List String) : String :=
  "[" ++ ",".intercalate items ++ "]"

/-- A JSON object from names and encoded values, in the given order. -/
def jsonObject (members : List (String × String)) : String :=
  "\x7b" ++ ",".intercalate (members.map (fun m => jsonString m.1 ++ ":" ++ m.2)) ++ "\x7d"

/-- Insertion into a list of members sorted by name. -/
def insertByKey {α : Type} (e : String × α) : List (String × α) → List (String × α)
  | [] => [e]
  | x :: xs => if e.1 < x.1 then e :: x :: xs else x :: insertByKey e xs

/-- The entries of a Go map in the order `encoding/json` writes them: sorted by key. -/
def sortByKey {α : Type} (m : List (String × α)) : List (String × α) :=
  m.foldr insertByKey []

/-- All of a list of optional encodings, if none is missing. -/
def allSome {α : Type} : List (Option α) → Option (List α)
  | [] => some []
  | none :: _ => none
  | some a :: rest => (allSome rest).map (a :: ·)

/-- Encoding of a dynamic value. -/
def marshalValue : Value → Option String
  | Value.str s => some (jsonString s)
  | Value.int i => some (jsonInt i)
  | Value.float f => jsonFloat f
  | Value.strs l => some (jsonArray (l.map jsonString))
  | Value.anys l => some (jsonArray (l.map jsonString))

/-- An optional member of a JSON object: absent, or a name with its encoding
(`none` inside when the value cannot be encoded). -/
abbrev Member := Option (String × Option String)

/-- Member for a string field tagged `omitempty`. -/
def strMember (name value : String) : Member :=
  if value = "" then none else some (name, some (jsonString value))

/-- Member for an `int` field tagged `omitempty`. -/
def intMember (name : String) (value : Int) : Member :=
  if value = 0 then none else some (name, some (jsonInt value))

/-- Member for a `bool` field tagged `omitempty`. -/
def boolMember (name : String) (value : Bool) : Member :=
  if value then some (name, some "true") else none

/-- Member for a pointer field tagged `omitempty`, given the child encoder. -/
def ptrMember (enc : Addr → Option String) (name : String) (value : Option Addr) : Member :=
  value.map (fun a => (name, enc a))

/-- Member for a slice of nodes tagged `omitempty`. -/
def nodesMember (enc : Addr → Option String) (name : String) (value : List Addr) : Member :=
  if value = [] then none else some (name, (allSome (value.map enc)).map jsonArray)

/-- Encoding of a string-keyed collection of nodes, keys in the given order. -/
def marshalEntries (enc : Addr → Option String) (m : List (String × Addr)) : Option String :=
  (allSome (m.map (fun e => (enc e.2).map (fun v => (e.1, v))))).map jsonObject

/-- Member for a Go map of nodes tagged `omitempty`. -/
def mapMember (enc : Addr → Option String) (name : String) (value : List (String × Addr)) :
    Member :=
  if value = [] then none else some (name, marshalEntries enc (sortByKey value))

/-- Member for a slice of dynamic values tagged `omitempty`. -/
def valuesMember (name : String) (value : List Value) : Member :=
  if value = [] then none else some (name, (allSome (value.map marshalValue)).map jsonArray)

/-- The members `json.Marshal` writes for the struct `Type`, in declaration order. -/
def structMembers (enc : Addr → Option String) (n : Node) : List Member :=
  [ if n.Version = 0 then none else some ("$schema", some (jsonString (Version.String n.Version))),
    strMember "$ref" n.Ref,
    intMember "multipleOf" n.MultipleOf,
    intMember "maximum" n.Maximum,
    boolMember "exclusiveMaximum" n.ExclusiveMaximum,
    intMember "minimum" n.Minimum,
    boolMember "exclusiveMinimum" n.ExclusiveMinimum,
    intMember "maxLength" n.MaxLength,
    intMember "minLength" n.MinLength,
    strMember "pattern" n.Pattern,
    ptrMember enc "additionalItems" n.AdditionalItems,
    ptrMember enc "items" n.Items,
    intMember "maxItems" n.MaxItems,
    intMember "minItems" n.MinItems,
    boolMember "uniqueItems" n.UniqueItems,
    intMember "maxProperties" n.MaxProperties,
    intMember "minProperties" n.MinProperties,
    (if n.Required = [] then none else some ("required", some (jsonArray (n.Required.map jsonString)))),
    n.Properties.map (fun m => ("properties", marshalEntries enc m)),
    mapMember enc "patternProperties" n.PatternProperties,
    (if n.AdditionalProperties = "" then none
     else some ("additionalProperties",
       if n.AdditionalProperties = "true" ∨ n.AdditionalProperties = "false" then
         some n.AdditionalProperties
       else none)),
    mapMember enc "dependencies" n.Dependencies,
    valuesMember "enum" n.Enum,
    strMember "type" n.Typ,
    nodesMember enc "allOf" n.AllOf,
    nodesMember enc "anyOf" n.AnyOf,
    nodesMember enc "oneOf" n.OneOf,
    ptrMember enc "not" n.Not,
    mapMember enc "definitions" n.Definitions,
    strMember "title" n.Title,
    strMember "description" n.Description,
    n.Default.map (fun v => ("default", marshalValue v)),
    strMember "format" n.Format,
    valuesMember "examples" n.Examples,
    ptrMember enc "media" n.Media,
    strMember "binaryEncoding" n.BinaryEncoding ]

/-- The object `json.Marshal` writes for the members that are present. -/
def marshalMembers (members : List Member) : Option String :=
  (allSome ((members.filterMap id).map (fun m => m.2.map (fun v => (m.1, v))))).map jsonObject

/-- The splice at the end of the three `MarshalJSON` methods: `b` is the
structured encoding, `m` the encoding of the extras (or of the definitions). -/
def splice (b m : String) : String :=
  if b.length = 2 then m
  else String.mk (b.data.dropLast ++ [','] ++ m.data.drop 1)

/-- Go `(*Type).MarshalJSON`, on the node at an address; the fuel bounds the
depth of the tree. -/
def MarshalJSON (h : Heap) : Nat → Addr → Option String
  | 0, _ => none
  | fuel + 1, a =>
    let n := rd h a
    (marshalMembers (structMembers (MarshalJSON h fuel) n)).bind fun b =>
      if n.Extras.length = 0 then some b
      else
        ((allSome ((sortByKey n.Extras).map
            (fun e => (marshalValue e.2).map (fun v => (e.1, v))))).map jsonObject).bind
          fun m => some (splice b m)

/-- Go `(*Schema).MarshalJSON` of schema.go, for the root schema. -/
def Schema.MarshalJSON (h : Heap) (fuel : Nat) (s : Schema) : Option String :=
  (Jsonschema.MarshalJSON h fuel s.TypeDraft04).bind fun b =>
    if s.Definitions.length = 0 then some b
    else
      (marshalEntries (Jsonschema.MarshalJSON h fuel) (sortByKey s.Definitions)).bind fun d =>
        some (splice b (jsonObject [("definitions", d)]))

/-! ## Example types used by the closed statements -/

/-- A type environment from the four tables that differ between the examples;
the package-level special types are given identifiers no example uses. -/
def exampleEnv (kind : TypeId → Kind) (name : TypeId → String) (elem : TypeId → TypeId)
    (fields : TypeId → List StructField) : TypeEnv where
  kind := kind
  name := name
  pkgPath := fun _ => "main"
  str := name
  elem := elem
  key := fun _ => 900
  len := fun _ => 0
  fields := fields
  implementsProtoEnum := fun _ => false
  JSONSchemaType := fun _ => none
  GetFieldDocString := fun _ => none
  ipType := 901
  timeType := 902
  uriType := 903
  rawMessageType := 904
  byteType := 905

/-- The types `string` (1), `int` (2), `func()` (3) and
`type Person struct { Name string; Age int }` (0), where `Age` is tagged
`json:",omitempty" jsonschema:"minimum=0"`. -/
def personEnv : TypeEnv :=
  exampleEnv
    (fun t =>
      if t = 0 then Kind.Struct else if t = 1 then Kind.String
      else if t = 2 then Kind.Int else if t = 3 then Kind.Func else Kind.Invalid)
    (fun t =>
      if t = 0 then "Person" else if t = 1 then "string"
      else if t = 2 then "int" else if t = 3 then "func()" else "")
    (fun _ => 900)
    (fun t =>
      if t = 0 then
        [ { Name := "Name", Typ := 1 },
          { Name := "Age", Typ := 2,
            Tag := [("json", ",omitempty"), ("jsonschema", "minimum=0")] } ]
      else [])

/-! ## Predicates used in the statements -/

/-- The kinds `reflectTypeToSchema` has no case for. -/
def unsupportedKind (k : Kind) : Prop :=
  k = Kind.Func ∨ k = Kind.Chan ∨ k = Kind.Complex64 ∨ k = Kind.Complex128 ∨
    k = Kind.Uintptr ∨ k = Kind.UnsafePointer

instance (k : Kind) : Decidable (unsupportedKind k) := by
  unfold unsupportedKind; infer_instance

/-- No dispatch rule that comes before the switch on the kind applies to `t` in
the state `s`: not already defined (or `DoNotReference` set), not mapped by the
`TypeMapper`, not a custom-schema type, not a proto enum, not the IP type. -/
def notIntercepted (env : TypeEnv) (r : Reflector) (t : TypeId) (s : State) : Prop :=
  ((mapGet s.definitions (typeName env r t)).isSome = false ∨ r.DoNotReference = true) ∧
    (r.TypeMapper.bind (fun mapper => mapper t)).isNone = true ∧
    (env.JSONSchemaType t).isNone = true ∧
    env.implementsProtoEnum t = false ∧
    t ≠ env.ipType

instance (env : TypeEnv) (r : Reflector) (t : TypeId) (s : State) :
    Decidable (notIntercepted env r t s) := by
  unfold notIntercepted; infer_instance

/-! ## Frame conditions

What a run may change in the heap, as relations between the heap before and the
heap after.  They are the invariants of the induction on the fuel. -/

/-- Everything allocated in `h` is still there, unchanged, in `h'`. -/
def Extends (h h' : Heap) : Prop :=
  h.length ≤ h'.length ∧ ∀ a, a < h.length → rd h' a = rd h a

/-- The node at `a` was allocated after `h`, and so was the node its `Items` points to. -/
def FreshNode (h h' : Heap) (a : Nat) : Prop :=
  h.length ≤ a ∧ a < h'.length ∧ ∀ i, (rd h' a).Items = some i → h.length ≤ i

/-- The object node `st` is allocated and the branches in its `OneOf` are younger
than `st` itself. -/
def Own (st : Nat) (h : Heap) : Prop :=
  st < h.length ∧ ∀ i, i ∈ (rd h st).OneOf → st < i

/-- A node with the three members erased that reflecting fields writes on the
enclosing object node. -/
def clearParent (n : Node) : Node :=
  { n with Properties := none, Required := [], OneOf := [] }

/-- A node with its `OneOf` erased, the one member of the enclosing object node
that the tag keywords write. -/
def clearOneOf (n : Node) : Node :=
  { n with OneOf := [] }

/-- What the tag keywords of a field with node `p` may do to the heap when the
enclosing object node is `st`: nodes older than `st` are untouched, `st` changes
in `OneOf` only, and `p` keeps its `Items`. -/
def TagStep (st p : Nat) (h h' : Heap) : Prop :=
  Own st h' ∧ h.length ≤ h'.length ∧ (∀ a, a < st → rd h' a = rd h a) ∧
    clearOneOf (rd h' st) = clearOneOf (rd h st) ∧ (rd h' p).Items = (rd h p).Items

/-- What reflecting fields into the object node `st` may do to the heap: nodes
older than `st` are untouched, `st` changes in `Properties`, `Required` and
`OneOf` only, and `Required` only grows at its end. -/
def FieldStep (st : Nat) (h h' : Heap) : Prop :=
  Own st h' ∧ h.length ≤ h'.length ∧ (∀ a, a < st → rd h' a = rd h a) ∧
    clearParent (rd h' st) = clearParent (rd h st) ∧
    ∃ l, (rd h' st).Required = (rd h st).Required ++ l

/-- The frame conditions of the five mutually recursive functions, at one amount
of fuel: the type walker only extends the heap and returns a node it allocated;
reflecting fields into `st` only writes `st` and younger nodes. -/
def FrameAt (env : TypeEnv) (r : Reflector) (fuel : Nat) : Prop :=
  (∀ t s a s', reflectTypeToSchema env r fuel t s = Res.ok (a, s') →
      Extends s.heap s'.heap ∧ FreshNode s.heap s'.heap a) ∧
  (∀ t s o s', reflectCustomType env r fuel t s = Res.ok (o, s') →
      Extends s.heap s'.heap ∧ ∀ a, o = some a → FreshNode s.heap s'.heap a) ∧
  (∀ t s a s', reflectStruct env r fuel t s = Res.ok (a, s') →
      Extends s.heap s'.heap ∧ FreshNode s.heap s'.heap a) ∧
  (∀ (st : Nat) t s s', Own st s.heap → reflectStructFields env r fuel st t s = Res.ok s' →
      FieldStep st s.heap s'.heap) ∧
  (∀ (st : Nat) t f s s', Own st s.heap → handleField env r fuel st t f s = Res.ok s' →
      FieldStep st s.heap s'.heap)

/-- The types `reflectTypeToSchema` may register in the definitions table:
struct types and custom-schema types. -/
def Registers (env : TypeEnv) (u : TypeId) : Prop :=
  env.kind u = Kind.Struct ∨ (env.JSONSchemaType u).isSome = true

/-- No type implements the custom-schema interface. -/
def NoCustom (env : TypeEnv) : Prop :=
  ∀ u, (env.JSONSchemaType u).isNone = true

/-- How a run may change the definitions table, with `extra` the name the run
may register besides those of struct and custom-schema types: keys are never
removed, new keys are names of registering types, and with referencing on and no
custom-schema type an entry other than `extra`, once written, stays. -/
def DefsStep (env : TypeEnv) (r : Reflector) (extra : Option String) (d d' : Definitions) :
    Prop :=
  (∀ k, (mapGet d k).isSome = true → (mapGet d' k).isSome = true) ∧
  (∀ k, (mapGet d' k).isSome = true →
      (mapGet d k).isSome = true ∨ extra = some k ∨ ∃ u, Registers env u ∧ typeName env r u = k) ∧
  (r.DoNotReference = false → NoCustom env →
      ∀ k v, extra ≠ some k → mapGet d k = some v → mapGet d' k = some v)

/-- The conditions on the definitions table of the five mutually recursive
functions, at one amount of fuel. -/
def DefsAt (env : TypeEnv) (r : Reflector) (fuel : Nat) : Prop :=
  (∀ t s a s', reflectTypeToSchema env r fuel t s = Res.ok (a, s') →
      DefsStep env r none s.definitions s'.definitions) ∧
  (∀ t s o s', reflectCustomType env r fuel t s = Res.ok (o, s') →
      DefsStep env r none s.definitions s'.definitions) ∧
  (∀ t s a s', reflectStruct env r fuel t s = Res.ok (a, s') →
      DefsStep env r (some (typeName env r t)) s.definitions s'.definitions) ∧
  (∀ st t s s', reflectStructFields env r fuel st t s = Res.ok s' →
      DefsStep env r none s.definitions s'.definitions) ∧
  (∀ st t f s s', handleField env r fuel st t f s = Res.ok s' →
      DefsStep env r none s.definitions s'.definitions)

/-- The types `string` (1) and
`type Profile struct { Nick string; Bio string }` (0), where `Nick` is tagged
`jsonschema:"nullable,minLength=1"` and `Bio` is tagged `json:"bio,omitempty"`. -/
def profileEnv : TypeEnv :=
  exampleEnv
    (fun t => if t = 0 then Kind.Struct else if t = 1 then Kind.String else Kind.Invalid)
    (fun t => if t = 0 then "Profile" else if t = 1 then "string" else "")
    (fun _ => 900)
    (fun t =>
      if t = 0 then
        [ { Name := "Nick", Typ := 1, Tag := [("jsonschema", "nullable,minLength=1")] },
          { Name := "Bio", Typ := 1, Tag := [("json", "bio,omitempty")] } ]
      else [])

/-- The field `Nick` of `Profile`. -/
def nickField : StructField :=
  { Name := "Nick", Typ := 1, Tag := [("jsonschema", "nullable,minLength=1")] }

/-- The state in which `reflectStruct` starts on the fields of `Profile`. -/
def profileStart : State :=
  { definitions := [("Profile", 0)], heap := [structNode {}] }

/-- The types `string` (2), `type Inner struct { X string }` (1),
`type Outer struct { Inner; Y string }` (0) with `Inner` embedded without a tag, and
`type Masked struct { Inner; Y string }` (3) with the embedded `Inner` tagged
`jsonschema:"-"`. -/
def embedEnv : TypeEnv :=
  exampleEnv
    (fun t => if t = 0 ∨ t = 1 ∨ t = 3 then Kind.Struct else if t = 2 then Kind.String
      else Kind.Invalid)
    (fun t =>
      if t = 0 then "Outer" else if t = 1 then "Inner" else if t = 2 then "string"
      else if t = 3 then "Masked" else "")
    (fun _ => 900)
    (fun t =>
      if t = 0 then
        [ { Name := "Inner", Typ := 1, Anonymous := true }, { Name := "Y", Typ := 2 } ]
      else if t = 1 then [ { Name := "X", Typ := 2 } ]
      else if t = 3 then
        [ { Name := "Inner", Typ := 1, Anonymous := true, Tag := [("jsonschema", "-")] },
          { Name := "Y", Typ := 2 } ]
      else [])

/-- The property names and the required list of the object node at `a`. -/
def shape (h : Heap) (a : Addr) : List String × List String :=
  (((rd h a).Properties.getD []).map (fun e => e.1), (rd h a).Required)

/-- The shape of the object node at `a` after a run, if the run returned. -/
def shapeOf (x : Res State) (a : Addr) : Option (List String × List String) :=
  match x with
  | Res.ok s => some (shape s.heap a)
  | _ => none

/-- A state with one empty object node, at address 0, and no definitions. -/
def emptyObject : State :=
  { heap := [structNode {}] }

/-- The serialization tag of the field carries the omit-if-empty marker: the
option `omitempty` after the name. -/
def omitEmpty (r : Reflector) (f : StructField) : Bool :=
  (Split (serializationTag r f) ',').tail.contains "omitempty"

/-- The types `int` (1) and `type Pair struct { A int; B int }` (0), where `A` is
tagged `json:"x"` and `B` is tagged `json:"x,omitempty"`. -/
def pairEnv : TypeEnv :=
  exampleEnv
    (fun t => if t = 0 then Kind.Struct else if t = 1 then Kind.Int else Kind.Invalid)
    (fun t => if t = 0 then "Pair" else if t = 1 then "int" else "")
    (fun _ => 900)
    (fun t =>
      if t = 0 then
        [ { Name := "A", Typ := 1, Tag := [("json", "x")] },
          { Name := "B", Typ := 1, Tag := [("json", "x,omitempty")] } ]
      else [])

instance (st : Nat) (h : Heap) : Decidable (Own st h) := by
  unfold Own; infer_instance

/-- The field `Bio` of `Profile`. -/
def bioField : StructField :=
  { Name := "Bio", Typ := 1, Tag := [("json", "bio,omitempty")] }

/-- The heap after the fields of `Profile` were reflected from `profileStart`. -/
def profileHeap : Heap :=
  [ { structNode {} with Properties := some [("Nick", 3), ("bio", 4)], Required := ["Nick"] },
    { Typ := "string", MinLength := 1 }, { Typ := "null" }, { OneOf := [1, 2] },
    { Typ := "string" } ]

/-- The node of the property `name` of the object node at `st`, if there is one. -/
def propertyOf (h : Heap) (st : Addr) (name : String) : Option Addr :=
  (rd h st).Properties.bind (fun properties => mapGet properties name)

/-- The JSON text of the property `name` of the object node at `st`. -/
def propertyJSON (h : Heap) (st : Addr) (name : String) : Option String :=
  (propertyOf h st name).bind (MarshalJSON h 10)

/-- What a reflection pass returned for the definition `name`: the property names
and required list of its node, and for each of the two given properties its JSON
text and the value of its `Minimum` member. -/
def definitionReport (x : Res (Schema × Heap)) (name p1 p2 : String) :
    Option ((List String × List String) × List (Option String × Option Int)) :=
  match x with
  | Res.ok (schema, h) =>
    (mapGet schema.Definitions name).map (fun st =>
      (shape h st,
        [p1, p2].map (fun p =>
          (propertyJSON h st p, (propertyOf h st p).map (fun a => (rd h a).Minimum)))))
  | _ => none

/-- No dispatch rule that comes before the switch on the kind can apply to `t`,
whatever the run has registered so far: `DoNotReference` is set or no struct or
custom-schema type has the type name of `t`; `t` is not mapped by the
`TypeMapper`, not a custom-schema type, not a proto enum, not the IP type. -/
def neverIntercepted (env : TypeEnv) (r : Reflector) (t : TypeId) : Prop :=
  (r.DoNotReference = true ∨ ∀ u, Registers env u → typeName env r u ≠ typeName env r t) ∧
    (r.TypeMapper.bind (fun mapper => mapper t)).isNone = true ∧
    (env.JSONSchemaType t).isNone = true ∧
    env.implementsProtoEnum t = false ∧
    t ≠ env.ipType

/-- `ReflectFromType` on the root type `S` gets to reflect the fields of `S`:
either `ExpandedStruct` is set, or no rule of `reflectTypeToSchema` and
`reflectStruct` that comes before the fields applies to `S`. -/
def reachesFields (env : TypeEnv) (r : Reflector) (S : TypeId) : Prop :=
  r.ExpandedStruct = true ∨
    ((r.TypeMapper.bind (fun mapper => mapper S)).isNone = true ∧
      (env.JSONSchemaType S).isNone = true ∧
      env.implementsProtoEnum S = false ∧
      S ≠ env.ipType ∧ S ≠ env.timeType ∧ S ≠ env.uriType ∧
      r.IgnoredTypes.contains S = false)

instance (env : TypeEnv) (r : Reflector) (S : TypeId) : Decidable (reachesFields env r S) := by
  unfold reachesFields; infer_instance

/-- Every key of the definitions table is the type name of a struct or
custom-schema type. -/
def KeysRegistered (env : TypeEnv) (r : Reflector) (d : Definitions) : Prop :=
  ∀ k, (mapGet d k).isSome = true → ∃ u, Registers env u ∧ typeName env r u = k

/-- The types `string` (1), `func()` (2),
`type Handler struct { Name string; callback func() }` (0) with `callback`
unexported, `type Exposed struct { Name string; Callback func() }` (3) and
`type Muted struct { Name string; Callback func() }` (4) with `Callback` tagged
`json:"-"`. -/
def funcEnv : TypeEnv :=
  exampleEnv
    (fun t =>
      if t = 0 ∨ t = 3 ∨ t = 4 then Kind.Struct else if t = 1 then Kind.String
      else if t = 2 then Kind.Func else Kind.Invalid)
    (fun t =>
      if t = 0 then "Handler" else if t = 1 then "string" else if t = 2 then "func()"
      else if t = 3 then "Exposed" else if t = 4 then "Muted" else "")
    (fun _ => 900)
    (fun t =>
      if t = 0 then
        [ { Name := "Name", Typ := 1 }, { Name := "callback", PkgPath := "main", Typ := 2 } ]
      else if t = 3 then [ { Name := "Name", Typ := 1 }, { Name := "Callback", Typ := 2 } ]
      else if t = 4 then
        [ { Name := "Name", Typ := 1 },
          { Name := "Callback", Typ := 2, Tag := [("json", "-")] } ]
      else [])

/-- What a reflection pass returned for the definition `name`: the JSON text of
the whole document and the shape of the definition's node. -/
def documentReport (x : Res (Schema × Heap)) (name : String) :
    Option (Option String × List String × List String) :=
  match x with
  | Res.ok (schema, h) =>
    (mapGet schema.Definitions name).map (fun st => (Schema.MarshalJSON h 10 schema, shape h st))
  | _ => none

/-- The field `Callback` of `Exposed`. -/
def callbackField : StructField :=
  { Name := "Callback", Typ := 2 }


/-- The types `type T struct { *T }` (0), a struct that embeds a pointer to
itself, and `*T` (1). -/
def selfEnv : TypeEnv :=
  exampleEnv
    (fun t => if t = 0 then Kind.Struct else if t = 1 then Kind.Ptr else Kind.Invalid)
    (fun t => if t = 0 then "T" else "")
    (fun t => if t = 1 then 0 else 900)
    (fun t => if t = 0 then [ { Name := "T", Typ := 1, Anonymous := true } ] else [])

/-- The embedded field `*T` of `T` in `selfEnv`. -/
def selfField : StructField :=
  { Name := "T", Typ := 1, Anonymous := true }

/-- The type `type L []L` (0), a named slice of itself. -/
def listEnv : TypeEnv :=
  exampleEnv
    (fun t => if t = 0 then Kind.Slice else Kind.Invalid)
    (fun t => if t = 0 then "L" else "")
    (fun t => if t = 0 then 0 else 900)
    (fun _ => [])

/-- The types `type N struct { Next *N }` (0) and `*N` (1). -/
def nodeEnv : TypeEnv :=
  exampleEnv
    (fun t => if t = 0 then Kind.Struct else if t = 1 then Kind.Ptr else Kind.Invalid)
    (fun t => if t = 0 then "N" else "")
    (fun t => if t = 1 then 0 else 900)
    (fun t => if t = 0 then [ { Name := "Next", Typ := 1 } ] else [])

/-- The reflector `&Reflector{Version: DRAFT04, DoNotReference: true}`. -/
def inlineReflector : Reflector :=
  { Version := DRAFT04, DoNotReference := true }

/-- A run that came to an end other than the abort on an unsupported kind: it is
not out of fuel and it did not stop on `panic("unsupported type ...")`. -/
def Res.Ends {α : Type} (x : Res α) : Prop :=
  x ≠ Res.timeout ∧ ∀ msg, x ≠ Res.abort (Abort.unsupportedType msg)

/-- The fields `reflectStructFields` hands to `handleField` for the struct type
`t`: the declared ones, then those the `AdditionalFields` hook returns. -/
def handledFields (env : TypeEnv) (r : Reflector) (t : TypeId) : List StructField :=
  env.fields t ++
    (match r.AdditionalFields with
     | some additional => additional t
     | none => [])

/-- The kinds whose element type the reflection steps to: pointer, slice, array
and map. -/
def hasElem (k : Kind) : Prop :=
  k = Kind.Ptr ∨ k = Kind.Slice ∨ k = Kind.Array ∨ k = Kind.Map

instance (k : Kind) : Decidable (hasElem k) := by
  unfold hasElem; infer_instance

/-- The kinds the switch of `reflectTypeToSchema` has a case for. -/
def supportedKind (k : Kind) : Prop :=
  k ≠ Kind.Invalid ∧ ¬ unsupportedKind k

instance (k : Kind) : Decidable (supportedKind k) := by
  unfold supportedKind; infer_instance

/-- The field is spliced into the enclosing struct: `reflectFieldName` gives it no
name and turns embedding on. -/
def splicedField (r : Reflector) (f : StructField) : Prop :=
  (reflectFieldName r f).1 = "" ∧ (reflectFieldName r f).2.1 = true

instance (r : Reflector) (f : StructField) : Decidable (splicedField r f) := by
  unfold splicedField; infer_instance

/-- The field gets a property of its own: `reflectFieldName` gives it a name. -/
def namedField (r : Reflector) (f : StructField) : Prop :=
  (reflectFieldName r f).1 ≠ ""

instance (r : Reflector) (f : StructField) : Decidable (namedField r f) := by
  unfold namedField; infer_instance

/-- The list `U` holds every component type the reflection steps to from a type of
`U`: the element type of a pointer, slice, array or map, and the type of every
struct field that is spliced in or gets a property. -/
def ComponentClosed (env : TypeEnv) (r : Reflector) (U : List TypeId) : Prop :=
  ∀ t ∈ U,
    (hasElem (env.kind t) → env.elem t ∈ U) ∧
    (env.kind t = Kind.Struct →
      ∀ f ∈ handledFields env r t, splicedField r f ∨ namedField r f → f.Typ ∈ U)

instance (env : TypeEnv) (r : Reflector) (U : List TypeId) :
    Decidable (ComponentClosed env r U) := by
  unfold ComponentClosed; infer_instance

/-- The rank goes down along every step of the reflection that no test on the
definitions guards: from a pointer, slice, array or map to its element type, from
a struct to the type of a field spliced into it and, when `DoNotReference` is set,
from a struct to the type of every field that gets a property.  With referencing
on, a cycle through a field that gets a property is allowed. -/
def Ranked (env : TypeEnv) (r : Reflector) (U : List TypeId) (rank : TypeId → Nat) : Prop :=
  ∀ t ∈ U,
    (hasElem (env.kind t) → rank (env.elem t) < rank t) ∧
    (env.kind t = Kind.Struct →
      ∀ f ∈ handledFields env r t,
        splicedField r f ∨ (namedField r f ∧ r.DoNotReference = true) →
          rank f.Typ < rank t)

instance (env : TypeEnv) (r : Reflector) (U : List TypeId) (rank : TypeId → Nat) :
    Decidable (Ranked env r U rank) := by
  unfold Ranked; infer_instance

/-- A bound on the ranks of the types of `U`. -/
def rankBound (rank : TypeId → Nat) (U : List TypeId) : Nat :=
  U.foldr (fun t m => max (rank t) m) 0

/-- The number of types of `U` whose name is not a key of the definitions `d`. -/
def pending (env : TypeEnv) (r : Reflector) (U : List TypeId) (d : Definitions) : Nat :=
  U.countP (fun t => (mapGet d (typeName env r t)).isNone)

/-- Fuel that suffices for `reflectTypeToSchema` on a type of rank `ρ` while `k`
types are pending, `R` being a bound on the ranks; `dnr` is `DoNotReference`. -/
def fuelT (dnr : Bool) (R k ρ : Nat) : Nat :=
  if dnr then 4 * ρ + 4 else (2 * R + 8) * k + 2 * ρ + 4

/-- Fuel that suffices for `reflectStructFields` on a type of rank `ρ` while `k`
types are pending. -/
def fuelF (dnr : Bool) (R k ρ : Nat) : Nat :=
  if dnr then 4 * ρ + 2 else (2 * R + 8) * k + 2 * R + 2 * ρ + 6

/-- With fuel `fuel`, each of the mutually recursive functions comes to an end on
the types of `U`, given the fuel its rank and the number of pending types ask
for. -/
def EndsAt (env : TypeEnv) (r : Reflector) (U : List TypeId) (rank : TypeId → Nat)
    (R fuel : Nat) : Prop :=
  (∀ t s, t ∈ U →
      fuelT r.DoNotReference R (pending env r U s.definitions) (rank t) ≤ fuel →
      (reflectTypeToSchema env r fuel t s).Ends) ∧
  (∀ t s, t ∈ U → rank t + 2 ≤ fuel →
      fuelF r.DoNotReference R
          (pending env r U (mapSet s.definitions (typeName env r t) s.heap.length))
          (rank t) + 1 ≤ fuel →
      (reflectStruct env r fuel t s).Ends) ∧
  (∀ st t s, t ∈ U →
      fuelF r.DoNotReference R (pending env r U s.definitions) (rank t) ≤ fuel →
      (reflectStructFields env r fuel st t s).Ends) ∧
  (∀ st t f s, t ∈ U → env.kind t = Kind.Struct → f ∈ handledFields env r t →
      fuelF r.DoNotReference R (pending env r U s.definitions) (rank t) ≤ fuel + 1 →
      (handleField env r fuel st t f s).Ends)

/-- The ranks in `nodeEnv`: `N` below `*N`. -/
def nodeRank (t : TypeId) : Nat :=
  if t = 1 then 1 else 0

/-- The integer kinds: `int`, `int8`, ..., `int64`, `uint`, `uint8`, ..., `uint64`. -/
def integerKind (k : Kind) : Prop :=
  k = Kind.Int ∨ k = Kind.Int8 ∨ k = Kind.Int16 ∨ k = Kind.Int32 ∨ k = Kind.Int64 ∨
    k = Kind.Uint ∨ k = Kind.Uint8 ∨ k = Kind.Uint16 ∨ k = Kind.Uint32 ∨ k = Kind.Uint64

instance (k : Kind) : Decidable (integerKind k) := by
  unfold integerKind; infer_instance

/-- The floating-point kinds: `float32` and `float64`. -/
def floatKind (k : Kind) : Prop :=
  k = Kind.Float32 ∨ k = Kind.Float64

instance (k : Kind) : Decidable (floatKind k) := by
  unfold floatKind; infer_instance

/-- The state after `reflectTypeToSchema` returned the new node `n`: the node is
added to the heap and the definitions are as before. -/
def withNode (s : State) (n : Node) : State :=
  { s with heap := s.heap ++ [n] }

/-- The field's `yaml` tag asks for inlining: the last test of `reflectFieldName`,
`yamlExist && inlineYAMLTags(yamlTagsList)`. -/
def yamlInline (f : StructField) : Bool :=
  (f.Tag.Lookup "yaml").isSome && inlineYAMLTags (Split ((f.Tag.Lookup "yaml").getD "") ',')

/-- The types `string` (2), `type Inner struct { X string }` (1),
`type Outer struct { inner Inner; Y string }` (0) whose unexported field `inner`
is tagged `yaml:",inline"`, and `type Plain struct { inner Inner; Y string }` (3)
whose unexported field `inner` has no tag. -/
def inlineEnv : TypeEnv :=
  exampleEnv
    (fun t => if t = 0 ∨ t = 1 ∨ t = 3 then Kind.Struct else if t = 2 then Kind.String
      else Kind.Invalid)
    (fun t =>
      if t = 0 then "Outer" else if t = 1 then "Inner" else if t = 2 then "string"
      else if t = 3 then "Plain" else "")
    (fun _ => 900)
    (fun t =>
      if t = 0 then
        [ { Name := "inner", PkgPath := "main", Typ := 1, Tag := [("yaml", ",inline")] },
          { Name := "Y", Typ := 2 } ]
      else if t = 1 then [ { Name := "X", Typ := 2 } ]
      else if t = 3 then
        [ { Name := "inner", PkgPath := "main", Typ := 1 }, { Name := "Y", Typ := 2 } ]
      else [])

/-- The unexported field `inner` of `Plain` in `inlineEnv`. -/
def innerField : StructField :=
  { Name := "inner", PkgPath := "main", Typ := 1 }

/-- The reflector `&Reflector{Version: DRAFT04, PreferYAMLSchema: true}`. -/
def yamlReflector : Reflector :=
  { Version := DRAFT04, PreferYAMLSchema := true }

/-- A field `Host string` tagged `json:"host,omitempty"`, without a `yaml` tag. -/
def hostField : StructField :=
  { Name := "Host", Typ := 1, Tag := [("json", "host,omitempty")] }

/-- A field `Port int` tagged `yaml:"port,omitempty"`, without a `json` tag. -/
def portField : StructField :=
  { Name := "Port", Typ := 2, Tag := [("yaml", "port,omitempty")] }

/-- The signed integer kinds, the ones the map case of `reflectTypeToSchema` lists
for the key. -/
def signedKind (k : Kind) : Prop :=
  k = Kind.Int ∨ k = Kind.Int8 ∨ k = Kind.Int16 ∨ k = Kind.Int32 ∨ k = Kind.Int64

instance (k : Kind) : Decidable (signedKind k) := by
  unfold signedKind; infer_instance

/-- The types `map[uint]string` (0), `string` (1), `map[int]string` (2), `uint` (3),
`int` (4) and `map[string]string` (5). -/
def mapEnv : TypeEnv :=
  { exampleEnv
      (fun t =>
        if t = 0 ∨ t = 2 ∨ t = 5 then Kind.Map else if t = 1 then Kind.String
        else if t = 3 then Kind.Uint else if t = 4 then Kind.Int else Kind.Invalid)
      (fun t => if t = 1 then "string" else if t = 3 then "uint" else if t = 4 then "int" else "")
      (fun t => if t = 0 ∨ t = 2 ∨ t = 5 then 1 else 900)
      (fun _ => []) with
    key := fun t => if t = 0 then 3 else if t = 2 then 4 else if t = 5 then 1 else 900 }

/-- The types `[4]byte` (0), `uint8` (1, the byte type), `[]byte` (2),
`type B uint8` (3), `[]B` (4), `[3]string` (5), `string` (6) and `[]string` (7). -/
def seqEnv : TypeEnv :=
  { exampleEnv
      (fun t =>
        if t = 0 ∨ t = 5 then Kind.Array else if t = 1 ∨ t = 3 then Kind.Uint8
        else if t = 2 ∨ t = 4 ∨ t = 7 then Kind.Slice else if t = 6 then Kind.String
        else Kind.Invalid)
      (fun t => if t = 1 then "uint8" else if t = 3 then "B" else if t = 6 then "string" else "")
      (fun t =>
        if t = 0 ∨ t = 2 then 1 else if t = 4 then 3 else if t = 5 ∨ t = 7 then 6 else 900)
      (fun _ => []) with
    len := fun t => if t = 0 then 4 else if t = 5 then 3 else 0
    byteType := 1 }

/-- The types `type T string` (0) and `*T` (1). -/
def ptrEnv : TypeEnv :=
  exampleEnv
    (fun t => if t = 0 then Kind.String else if t = 1 then Kind.Ptr else Kind.Invalid)
    (fun t => if t = 0 then "T" else "")
    (fun t => if t = 1 then 0 else 900)
    (fun _ => [])

/-- A reflector whose `TypeMapper` maps the pointer type `*T` of `ptrEnv`, and no
other type, to the node `{type: "null"}`. -/
def mapperReflector : Reflector :=
  { Version := DRAFT04
    TypeMapper := some (fun t => if t = 1 then some { root := { Typ := "null" } } else none) }

/-- No rule of `reflectTypeToSchema` that comes before the switch on the kind
applies to the pointer type `p` itself in the state `s`: no entry under its own
name (or `DoNotReference` set), not mapped by the `TypeMapper`, not a proto enum,
not the IP type.  (The custom-schema test looks through the pointer.) -/
def pointerPasses (env : TypeEnv) (r : Reflector) (p : TypeId) (s : State) : Prop :=
  ((mapGet s.definitions (typeName env r p)).isSome = false ∨ r.DoNotReference = true) ∧
    (r.TypeMapper.bind (fun mapper => mapper p)).isNone = true ∧
    env.implementsProtoEnum p = false ∧
    p ≠ env.ipType

instance (env : TypeEnv) (r : Reflector) (p : TypeId) (s : State) :
    Decidable (pointerPasses env r p s) := by
  unfold pointerPasses; infer_instance

/-- The first two rules of `reflectTypeToSchema` do not apply to `t` in the state
`s`: no entry under its name (or `DoNotReference` set), not mapped by the
`TypeMapper`. -/
def reachesCustom (env : TypeEnv) (r : Reflector) (t : TypeId) (s : State) : Prop :=
  ((mapGet s.definitions (typeName env r t)).isSome = false ∨ r.DoNotReference = true) ∧
    (r.TypeMapper.bind (fun mapper => mapper t)).isNone = true

instance (env : TypeEnv) (r : Reflector) (t : TypeId) (s : State) :
    Decidable (reachesCustom env r t s) := by
  unfold reachesCustom; infer_instance

/-- In the `oneof_type` case of `genericKeywords`: the body of the loop
`for _, ty := range types { t.OneOf = append(t.OneOf, &Type{Type: ty}) }`. -/
def oneofTypeStep (t : Addr) (hh : Heap) (ty : String) : Heap :=
  let (a, hh1) := alloc hh { Typ := ty }
  upd hh1 t (Node.addOneOf a)

/-- The branches of the object node `st`: the title and the required list of every
node its `OneOf` points to, in order. -/
def branches (h : Heap) (st : Addr) : List (String × List String) :=
  (rd h st).OneOf.map (fun a => ((rd h a).Title, (rd h a).Required))

/-- A tag token read as a group membership: `oneof_required=G` on the field whose
property name is `name` gives the pair `(G, name)`, any other token nothing. -/
def groupToken (name : String) (tag : String) : Option (String × String) :=
  match Split tag '=' with
  | [k, G] => if k = "oneof_required" then some (G, name) else none
  | _ => none

/-- What one pair `(G, name)` does to a list of branches: the branch titled `G`
gets `name` at the end of its required list, and if there is none a branch
`(G, [name])` is added at the end. -/
def joinGroup (bs : List (String × List String)) (tok : String × String) :
    List (String × List String) :=
  if tok.1 ∈ bs.map Prod.fst then
    bs.map (fun b => if b.1 = tok.1 then (b.1, b.2 ++ [tok.2]) else b)
  else bs ++ [(tok.1, [tok.2])]

mutual

/-- The `oneof_required` memberships of the fields `reflectStructFields` reflects
into one object node for the type `t`, in the order it handles them; the fuel is
that of `reflectStructFields`. -/
def groupTokens (env : TypeEnv) (r : Reflector) : Nat → TypeId → List (String × String)
  | 0, _ => []
  | fuel + 1, t =>
    let t := if env.kind t = Kind.Ptr then env.elem t else t
    if env.kind t ≠ Kind.Struct then []
    else (handledFields env r t).flatMap (fieldGroupTokens env r fuel)
termination_by structural fuel => fuel

/-- The `oneof_required` memberships one field contributes: those of its own tag
under its property name, or those of the fields of its type when it is spliced
in; the fuel is that of `handleField`. -/
def fieldGroupTokens (env : TypeEnv) (r : Reflector) :
    Nat → StructField → List (String × String)
  | 0, _ => []
  | fuel + 1, f =>
    if (reflectFieldName r f).1 = "" then
      if (reflectFieldName r f).2.1 then groupTokens env r fuel f.Typ else []
    else
      (Split (f.Tag.Get "jsonschema") ',').filterMap (groupToken (reflectFieldName r f).1)
termination_by structural fuel => fuel

end

/-- The distinct members of a list, in order of first appearance. -/
def firstSeen (l : List String) : List String :=
  l.foldl (fun acc x => if x ∈ acc then acc else acc ++ [x]) []

/-- The groups a list of memberships `(G, name)` describes: one per distinct title
`G`, in order of first appearance, each with the names that come with `G`, in
order. -/
def groupsOf (tokens : List (String × String)) : List (String × List String) :=
  (firstSeen (tokens.map Prod.fst)).map
    (fun G => (G, (tokens.filter (fun x => x.1 = G)).map Prod.snd))

/-- The object node `st` is allocated, its branches are younger than `st` and
allocated, they are `bs`, and no two of them have the same title. -/
def BranchInv (st : Nat) (h : Heap) (bs : List (String × List String)) : Prop :=
  st < h.length ∧ (∀ b ∈ (rd h st).OneOf, st < b ∧ b < h.length) ∧
    branches h st = bs ∧ (bs.map Prod.fst).Nodup

/-- A step that leaves the branches of `st` alone: the heap does not shrink, the
`OneOf` of `st` is as before and so are the title and the required list of every
node in it. -/
def Quiet (st : Nat) (h h' : Heap) : Prop :=
  h.length ≤ h'.length ∧ (rd h' st).OneOf = (rd h st).OneOf ∧
    ∀ b ∈ (rd h st).OneOf,
      (rd h' b).Title = (rd h b).Title ∧ (rd h' b).Required = (rd h b).Required

/-- An assignment that touches neither the title nor the required list nor the
`OneOf` of a node. -/
def Mild (f : Node → Node) : Prop :=
  ∀ n, (f n).Title = n.Title ∧ (f n).Required = n.Required ∧ (f n).OneOf = n.OneOf

/-- The branches along a run of `reflectStructFields` and of `handleField`, at one
amount of fuel: they end as the memberships of the fields, joined one after the
other to the branches at the start. -/
def GroupsAt (env : TypeEnv) (r : Reflector) (fuel : Nat) : Prop :=
  (∀ (st : Nat) t s s' bs, BranchInv st s.heap bs →
      reflectStructFields env r fuel st t s = Res.ok s' →
      BranchInv st s'.heap ((groupTokens env r fuel t).foldl joinGroup bs)) ∧
  (∀ (st : Nat) t f s s' bs, BranchInv st s.heap bs →
      handleField env r fuel st t f s = Res.ok s' →
      BranchInv st s'.heap ((fieldGroupTokens env r fuel f).foldl joinGroup bs))

/-- The node `p` stands aside from the object node `st` and its branches: `st`,
its branches and `p` are allocated, and `p` is neither `st` nor a branch. -/
def Aside (st p : Nat) (h : Heap) : Prop :=
  st < h.length ∧ (∀ b ∈ (rd h st).OneOf, b < h.length) ∧ p < h.length ∧ p ≠ st ∧
    p ∉ (rd h st).OneOf

/-- The types `string` (1) and
`type Contact struct { Email string; Phone string; Fax string }` (0), where `Email`
is tagged `jsonschema:"oneof_required=mail"` and `Phone` and `Fax` are tagged
`jsonschema:"oneof_required=wire"`. -/
def contactEnv : TypeEnv :=
  exampleEnv
    (fun t => if t = 0 then Kind.Struct else if t = 1 then Kind.String else Kind.Invalid)
    (fun t => if t = 0 then "Contact" else if t = 1 then "string" else "")
    (fun _ => 900)
    (fun t =>
      if t = 0 then
        [ { Name := "Email", Typ := 1, Tag := [("jsonschema", "oneof_required=mail")] },
          { Name := "Phone", Typ := 1, Tag := [("jsonschema", "oneof_required=wire")] },
          { Name := "Fax", Typ := 1, Tag := [("jsonschema", "oneof_required=wire")] } ]
      else [])

/-! ## The draft-07 variant (draft07/schema.go)

The methods of `draft07.Schema` are those of `Type` with other number types: the
`uint64` members `minLength`, `maxLength`, `minItems`, `maxItems` are parsed with
`strconv.ParseUint`.  A `draft07.Schema` is held in a `Node`, member by member of
the same name; its `uint64` members hold natural numbers. -/

/-- One round of the loop of `Schema.stringKeywords` of draft07/schema.go. -/
def draft07.stringKeyword (t : Addr) (h : Heap) (tag : String) : Heap :=
  match Split tag '=' with
  | [name, val] =>
    if name = "minLength" then upd h t (Node.setMinLength ((ParseUint val : Nat) : Int))
    else if name = "maxLength" then upd h t (Node.setMaxLength ((ParseUint val : Nat) : Int))
    else if name = "pattern" then upd h t (Node.setPattern val)
    else if name = "format" then
      if val = "date-time" ∨ val = "email" ∨ val = "hostname" ∨ val = "ipv4" ∨ val = "ipv6"
          ∨ val = "uri" then
        upd h t (Node.setFormat val)
      else h
    else if name = "default" then upd h t (Node.setDefault (Value.str val))
    else if name = "example" then
      upd h t (Node.addExample (Value.str val))
    else h
  | _ => h

/-- Go `(*Schema).stringKeywords` of draft07/schema.go. -/
def draft07.stringKeywords (t : Addr) (tags : List String) (h : Heap) : Heap :=
  tags.foldl (draft07.stringKeyword t) h

/-- One round of the loop of `Schema.arrayKeywords` of draft07/schema.go; the
state is the heap and the local `defaultValues`. -/
def draft07.arrayKeyword (t : Addr) (st : Heap × List String) (tag : String) :
    Res (Heap × List String) :=
  let (h, defaultValues) := st
  match Split tag '=' with
  | [name, val] =>
    if name = "minItems" then
      .ok (upd h t (Node.setMinItems ((ParseUint val : Nat) : Int)), defaultValues)
    else if name = "maxItems" then
      .ok (upd h t (Node.setMaxItems ((ParseUint val : Nat) : Int)), defaultValues)
    else if name = "uniqueItems" then
      .ok (upd h t (Node.setUniqueItems true), defaultValues)
    else if name = "default" then .ok (h, defaultValues ++ [val])
    else if name = "enum" then
      match (rd h t).Items with
      | none => .abort Abort.nilDereference
      | some items =>
        if (rd h items).Typ = "string" then
          .ok (upd h items (Node.addEnum (Value.str val)), defaultValues)
        else if (rd h items).Typ = "integer" then
          .ok (upd h items (Node.addEnum (Value.int (Atoi val))),
            defaultValues)
        else if (rd h items).Typ = "number" then
          .ok (upd h items (Node.addEnum (Value.float (ParseFloat val))),
            defaultValues)
        else .ok (h, defaultValues)
    else .ok (h, defaultValues)
  | _ => .ok (h, defaultValues)

/-- The loop of `Schema.arrayKeywords` of draft07/schema.go over the tag tokens. -/
def draft07.arrayKeywordsLoop (t : Addr) :
    List String → Heap × List String → Res (Heap × List String)
  | [], st => .ok st
  | tag :: rest, st => (draft07.arrayKeyword t st tag).bind (draft07.arrayKeywordsLoop t rest)

/-- Go `(*Schema).arrayKeywords` of draft07/schema.go. -/
def draft07.arrayKeywords (t : Addr) (tags : List String) (h : Heap) : Res Heap :=
  (draft07.arrayKeywordsLoop t tags (h, [])).bind fun (h1, defaultValues) =>
    if defaultValues.length > 0 then
      .ok (upd h1 t (Node.setDefault (Value.anys defaultValues)))
    else .ok h1

/-- The extension bag after `setExtra(key, v)` was called on the node for each
value of the list, in order. -/
def setExtras (key : String) (vals : List String) (n : Node) : Node :=
  vals.foldl (fun m v => Node.setExtra key v m) n

/-- Well-formed integer text, as `strconv.Atoi` reads it: an optional sign and then
a non-empty run of decimal digits. -/
def integerText (s : String) : Bool :=
  match s.data with
  | '-' :: ds => (parseDigits ds).isSome
  | '+' :: ds => (parseDigits ds).isSome
  | ds => (parseDigits ds).isSome

/-- The values the `format` case of `stringKeywords` accepts. -/
def formatAllowed (v : String) : Prop :=
  v = "date-time" ∨ v = "email" ∨ v = "hostname" ∨ v = "ipv4" ∨ v = "ipv6" ∨ v = "uri"

instance (v : String) : Decidable (formatAllowed v) := by
  unfold formatAllowed; infer_instance

/-- The field `Label string` tagged `jsonschema:"type=array,enum=a"`: the tag
overrides the node type to `array` and then asks for an enum value. -/
def labelField : StructField :=
  { Name := "Label", Typ := 1, Tag := [("jsonschema", "type=array,enum=a")] }

/-- The types of `type Sticker struct { Label string }` with `labelField` as the
field: 0 is `Sticker`, 1 is `string`. -/
def labelEnv : TypeEnv :=
  exampleEnv
    (fun t => if t = 0 then Kind.Struct else if t = 1 then Kind.String else Kind.Invalid)
    (fun t => if t = 0 then "Sticker" else if t = 1 then "string" else "")
    (fun _ => 900)
    (fun t => if t = 0 then [labelField] else [])

/-- A text that opens with a brace and closes with one, as a JSON object does. -/
def Braced (s : String) : Prop :=
  ∃ body : List Char, s.data = '\x7b' :: (body ++ ['\x7d'])

/-- The encoding of the extension bag in `MarshalJSON`: `json.Marshal(t.Extras)`,
a Go map, written with its keys sorted. -/
def marshalExtras (extras : List (String × Value)) : Option String :=
  (allSome ((sortByKey extras).map
    (fun e => (marshalValue e.2).map (fun v => (e.1, v))))).map jsonObject

/-- Every node of `h` is still there in `h'`, with the same value of the member `g`. -/
def Keeps {α : Type} (g : Node → α) (h h' : Heap) : Prop :=
  h.length ≤ h'.length ∧ ∀ b, b < h.length → g (rd h' b) = g (rd h b)

/-- The field `Code string` with the given `jsonschema` tag. -/
def codeField (tag : String) : StructField :=
  { Name := "Code", Typ := 1, Tag := [("jsonschema", tag)] }

/-- The field `Name string` tagged `jsonschema:"description=from the tag"`. -/
def docField : StructField :=
  { Name := "Name", Typ := 1, Tag := [("jsonschema", "description=from the tag")] }

/-- The types of `type Doc struct { Name string }` with `docField` as the field,
where `Doc` has the method `GetFieldDocString`, which answers
`"from the documentation"` for every field: 0 is `Doc`, 1 is `string`. -/
def docEnv : TypeEnv :=
  { exampleEnv
      (fun t => if t = 0 then Kind.Struct else if t = 1 then Kind.String else Kind.Invalid)
      (fun t => if t = 0 then "Doc" else if t = 1 then "string" else "")
      (fun _ => 900)
      (fun t => if t = 0 then [docField] else []) with
    GetFieldDocString := fun t => if t = 0 then some (fun _ => "from the documentation") else none }

/-! ## The version registry (version.go) -/

/-- The version constant `DRAFT07`. -/
def DRAFT07 : Nat := 2

/-- The version constant `DRAFT201909`. -/
def DRAFT201909 : Nat := 3

/-- The version constant `DRAFT202012`. -/
def DRAFT202012 : Nat := 4

/-- The map `versionToID`: the draft registered under a URI, if any. -/
def versionToID (j : String) : Option Nat :=
  if j = "https://json-schema.org/draft-04/schema#" then some DRAFT04
  else if j = "https://json-schema.org/draft-07/schema#" then some DRAFT07
  else if j = "https://json-schema.org/draft/2019-09/schema#" then some DRAFT201909
  else if j = "https://json-schema.org/draft/2020-12/schema#" then some DRAFT202012
  else none

/-- A Go `string`, under a name that stays clear of `Version.String`. -/
abbrev GoString : Type := String

/-- Go `Version.MarshalJSON`: `json.Marshal(v.String())`. -/
def Version.MarshalJSON (v : Nat) : GoString :=
  jsonString (Version.String v)

/-- The white space JSON allows around a value. -/
def jsonSpace (c : Char) : Bool :=
  c = ' ' ∨ c = '\t' ∨ c = '\n' ∨ c = '\r'

/-- Value of one hexadecimal digit. -/
def hexVal (c : Char) : Option Nat :=
  if '0' ≤ c ∧ c ≤ '9' then some (c.toNat - 48)
  else if 'a' ≤ c ∧ c ≤ 'f' then some (c.toNat - 87)
  else if 'A' ≤ c ∧ c ≤ 'F' then some (c.toNat - 55)
  else none

/-- The character a one-letter JSON escape stands for. -/
def escapeLetter (e : Char) : Option Char :=
  if e = '"' then some '"'
  else if e = '\\' then some '\\'
  else if e = '/' then some '/'
  else if e = 'b' then some (Char.ofNat 8)
  else if e = 'f' then some (Char.ofNat 12)
  else if e = 'n' then some '\n'
  else if e = 'r' then some '\r'
  else if e = 't' then some '\t'
  else none

/-- The content of a JSON string literal behind its opening quote, up to the
closing quote, which only white space may follow: one entry per character or
escape, a `\u` escape flagged and given as its 16-bit unit.  `none` when the text
is no string literal. -/
def unquoteUnits : List Char → Option (List (Bool × Nat))
  | [] => none
  | '"' :: rest => if rest.all jsonSpace then some [] else none
  | '\\' :: 'u' :: a :: b :: c :: d :: rest => do
    let x ← hexVal a
    let y ← hexVal b
    let z ← hexVal c
    let w ← hexVal d
    let tl ← unquoteUnits rest
    pure ((true, ((x * 16 + y) * 16 + z) * 16 + w) :: tl)
  | ['\\'] => none
  | '\\' :: e :: rest => do
    let c ← escapeLetter e
    let tl ← unquoteUnits rest
    pure ((false, c.toNat) :: tl)
  | c :: rest =>
    if c.toNat < 32 then none
    else do
      let tl ← unquoteUnits rest
      pure ((false, c.toNat) :: tl)

/-- The characters the entries stand for, as `encoding/json` joins them: a high
and a low surrogate written as two `\u` escapes in a row give one character, any
other surrogate gives U+FFFD.  The first argument is a high surrogate waiting for
its partner. -/
def joinUnits : Option Nat → List (Bool × Nat) → List Char
  | none, [] => []
  | some _, [] => [Char.ofNat 65533]
  | pending, (esc, n) :: rest =>
    let lone : List Char :=
      if esc ∧ 55296 ≤ n ∧ n < 56320 then joinUnits (some n) rest
      else if esc ∧ 56320 ≤ n ∧ n < 57344 then Char.ofNat 65533 :: joinUnits none rest
      else Char.ofNat n :: joinUnits none rest
    match pending with
    | none => lone
    | some hi =>
      if esc ∧ 56320 ≤ n ∧ n < 57344 then
        Char.ofNat (65536 + (hi - 55296) * 1024 + (n - 56320)) :: joinUnits none rest
      else Char.ofNat 65533 :: lone

/-- Go `json.Unmarshal(b, &j)` for a string `j`: `none` on an error, `some none`
for the literal `null`, which leaves `j` as it is, and otherwise the decoded
string. -/
def unmarshalString (b : String) : Option (Option String) :=
  match b.data.dropWhile jsonSpace with
  | '"' :: rest => (unquoteUnits rest).map (fun us => some (String.mk (joinUnits none us)))
  | cs =>
    if cs.take 4 = ['n', 'u', 'l', 'l'] ∧ (cs.drop 4).all jsonSpace then some none else none

/-- Go `(*Version).UnmarshalJSON`: the new value of `*v`, `none` when the method
returns the error of `json.Unmarshal` and leaves `*v` alone. -/
def Version.UnmarshalJSON (b : GoString) : Option Nat :=
  match unmarshalString b with
  | none => none
  | some j =>
    match versionToID (j.getD "") with
    | some id => some id
    | none => some DRAFT04

/-! ## The generic keywords and the extension bag of draft07/schema.go -/

/-- One round of the loop of `Schema.genericKeywords` of draft07/schema.go. -/
def draft07.genericKeyword (t parentType : Addr) (propertyName : String) (h : Heap)
    (tag : String) : Heap :=
  match Split tag '=' with
  | [name, val] =>
    if name = "title" then upd h t (Node.setTitle val)
    else if name = "description" then upd h t (Node.setDescription val)
    else if name = "type" then upd h t (Node.setTyp val)
    else if name = "oneof_required" then
      let typeFound : Option Addr :=
        (rd h parentType).OneOf.foldl
          (fun found i => if (rd h i).Title = val then some i else found) none
      match typeFound with
      | some found => upd h found (Node.addRequired propertyName)
      | none =>
        let (found, h1) := alloc h { Title := val, Required := [] }
        let h2 := upd h1 parentType (Node.addOneOf found)
        upd h2 found (Node.addRequired propertyName)
    else if name = "oneof_type" then
      let h1 := upd h t (Node.setTyp "")
      (Split val ';').foldl
        (fun hh ty =>
          let (a, hh1) := alloc hh { Typ := ty }
          upd hh1 t (Node.addOneOf a))
        h1
    else if name = "enum" then
      if (rd h t).Typ = "string" then
        upd h t (Node.addEnum (Value.str val))
      else if (rd h t).Typ = "integer" then
        upd h t (Node.addEnum (Value.int (Atoi val)))
      else if (rd h t).Typ = "number" then
        upd h t (Node.addEnum (Value.float (ParseFloat val)))
      else h
    else h
  | _ => h

/-- Go `(*Schema).genericKeywords` of draft07/schema.go. -/
def draft07.genericKeywords (t : Addr) (tags : List String) (parentType : Addr)
    (propertyName : String) (h : Heap) : Heap :=
  tags.foldl (draft07.genericKeyword t parentType propertyName) h

/-- Go `(*Schema).setExtra` of draft07/schema.go, on the extension bag. -/
def draft07.setExtraBag (extras : List (String × Value)) (key val : String) :
    List (String × Value) :=
  match mapGet extras key with
  | some (Value.str existingVal) => mapSet extras key (Value.strs [existingVal, val])
  | some (Value.strs existingVal) => mapSet extras key (Value.strs (existingVal ++ [val]))
  | some (Value.int _) => mapSet extras key (Value.int (Atoi val))
  | some _ => extras
  | none =>
    if key = "minimum" then mapSet extras key (Value.int (Atoi val))
    else mapSet extras key (Value.str val)

/-- Go `(*Schema).setExtra` of draft07/schema.go. -/
def draft07.setExtra (t : Addr) (key val : String) (h : Heap) : Heap :=
  upd h t (fun n => { n with Extras := draft07.setExtraBag n.Extras key val })

/-! ## Example types for the definitions table -/

/-- Two struct types of the same bare name in different packages, both fields of
one root: 0 is `type Root struct { A a.T; B b.T }`, 1 is
`a.T = struct { X string }`, 2 is `b.T = struct { Y int }`, 3 is `string`,
4 is `int`. -/
def clashEnv : TypeEnv :=
  { exampleEnv
      (fun t =>
        if t = 0 ∨ t = 1 ∨ t = 2 then Kind.Struct
        else if t = 3 then Kind.String else if t = 4 then Kind.Int else Kind.Invalid)
      (fun t =>
        if t = 0 then "Root" else if t = 1 ∨ t = 2 then "T"
        else if t = 3 then "string" else if t = 4 then "int" else "")
      (fun _ => 900)
      (fun t =>
        if t = 0 then [{ Name := "A", Typ := 1 }, { Name := "B", Typ := 2 }]
        else if t = 1 then [{ Name := "X", Typ := 3 }]
        else if t = 2 then [{ Name := "Y", Typ := 4 }]
        else []) with
    pkgPath := fun t => if t = 1 then "a" else if t = 2 then "b" else "main" }

/-! ## The property names and the required list of an object node -/

/-- The reflector `&Reflector{Version: DRAFT04, ExpandedStruct: true}`. -/
def expandedReflector : Reflector :=
  { Version := DRAFT04, ExpandedStruct := true }

/-- The keys of an ordered map after `Set(k, ·)`: a new key goes to the end, a
key that is there keeps its place. -/
def addKey (keys : List String) (k : String) : List String :=
  if k ∈ keys then keys else keys ++ [k]

mutual

/-- The calls `st.Properties.Set(name, ·)` that `reflectStructFields` makes on one
object node for the type `t`, in order, each with the `required` flag of its
field: one per field that gets a property name, those of a spliced field's type
in the place of the field; the fuel is that of `reflectStructFields`. -/
def storedFields (env : TypeEnv) (r : Reflector) : Nat → TypeId → List (String × Bool)
  | 0, _ => []
  | fuel + 1, t =>
    let t := if env.kind t = Kind.Ptr then env.elem t else t
    if env.kind t ≠ Kind.Struct then []
    else (handledFields env r t).flatMap (storedField env r fuel)
termination_by structural fuel => fuel

/-- The calls `st.Properties.Set(name, ·)` for one field: one under its property
name, or those of the fields of its type when it is spliced in, or none when it
is skipped; the fuel is that of `handleField`. -/
def storedField (env : TypeEnv) (r : Reflector) : Nat → StructField → List (String × Bool)
  | 0, _ => []
  | fuel + 1, f =>
    if (reflectFieldName r f).1 = "" then
      if (reflectFieldName r f).2.1 then storedFields env r fuel f.Typ else []
    else [((reflectFieldName r f).1, (reflectFieldName r f).2.2.1)]
termination_by structural fuel => fuel

end

/-- The names among the calls whose field is required, in order. -/
def requiredNames (es : List (String × Bool)) : List String :=
  (es.filter (fun e => e.2)).map Prod.fst

/-- The keys of the properties after the calls, from the keys before. -/
def keysAfter (keys : List String) (es : List (String × Bool)) : List String :=
  es.foldl (fun ks e => addKey ks e.1) keys

/-- The object node `st` went from `h` to `h'` by the calls `es`: its required
list got the names of the required ones appended, one entry per call, and the
keys of its properties are those the calls leave. -/
def Stored (st : Nat) (h h' : Heap) (es : List (String × Bool)) : Prop :=
  (rd h' st).Required = (rd h st).Required ++ requiredNames es ∧
  (rd h' st).Properties.map (fun ps => ps.map Prod.fst) =
    (rd h st).Properties.map (fun ps => keysAfter (ps.map Prod.fst) es)

/-- The names on the object node along a run of `reflectStructFields` and of
`handleField`, at one amount of fuel. -/
def NamesAt (env : TypeEnv) (r : Reflector) (fuel : Nat) : Prop :=
  (∀ (st : Nat) t s s', Own st s.heap → reflectStructFields env r fuel st t s = Res.ok s' →
      Stored st s.heap s'.heap (storedFields env r fuel t)) ∧
  (∀ (st : Nat) t f s s', Own st s.heap → handleField env r fuel st t f s = Res.ok s' →
      Stored st s.heap s'.heap (storedField env r fuel f))

/-- The types `string` (1), `int` (2), `type Twin struct { A string; B int }` (0)
with both fields tagged `json:"x"`, `type Inner struct { X string }` (4) and
`type Outer struct { Inner; X int }` (3) with `Inner` embedded without a tag. -/
def twinEnv : TypeEnv :=
  exampleEnv
    (fun t =>
      if t = 0 ∨ t = 3 ∨ t = 4 then Kind.Struct
      else if t = 1 then Kind.String else if t = 2 then Kind.Int else Kind.Invalid)
    (fun t =>
      if t = 0 then "Twin" else if t = 1 then "string" else if t = 2 then "int"
      else if t = 3 then "Outer" else if t = 4 then "Inner" else "")
    (fun _ => 900)
    (fun t =>
      if t = 0 then
        [ { Name := "A", Typ := 1, Tag := [("json", "x")] },
          { Name := "B", Typ := 2, Tag := [("json", "x")] } ]
      else if t = 3 then
        [ { Name := "Inner", Typ := 4, Anonymous := true }, { Name := "X", Typ := 2 } ]
      else if t = 4 then [ { Name := "X", Typ := 1 } ]
      else [])

/-! ## References into the definitions table -/

/-- Every reference `#/definitions/N` in a node of the heap names a key of the
table. -/
def Resolved (d : Definitions) (h : Heap) : Prop :=
  ∀ a, a < h.length → ∀ N, (rd h a).Ref = "#/definitions/" ++ N → (mapGet d N).isSome = true

/-- A step that writes no reference: every node of `h'` has no `$ref`, or is a
node of `h` with the `$ref` it had. -/
def RefStep (h h' : Heap) : Prop :=
  h.length ≤ h'.length ∧
    ∀ a, a < h'.length → (rd h' a).Ref = "" ∨ (a < h.length ∧ (rd h' a).Ref = (rd h a).Ref)

/-- The references along a run of the five mutually recursive functions, at one
amount of fuel: if they all resolve before, they all resolve after. -/
def RefsAt (env : TypeEnv) (r : Reflector) (fuel : Nat) : Prop :=
  (∀ t s a s', Resolved s.definitions s.heap →
      reflectTypeToSchema env r fuel t s = Res.ok (a, s') → Resolved s'.definitions s'.heap) ∧
  (∀ t s o s', Resolved s.definitions s.heap →
      reflectCustomType env r fuel t s = Res.ok (o, s') → Resolved s'.definitions s'.heap) ∧
  (∀ t s a s', Resolved s.definitions s.heap →
      reflectStruct env r fuel t s = Res.ok (a, s') → Resolved s'.definitions s'.heap) ∧
  (∀ st t s s', Resolved s.definitions s.heap →
      reflectStructFields env r fuel st t s = Res.ok s' → Resolved s'.definitions s'.heap) ∧
  (∀ st t f s s', Resolved s.definitions s.heap →
      handleField env r fuel st t f s = Res.ok s' → Resolved s'.definitions s'.heap)

/-! ## Example types for the registration of a struct -/

/-- A struct type with a field of another struct type of the same bare name:
0 is `a.T = struct { Inner b.T }`, 1 is `b.T = struct { Y int }`, 2 is `int`. -/
def nestEnv : TypeEnv :=
  { exampleEnv
      (fun t =>
        if t = 0 ∨ t = 1 then Kind.Struct else if t = 2 then Kind.Int else Kind.Invalid)
      (fun t => if t = 0 ∨ t = 1 then "T" else if t = 2 then "int" else "")
      (fun _ => 900)
      (fun t =>
        if t = 0 then [{ Name := "Inner", Typ := 1 }]
        else if t = 1 then [{ Name := "Y", Typ := 2 }]
        else []) with
    pkgPath := fun t => if t = 0 then "a" else if t = 1 then "b" else "" }

/-- The reflector
`&Reflector{Version: DRAFT04, DoNotReference: true, IgnoredTypes: []interface{}{b.T{}}}`
for `nestEnv`. -/
def inlineIgnoringReflector : Reflector :=
  { Version := DRAFT04, DoNotReference := true, IgnoredTypes := [1] }

/-! ## The tags `reflectFieldName` reads -/

/-- A field `A string` tagged `json:"a" yaml:",inline"`. -/
def inlineTagField : StructField :=
  { Name := "A", Typ := 1, Tag := [("json", "a"), ("yaml", ",inline")] }

/-- An embedded field `Base` tagged `json:"base"`, without a `yaml` tag. -/
def baseField : StructField :=
  { Name := "Base", Typ := 1, Anonymous := true, Tag := [("json", "base")] }

/-! ## Tags and hooks under which no nil pointer is read -/

/-- The token is the type override `type=array`. -/
def arrayOverride (tok : String) : Bool :=
  Split tok '=' = ["type", "array"]

/-- The token has the form `enum=v`. -/
def enumToken (tok : String) : Bool :=
  match Split tok '=' with
  | [name, _] => name = "enum"
  | _ => false

/-- The `jsonschema` tag of the field does not combine the override `type=array`
with an `enum` token: it has no token `enum=v`, or it has no token `type=array`. -/
def plainArrayTags (f : StructField) : Prop :=
  (∀ tok ∈ Split (f.Tag.Get "jsonschema") ',', enumToken tok = false) ∨
    (∀ tok ∈ Split (f.Tag.Get "jsonschema") ',', arrayOverride tok = false)

instance (f : StructField) : Decidable (plainArrayTags f) := by
  unfold plainArrayTags; infer_instance

/-- A node of type `"array"` has an items node. -/
def HasItems (n : Node) : Prop :=
  n.Typ = "array" → n.Items.isSome = true

instance (n : Node) : Decidable (HasItems n) := by
  unfold HasItems; infer_instance

/-- The root node the `TypeMapper` hands over for the type `u`, and the one its
`JSONSchemaType` method hands over, has an items node if its type is `"array"`. -/
def arrayHooks (env : TypeEnv) (r : Reflector) (u : TypeId) : Prop :=
  (∀ frag, r.TypeMapper.bind (fun mapper => mapper u) = some frag → HasItems frag.root) ∧
    (∀ frag, env.JSONSchemaType u = some frag → HasItems frag.root)

instance (env : TypeEnv) (r : Reflector) (u : TypeId) : Decidable (arrayHooks env r u) := by
  unfold arrayHooks; infer_instance

/-- A run that did not stop on a nil pointer dereference. -/
def Res.NoNil {α : Type} (x : Res α) : Prop :=
  x ≠ Res.abort Abort.nilDereference

/-- With fuel `fuel`, none of the mutually recursive functions reads a nil pointer
on the types of `U`, and the node the type walker returns has an items node if
its type is `"array"`; reflecting fields asks for an object node that has its
`Properties` map. -/
def NoNilAt (env : TypeEnv) (r : Reflector) (U : List TypeId) (fuel : Nat) : Prop :=
  (∀ t s, t ∈ U →
      (reflectTypeToSchema env r fuel t s).NoNil ∧
      ∀ a s', reflectTypeToSchema env r fuel t s = Res.ok (a, s') → HasItems (rd s'.heap a)) ∧
  (∀ t s, t ∈ U →
      (reflectCustomType env r fuel t s).NoNil ∧
      ∀ a s', reflectCustomType env r fuel t s = Res.ok (some a, s') →
        HasItems (rd s'.heap a)) ∧
  (∀ t s, t ∈ U →
      (reflectStruct env r fuel t s).NoNil ∧
      ∀ a s', reflectStruct env r fuel t s = Res.ok (a, s') → HasItems (rd s'.heap a)) ∧
  (∀ (st : Nat) t s, t ∈ U → Own st s.heap → (rd s.heap st).Properties.isSome = true →
      (reflectStructFields env r fuel st t s).NoNil) ∧
  (∀ (st : Nat) t f s, t ∈ U → env.kind t = Kind.Struct → f ∈ handledFields env r t →
      Own st s.heap → (rd s.heap st).Properties.isSome = true →
      (handleField env r fuel st t f s).NoNil)

/-- A run of the type walker that read no nil pointer and, if it returned, returned
a node that has an items node if its type is `"array"`. -/
def Res.Safe (x : Res (Addr × State)) : Prop :=
  x.NoNil ∧ ∀ a s', x = Res.ok (a, s') → HasItems (rd s'.heap a)
/-! ## Basic facts about runs and the heap -/

@[simp] theorem Res.ok_bind {α β : Type} (a : α) (f : α → Res β) :
    (Res.ok a).bind f = f a := rfl

@[simp] theorem Res.abort_bind {α β : Type} (e : Abort) (f : α → Res β) :
    (Res.abort e : Res α).bind f = Res.abort e := rfl

@[simp] theorem Res.timeout_bind {α β : Type} (f : α → Res β) :
    (Res.timeout : Res α).bind f = Res.timeout := rfl

theorem Res.bind_eq_ok {α β : Type} {x : Res α} {f : α → Res β} {b : β}
    (h : x.bind f = Res.ok b) : ∃ a, x = Res.ok a ∧ f a = Res.ok b := by
  cases x with
  | ok a => exact ⟨a, rfl, h⟩
  | abort e => simp at h
  | timeout => simp at h

theorem rd_append_lt (h l : Heap) (a : Nat) (ha : a < h.length) :
    rd (h ++ l) a = rd h a := by
  simp [rd, List.getD, List.getElem?_append_left ha]

theorem rd_append_length (h : Heap) (n : Node) : rd (h ++ [n]) h.length = n := by
  simp [rd, List.getD]

@[simp] theorem length_upd (h : Heap) (a : Nat) (f : Node → Node) :
    (upd h a f).length = h.length := by
  simp [upd]

theorem rd_upd_ne (h : Heap) (a b : Nat) (f : Node → Node) (hab : a ≠ b) :
    rd (upd h a f) b = rd h b := by
  simp [rd, upd, List.getD, List.getElem?_set_ne hab]

theorem rd_upd_eq (h : Heap) (a : Nat) (f : Node → Node) (ha : a < h.length) :
    rd (upd h a f) a = f (rd h a) := by
  simp [rd, upd, List.getD, List.getElem?_set_self, ha]

/-! ## Dispatch rule 1: a type already in the definitions table -/

/-- C2: when the definitions table already has an entry under `typeName(t)` and
`DoNotReference` is unset, `reflectTypeToSchema` returns a newly allocated node
whose only populated field is `$ref = "#/definitions/" + typeName(t)` and leaves
the table unchanged; the result does not depend on the kind of `t`, on the
`TypeMapper` or on any later dispatch rule. -/
theorem reflectTypeToSchema_already_defined (env : TypeEnv) (r : Reflector) (fuel : Nat)
    (t : TypeId) (s : State)
    (hdef : (mapGet s.definitions (typeName env r t)).isSome = true)
    (href : r.DoNotReference = false) :
    reflectTypeToSchema env r (fuel + 1) t s =
      Res.ok (s.heap.length,
        { definitions := s.definitions,
          heap := s.heap ++ [{ Ref := "#/definitions/" ++ typeName env r t }] }) := by
  simp [reflectTypeToSchema, hdef, href, returnNew]

set_option maxRecDepth 100000 in
/-- C2, at an input: `Person` is registered, the hook maps every type, and the
result is still the bare reference. -/
theorem reflectTypeToSchema_already_defined_witness :
    reflectTypeToSchema personEnv
        { TypeMapper := some (fun _ => some { root := { Typ := "string" } }) } 1 0
        { definitions := [("Person", 0)], heap := [{ Typ := "object" }] } =
      Res.ok (1,
        { definitions := [("Person", 0)],
          heap := [{ Typ := "object" }, { Ref := "#/definitions/Person" }] }) :=
  reflectTypeToSchema_already_defined personEnv
    { TypeMapper := some (fun _ => some { root := { Typ := "string" } }) } 0 0
    { definitions := [("Person", 0)], heap := [{ Typ := "object" }] } (by decide) (by decide)

/-! ## The abort on unsupported kinds -/

/-- Without a custom-schema type in sight, `reflectCustomType` on a non-pointer
type returns nil and leaves the state alone. -/
theorem reflectCustomType_none (env : TypeEnv) (r : Reflector) (fuel : Nat) (t : TypeId)
    (s : State) (hk : env.kind t ≠ Kind.Ptr) (hc : (env.JSONSchemaType t).isNone = true) :
    reflectCustomType env r (fuel + 1) t s = Res.ok (none, s) := by
  rw [Option.isNone_iff_eq_none] at hc
  simp [reflectCustomType, hk, hc]

/-- The default case of the switch on the kind: the abort, and no result with
less fuel either. -/
theorem unsupported_aborts (env : TypeEnv) (r : Reflector) (t : TypeId)
    (s : State) (hk : unsupportedKind (env.kind t)) (hn : notIntercepted env r t s) :
    (∀ fuel, reflectTypeToSchema env r (fuel + 2) t s =
        Res.abort (Abort.unsupportedType ("unsupported type " ++ env.str t))) ∧
      ∀ fuel x, reflectTypeToSchema env r fuel t s ≠ Res.ok x := by
  obtain ⟨hdef, hmap, hcustom, hproto, hip⟩ := hn
  rw [Option.isNone_iff_eq_none] at hmap
  have hptr : env.kind t ≠ Kind.Ptr := by
    rcases hk with h | h | h | h | h | h <;> simp [h]
  have hfirst : ((mapGet s.definitions (typeName env r t)).isSome && !r.DoNotReference) = false := by
    rcases hdef with h | h <;> simp [h]
  have main : ∀ fuel, reflectTypeToSchema env r (fuel + 2) t s =
      Res.abort (Abort.unsupportedType ("unsupported type " ++ env.str t)) := by
    intro fuel
    rw [reflectTypeToSchema]
    simp only [hfirst, hmap, reflectCustomType_none env r fuel t s hptr hcustom, Res.ok_bind,
      hproto, hip]
    rcases hk with h | h | h | h | h | h <;> simp [h]
  refine ⟨main, ?_⟩
  intro fuel x
  match fuel with
  | 0 => simp [reflectTypeToSchema]
  | 1 =>
    rw [reflectTypeToSchema]
    simp [hfirst, hmap, reflectCustomType]
  | fuel + 2 => simp [main fuel]

/-- C5: for a type whose kind has no mapping (function, channel, complex,
uintptr, unsafe pointer) and that no earlier dispatch rule intercepts,
`reflectTypeToSchema` aborts with the message `"unsupported type "` followed by
the type's textual name as soon as it has the fuel for its two calls, and with
no amount of fuel does it return a node. -/
theorem reflectTypeToSchema_unsupported (env : TypeEnv) (r : Reflector) (t : TypeId)
    (s : State) (hk : unsupportedKind (env.kind t)) (hn : notIntercepted env r t s) :
    (∀ fuel, reflectTypeToSchema env r (fuel + 2) t s =
        Res.abort (Abort.unsupportedType ("unsupported type " ++ env.str t))) ∧
      ∀ fuel x, reflectTypeToSchema env r fuel t s ≠ Res.ok x :=
  unsupported_aborts env r t s hk hn

set_option maxRecDepth 100000 in
/-- C5, at an input: the type `func()` with an empty definitions table. -/
theorem reflectTypeToSchema_unsupported_witness :
    unsupportedKind (personEnv.kind 3) ∧ notIntercepted personEnv {} 3 {} ∧
      reflectTypeToSchema personEnv {} 2 3 {} =
        Res.abort (Abort.unsupportedType "unsupported type func()") :=
  ⟨by decide, by decide,
    (reflectTypeToSchema_unsupported personEnv {} 3 {} (by decide) (by decide)).1 0⟩

/-! ## Frame lemmas for the tag keywords -/

theorem TagStep.trefl {st p : Nat} {h : Heap} (ho : Own st h) : TagStep st p h h :=
  ⟨ho, le_refl _, fun _ _ => rfl, rfl, rfl⟩

theorem TagStep.ttrans {st p : Nat} {h1 h2 h3 : Heap} (h12 : TagStep st p h1 h2)
    (h23 : TagStep st p h2 h3) : TagStep st p h1 h3 := by
  obtain ⟨_, l12, b12, c12, i12⟩ := h12
  obtain ⟨o3, l23, b23, c23, i23⟩ := h23
  exact ⟨o3, le_trans l12 l23, fun a ha => (b23 a ha).trans (b12 a ha), c23.trans c12,
    i23.trans i12⟩

theorem upd_of_length_le (h : Heap) (a : Nat) (f : Node → Node) (ha : h.length ≤ a) :
    upd h a f = h := by
  simp [upd, List.set_eq_of_length_le ha]

/-- Writing a node younger than `st`, leaving every `Items` pointer alone. -/
theorem TagStep.upd_above {st p a : Nat} {h : Heap} (f : Node → Node) (ho : Own st h)
    (ha : st < a) (hf : ∀ n, (f n).Items = n.Items) : TagStep st p h (upd h a f) := by
  have hne : a ≠ st := Nat.ne_of_gt ha
  refine ⟨⟨by simpa using ho.1, ?_⟩, by simp, ?_, ?_, ?_⟩
  · intro i hi
    rw [rd_upd_ne h a st f hne] at hi
    exact ho.2 i hi
  · intro b hb
    exact rd_upd_ne h a b f (by omega)
  · rw [rd_upd_ne h a st f hne]
  · by_cases hap : a = p
    · subst hap
      by_cases hlt : a < h.length
      · rw [rd_upd_eq h a f hlt, hf]
      · rw [upd_of_length_le h a f (Nat.le_of_not_lt hlt)]
    · rw [rd_upd_ne h a p f hap]

/-- Allocating a node. -/
theorem TagStep.alloc {st p : Nat} {h : Heap} (n : Node) (ho : Own st h) (hp : p < h.length) :
    TagStep st p h (h ++ [n]) := by
  have hst := ho.1
  refine ⟨⟨by simp; omega, ?_⟩, by simp, ?_, ?_, ?_⟩
  · intro i hi
    rw [rd_append_lt h [n] st hst] at hi
    exact ho.2 i hi
  · intro b hb
    exact rd_append_lt h [n] b (by omega)
  · rw [rd_append_lt h [n] st hst]
  · rw [rd_append_lt h [n] p hp]

/-- Appending a younger branch to the `OneOf` of `st`. -/
theorem TagStep.add_branch {st p b : Nat} {h : Heap} (ho : Own st h) (hp : st < p)
    (hb : st < b) :
    TagStep st p h (upd h st (Node.addOneOf b)) := by
  have hst := ho.1
  refine ⟨⟨by simpa using ho.1, ?_⟩, by simp, ?_, ?_, ?_⟩
  · intro i hi
    rw [rd_upd_eq h st _ hst] at hi
    simp [Node.addOneOf] at hi
    rcases hi with hi | hi
    · exact ho.2 i hi
    · rw [hi]; exact hb
  · intro a ha
    exact rd_upd_ne h st a _ (by omega)
  · rw [rd_upd_eq h st _ hst]
    simp [clearOneOf, Node.addOneOf]
  · rw [rd_upd_ne h st p _ (by omega)]

theorem TagStep.foldl {α : Type} {st p : Nat} (step : Heap → α → Heap)
    (hstep : ∀ h x, Own st h → p < h.length → TagStep st p h (step h x)) :
    ∀ (xs : List α) (h : Heap), Own st h → p < h.length → TagStep st p h (xs.foldl step h) := by
  intro xs
  induction xs with
  | nil => intro h ho _; exact TagStep.trefl ho
  | cons x xs ih =>
    intro h ho hp
    have h1 := hstep h x ho hp
    exact h1.ttrans (ih (step h x) h1.1 (lt_of_lt_of_le hp h1.2.1))

/-- The search for the `OneOf` branch with a given title returns a member of the list. -/
theorem typeFound_mem (h : Heap) (val : String) (l : List Addr) (init : Option Addr) (x : Addr)
    (hx : l.foldl (fun found i => if (rd h i).Title = val then some i else found) init = some x) :
    x ∈ l ∨ init = some x := by
  induction l generalizing init with
  | nil => right; simpa using hx
  | cons i l ih =>
    simp only [List.foldl_cons] at hx
    rcases ih _ hx with hmem | hinit
    · left; exact List.mem_cons_of_mem _ hmem
    · by_cases hi : (rd h i).Title = val
      · simp [hi] at hinit
        left; simp [hinit]
      · simp [hi] at hinit
        right; exact hinit

theorem genericKeyword_step {st p : Nat} (propertyName : String) (h : Heap) (tag : String)
    (ho : Own st h) (hsp : st < p) (hp : p < h.length) :
    TagStep st p h (genericKeyword p st propertyName h tag) := by
  unfold genericKeyword
  split
  · rename_i name val _
    split
    · exact TagStep.upd_above _ ho hsp (fun _ => rfl)
    split
    · exact TagStep.upd_above _ ho hsp (fun _ => rfl)
    split
    · exact TagStep.upd_above _ ho hsp (fun _ => rfl)
    split
    · simp only [alloc]
      split
      · rename_i found hfound
        have hmem : found ∈ (rd h st).OneOf := by
          rcases typeFound_mem h val _ none found hfound with hm | hm
          · exact hm
          · simp at hm
        exact TagStep.upd_above _ ho (ho.2 found hmem) (fun _ => rfl)
      · have s1 : TagStep st p h (h ++ [{ Title := val, Required := [] }]) :=
          TagStep.alloc _ ho hp
        have s2 := TagStep.add_branch (p := p) (b := h.length) s1.1 hsp ho.1
        exact (s1.ttrans s2).ttrans (TagStep.upd_above _ s2.1 ho.1 (fun _ => rfl))
    split
    · have s1 : TagStep st p h (upd h p (Node.setTyp "")) :=
        TagStep.upd_above _ ho hsp (fun _ => rfl)
      refine s1.ttrans (TagStep.foldl _ ?_ _ _ s1.1 (by simpa using hp))
      intro hh ty hoh hph
      simp only [alloc]
      have t1 : TagStep st p hh (hh ++ [{ Typ := ty }]) := TagStep.alloc _ hoh hph
      exact t1.ttrans (TagStep.upd_above _ t1.1 hsp (fun _ => rfl))
    split
    · split
      · exact TagStep.upd_above _ ho hsp (fun _ => rfl)
      split
      · exact TagStep.upd_above _ ho hsp (fun _ => rfl)
      split
      · exact TagStep.upd_above _ ho hsp (fun _ => rfl)
      · exact TagStep.trefl ho
    · exact TagStep.trefl ho
  · exact TagStep.trefl ho

theorem stringKeyword_step {st p : Nat} (h : Heap) (tag : String)
    (ho : Own st h) (hsp : st < p) : TagStep st p h (stringKeyword p h tag) := by
  unfold stringKeyword
  repeat (first
    | exact TagStep.upd_above _ ho hsp (fun _ => rfl)
    | exact TagStep.trefl ho
    | split)

theorem numbericKeyword_step {st p : Nat} (h : Heap) (tag : String)
    (ho : Own st h) (hsp : st < p) : TagStep st p h (numbericKeyword p h tag) := by
  unfold numbericKeyword
  repeat (first
    | exact TagStep.upd_above _ ho hsp (fun _ => rfl)
    | exact TagStep.trefl ho
    | split)

theorem extraKeyword_step {st p : Nat} (h : Heap) (tag : String)
    (ho : Own st h) (hsp : st < p) :
    TagStep st p h
      (match Split tag '=' with
        | [key, val] => setExtra p key val h
        | _ => h) := by
  split
  · exact TagStep.upd_above _ ho hsp (fun _ => rfl)
  · exact TagStep.trefl ho

theorem arrayKeyword_step {st p : Nat} (h h' : Heap) (dv dv' : List String) (tag : String)
    (ho : Own st h) (hsp : st < p) (hitems : ∀ i, (rd h p).Items = some i → st < i)
    (hrun : arrayKeyword p (h, dv) tag = Res.ok (h', dv')) : TagStep st p h h' := by
  unfold arrayKeyword at hrun
  simp only at hrun
  split at hrun
  · split at hrun
    · cases hrun; exact TagStep.upd_above _ ho hsp (fun _ => rfl)
    split at hrun
    · cases hrun; exact TagStep.upd_above _ ho hsp (fun _ => rfl)
    split at hrun
    · cases hrun; exact TagStep.upd_above _ ho hsp (fun _ => rfl)
    split at hrun
    · cases hrun; exact TagStep.trefl ho
    split at hrun
    · split at hrun
      · cases hrun
      · rename_i items hit
        have hlt := hitems items hit
        split at hrun
        · cases hrun; exact TagStep.upd_above _ ho hlt (fun _ => rfl)
        split at hrun
        · cases hrun; exact TagStep.upd_above _ ho hlt (fun _ => rfl)
        split at hrun
        · cases hrun; exact TagStep.upd_above _ ho hlt (fun _ => rfl)
        · cases hrun; exact TagStep.trefl ho
    · cases hrun; exact TagStep.trefl ho
  · cases hrun; exact TagStep.trefl ho

theorem arrayKeywordsLoop_step {st p : Nat} (tags : List String) :
    ∀ (h h' : Heap) (dv dv' : List String), Own st h → st < p →
      (∀ i, (rd h p).Items = some i → st < i) →
      arrayKeywordsLoop p tags (h, dv) = Res.ok (h', dv') → TagStep st p h h' := by
  induction tags with
  | nil =>
    intro h h' dv dv' ho _ _ hrun
    simp [arrayKeywordsLoop] at hrun
    rw [← hrun.1]; exact TagStep.trefl ho
  | cons tag rest ih =>
    intro h h' dv dv' ho hsp hitems hrun
    simp only [arrayKeywordsLoop] at hrun
    obtain ⟨⟨h1, dv1⟩, hstep, hrest⟩ := Res.bind_eq_ok hrun
    have s1 := arrayKeyword_step h h1 dv dv1 tag ho hsp hitems hstep
    have hitems1 : ∀ i, (rd h1 p).Items = some i → st < i := by
      intro i hi; rw [s1.2.2.2.2] at hi; exact hitems i hi
    exact s1.ttrans (ih h1 h' dv1 dv' s1.1 hsp hitems1 hrest)

theorem arrayKeywords_step {st p : Nat} (tags : List String) (h h' : Heap)
    (ho : Own st h) (hsp : st < p) (hitems : ∀ i, (rd h p).Items = some i → st < i)
    (hrun : arrayKeywords p tags h = Res.ok h') : TagStep st p h h' := by
  unfold arrayKeywords at hrun
  obtain ⟨⟨h1, dv1⟩, hloop, hrest⟩ := Res.bind_eq_ok hrun
  have s1 := arrayKeywordsLoop_step tags h h1 [] dv1 ho hsp hitems hloop
  simp only at hrest
  split at hrest
  · cases hrest; exact s1.ttrans (TagStep.upd_above _ s1.1 hsp (fun _ => rfl))
  · cases hrest; exact s1

/-- The tag keywords of a field: what `structKeywordsFromTags` may change. -/
theorem structKeywordsFromTags_step {st p : Nat} (f : StructField) (name : String)
    (h h' : Heap) (ho : Own st h) (hsp : st < p) (hp : p < h.length)
    (hitems : ∀ i, (rd h p).Items = some i → st < i)
    (hrun : structKeywordsFromTags p f st name h = Res.ok h') : TagStep st p h h' := by
  unfold structKeywordsFromTags at hrun
  simp only at hrun
  obtain ⟨h3, htyped, hrest⟩ := Res.bind_eq_ok hrun
  have s1 : TagStep st p h (upd h p (Node.setDescription (f.Tag.Get "jsonschema_description"))) :=
    TagStep.upd_above _ ho hsp (fun _ => rfl)
  have s2 := TagStep.foldl (genericKeyword p st name)
    (fun hh tag hoh hph => genericKeyword_step name hh tag hoh hsp hph)
    (Split (f.Tag.Get "jsonschema") ',') _ s1.1 (lt_of_lt_of_le hp s1.2.1)
  have s12 := s1.ttrans s2
  have hitems2 : ∀ i, (rd (genericKeywords p (Split (f.Tag.Get "jsonschema") ',') st name
      (upd h p (Node.setDescription (f.Tag.Get "jsonschema_description")))) p).Items = some i →
      st < i := by
    intro i hi
    have := s12.2.2.2.2
    unfold genericKeywords at hi
    rw [this] at hi; exact hitems i hi
  have hp2 := lt_of_lt_of_le hp s12.2.1
  have s3 : TagStep st p h h3 := by
    split at htyped
    · cases htyped
      exact s12.ttrans (TagStep.foldl (stringKeyword p)
        (fun hh tag hoh _ => stringKeyword_step hh tag hoh hsp) _ _ s12.1 hp2)
    split at htyped
    · cases htyped
      exact s12.ttrans (TagStep.foldl (numbericKeyword p)
        (fun hh tag hoh _ => numbericKeyword_step hh tag hoh hsp) _ _ s12.1 hp2)
    split at htyped
    · cases htyped
      exact s12.ttrans (TagStep.foldl (numbericKeyword p)
        (fun hh tag hoh _ => numbericKeyword_step hh tag hoh hsp) _ _ s12.1 hp2)
    split at htyped
    · exact s12.ttrans (arrayKeywords_step _ _ _ s12.1 hsp hitems2 htyped)
    · cases htyped; exact s12
  cases hrest
  exact s3.ttrans (TagStep.foldl _
    (fun hh tag hoh _ => extraKeyword_step hh tag hoh hsp) _ _ s3.1 (lt_of_lt_of_le hp s3.2.1))
/-! ## Frame lemmas for the reflector -/

theorem Extends.erefl (h : Heap) : Extends h h := ⟨le_refl _, fun _ _ => rfl⟩

theorem Extends.etrans {h1 h2 h3 : Heap} (h12 : Extends h1 h2) (h23 : Extends h2 h3) :
    Extends h1 h3 :=
  ⟨le_trans h12.1 h23.1, fun a ha => (h23.2 a (lt_of_lt_of_le ha h12.1)).trans (h12.2 a ha)⟩

theorem Extends.append (h l : Heap) : Extends h (h ++ l) :=
  ⟨by simp, fun a ha => rd_append_lt h l a ha⟩

/-- Allocating a node after a run that only extended the heap. -/
theorem alloc_after {h h1 : Heap} (hext : Extends h h1) (n : Node)
    (hn : ∀ i, n.Items = some i → h.length ≤ i) :
    Extends h (h1 ++ [n]) ∧ FreshNode h (h1 ++ [n]) h1.length := by
  refine ⟨hext.etrans (Extends.append h1 [n]), hext.1, by simp, ?_⟩
  intro i hi
  rw [rd_append_length] at hi
  exact hn i hi

theorem FreshNode.mono {h h1 h2 : Heap} {a : Nat} (hfresh : FreshNode h1 h2 a)
    (hext : Extends h h1) : FreshNode h h2 a :=
  ⟨le_trans hext.1 hfresh.1, hfresh.2.1, fun i hi => le_trans hext.1 (hfresh.2.2 i hi)⟩

theorem rd_allocFragment (h : Heap) (f : Fragment) :
    rd (allocFragment h f).2 h.length = shiftNode h.length f.root := by
  have : rd (h ++ (shiftNode h.length f.root :: f.rest.map (shiftNode h.length))) h.length =
      shiftNode h.length f.root := by
    unfold rd
    rw [List.getD_eq_getElem?_getD, List.getElem?_append_right (le_refl h.length)]
    simp
  simpa [allocFragment] using this

theorem allocFragment_fresh (h : Heap) (f : Fragment) :
    Extends h (allocFragment h f).2 ∧ FreshNode h (allocFragment h f).2 (allocFragment h f).1 := by
  refine ⟨Extends.append h _, le_refl _, by simp [allocFragment], ?_⟩
  intro i hi
  have : (allocFragment h f).1 = h.length := rfl
  rw [this, rd_allocFragment] at hi
  simp [shiftNode] at hi
  obtain ⟨j, _, hj⟩ := hi
  rw [← hj]
  exact Nat.le_add_left _ _

theorem FieldStep.frefl {st : Nat} {h : Heap} (ho : Own st h) : FieldStep st h h :=
  ⟨ho, le_refl _, fun _ _ => rfl, rfl, [], by simp⟩

theorem FieldStep.ftrans {st : Nat} {h1 h2 h3 : Heap} (h12 : FieldStep st h1 h2)
    (h23 : FieldStep st h2 h3) : FieldStep st h1 h3 := by
  obtain ⟨_, l12, b12, c12, r12, e12⟩ := h12
  obtain ⟨o3, l23, b23, c23, r23, e23⟩ := h23
  exact ⟨o3, le_trans l12 l23, fun a ha => (b23 a ha).trans (b12 a ha), c23.trans c12,
    r12 ++ r23, by rw [e23, e12, List.append_assoc]⟩

theorem TagStep.toField {st p : Nat} {h h' : Heap} (hs : TagStep st p h h') :
    FieldStep st h h' := by
  obtain ⟨o, l, b, c, _⟩ := hs
  refine ⟨o, l, b, ?_, [], ?_⟩
  · have := congrArg clearParent c
    simpa [clearParent, clearOneOf] using this
  · have := congrArg Node.Required c
    simpa [clearOneOf] using this

theorem Own.of_extends {st : Nat} {h h' : Heap} (ho : Own st h) (hext : Extends h h') :
    Own st h' :=
  ⟨lt_of_lt_of_le ho.1 hext.1, fun i hi => ho.2 i (by rw [hext.2 st ho.1] at hi; exact hi)⟩

theorem Extends.toFieldStep {st : Nat} {h h' : Heap} (ho : Own st h) (hext : Extends h h') :
    FieldStep st h h' :=
  ⟨ho.of_extends hext, hext.1, fun a ha => hext.2 a (lt_trans ha ho.1),
    by rw [hext.2 st ho.1], [], by rw [hext.2 st ho.1]; simp⟩

/-- Writing the enclosing object node in one of the three members that reflecting
fields writes, leaving `OneOf` alone and `Required` extended at its end. -/
theorem FieldStep.upd_parent {st : Nat} {h : Heap} (f : Node → Node) (ho : Own st h)
    (hc : ∀ n, clearParent (f n) = clearParent n) (ho1 : ∀ n, (f n).OneOf = n.OneOf)
    (hr : ∀ n, ∃ l, (f n).Required = n.Required ++ l) : FieldStep st h (upd h st f) := by
  have hst := ho.1
  refine ⟨⟨by simpa using hst, ?_⟩, by simp, ?_, ?_, ?_⟩
  · intro i hi
    rw [rd_upd_eq h st f hst, ho1] at hi
    exact ho.2 i hi
  · intro a ha
    exact rd_upd_ne h st a f (by omega)
  · rw [rd_upd_eq h st f hst, hc]
  · rw [rd_upd_eq h st f hst]
    exact hr _
theorem applyFieldDoc_step (env : TypeEnv) (t : TypeId) (f : StructField) {st p : Nat}
    (h : Heap) (ho : Own st h) (hsp : st < p) :
    TagStep st p h (applyFieldDoc env t f p h) := by
  unfold applyFieldDoc
  split
  · exact TagStep.upd_above _ ho hsp (fun _ => rfl)
  · exact TagStep.trefl ho

theorem wrapNullable_extends (nullable : Bool) (p : Nat) (h : Heap) :
    Extends h (wrapNullable nullable p h).2 := by
  unfold wrapNullable
  split
  · exact (Extends.append h _).etrans (Extends.append _ _)
  · exact Extends.erefl h

theorem storeProperty_step {st : Nat} (name : String) (required : Bool) (q : Addr)
    (h h' : Heap) (ho : Own st h) (hrun : storeProperty st name required q h = Res.ok h') :
    FieldStep st h h' := by
  unfold storeProperty at hrun
  split at hrun
  · cases hrun
  · rename_i properties _
    simp only [Res.ok.injEq] at hrun
    have s1 : FieldStep st h (upd h st (Node.setProperty properties name q)) :=
      FieldStep.upd_parent _ ho (fun _ => rfl) (fun _ => rfl) (fun _ => ⟨[], by simp [Node.setProperty]⟩)
    split at hrun
    · rw [← hrun]
      exact s1.ftrans (FieldStep.upd_parent _ s1.1 (fun _ => rfl) (fun _ => rfl)
        (fun _ => ⟨[name], rfl⟩))
    · rw [← hrun]; exact s1

/-- The tail of `handleField`: what it may change. -/
theorem finishField_step (env : TypeEnv) (t : TypeId) {st p : Nat} (f : StructField)
    (name : String) (required nullable : Bool) (s s' : State)
    (ho : Own st s.heap) (hsp : st < p) (hp : p < s.heap.length)
    (hitems : ∀ i, (rd s.heap p).Items = some i → st < i)
    (hrun : finishField env t st f name required nullable p s = Res.ok s') :
    FieldStep st s.heap s'.heap ∧ s'.definitions = s.definitions := by
  unfold finishField at hrun
  obtain ⟨h1, htags, hrest⟩ := Res.bind_eq_ok hrun
  obtain ⟨h2, hstore, hfin⟩ := Res.bind_eq_ok hrest
  have s1 := structKeywordsFromTags_step f name s.heap h1 ho hsp hp hitems htags
  have s2 := applyFieldDoc_step env t f h1 s1.1 hsp
  have s12 := (s1.ttrans s2).toField
  have s3 := (wrapNullable_extends nullable p (applyFieldDoc env t f p h1)).toFieldStep s12.1
  have s4 := storeProperty_step name required _ _ h2 s3.1 hstore
  cases hfin
  exact ⟨(s12.ftrans s3).ftrans s4, rfl⟩
theorem forEach_step {α : Type} {st : Nat} (body : α → State → Res State)
    (hbody : ∀ x s s', Own st s.heap → body x s = Res.ok s' → FieldStep st s.heap s'.heap) :
    ∀ (xs : List α) (s s' : State), Own st s.heap → forEach body xs s = Res.ok s' →
      FieldStep st s.heap s'.heap := by
  intro xs
  induction xs with
  | nil =>
    intro s s' ho hrun
    simp only [forEach, Res.ok.injEq] at hrun
    rw [← hrun]; exact FieldStep.frefl ho
  | cons x xs ih =>
    intro s s' ho hrun
    simp only [forEach] at hrun
    obtain ⟨s1, h1, h2⟩ := Res.bind_eq_ok hrun
    have f1 := hbody x s s1 ho h1
    exact f1.ftrans (ih s1 s' f1.1 h2)

theorem returnNew_frame (s s' : State) (n : Node) (a : Addr) (h0 : Heap)
    (hext : Extends h0 s.heap) (hn : ∀ i, n.Items = some i → h0.length ≤ i)
    (hrun : returnNew s n = Res.ok (a, s')) :
    Extends h0 s'.heap ∧ FreshNode h0 s'.heap a ∧ s'.definitions = s.definitions := by
  simp only [returnNew, Res.ok.injEq, Prod.mk.injEq] at hrun
  obtain ⟨rfl, rfl⟩ := hrun
  have := alloc_after hext n hn
  exact ⟨this.1, this.2, rfl⟩

theorem frame_T (env : TypeEnv) (r : Reflector) (fuel : Nat) (ih : FrameAt env r fuel) :
    ∀ t s a s', reflectTypeToSchema env r (fuel + 1) t s = Res.ok (a, s') →
      Extends s.heap s'.heap ∧ FreshNode s.heap s'.heap a := by
  obtain ⟨ihT, ihC, ihS, -, -⟩ := ih
  intro t s a s' hrun
  have leaf : ∀ (s1 : State) (n : Node), Extends s.heap s1.heap → n.Items = none →
      returnNew s1 n = Res.ok (a, s') → Extends s.heap s'.heap ∧ FreshNode s.heap s'.heap a := by
    intro s1 n hext hn hr
    have := returnNew_frame s1 s' n a s.heap hext (fun i hi => by rw [hn] at hi; cases hi) hr
    exact ⟨this.1, this.2.1⟩
  rw [reflectTypeToSchema] at hrun
  split at hrun
  · exact leaf s _ (Extends.erefl _) rfl hrun
  split at hrun
  · rename_i mapped _
    simp only [Res.ok.injEq, Prod.mk.injEq] at hrun
    obtain ⟨rfl, rfl⟩ := hrun
    exact allocFragment_fresh s.heap mapped
  obtain ⟨⟨rt, s1⟩, hc, hrest⟩ := Res.bind_eq_ok hrun
  have hC := ihC t s rt s1 hc
  have nested : ∀ (u : TypeId) (a1 : Addr) (s2 : State),
      reflectTypeToSchema env r fuel u s1 = Res.ok (a1, s2) →
      Extends s.heap s2.heap ∧ FreshNode s.heap s2.heap a1 := by
    intro u a1 s2 hu
    have := ihT u s1 a1 s2 hu
    exact ⟨hC.1.etrans this.1, this.2.mono hC.1⟩
  simp only at hrest
  split at hrest
  · rename_i a1
    simp only [Res.ok.injEq, Prod.mk.injEq] at hrest
    obtain ⟨rfl, rfl⟩ := hrest
    exact ⟨hC.1, hC.2 _ rfl⟩
  split at hrest
  · exact leaf _ _ (hC.1.etrans ((Extends.append _ _).etrans (Extends.append _ _))) rfl hrest
  split at hrest
  · exact leaf _ _ hC.1 rfl hrest
  split at hrest
  · -- struct
    split at hrest
    · exact leaf _ _ hC.1 rfl hrest
    split at hrest
    · exact leaf _ _ hC.1 rfl hrest
    · have := ihS t s1 a s' hrest
      exact ⟨hC.1.etrans this.1, this.2.mono hC.1⟩
  · -- map
    split at hrest
    all_goals
      obtain ⟨⟨v, s2⟩, hv, hret⟩ := Res.bind_eq_ok hrest
      exact leaf _ _ (nested _ _ _ hv).1 rfl hret
  all_goals first
    | exact leaf _ _ hC.1 rfl hrest
    | cases hrest
    | exact nested _ _ _ hrest
    | skip
  all_goals
    -- slice, array
    split at hrest
    · exact leaf _ _ hC.1 rfl hrest
    clear hrun
    split at hrest
    · refine leaf _ _ (hC.1.etrans (Extends.append _ _)) ?_ hrest
      simp only [Node.setMedia, Node.setTyp, arrayBounds]
      split <;> rfl
    · obtain ⟨⟨items, s2⟩, hv, hret⟩ := Res.bind_eq_ok hrest
      have hn := nested _ _ _ hv
      have := returnNew_frame s2 s' _ a s.heap hn.1 ?_ hret
      · exact ⟨this.1, this.2.1⟩
      · intro i hi
        have : i = items := by
          simp only [Node.setItems, Option.some.injEq] at hi
          exact hi.symm
        rw [this]; exact hn.2.1
theorem frame_C (env : TypeEnv) (r : Reflector) (fuel : Nat) (ih : FrameAt env r fuel) :
    ∀ t s o s', reflectCustomType env r (fuel + 1) t s = Res.ok (o, s') →
      Extends s.heap s'.heap ∧ ∀ a, o = some a → FreshNode s.heap s'.heap a := by
  obtain ⟨-, ihC, -, -, -⟩ := ih
  intro t s o s' hrun
  rw [reflectCustomType] at hrun
  split at hrun
  · exact ihC _ _ _ _ hrun
  split at hrun
  · rename_i built _
    have hf := allocFragment_fresh s.heap built
    simp only at hrun
    split at hrun
    · simp only [Res.ok.injEq, Prod.mk.injEq] at hrun
      obtain ⟨rfl, rfl⟩ := hrun
      refine ⟨hf.1, ?_⟩
      intro a ha
      cases ha
      exact hf.2
    · simp only [Res.ok.injEq, Prod.mk.injEq] at hrun
      obtain ⟨rfl, rfl⟩ := hrun
      have := alloc_after hf.1 (refNode r (typeName env r t)) (fun i hi => by cases hi)
      refine ⟨this.1, ?_⟩
      intro a ha
      cases ha
      exact this.2
  · simp only [Res.ok.injEq, Prod.mk.injEq] at hrun
    obtain ⟨rfl, rfl⟩ := hrun
    exact ⟨Extends.erefl _, fun a ha => by cases ha⟩

/-- A node without `Items`, allocated at the end of the heap. -/
theorem alloc_plain (h : Heap) (n : Node) (hn : n.Items = none) :
    Extends h (h ++ [n]) ∧ FreshNode h (h ++ [n]) h.length :=
  alloc_after (Extends.erefl h) n (fun i hi => by rw [hn] at hi; cases hi)

theorem own_new (h : Heap) (n : Node) (hn : n.OneOf = []) : Own h.length (h ++ [n]) := by
  refine ⟨by simp, ?_⟩
  intro i hi
  rw [rd_append_length, hn] at hi
  cases hi

/-- After fields were reflected into a node allocated at the end of `h`, the heap
`h` is still intact and the node still has no `Items`. -/
theorem fresh_of_fieldStep (h h' : Heap) (n : Node) (hn : n.Items = none)
    (hs : FieldStep h.length (h ++ [n]) h') :
    Extends h h' ∧ FreshNode h h' h.length := by
  obtain ⟨ho, hl, hb, hc, -⟩ := hs
  refine ⟨⟨by simp at hl; omega, ?_⟩, le_refl _, ho.1, ?_⟩
  · intro a ha
    rw [hb a ha, rd_append_lt h [n] a ha]
  · intro i hi
    have := congrArg Node.Items hc
    simp only [clearParent] at this
    rw [this, rd_append_length, hn] at hi
    cases hi

theorem frame_S (env : TypeEnv) (r : Reflector) (fuel : Nat) (ih : FrameAt env r fuel) :
    ∀ t s a s', reflectStruct env r (fuel + 1) t s = Res.ok (a, s') →
      Extends s.heap s'.heap ∧ FreshNode s.heap s'.heap a := by
  obtain ⟨-, ihC, -, ihF, -⟩ := ih
  intro t s a s' hrun
  rw [reflectStruct] at hrun
  obtain ⟨⟨custom, s1⟩, hc, hrest⟩ := Res.bind_eq_ok hrun
  clear hrun
  have hC := ihC t s custom s1 hc
  simp only at hrest
  split at hrest
  · simp only [Res.ok.injEq, Prod.mk.injEq] at hrest
    obtain ⟨rfl, rfl⟩ := hrest
    exact ⟨hC.1, hC.2 _ rfl⟩
  split at hrest
  · have hnew := alloc_plain s1.heap ignoredNode rfl
    split at hrest
    · simp only [Res.ok.injEq, Prod.mk.injEq] at hrest
      obtain ⟨rfl, rfl⟩ := hrest
      exact ⟨hC.1.etrans hnew.1, hnew.2.mono hC.1⟩
    · have := returnNew_frame _ s' _ a s.heap (hC.1.etrans hnew.1)
        (fun i hi => by cases hi) hrest
      exact ⟨this.1, this.2.1⟩
  · obtain ⟨s2, hf, hret⟩ := Res.bind_eq_ok hrest
    have hF := ihF s1.heap.length t _ s2 (own_new s1.heap (structNode r) rfl) hf
    have hfresh := fresh_of_fieldStep s1.heap s2.heap (structNode r) rfl hF
    split at hret
    · simp only [Res.ok.injEq, Prod.mk.injEq] at hret
      obtain ⟨rfl, rfl⟩ := hret
      exact ⟨hC.1.etrans hfresh.1, hfresh.2.mono hC.1⟩
    · have := returnNew_frame _ s' _ a s.heap (hC.1.etrans hfresh.1)
        (fun i hi => by cases hi) hret
      exact ⟨this.1, this.2.1⟩

theorem frame_F (env : TypeEnv) (r : Reflector) (fuel : Nat) (ih : FrameAt env r fuel) :
    ∀ (st : Nat) t s s', Own st s.heap →
      reflectStructFields env r (fuel + 1) st t s = Res.ok s' → FieldStep st s.heap s'.heap := by
  obtain ⟨-, -, -, -, ihH⟩ := ih
  intro st t s s' ho hrun
  rw [reflectStructFields] at hrun
  split at hrun
  all_goals
    split at hrun
    · simp only [Res.ok.injEq] at hrun
      rw [← hrun]; exact FieldStep.frefl ho
    · obtain ⟨s1, h1, h2⟩ := Res.bind_eq_ok hrun
      have f1 := forEach_step _ (fun f s s' hos hr => ihH st _ f s s' hos hr) _ s s1 ho h1
      split at h2
      · exact f1.ftrans
          (forEach_step _ (fun f s s' hos hr => ihH st _ f s s' hos hr) _ s1 s' f1.1 h2)
      · simp only [Res.ok.injEq] at h2
        rw [← h2]; exact f1

theorem frame_H (env : TypeEnv) (r : Reflector) (fuel : Nat) (ih : FrameAt env r fuel) :
    ∀ (st : Nat) t f s s', Own st s.heap →
      handleField env r (fuel + 1) st t f s = Res.ok s' → FieldStep st s.heap s'.heap := by
  obtain ⟨ihT, -, -, ihF, -⟩ := ih
  intro st t f s s' ho hrun
  rw [handleField] at hrun
  simp only at hrun
  split at hrun
  · split at hrun
    · exact ihF st _ s s' ho hrun
    · simp only [Res.ok.injEq] at hrun
      rw [← hrun]; exact FieldStep.frefl ho
  · obtain ⟨⟨p, s1⟩, hT, hfin⟩ := Res.bind_eq_ok hrun
    have hx := ihT _ s p s1 hT
    have hst := ho.1
    have hp : st < p := lt_of_lt_of_le hst hx.2.1
    have s1step := hx.1.toFieldStep ho
    have := finishField_step env t f _ _ _ s1 s' s1step.1 hp hx.2.2.1
      (fun i hi => lt_of_lt_of_le hst (hx.2.2.2 i hi)) hfin
    exact s1step.ftrans this.1

/-- The frame conditions hold at every amount of fuel. -/
theorem frame (env : TypeEnv) (r : Reflector) : ∀ fuel, FrameAt env r fuel := by
  intro fuel
  induction fuel with
  | zero =>
    refine ⟨?_, ?_, ?_, ?_, ?_⟩
    · intro t s a s' h; simp [reflectTypeToSchema] at h
    · intro t s a s' h; simp [reflectCustomType] at h
    · intro t s a s' h; simp [reflectStruct] at h
    · intro st t s s' _ h; simp [reflectStructFields] at h
    · intro st t f s s' _ h; simp [handleField] at h
  | succ n ih =>
    exact ⟨frame_T env r n ih, frame_C env r n ih, frame_S env r n ih, frame_F env r n ih,
      frame_H env r n ih⟩
/-! ## The definitions table along a run -/

theorem mapGet_mapSet {α : Type} (m : List (String × α)) (k k' : String) (v : α) :
    mapGet (mapSet m k v) k' = if k' = k then some v else mapGet m k' := by
  induction m with
  | nil =>
    by_cases h : k' = k
    · simp [mapSet, mapGet, h]
    · have h' : ¬ k = k' := fun e => h e.symm
      simp [mapSet, mapGet, h, h']
  | cons e rest ih =>
    obtain ⟨k0, v0⟩ := e
    by_cases h0 : k0 = k
    · by_cases h : k' = k
      · simp [mapSet, mapGet, h0, h]
      · have h' : ¬ k = k' := fun e => h e.symm
        simp [mapSet, mapGet, h0, h, h']
    · by_cases h : k' = k
      · subst h
        simp [mapSet, mapGet, h0, ih]
      · by_cases h1 : k0 = k'
        · simp [mapSet, mapGet, h0, h, h1]
        · simp [mapSet, mapGet, h0, h, h1, ih]

theorem DefsStep.drefl (env : TypeEnv) (r : Reflector) (extra : Option String) (d : Definitions) :
    DefsStep env r extra d d :=
  ⟨fun _ h => h, fun _ h => Or.inl h, fun _ _ _ _ _ h => h⟩

theorem DefsStep.dtrans {env : TypeEnv} {r : Reflector} {extra : Option String}
    {d1 d2 d3 : Definitions} (h12 : DefsStep env r extra d1 d2)
    (h23 : DefsStep env r extra d2 d3) : DefsStep env r extra d1 d3 := by
  refine ⟨fun k h => h23.1 k (h12.1 k h), ?_, ?_⟩
  · intro k h
    rcases h23.2.1 k h with h2 | h2 | h2
    · exact h12.2.1 k h2
    · exact Or.inr (Or.inl h2)
    · exact Or.inr (Or.inr h2)
  · intro hr hn k v he h
    exact h23.2.2 hr hn k v he (h12.2.2 hr hn k v he h)

theorem DefsStep.weaken {env : TypeEnv} {r : Reflector} {d d' : Definitions}
    (extra : Option String) (h : DefsStep env r none d d') : DefsStep env r extra d d' := by
  refine ⟨h.1, ?_, ?_⟩
  · intro k hk
    rcases h.2.1 k hk with h2 | h2 | h2
    · exact Or.inl h2
    · cases h2
    · exact Or.inr (Or.inr h2)
  · intro hr hn k v _ hv
    exact h.2.2 hr hn k v (by simp) hv

/-- Registering a name: allowed as `extra`. -/
theorem DefsStep.set_extra (env : TypeEnv) (r : Reflector) (d : Definitions) (k : String)
    (v : Addr) : DefsStep env r (some k) d (mapSet d k v) := by
  refine ⟨?_, ?_, ?_⟩
  · intro k' h
    rw [mapGet_mapSet]
    split
    · rfl
    · exact h
  · intro k' h
    rw [mapGet_mapSet] at h
    by_cases hk : k' = k
    · right; left; rw [hk]
    · simp only [hk, if_false] at h
      exact Or.inl h
  · intro _ _ k' v' he h
    rw [mapGet_mapSet]
    have : ¬ k' = k := fun e => he (by rw [e])
    simp only [this, if_false]
    exact h

/-- Registering the name of a registering type that is not yet in the table. -/
theorem DefsStep.set_new (env : TypeEnv) (r : Reflector) (d : Definitions) (u : TypeId)
    (v : Addr) (hu : Registers env u)
    (hnew : r.DoNotReference = false → NoCustom env → (mapGet d (typeName env r u)).isSome = false) :
    DefsStep env r none d (mapSet d (typeName env r u) v) := by
  have h := DefsStep.set_extra env r d (typeName env r u) v
  refine ⟨h.1, ?_, ?_⟩
  · intro k hk
    rcases h.2.1 k hk with h2 | h2 | h2
    · exact Or.inl h2
    · right; right
      simp only [Option.some.injEq] at h2
      exact ⟨u, hu, h2⟩
    · exact Or.inr (Or.inr h2)
  · intro hr hn k v' _ hv
    have hne : ¬ k = typeName env r u := by
      intro e
      have := hnew hr hn
      rw [← e, hv] at this
      simp at this
    exact h.2.2 hr hn k v' (by simpa using fun e => hne e.symm) hv
theorem DefsStep.of_extra {env : TypeEnv} {r : Reflector} {d d' : Definitions} {u : TypeId}
    (h : DefsStep env r (some (typeName env r u)) d d') (hu : Registers env u)
    (hnew : r.DoNotReference = false → NoCustom env →
      (mapGet d (typeName env r u)).isSome = false) :
    DefsStep env r none d d' := by
  refine ⟨h.1, ?_, ?_⟩
  · intro k hk
    rcases h.2.1 k hk with h2 | h2 | h2
    · exact Or.inl h2
    · right; right
      simp only [Option.some.injEq] at h2
      exact ⟨u, hu, h2⟩
    · exact Or.inr (Or.inr h2)
  · intro hr hn k v _ hv
    have hne : ¬ k = typeName env r u := by
      intro e
      have := hnew hr hn
      rw [← e, hv] at this
      simp at this
    exact h.2.2 hr hn k v (by simpa using fun e => hne e.symm) hv

theorem returnNew_defs (s s' : State) (n : Node) (a : Addr)
    (hrun : returnNew s n = Res.ok (a, s')) : s'.definitions = s.definitions := by
  simp only [returnNew, Res.ok.injEq, Prod.mk.injEq] at hrun
  rw [← hrun.2]

/-- When `reflectCustomType` returns nil it has not touched the state. -/
theorem reflectCustomType_nil (env : TypeEnv) (r : Reflector) :
    ∀ fuel t s s', reflectCustomType env r fuel t s = Res.ok (none, s') → s' = s := by
  intro fuel
  induction fuel with
  | zero => intro t s s' h; simp [reflectCustomType] at h
  | succ n ih =>
    intro t s s' h
    rw [reflectCustomType] at h
    split at h
    · exact ih _ _ _ h
    split at h
    · simp only at h
      split at h <;> simp at h
    · simp only [Res.ok.injEq, Prod.mk.injEq, true_and] at h
      exact h.symm

theorem forEach_defs {α : Type} (env : TypeEnv) (r : Reflector) (body : α → State → Res State)
    (hbody : ∀ x s s', body x s = Res.ok s' → DefsStep env r none s.definitions s'.definitions) :
    ∀ (xs : List α) (s s' : State), forEach body xs s = Res.ok s' →
      DefsStep env r none s.definitions s'.definitions := by
  intro xs
  induction xs with
  | nil =>
    intro s s' hrun
    simp only [forEach, Res.ok.injEq] at hrun
    rw [← hrun]; exact DefsStep.drefl _ _ _ _
  | cons x xs ih =>
    intro s s' hrun
    simp only [forEach] at hrun
    obtain ⟨s1, h1, h2⟩ := Res.bind_eq_ok hrun
    exact (hbody x s s1 h1).dtrans (ih s1 s' h2)

theorem defs_T (env : TypeEnv) (r : Reflector) (fuel : Nat) (ih : DefsAt env r fuel) :
    ∀ t s a s', reflectTypeToSchema env r (fuel + 1) t s = Res.ok (a, s') →
      DefsStep env r none s.definitions s'.definitions := by
  obtain ⟨ihT, ihC, ihS, -, -⟩ := ih
  intro t s a s' hrun
  rw [reflectTypeToSchema] at hrun
  split at hrun
  · rw [returnNew_defs _ _ _ _ hrun]; exact DefsStep.drefl _ _ _ _
  rename_i hfirst
  split at hrun
  · simp only [Res.ok.injEq, Prod.mk.injEq] at hrun
    rw [← hrun.2]; exact DefsStep.drefl _ _ _ _
  obtain ⟨⟨rt, s1⟩, hc, hrest⟩ := Res.bind_eq_ok hrun
  clear hrun
  have hC := ihC t s rt s1 hc
  have leaf : ∀ (s2 : State) (n : Node), returnNew s2 n = Res.ok (a, s') →
      DefsStep env r none s.definitions s2.definitions →
      DefsStep env r none s.definitions s'.definitions := by
    intro s2 n hr hd
    rw [returnNew_defs _ _ _ _ hr]; exact hd
  simp only at hrest
  split at hrest
  · simp only [Res.ok.injEq, Prod.mk.injEq] at hrest
    rw [← hrest.2]; exact hC
  have hs1 : s1 = s := reflectCustomType_nil env r fuel t s s1 hc
  split at hrest
  · exact leaf _ _ hrest hC
  split at hrest
  · exact leaf _ _ hrest hC
  split at hrest
  · -- struct
    rename_i hkind
    split at hrest
    · exact leaf _ _ hrest hC
    split at hrest
    · exact leaf _ _ hrest hC
    · have hS := ihS t s1 a s' hrest
      refine hC.dtrans (hS.of_extra (Or.inl hkind) ?_)
      intro hr _
      rw [hs1]
      simpa [hr] using hfirst
  · -- map
    split at hrest
    all_goals
      obtain ⟨⟨v, s2⟩, hv, hret⟩ := Res.bind_eq_ok hrest
      exact leaf _ _ hret (hC.dtrans (ihT _ _ _ _ hv))
  all_goals first
    | exact leaf _ _ hrest hC
    | cases hrest
    | exact hC.dtrans (ihT _ _ _ _ hrest)
    | skip
  all_goals
    split at hrest
    · exact leaf _ _ hrest hC
    split at hrest
    · exact leaf _ _ hrest hC
    · obtain ⟨⟨v, s2⟩, hv, hret⟩ := Res.bind_eq_ok hrest
      exact leaf _ _ hret (hC.dtrans (ihT _ _ _ _ hv))

theorem defs_C (env : TypeEnv) (r : Reflector) (fuel : Nat) (ih : DefsAt env r fuel) :
    ∀ t s o s', reflectCustomType env r (fuel + 1) t s = Res.ok (o, s') →
      DefsStep env r none s.definitions s'.definitions := by
  obtain ⟨-, ihC, -, -, -⟩ := ih
  intro t s o s' hrun
  rw [reflectCustomType] at hrun
  split at hrun
  · exact ihC _ _ _ _ hrun
  split at hrun
  · rename_i built hbuilt
    have hreg : Registers env t := Or.inr (by rw [hbuilt]; rfl)
    have hset := DefsStep.set_new env r s.definitions t (allocFragment s.heap built).1 hreg
      (fun _ hn => by have := hn t; rw [hbuilt] at this; simp at this)
    simp only at hrun
    split at hrun
    all_goals
      simp only [Res.ok.injEq, Prod.mk.injEq] at hrun
      rw [← hrun.2]; exact hset
  · simp only [Res.ok.injEq, Prod.mk.injEq] at hrun
    rw [← hrun.2]; exact DefsStep.drefl _ _ _ _

theorem defs_S (env : TypeEnv) (r : Reflector) (fuel : Nat) (ih : DefsAt env r fuel) :
    ∀ t s a s', reflectStruct env r (fuel + 1) t s = Res.ok (a, s') →
      DefsStep env r (some (typeName env r t)) s.definitions s'.definitions := by
  obtain ⟨-, ihC, -, ihF, -⟩ := ih
  intro t s a s' hrun
  rw [reflectStruct] at hrun
  obtain ⟨⟨custom, s1⟩, hc, hrest⟩ := Res.bind_eq_ok hrun
  clear hrun
  have hC := (ihC t s custom s1 hc).weaken (some (typeName env r t))
  simp only at hrest
  split at hrest
  · simp only [Res.ok.injEq, Prod.mk.injEq] at hrest
    rw [← hrest.2]; exact hC
  have hset := DefsStep.set_extra env r s1.definitions (typeName env r t) s1.heap.length
  split at hrest
  · split at hrest
    · simp only [Res.ok.injEq, Prod.mk.injEq] at hrest
      rw [← hrest.2]; exact hC.dtrans hset
    · rw [returnNew_defs _ _ _ _ hrest]; exact hC.dtrans hset
  · obtain ⟨s2, hf, hret⟩ := Res.bind_eq_ok hrest
    have hF := (ihF _ t _ s2 hf).weaken (some (typeName env r t))
    split at hret
    · simp only [Res.ok.injEq, Prod.mk.injEq] at hret
      rw [← hret.2]; exact hC.dtrans (hset.dtrans hF)
    · rw [returnNew_defs _ _ _ _ hret]; exact hC.dtrans (hset.dtrans hF)

theorem defs_F (env : TypeEnv) (r : Reflector) (fuel : Nat) (ih : DefsAt env r fuel) :
    ∀ st t s s', reflectStructFields env r (fuel + 1) st t s = Res.ok s' →
      DefsStep env r none s.definitions s'.definitions := by
  obtain ⟨-, -, -, -, ihH⟩ := ih
  intro st t s s' hrun
  rw [reflectStructFields] at hrun
  split at hrun
  all_goals
    split at hrun
    · simp only [Res.ok.injEq] at hrun
      rw [← hrun]; exact DefsStep.drefl _ _ _ _
    · obtain ⟨s1, h1, h2⟩ := Res.bind_eq_ok hrun
      have f1 := forEach_defs env r _ (fun f s s' hr => ihH st _ f s s' hr) _ s s1 h1
      split at h2
      · exact f1.dtrans (forEach_defs env r _ (fun f s s' hr => ihH st _ f s s' hr) _ s1 s' h2)
      · simp only [Res.ok.injEq] at h2
        rw [← h2]; exact f1

theorem finishField_defs (env : TypeEnv) (t : TypeId) (st : Addr) (f : StructField)
    (name : String) (required nullable : Bool) (p : Addr) (s s' : State)
    (hrun : finishField env t st f name required nullable p s = Res.ok s') :
    s'.definitions = s.definitions := by
  unfold finishField at hrun
  obtain ⟨h1, -, hrest⟩ := Res.bind_eq_ok hrun
  obtain ⟨h2, -, hfin⟩ := Res.bind_eq_ok hrest
  cases hfin
  rfl

theorem defs_H (env : TypeEnv) (r : Reflector) (fuel : Nat) (ih : DefsAt env r fuel) :
    ∀ st t f s s', handleField env r (fuel + 1) st t f s = Res.ok s' →
      DefsStep env r none s.definitions s'.definitions := by
  obtain ⟨ihT, -, -, ihF, -⟩ := ih
  intro st t f s s' hrun
  rw [handleField] at hrun
  simp only at hrun
  split at hrun
  · split at hrun
    · exact ihF st _ s s' hrun
    · simp only [Res.ok.injEq] at hrun
      rw [← hrun]; exact DefsStep.drefl _ _ _ _
  · obtain ⟨⟨p, s1⟩, hT, hfin⟩ := Res.bind_eq_ok hrun
    rw [finishField_defs _ _ _ _ _ _ _ _ _ _ hfin]
    exact ihT _ s p s1 hT

/-- The conditions on the definitions table hold at every amount of fuel. -/
theorem defsInv (env : TypeEnv) (r : Reflector) : ∀ fuel, DefsAt env r fuel := by
  intro fuel
  induction fuel with
  | zero =>
    refine ⟨?_, ?_, ?_, ?_, ?_⟩
    · intro t s a s' h; simp [reflectTypeToSchema] at h
    · intro t s a s' h; simp [reflectCustomType] at h
    · intro t s a s' h; simp [reflectStruct] at h
    · intro st t s s' h; simp [reflectStructFields] at h
    · intro st t f s s' h; simp [handleField] at h
  | succ n ih =>
    exact ⟨defs_T env r n ih, defs_C env r n ih, defs_S env r n ih, defs_F env r n ih,
      defs_H env r n ih⟩
/-! ## `reflectStruct` on a plain struct type -/

set_option maxRecDepth 100000 in
/-- The run of `reflectStruct` on `a.T` of `nestEnv` with `DoNotReference` set,
for every amount of fuel that lets it return. -/
theorem nestEnv_run (fuel : Nat) :
    reflectStruct nestEnv inlineReflector (fuel + 9) 0 {} =
      Res.ok (0,
        { definitions := [("T", 1)],
          heap :=
            [ { structNode inlineReflector with
                Required := ["Inner"], Properties := some [("Inner", 1)] },
              { structNode inlineReflector with
                Required := ["Y"], Properties := some [("Y", 2)] },
              { Typ := "integer" } ] }) := by
  rfl

set_option maxRecDepth 100000 in
/-- The same run with `b.T` listed in `IgnoredTypes`. -/
theorem nestEnv_ignoring_run (fuel : Nat) :
    reflectStruct nestEnv inlineIgnoringReflector (fuel + 6) 0 {} =
      Res.ok (0,
        { definitions := [("T", 1)],
          heap :=
            [ { structNode inlineIgnoringReflector with
                Required := ["Inner"], Properties := some [("Inner", 1)] },
              { Typ := "object", Properties := some [], AdditionalProperties := "true" } ] }) := by
  rfl

set_option maxRecDepth 100000 in
/-- C1 counterexample: in `nestEnv` the struct type `a.T` has the field `Inner` of
the struct type `b.T`, which has the same bare name.  With `DoNotReference` set,
`reflectStruct` on `a.T` stores its object node (address 0) under `T` and returns
that node, but reflecting the field stores the node of `b.T` (address 1) under
the same key: when `reflectStruct` returns, the entry under `typeName(a.T)` is not
the node it returns.  With `b.T` listed in `IgnoredTypes` the entry even has
`additionalProperties` `"true"`, although `AllowAdditionalProperties` is unset. -/
theorem same_name_field_counterexample :
    nestEnv.kind 0 = Kind.Struct ∧ (nestEnv.JSONSchemaType 0).isNone = true ∧
    inlineReflector.IgnoredTypes.contains 0 = false ∧
    inlineIgnoringReflector.IgnoredTypes.contains 0 = false ∧
    typeName nestEnv inlineReflector 0 = "T" ∧
    (∀ fuel, reflectStruct nestEnv inlineReflector (fuel + 9) 0 {} =
      Res.ok (0,
        { definitions := [("T", 1)],
          heap :=
            [ { structNode inlineReflector with
                Required := ["Inner"], Properties := some [("Inner", 1)] },
              { structNode inlineReflector with
                Required := ["Y"], Properties := some [("Y", 2)] },
              { Typ := "integer" } ] })) ∧
    (∀ fuel, reflectStruct nestEnv inlineIgnoringReflector (fuel + 6) 0 {} =
      Res.ok (0,
        { definitions := [("T", 1)],
          heap :=
            [ { structNode inlineIgnoringReflector with
                Required := ["Inner"], Properties := some [("Inner", 1)] },
              { Typ := "object", Properties := some [],
                AdditionalProperties := "true" } ] })) ∧
    inlineIgnoringReflector.AllowAdditionalProperties = false :=
  ⟨by decide, by decide, by decide, by decide, by decide, nestEnv_run, nestEnv_ignoring_run,
    rfl⟩

/-- C1, amended: for a struct type `t` that is neither a custom-schema type nor
listed in `IgnoredTypes`, `reflectStruct` allocates the object node `structNode r`
(type `"object"`, `additionalProperties` `"true"` when `AllowAdditionalProperties`
is set and `"false"` otherwise) at the address `st`, stores it under `typeName(t)`
in the definitions table, reflects the fields into it from that state, and
returns `st` itself when `DoNotReference` is set and otherwise a new node
`{$schema: Version, $ref: "#/definitions/" + typeName(t)}`; it returns whenever
reflecting the fields does.  When it returns, the
node at `st` is still an object node with that `additionalProperties` and the
table has an entry under `typeName(t)`; that entry is still `st` when referencing
is on and there is no custom-schema type.  (With `DoNotReference` set a field
type of the same name may have taken the key.) -/
theorem reflectStruct_registers (env : TypeEnv) (r : Reflector) (fuel : Nat) (t : TypeId)
    (s : State) (hk : env.kind t = Kind.Struct)
    (hc : (env.JSONSchemaType t).isNone = true) (hi : r.IgnoredTypes.contains t = false) :
    reflectStruct env r (fuel + 2) t s =
        (reflectStructFields env r (fuel + 1) s.heap.length t
          { definitions := mapSet s.definitions (typeName env r t) s.heap.length,
            heap := s.heap ++ [structNode r] }).bind
          (fun s2 =>
            if r.DoNotReference then Res.ok (s.heap.length, s2)
            else returnNew s2 (refNode r (typeName env r t))) ∧
      mapGet (mapSet s.definitions (typeName env r t) s.heap.length) (typeName env r t) =
        some s.heap.length ∧
      (∀ s2, reflectStructFields env r (fuel + 1) s.heap.length t
            { definitions := mapSet s.definitions (typeName env r t) s.heap.length,
              heap := s.heap ++ [structNode r] } = Res.ok s2 →
        ∃ a s', reflectStruct env r (fuel + 2) t s = Res.ok (a, s')) ∧
      ∀ a s', reflectStruct env r (fuel + 2) t s = Res.ok (a, s') →
        (rd s'.heap s.heap.length).Typ = "object" ∧
        (rd s'.heap s.heap.length).AdditionalProperties =
          (if r.AllowAdditionalProperties then "true" else "false") ∧
        (mapGet s'.definitions (typeName env r t)).isSome = true ∧
        (r.DoNotReference = true → a = s.heap.length) ∧
        (r.DoNotReference = false →
          a ≠ s.heap.length ∧ rd s'.heap a = refNode r (typeName env r t)) ∧
        (r.DoNotReference = false → NoCustom env →
          mapGet s'.definitions (typeName env r t) = some s.heap.length) := by
  have hptr : env.kind t ≠ Kind.Ptr := by rw [hk]; decide
  have heq : reflectStruct env r (fuel + 2) t s =
      (reflectStructFields env r (fuel + 1) s.heap.length t
        { definitions := mapSet s.definitions (typeName env r t) s.heap.length,
          heap := s.heap ++ [structNode r] }).bind
        (fun s2 =>
          if r.DoNotReference then Res.ok (s.heap.length, s2)
          else returnNew s2 (refNode r (typeName env r t))) := by
    rw [reflectStruct, reflectCustomType_none env r fuel t s hptr hc]
    simp only [Res.ok_bind, hi]
    rfl
  have hget : mapGet (mapSet s.definitions (typeName env r t) s.heap.length) (typeName env r t) =
      some s.heap.length := by
    rw [mapGet_mapSet]; simp
  refine ⟨heq, hget, ?_, ?_⟩
  · intro s2 hs2
    rw [heq, hs2]
    simp only [Res.ok_bind]
    split
    · exact ⟨_, _, rfl⟩
    · exact ⟨_, _, rfl⟩
  intro a s' hrun
  rw [heq] at hrun
  obtain ⟨s2, hf, hret⟩ := Res.bind_eq_ok hrun
  have hF := (frame env r (fuel + 1)).2.2.2.1 s.heap.length t _ s2
    (own_new s.heap (structNode r) rfl) hf
  have hD := (defsInv env r (fuel + 1)).2.2.2.1 s.heap.length t _ s2 hf
  have hnode := hF.2.2.2.1
  rw [rd_append_length] at hnode
  have htyp : (rd s2.heap s.heap.length).Typ = "object" := by
    have := congrArg Node.Typ hnode
    simpa [clearParent, structNode] using this
  have hap : (rd s2.heap s.heap.length).AdditionalProperties =
      (if r.AllowAdditionalProperties then "true" else "false") := by
    have := congrArg Node.AdditionalProperties hnode
    simpa [clearParent, structNode] using this
  have hkey : (mapGet s2.definitions (typeName env r t)).isSome = true :=
    hD.1 _ (by simp only at hget ⊢; rw [hget]; rfl)
  have hst : s.heap.length < s2.heap.length := hF.1.1
  by_cases hdnr : r.DoNotReference = true
  · simp only [hdnr, if_true, Res.ok.injEq, Prod.mk.injEq] at hret
    obtain ⟨rfl, rfl⟩ := hret
    exact ⟨htyp, hap, hkey, fun _ => rfl, fun h => (by simp [hdnr] at h),
      fun h => (by simp [hdnr] at h)⟩
  · have hdnr' : r.DoNotReference = false := by simpa using hdnr
    simp only [hdnr', returnNew, Res.ok.injEq, Prod.mk.injEq] at hret
    obtain ⟨rfl, rfl⟩ := hret
    simp only
    refine ⟨?_, ?_, hkey, fun h => (by simp [hdnr'] at h), fun _ => ⟨?_, ?_⟩, ?_⟩
    · rw [rd_append_lt _ _ _ hst]; exact htyp
    · rw [rd_append_lt _ _ _ hst]; exact hap
    · exact Nat.ne_of_gt hst
    · exact rd_append_length _ _
    · intro hr hn
      exact hD.2.2 hr hn _ _ (by simp) hget

set_option maxRecDepth 100000 in
/-- C1, amended, at an input: `Person` with an empty table and default
configuration. -/
theorem reflectStruct_registers_witness :
    personEnv.kind 0 = Kind.Struct ∧ (personEnv.JSONSchemaType 0).isNone = true ∧
      reflectStruct personEnv {} 5 0 {} =
        Res.ok (3,
          { definitions := [("Person", 0)],
            heap :=
              [ { Typ := "object", AdditionalProperties := "false", Required := ["Name"],
                  Properties := some [("Name", 1), ("Age", 2)] },
                { Typ := "string" }, { Typ := "integer" },
                { Ref := "#/definitions/Person" } ] }) ∧
      mapGet [("Person", 0)] "Person" = some 0 :=
  have hrun : reflectStruct personEnv {} 5 0 {} =
      Res.ok (3,
        { definitions := [("Person", 0)],
          heap :=
            [ { Typ := "object", AdditionalProperties := "false", Required := ["Name"],
                Properties := some [("Name", 1), ("Age", 2)] },
              { Typ := "string" }, { Typ := "integer" },
              { Ref := "#/definitions/Person" } ] }) := by decide
  ⟨by decide, by decide, hrun,
    ((reflectStruct_registers personEnv {} 3 0 {} (by decide) (by decide) (by decide)).2.2.2
      3 _ hrun).2.2.2.2.2 rfl (fun _ => rfl)⟩
/-! ## The tag keywords never shrink the heap -/

theorem foldl_length {α : Type} (step : Heap → α → Heap)
    (hstep : ∀ h x, h.length ≤ (step h x).length) :
    ∀ (xs : List α) (h : Heap), h.length ≤ (xs.foldl step h).length := by
  intro xs
  induction xs with
  | nil => intro h; exact le_refl _
  | cons x xs ih => intro h; exact le_trans (hstep h x) (ih (step h x))

theorem genericKeyword_length (t parent : Addr) (name : String) (h : Heap) (tag : String) :
    h.length ≤ (genericKeyword t parent name h tag).length := by
  unfold genericKeyword
  split
  · split
    · simp
    split
    · simp
    split
    · simp
    split
    · simp only [alloc]
      split <;> simp
    split
    · refine le_trans ?_ (foldl_length _ ?_ _ _)
      · simp
      · intro hh ty; simp [alloc]
    split
    · split
      · simp
      split
      · simp
      split
      · simp
      · exact le_refl _
    · exact le_refl _
  · exact le_refl _

theorem stringKeyword_length (t : Addr) (h : Heap) (tag : String) :
    h.length ≤ (stringKeyword t h tag).length := by
  unfold stringKeyword
  repeat (first | simp | exact le_refl _ | split)

theorem numbericKeyword_length (t : Addr) (h : Heap) (tag : String) :
    h.length ≤ (numbericKeyword t h tag).length := by
  unfold numbericKeyword
  repeat (first | simp | exact le_refl _ | split)

theorem arrayKeyword_length (t : Addr) (h h' : Heap) (dv dv' : List String) (tag : String)
    (hrun : arrayKeyword t (h, dv) tag = Res.ok (h', dv')) : h.length ≤ h'.length := by
  unfold arrayKeyword at hrun
  simp only at hrun
  split at hrun
  · split at hrun
    · cases hrun; simp
    split at hrun
    · cases hrun; simp
    split at hrun
    · cases hrun; simp
    split at hrun
    · cases hrun; exact le_refl _
    split at hrun
    · split at hrun
      · cases hrun
      · split at hrun
        · cases hrun; simp
        split at hrun
        · cases hrun; simp
        split at hrun
        · cases hrun; simp
        · cases hrun; exact le_refl _
    · cases hrun; exact le_refl _
  · cases hrun; exact le_refl _

theorem arrayKeywordsLoop_length (t : Addr) (tags : List String) :
    ∀ (h h' : Heap) (dv dv' : List String),
      arrayKeywordsLoop t tags (h, dv) = Res.ok (h', dv') → h.length ≤ h'.length := by
  induction tags with
  | nil =>
    intro h h' dv dv' hrun
    simp [arrayKeywordsLoop] at hrun
    rw [hrun.1]
  | cons tag rest ih =>
    intro h h' dv dv' hrun
    simp only [arrayKeywordsLoop] at hrun
    obtain ⟨⟨h1, dv1⟩, hstep, hrest⟩ := Res.bind_eq_ok hrun
    exact le_trans (arrayKeyword_length t h h1 dv dv1 tag hstep) (ih h1 h' dv1 dv' hrest)

theorem structKeywordsFromTags_length (t : Addr) (f : StructField) (parent : Addr)
    (name : String) (h h' : Heap)
    (hrun : structKeywordsFromTags t f parent name h = Res.ok h') : h.length ≤ h'.length := by
  unfold structKeywordsFromTags at hrun
  simp only at hrun
  obtain ⟨h3, htyped, hrest⟩ := Res.bind_eq_ok hrun
  have l2 : h.length ≤ (genericKeywords t (Split (f.Tag.Get "jsonschema") ',') parent name
      (upd h t (Node.setDescription (f.Tag.Get "jsonschema_description")))).length := by
    unfold genericKeywords
    refine le_trans ?_ (foldl_length _ (genericKeyword_length t parent name) _ _)
    simp
  have l3 : h.length ≤ h3.length := by
    split at htyped
    · cases htyped
      exact le_trans l2 (foldl_length _ (stringKeyword_length t) _ _)
    split at htyped
    · cases htyped
      exact le_trans l2 (foldl_length _ (numbericKeyword_length t) _ _)
    split at htyped
    · cases htyped
      exact le_trans l2 (foldl_length _ (numbericKeyword_length t) _ _)
    split at htyped
    · unfold arrayKeywords at htyped
      obtain ⟨⟨h4, dv4⟩, hloop, hfin⟩ := Res.bind_eq_ok htyped
      have := arrayKeywordsLoop_length t _ _ h4 [] dv4 hloop
      simp only at hfin
      split at hfin
      · cases hfin; simp; exact le_trans l2 this
      · cases hfin; exact le_trans l2 this
    · cases htyped; exact l2
  cases hrest
  refine le_trans l3 (foldl_length _ ?_ _ _)
  intro hh tag
  split
  · simp [setExtra]
  · exact le_refl _

theorem applyFieldDoc_length (env : TypeEnv) (t : TypeId) (f : StructField) (p : Addr)
    (h : Heap) : (applyFieldDoc env t f p h).length = h.length := by
  unfold applyFieldDoc
  split <;> simp
/-! ## The nullable wrapper -/

/-- C9: when `handleField` stores a property for a field (the field has a
property name), the stored node is determined by `base`, the node
`reflectTypeToSchema` returned for the field's type and the tag keywords (then
the documentation string, if the struct provides one) were applied to: for a
field reported nullable the parent's properties hold a new node whose only
populated member is `oneOf = [base, nullNode]` with `nullNode` a new node whose
only populated member is `type = "null"`; for a field not reported nullable they
hold `base` itself.  In both cases `base` is left as the keywords made it. -/
theorem handleField_nullable (env : TypeEnv) (r : Reflector) (fuel : Nat) (st : Nat)
    (t : TypeId) (f : StructField) (s s' : State) (hst : st < s.heap.length)
    (hname : (reflectFieldName r f).1 ≠ "")
    (hrun : handleField env r (fuel + 1) st t f s = Res.ok s') :
    ∃ base s1 h1 props,
      reflectTypeToSchema env r fuel f.Typ s = Res.ok (base, s1) ∧
      structKeywordsFromTags base f st (reflectFieldName r f).1 s1.heap = Res.ok h1 ∧
      rd s'.heap base = rd (applyFieldDoc env t f base h1) base ∧
      (rd s'.heap st).Properties = some props ∧
      (((reflectFieldName r f).2.2.2 = true ∧
          ∃ w nullNode, mapGet props (reflectFieldName r f).1 = some w ∧
            rd s'.heap w = { OneOf := [base, nullNode] } ∧
            rd s'.heap nullNode = { Typ := "null" }) ∨
        ((reflectFieldName r f).2.2.2 = false ∧
          mapGet props (reflectFieldName r f).1 = some base)) := by
  rcases hfn : reflectFieldName r f with ⟨name, embed, required, nullable⟩
  rw [hfn] at hname
  simp only at hname
  rw [handleField, hfn] at hrun
  simp only [hname, if_false] at hrun
  obtain ⟨⟨base, s1⟩, hT, hfin⟩ := Res.bind_eq_ok hrun
  have hx := (frame env r fuel).1 _ s base s1 hT
  unfold finishField at hfin
  obtain ⟨h1, htags, hrest⟩ := Res.bind_eq_ok hfin
  obtain ⟨h2, hstore, hok⟩ := Res.bind_eq_ok hrest
  cases hok
  have hlen1 : s1.heap.length ≤ h1.length := structKeywordsFromTags_length _ _ _ _ _ _ htags
  have hlenD := applyFieldDoc_length env t f base h1
  generalize hD : applyFieldDoc env t f base h1 = hd at hstore hlenD ⊢
  have hbase_st : st < (base : Nat) := lt_of_lt_of_le hst hx.2.1
  have hle : s1.heap.length ≤ hd.length := by omega
  have hbase_lt : @LT.lt Nat _ base hd.length := lt_of_lt_of_le hx.2.2.1 hle
  have hst_lt : st < hd.length := lt_trans hbase_st hbase_lt
  -- reading the final heap away from st
  have hkeep : ∀ (h3 : Heap) (a : Nat), a ≠ st →
      storeProperty st name required (wrapNullable nullable base hd).1 h3 = Res.ok h2 →
      rd h2 a = rd h3 a := by
    intro h3 a ha hs
    unfold storeProperty at hs
    split at hs
    · cases hs
    · simp only [Res.ok.injEq] at hs
      rw [← hs]
      split
      · rw [rd_upd_ne _ st a _ (Ne.symm ha), rd_upd_ne _ st a _ (Ne.symm ha)]
      · rw [rd_upd_ne _ st a _ (Ne.symm ha)]
  have hprops : ∀ (h3 : Heap) (q : Addr), st < h3.length →
      storeProperty st name required q h3 = Res.ok h2 →
      ∃ props, (rd h2 st).Properties = some props ∧ mapGet props name = some q := by
    intro h3 q hlt hs
    unfold storeProperty at hs
    split at hs
    · cases hs
    · rename_i properties _
      simp only [Res.ok.injEq] at hs
      refine ⟨mapSet properties name q, ?_, by rw [mapGet_mapSet]; simp⟩
      rw [← hs]
      split
      · rw [rd_upd_eq _ st _ (by simpa using hlt), rd_upd_eq _ st _ hlt]
        rfl
      · rw [rd_upd_eq _ st _ hlt]
        rfl
  refine ⟨base, s1, h1, ?_⟩
  rw [hD]
  cases nullable with
  | false =>
    simp only [wrapNullable] at hstore hkeep
    obtain ⟨props, hp1, hp2⟩ := hprops hd base hst_lt hstore
    refine ⟨props, hT, htags, ?_, hp1, Or.inr ⟨rfl, hp2⟩⟩
    simp only [Bool.false_eq_true, if_false] at hkeep
    show rd h2 base = rd hd base
    exact hkeep hd base (Nat.ne_of_gt hbase_st) hstore
  | true =>
    simp only [wrapNullable, if_true] at hstore hkeep
    have hst2 : st < (hd ++ [({ Typ := "null" } : Node)] ++
        [({ OneOf := [base, hd.length] } : Node)]).length := by
      simp only [List.length_append, List.length_singleton]; omega
    obtain ⟨props, hp1, hp2⟩ := hprops _ _ hst2 hstore
    refine ⟨props, hT, htags, ?_, hp1, Or.inl ⟨rfl, hd.length + 1, hd.length, hp2, ?_, ?_⟩⟩
    · show rd h2 base = rd hd base
      rw [hkeep _ base (Nat.ne_of_gt hbase_st) hstore,
        rd_append_lt _ _ base (by simp only [List.length_append, List.length_singleton]; omega),
        rd_append_lt _ _ base hbase_lt]
    · show rd h2 (hd.length + 1) = _
      rw [hkeep _ (hd.length + 1) (by omega) hstore]
      have := rd_append_length (hd ++ [{ Typ := "null" }]) { OneOf := [base, hd.length] }
      simpa using this
    · show rd h2 hd.length = _
      rw [hkeep _ hd.length (by omega) hstore,
        rd_append_lt _ _ hd.length (by simp), rd_append_length]

set_option maxRecDepth 100000 in
/-- C9, at an input: the field `Nick` of `Profile`, tagged `nullable,minLength=1`. -/
theorem handleField_nullable_witness :
    handleField profileEnv {} 3 0 0 nickField profileStart =
        Res.ok
          { definitions := [("Profile", 0)],
            heap :=
              [ { structNode {} with Properties := some [("Nick", 3)], Required := ["Nick"] },
                { Typ := "string", MinLength := 1 }, { Typ := "null" },
                { OneOf := [1, 2] } ] } ∧
      ∃ base s1 h1 props,
        reflectTypeToSchema profileEnv {} 2 nickField.Typ profileStart = Res.ok (base, s1) ∧
        structKeywordsFromTags base nickField 0 (reflectFieldName {} nickField).1 s1.heap =
          Res.ok h1 ∧
        rd
            [ { structNode {} with Properties := some [("Nick", 3)], Required := ["Nick"] },
              { Typ := "string", MinLength := 1 }, { Typ := "null" },
              { OneOf := [1, 2] } ] base =
          rd (applyFieldDoc profileEnv 0 nickField base h1) base ∧
        (rd
            [ { structNode {} with Properties := some [("Nick", 3)], Required := ["Nick"] },
              { Typ := "string", MinLength := 1 }, { Typ := "null" },
              { OneOf := [1, 2] } ] 0).Properties = some props ∧
        (((reflectFieldName {} nickField).2.2.2 = true ∧
            ∃ w nullNode, mapGet props (reflectFieldName {} nickField).1 = some w ∧
              rd
                  [ { structNode {} with Properties := some [("Nick", 3)], Required := ["Nick"] },
                    { Typ := "string", MinLength := 1 }, { Typ := "null" },
                    { OneOf := [1, 2] } ] w = { OneOf := [base, nullNode] } ∧
              rd
                  [ { structNode {} with Properties := some [("Nick", 3)], Required := ["Nick"] },
                    { Typ := "string", MinLength := 1 }, { Typ := "null" },
                    { OneOf := [1, 2] } ] nullNode = { Typ := "null" }) ∨
          ((reflectFieldName {} nickField).2.2.2 = false ∧
            mapGet props (reflectFieldName {} nickField).1 = some base)) :=
  have hrun : handleField profileEnv {} 3 0 0 nickField profileStart =
      Res.ok
        { definitions := [("Profile", 0)],
          heap :=
            [ { structNode {} with Properties := some [("Nick", 3)], Required := ["Nick"] },
              { Typ := "string", MinLength := 1 }, { Typ := "null" },
              { OneOf := [1, 2] } ] } := by decide
  ⟨hrun, handleField_nullable profileEnv {} 2 0 0 nickField profileStart _ (by decide)
    (by decide) hrun⟩
/-! ## Embedded structs -/

theorem forEach_append {α : Type} (body : α → State → Res State) (xs ys : List α) (s : State) :
    forEach body (xs ++ ys) s = (forEach body xs s).bind (forEach body ys) := by
  induction xs generalizing s with
  | nil => simp [forEach]
  | cons x xs ih =>
    simp only [List.cons_append, forEach]
    cases body x s with
    | ok s1 => simp [ih]
    | abort e => simp
    | timeout => simp

/-- An anonymous field without serialization tag, not marked ignored, is spliced:
no property name, embed set. -/
theorem reflectFieldName_embedded (r : Reflector) (f : StructField)
    (hanon : f.Anonymous = true) (hjson : f.Tag.Lookup "json" = none)
    (hyaml : f.Tag.Lookup "yaml" = none)
    (hign : ignoredByJSONSchemaTags (Split (f.Tag.Get "jsonschema") ',') = false)
    (hY : r.YAMLEmbeddedStructs = false) :
    (reflectFieldName r f).1 = "" ∧ (reflectFieldName r f).2.1 = true := by
  have hsplit : Split "" ',' = [""] := by decide
  have hnot : ignoredByJSONTags [""] = false := by decide
  simp [reflectFieldName, serializationTag, serializationTagExists, hanon, hjson, hyaml, hign,
    hY, hsplit, hnot]

/-- C10, as amended: with `YAMLEmbeddedStructs` unset, let the struct `S` have, at
any position of its field list, an anonymous field `f` without `json` or `yaml`
tag whose `jsonschema` tag does not mark it ignored.  Then reflecting the fields
of `S` into the object node `st` is: reflecting the fields before `f`, then
reflecting the fields of the type of `f` into the same node `st`, then reflecting
the fields after `f` (and the additional fields); the embedded field itself sets
no property and no required entry. -/
theorem reflectStructFields_embedded (env : TypeEnv) (r : Reflector) (fuel : Nat) (st : Addr)
    (S : TypeId) (s : State) (before after : List StructField) (f : StructField)
    (hS : env.kind S = Kind.Struct) (hfields : env.fields S = before ++ f :: after)
    (hanon : f.Anonymous = true) (hjson : f.Tag.Lookup "json" = none)
    (hyaml : f.Tag.Lookup "yaml" = none)
    (hign : ignoredByJSONSchemaTags (Split (f.Tag.Get "jsonschema") ',') = false)
    (hY : r.YAMLEmbeddedStructs = false) :
    reflectStructFields env r (fuel + 2) st S s =
      (((forEach (handleField env r (fuel + 1) st S) before s).bind
          (reflectStructFields env r fuel st f.Typ)).bind
          (forEach (handleField env r (fuel + 1) st S) after)).bind
        (fun s =>
          match r.AdditionalFields with
          | some additional => forEach (handleField env r (fuel + 1) st S) (additional S) s
          | none => Res.ok s) := by
  have hname := reflectFieldName_embedded r f hanon hjson hyaml hign hY
  have hH : ∀ s1, handleField env r (fuel + 1) st S f s1 =
      reflectStructFields env r fuel st f.Typ s1 := by
    intro s1
    rw [handleField]
    rcases hfn : reflectFieldName r f with ⟨name, embed, required, nullable⟩
    rw [hfn] at hname
    simp only at hname
    simp [hname.1, hname.2]
  have hptr : env.kind S ≠ Kind.Ptr := by rw [hS]; decide
  rw [reflectStructFields]
  simp only [if_neg hptr]
  simp only [hS, ne_eq, not_true_eq_false, if_false, hfields]
  rw [forEach_append]
  cases hb : forEach (handleField env r (fuel + 1) st S) before s with
  | ok s1 =>
    simp only [forEach, hH, Res.ok_bind]
  | abort e => rfl
  | timeout => rfl

set_option maxRecDepth 100000 in
/-- C10 as stated fails: the embedded field `Inner` of `Masked` is anonymous and
has no serialization tag, `YAMLEmbeddedStructs` is unset, the fields of `Inner`
on their own contribute the property and required entry `X`, and yet the node of
`Masked` gets `Y` only, because the `jsonschema:"-"` tag makes `reflectFieldName`
skip the field before the embedding rule is reached. -/
theorem embedded_ignored_counterexample :
    ((embedEnv.fields 3).map (fun f => (f.Anonymous, f.Tag.Lookup "json", f.Tag.Lookup "yaml")) =
        [(true, none, none), (false, none, none)]) ∧
      shapeOf (reflectStructFields embedEnv {} 6 0 1 emptyObject) 0 = some (["X"], ["X"]) ∧
      shapeOf (reflectStructFields embedEnv {} 6 0 3 emptyObject) 0 = some (["Y"], ["Y"]) := by
  decide

set_option maxRecDepth 100000 in
/-- C10 as amended, at an input: `Outer` embeds `Inner` without any tag, and its
node gets `X` from `Inner`, then its own `Y`. -/
theorem reflectStructFields_embedded_witness :
    embedEnv.kind 0 = Kind.Struct ∧
      shapeOf
          ((((forEach (handleField embedEnv {} 5 0 0) [] emptyObject).bind
              (reflectStructFields embedEnv {} 4 0 1)).bind
              (forEach (handleField embedEnv {} 5 0 0) [{ Name := "Y", Typ := 2 }])).bind
            (fun s => Res.ok s)) 0 =
        some (["X", "Y"], ["X", "Y"]) :=
  ⟨by decide,
    (reflectStructFields_embedded embedEnv {} 4 0 0 emptyObject []
        [{ Name := "Y", Typ := 2 }] { Name := "Inner", Typ := 1, Anonymous := true }
        (by decide) (by decide) (by decide) (by decide) (by decide) (by decide) (by decide)) ▸
      (by decide :
        shapeOf (reflectStructFields embedEnv {} 6 0 0 emptyObject) 0 =
          some (["X", "Y"], ["X", "Y"]))⟩
/-! ## Requiredness from the serialization tag -/

/-- With the default rule, a field that gets a property name is reported required
exactly when its serialization tag has no omit-if-empty marker. -/
theorem reflectFieldName_required (r : Reflector) (f : StructField)
    (hreq : r.RequiredFromJSONSchemaTags = false) (hname : (reflectFieldName r f).1 ≠ "") :
    (reflectFieldName r f).2.2.1 = !omitEmpty r f := by
  unfold reflectFieldName at hname ⊢
  unfold omitEmpty
  by_cases h1 : ignoredByJSONTags (Split (serializationTag r f) ',') = true
  · simp [h1] at hname
  · by_cases h2 : ignoredByJSONSchemaTags (Split (f.Tag.Get "jsonschema") ',') = true
    · simp [h1, h2] at hname
    · simp [h1, h2, hreq, requiredFromJSONTags]

theorem storeProperty_required {st : Nat} (name : String) (required : Bool) (q : Addr)
    (h h' : Heap) (hst : st < h.length) (hrun : storeProperty st name required q h = Res.ok h') :
    (rd h' st).Required = (rd h st).Required ++ (if required then [name] else []) := by
  unfold storeProperty at hrun
  split at hrun
  · cases hrun
  · rename_i properties _
    simp only [Res.ok.injEq] at hrun
    rw [← hrun]
    cases required with
    | false =>
      simp only [Bool.false_eq_true, if_false, List.append_nil]
      rw [rd_upd_eq h st _ hst]
      rfl
    | true =>
      simp only [if_true]
      rw [rd_upd_eq _ st _ (by simpa using hst), rd_upd_eq h st _ hst]
      rfl

/-- What handling one field that gets a property does to the required list of the
enclosing object node: the name is appended when the field is reported required,
and nothing else changes. -/
theorem handleField_required (env : TypeEnv) (r : Reflector) (fuel : Nat) (st : Nat)
    (t : TypeId) (f : StructField) (s s' : State) (ho : Own st s.heap)
    (hname : (reflectFieldName r f).1 ≠ "")
    (hrun : handleField env r (fuel + 1) st t f s = Res.ok s') :
    (rd s'.heap st).Required =
      (rd s.heap st).Required ++
        (if (reflectFieldName r f).2.2.1 then [(reflectFieldName r f).1] else []) := by
  rcases hfn : reflectFieldName r f with ⟨name, embed, required, nullable⟩
  rw [hfn] at hname
  simp only at hname
  rw [handleField, hfn] at hrun
  simp only [hname, if_false] at hrun
  obtain ⟨⟨base, s1⟩, hT, hfin⟩ := Res.bind_eq_ok hrun
  have hx := (frame env r fuel).1 _ s base s1 hT
  have hst := ho.1
  have hsb : st < (base : Nat) := lt_of_lt_of_le hst hx.2.1
  have ho1 := ho.of_extends hx.1
  unfold finishField at hfin
  obtain ⟨h1, htags, hrest⟩ := Res.bind_eq_ok hfin
  obtain ⟨h2, hstore, hok⟩ := Res.bind_eq_ok hrest
  cases hok
  have t1 := structKeywordsFromTags_step f name s1.heap h1 ho1 hsb hx.2.2.1
    (fun i hi => lt_of_lt_of_le hst (hx.2.2.2 i hi)) htags
  have t2 := applyFieldDoc_step env t f h1 t1.1 hsb
  have t12 := t1.ttrans t2
  have e3 := wrapNullable_extends nullable base (applyFieldDoc env t f base h1)
  have hst3 : st < (wrapNullable nullable base (applyFieldDoc env t f base h1)).2.length :=
    lt_of_lt_of_le t12.1.1 e3.1
  have hreq := storeProperty_required name required _ _ h2 hst3 hstore
  have hr3 : (rd (wrapNullable nullable base (applyFieldDoc env t f base h1)).2 st).Required =
      (rd s.heap st).Required := by
    rw [e3.2 st t12.1.1]
    have := congrArg Node.Required t12.2.2.2.1
    simp only [clearOneOf] at this
    rw [this, hx.1.2 st hst]
  show (rd h2 st).Required = _
  rw [hreq, hr3]

theorem forEach_required_mem (env : TypeEnv) (r : Reflector) (fuel : Nat) (st : Nat)
    (S : TypeId) :
    ∀ (fields : List StructField) (s s' : State), Own st s.heap →
      forEach (handleField env r (fuel + 1) st S) fields s = Res.ok s' →
      ∀ f, f ∈ fields → (reflectFieldName r f).1 ≠ "" → (reflectFieldName r f).2.2.1 = true →
        (reflectFieldName r f).1 ∈ (rd s'.heap st).Required := by
  have hH := (frame env r (fuel + 1)).2.2.2.2
  intro fields
  induction fields with
  | nil => intro s s' _ _ f hf; cases hf
  | cons x xs ih =>
    intro s s' ho hrun f hf hname hreq
    simp only [forEach] at hrun
    obtain ⟨s1, h1, h2⟩ := Res.bind_eq_ok hrun
    have f1 := hH st S x s s1 ho h1
    rcases List.mem_cons.mp hf with hfx | hfxs
    · subst hfx
      have hr := handleField_required env r fuel st S f s s1 ho hname h1
      rw [hreq] at hr
      have f2 := forEach_step _ (fun g a b hoa hg => hH st S g a b hoa hg) xs s1 s' f1.1 h2
      obtain ⟨l, hl⟩ := f2.2.2.2.2
      rw [hl, hr]
      simp
    · exact ih s1 s' f1.1 h2 f hfxs hname hreq

/-- C7, as amended: with the default requiredness rule (`RequiredFromJSONSchemaTags`
unset), when the fields of a struct `S` are reflected into the object node `st`:
the property name of every field of `S` that gets a property (it is not skipped
and not spliced) and has no omit-if-empty marker in its serialization tag is in
the node's required list at the end; and handling a field that gets a property
and has the marker leaves the required list as it was, so that its name is in the
list only if another field put it there. -/
theorem required_default_rule (env : TypeEnv) (r : Reflector) (fuel : Nat) (st : Nat)
    (S : TypeId) (s s' : State) (hreq : r.RequiredFromJSONSchemaTags = false)
    (hS : env.kind S = Kind.Struct) (ho : Own st s.heap)
    (hrun : reflectStructFields env r (fuel + 2) st S s = Res.ok s') :
    (∀ f, f ∈ env.fields S → (reflectFieldName r f).1 ≠ "" → omitEmpty r f = false →
        (reflectFieldName r f).1 ∈ (rd s'.heap st).Required) ∧
      (∀ f s1 s2, (reflectFieldName r f).1 ≠ "" → omitEmpty r f = true → Own st s1.heap →
        handleField env r (fuel + 1) st S f s1 = Res.ok s2 →
        (rd s2.heap st).Required = (rd s1.heap st).Required) := by
  have hH := (frame env r (fuel + 1)).2.2.2.2
  constructor
  · intro f hf hname homit
    have hrq : (reflectFieldName r f).2.2.1 = true := by
      rw [reflectFieldName_required r f hreq hname, homit]; rfl
    have hptr : env.kind S ≠ Kind.Ptr := by rw [hS]; decide
    rw [reflectStructFields] at hrun
    simp only [if_neg hptr] at hrun
    simp only [hS, ne_eq, not_true_eq_false, if_false] at hrun
    obtain ⟨s1, h1, h2⟩ := Res.bind_eq_ok hrun
    have hmem := forEach_required_mem env r fuel st S _ s s1 ho h1 f hf hname hrq
    have f1 := forEach_step _ (fun g a b hoa hg => hH st S g a b hoa hg) _ s s1 ho h1
    split at h2
    · have f2 := forEach_step _ (fun g a b hoa hg => hH st S g a b hoa hg) _ s1 s' f1.1 h2
      obtain ⟨l, hl⟩ := f2.2.2.2.2
      rw [hl]
      exact List.mem_append_left _ hmem
    · simp only [Res.ok.injEq] at h2
      rw [← h2]; exact hmem
  · intro f s1 s2 hname homit ho1 hrun1
    have hr := handleField_required env r fuel st S f s1 s2 ho1 hname hrun1
    rw [reflectFieldName_required r f hreq hname, homit] at hr
    simpa using hr

set_option maxRecDepth 100000 in
/-- C7 as stated fails: in `Pair` no field has a `jsonschema` tag, the field `B`
has the property name `x` and is tagged omit-if-empty, and `x` is in the required
list all the same, put there by the field `A` of the same property name. -/
theorem omitempty_duplicate_counterexample :
    (pairEnv.fields 0).map
        (fun f => ((reflectFieldName {} f).1, omitEmpty {} f, f.Tag.Lookup "jsonschema")) =
        [("x", false, none), ("x", true, none)] ∧
      shapeOf (reflectStructFields pairEnv {} 4 0 0 emptyObject) 0 = some (["x"], ["x"]) := by
  decide

set_option maxRecDepth 100000 in
/-- C7 as amended, at an input: `Nick` of `Profile` has no omit-if-empty marker and
is in the required list; handling `Bio`, which has the marker, adds nothing. -/
theorem required_default_rule_witness :
    Own 0 profileStart.heap ∧
      reflectStructFields profileEnv {} 4 0 0 profileStart =
        Res.ok { definitions := [("Profile", 0)], heap := profileHeap } ∧
      (reflectFieldName {} nickField).1 ∈ (rd profileHeap 0).Required ∧
      (∀ s1 s2, Own 0 s1.heap → handleField profileEnv {} 3 0 0 bioField s1 = Res.ok s2 →
        (rd s2.heap 0).Required = (rd s1.heap 0).Required) :=
  have hrun : reflectStructFields profileEnv {} 4 0 0 profileStart =
      Res.ok { definitions := [("Profile", 0)], heap := profileHeap } := by decide
  ⟨by decide, hrun,
    (required_default_rule profileEnv {} 2 0 0 profileStart _ rfl (by decide) (by decide)
      hrun).1 nickField (by decide) (by decide) (by decide),
    fun s1 s2 =>
      (required_default_rule profileEnv {} 2 0 0 profileStart _ rfl (by decide) (by decide)
        hrun).2 bioField s1 s2 (by decide) (by decide)⟩
/-! ## The end-to-end example -/

set_option maxRecDepth 100000 in
/-- C8 as stated fails: for the struct with `Name string` and `Age int` tagged
`json:",omitempty" jsonschema:"minimum=0"`, the property `Age` serializes as
`{"type":"integer"}`, not as `{"type":"integer","minimum":0}`: the keyword is
parsed and stored, but a `Minimum` of 0 is the zero value of a member tagged
`omitempty` and is left out of the JSON text. -/
theorem person_minimum_counterexample :
    (definitionReport (ReflectFromType personEnv defaultReflector 6 0) "Person" "Name" "Age").map
        (fun report => report.2) =
        some [(some "\x7b\"type\":\"string\"\x7d", some 0),
          (some "\x7b\"type\":\"integer\"\x7d", some 0)] ∧
      "\x7b\"type\":\"integer\"\x7d" ≠ "\x7b\"type\":\"integer\",\"minimum\":0\x7d" := by
  decide

set_option maxRecDepth 100000 in
/-- C8 as amended: reflecting the struct with `Name string` (no tag) and `Age int`
tagged `json:",omitempty" jsonschema:"minimum=0"` registers under `Person` an
object node whose required list is exactly `["Name"]`, whose properties are
`Name` then `Age`, where `Name` serializes as `{"type":"string"}` and `Age`, whose
`Minimum` is 0, serializes as `{"type":"integer"}`; the whole document is the
reference to that definition followed by the definitions. -/
theorem person_example :
    definitionReport (ReflectFromType personEnv defaultReflector 6 0) "Person" "Name" "Age" =
        some ((["Name", "Age"], ["Name"]),
          [(some "\x7b\"type\":\"string\"\x7d", some 0),
            (some "\x7b\"type\":\"integer\"\x7d", some 0)]) ∧
      (ReflectFromType personEnv defaultReflector 6 0).bind
          (fun x => Res.ok (Schema.MarshalJSON x.2 10 x.1)) =
        Res.ok (some ("\x7b\"$schema\":\"https://json-schema.org/draft-04/schema#\"," ++
          "\"$ref\":\"#/definitions/Person\",\"definitions\":\x7b\"Person\":\x7b" ++
          "\"required\":[\"Name\"],\"properties\":\x7b\"Name\":\x7b\"type\":\"string\"\x7d," ++
          "\"Age\":\x7b\"type\":\"integer\"\x7d\x7d,\"additionalProperties\":false," ++
          "\"type\":\"object\"\x7d\x7d\x7d")) := by
  decide
/-! ## A field of an unsupported kind -/

theorem Res.bind_ne_ok {α β : Type} {x : Res α} {f : α → Res β}
    (hx : ∀ a, x ≠ Res.ok a) : ∀ b, x.bind f ≠ Res.ok b := by
  intro b hb
  obtain ⟨a, ha, _⟩ := Res.bind_eq_ok hb
  exact hx a ha

theorem KeysRegistered.step {env : TypeEnv} {r : Reflector} {d d' : Definitions}
    (hk : KeysRegistered env r d) (hs : DefsStep env r none d d') : KeysRegistered env r d' := by
  intro k hk'
  rcases hs.2.1 k hk' with h | h | h
  · exact hk k h
  · cases h
  · exact h

theorem KeysRegistered.set {env : TypeEnv} {r : Reflector} {d : Definitions}
    (hk : KeysRegistered env r d) (u : TypeId) (hu : Registers env u) (a : Addr) :
    KeysRegistered env r (mapSet d (typeName env r u) a) := by
  intro k hk'
  rw [mapGet_mapSet] at hk'
  by_cases h : k = typeName env r u
  · exact ⟨u, hu, h.symm⟩
  · simp only [h, if_false] at hk'
    exact hk k hk'

/-- Handling a field that gets a property and whose type is of an unsupported
kind never returns. -/
theorem handleField_unsupported (env : TypeEnv) (r : Reflector) (f : StructField)
    (hname : (reflectFieldName r f).1 ≠ "") (hk : unsupportedKind (env.kind f.Typ))
    (hn : neverIntercepted env r f.Typ) :
    ∀ fuel st t s x, KeysRegistered env r s.definitions →
      handleField env r fuel st t f s ≠ Res.ok x := by
  intro fuel st t s x hkeys
  cases fuel with
  | zero => simp [handleField]
  | succ n =>
    rw [handleField]
    rcases hfn : reflectFieldName r f with ⟨name, embed, required, nullable⟩
    rw [hfn] at hname
    simp only at hname
    simp only [hname, if_false]
    apply Res.bind_ne_ok
    intro a
    obtain ⟨hfree, hmap, hcustom, hproto, hip⟩ := hn
    refine (unsupported_aborts env r f.Typ s hk ⟨?_, hmap, hcustom, hproto, hip⟩).2 n a
    rcases hfree with hd | hnames
    · exact Or.inr hd
    · left
      cases hg : mapGet s.definitions (typeName env r f.Typ) with
      | none => rfl
      | some v =>
        obtain ⟨u, hu, hname'⟩ := hkeys _ (by rw [hg]; rfl)
        exact absurd hname' (hnames u hu)

theorem forEach_unsupported (env : TypeEnv) (r : Reflector) (f : StructField)
    (hname : (reflectFieldName r f).1 ≠ "") (hk : unsupportedKind (env.kind f.Typ))
    (hn : neverIntercepted env r f.Typ) (fuel : Nat) (st : Addr) (t : TypeId) :
    ∀ (fields : List StructField) (s x : State), f ∈ fields →
      KeysRegistered env r s.definitions →
      forEach (handleField env r fuel st t) fields s ≠ Res.ok x := by
  intro fields
  induction fields with
  | nil => intro s x hf; cases hf
  | cons g gs ih =>
    intro s x hf hkeys hrun
    simp only [forEach] at hrun
    obtain ⟨s1, h1, h2⟩ := Res.bind_eq_ok hrun
    rcases List.mem_cons.mp hf with hfg | hfgs
    · subst hfg
      exact handleField_unsupported env r f hname hk hn fuel st t s s1 hkeys h1
    · have hd := (defsInv env r fuel).2.2.2.2 st t g s s1 h1
      exact ih s1 x hfgs (hkeys.step hd) h2

theorem reflectStructFields_unsupported (env : TypeEnv) (r : Reflector) (S : TypeId)
    (f : StructField) (hS : env.kind S = Kind.Struct) (hf : f ∈ env.fields S)
    (hname : (reflectFieldName r f).1 ≠ "") (hk : unsupportedKind (env.kind f.Typ))
    (hn : neverIntercepted env r f.Typ) :
    ∀ fuel st s x, KeysRegistered env r s.definitions →
      reflectStructFields env r fuel st S s ≠ Res.ok x := by
  intro fuel st s x hkeys
  cases fuel with
  | zero => simp [reflectStructFields]
  | succ n =>
    have hptr : env.kind S ≠ Kind.Ptr := by rw [hS]; decide
    rw [reflectStructFields]
    simp only [if_neg hptr]
    simp only [hS, ne_eq, not_true_eq_false, if_false]
    apply Res.bind_ne_ok
    intro a
    exact forEach_unsupported env r f hname hk hn n st S _ s a hf hkeys

/-- C6, as amended: let the struct type `S` declare a field that gets a property
(`reflectFieldName` gives it a name: it is not unexported, not tagged `-`, not
spliced) and whose type is of an unsupported kind and cannot be intercepted by an
earlier dispatch rule.  If `ReflectFromType` on `S` gets to reflect the fields of
`S`, it returns no schema, whatever the fuel: the pass as a whole fails. -/
theorem unsupported_field_fails (env : TypeEnv) (r : Reflector) (S : TypeId)
    (f : StructField) (hS : env.kind S = Kind.Struct) (hf : f ∈ env.fields S)
    (hname : (reflectFieldName r f).1 ≠ "") (hk : unsupportedKind (env.kind f.Typ))
    (hn : neverIntercepted env r f.Typ) (hroot : reachesFields env r S) :
    ∀ fuel x, ReflectFromType env r fuel S ≠ Res.ok x := by
  intro fuel x
  have hF := reflectStructFields_unsupported env r S f hS hf hname hk hn
  have hempty : KeysRegistered env r [] := by
    intro k hk'; simp [mapGet] at hk'
  unfold ReflectFromType
  by_cases hexp : r.ExpandedStruct = true
  · simp only [hexp, if_true]
    apply Res.bind_ne_ok
    intro a
    exact hF fuel _ _ a hempty
  · rcases hroot with h | ⟨hmap, hcustom, hproto, hip, htime, huri, hign⟩
    · exact absurd h hexp
    simp only [hexp, if_false]
    apply Res.bind_ne_ok
    intro a
    -- reflectTypeToSchema on S, from the empty table
    rw [Option.isNone_iff_eq_none] at hmap
    have hptr : env.kind S ≠ Kind.Ptr := by rw [hS]; decide
    cases fuel with
    | zero => simp [reflectTypeToSchema]
    | succ n =>
      rw [reflectTypeToSchema]
      simp only [mapGet, Option.isSome_none, Bool.false_and, hmap]
      cases n with
      | zero => simp [reflectCustomType]
      | succ m =>
        simp only [Bool.false_eq_true, if_false,
          reflectCustomType_none env r m S _ hptr hcustom, Res.ok_bind, hproto, hip, hS, htime,
          huri]
        -- reflectStruct on S
        rw [reflectStruct]
        cases m with
        | zero => simp [reflectCustomType]
        | succ k =>
          simp only [reflectCustomType_none env r k S _ hptr hcustom, Res.ok_bind, hign]
          simp only [Bool.false_eq_true, if_false]
          apply Res.bind_ne_ok
          intro b
          exact hF _ _ _ b (hempty.set S (Or.inl hS) _)

set_option maxRecDepth 100000 in
/-- C6 as stated fails: `Handler` declares the unexported field `callback` of a
function type and `Muted` declares a function-typed field tagged `json:"-"`; for
both `ReflectFromType` returns a schema that simply omits the field. -/
theorem skipped_func_field_counterexample :
    (funcEnv.fields 0).map (fun f => (f.Name, funcEnv.kind f.Typ)) =
        [("Name", Kind.String), ("callback", Kind.Func)] ∧
      (funcEnv.fields 4).map (fun f => (f.Name, funcEnv.kind f.Typ)) =
        [("Name", Kind.String), ("Callback", Kind.Func)] ∧
      (documentReport (ReflectFromType funcEnv defaultReflector 6 0) "Handler").map
          (fun report => report.2) = some (["Name"], ["Name"]) ∧
      (documentReport (ReflectFromType funcEnv defaultReflector 6 4) "Muted").map
          (fun report => report.2) = some (["Name"], ["Name"]) := by
  decide

/-- In `funcEnv` the struct types are `Handler`, `Exposed` and `Muted`; none is
named like the function type. -/
theorem funcEnv_names (u : TypeId) (hu : Registers funcEnv u) :
    typeName funcEnv defaultReflector u ≠ typeName funcEnv defaultReflector 2 := by
  have hcases : u = 0 ∨ u = 3 ∨ u = 4 := by
    by_contra hne
    rcases hu with h | h
    · simp only [funcEnv, exampleEnv, hne, if_false] at h
      split at h
      · cases h
      · split at h <;> cases h
    · simp [funcEnv, exampleEnv] at h
  rcases hcases with h | h | h <;> subst h <;> decide

set_option maxRecDepth 100000 in
/-- C6 as amended, at an input: `Exposed` has the exported function-typed field
`Callback`, the pass aborts, and it returns with no amount of fuel. -/
theorem unsupported_field_fails_witness :
    funcEnv.kind 3 = Kind.Struct ∧ callbackField ∈ funcEnv.fields 3 ∧
      neverIntercepted funcEnv defaultReflector callbackField.Typ ∧
      ReflectFromType funcEnv defaultReflector 6 3 =
        Res.abort (Abort.unsupportedType "unsupported type func()") ∧
      ∀ fuel x, ReflectFromType funcEnv defaultReflector fuel 3 ≠ Res.ok x :=
  have hn : neverIntercepted funcEnv defaultReflector callbackField.Typ :=
    ⟨Or.inr funcEnv_names, by decide, by decide, by decide, by decide⟩
  ⟨by decide, by decide, hn, by decide,
    unsupported_field_fails funcEnv defaultReflector 3 callbackField (by decide) (by decide)
      (by decide) (by decide) hn (by decide)⟩

/-! ## A struct that embeds a pointer to itself -/

/-- In `selfEnv` the embedded field of `T` is spliced in: no name, embedding on. -/
theorem selfField_name : reflectFieldName defaultReflector selfField = ("", true, true, false) := by
  decide

/-- In `selfEnv`, `reflectStructFields` on `T` or on `*T` does not return, however
much fuel it is given: on `T` it calls `handleField` on the embedded field, which
calls `reflectStructFields` on `*T`, which steps to `T`. -/
theorem reflectStructFields_self (fuel : Nat) :
    ∀ (st : Addr) (s : State),
      reflectStructFields selfEnv defaultReflector fuel st 0 s = Res.timeout ∧
      reflectStructFields selfEnv defaultReflector fuel st 1 s = Res.timeout := by
  induction fuel using Nat.strong_induction_on with
  | _ fuel ih =>
    intro st s
    have key : ∀ n, n ≤ fuel →
        forEach (handleField selfEnv defaultReflector n st 0) [selfField] s = Res.timeout := by
      intro n hn
      cases n with
      | zero => simp [forEach, handleField]
      | succ m =>
        have hm : reflectStructFields selfEnv defaultReflector m st selfField.Typ s =
            Res.timeout := (ih m (by omega) st s).2
        simp only [forEach, handleField, selfField_name]
        simp [hm]
    cases fuel with
    | zero => simp [reflectStructFields]
    | succ n =>
      have hk := key n (by omega)
      have hfields : selfEnv.fields 0 = [selfField] := by decide
      have h0 : selfEnv.kind 0 = Kind.Struct := by decide
      have h1 : selfEnv.kind 1 = Kind.Ptr := by decide
      have he : selfEnv.elem 1 = 0 := by decide
      constructor
      · simp only [reflectStructFields]
        simp [h0, hfields, hk]
      · simp only [reflectStructFields]
        simp [h0, h1, he, hfields, hk]

/-- In `selfEnv`, `reflectStruct` on `T` does not return, whatever the fuel. -/
theorem reflectStruct_self (fuel : Nat) (s : State) :
    reflectStruct selfEnv defaultReflector fuel 0 s = Res.timeout := by
  have h0 : selfEnv.kind 0 = Kind.Struct := by decide
  have hc : selfEnv.JSONSchemaType 0 = none := rfl
  have hI : (0 : TypeId) ∉ defaultReflector.IgnoredTypes := by simp [defaultReflector]
  cases fuel with
  | zero => simp [reflectStruct]
  | succ n =>
    cases n with
    | zero => simp [reflectStruct, reflectCustomType]
    | succ m =>
      have hF := fun st s => (reflectStructFields_self (m + 1) st s).1
      simp only [reflectStruct, reflectCustomType]
      simp [h0, hc, hI, hF]

/-- C3, at the failing input `type T struct { *T }` with the default reflector
(referencing enabled, no hook): whatever the fuel, `ReflectFromType` does not
return; the run never leaves the recursion of `reflectStructFields` through the
embedded field. -/
theorem embedded_self_pointer_diverges (fuel : Nat) :
    ReflectFromType selfEnv defaultReflector fuel 0 = Res.timeout := by
  have h0 : selfEnv.kind 0 = Kind.Struct := by decide
  have hc : selfEnv.JSONSchemaType 0 = none := rfl
  have hp : selfEnv.implementsProtoEnum 0 = false := rfl
  have hip : (0 : TypeId) ≠ selfEnv.ipType := by decide
  have htt : (0 : TypeId) ≠ selfEnv.timeType := by decide
  have hut : (0 : TypeId) ≠ selfEnv.uriType := by decide
  have hE : defaultReflector.ExpandedStruct = false := rfl
  have hM : defaultReflector.TypeMapper = none := rfl
  have hD : defaultReflector.DoNotReference = false := rfl
  unfold ReflectFromType
  simp only [hE, Bool.false_eq_true, if_false]
  cases fuel with
  | zero => simp [reflectTypeToSchema]
  | succ a =>
    cases a with
    | zero => simp [reflectTypeToSchema, reflectCustomType, mapGet, hM]
    | succ b =>
      simp only [reflectTypeToSchema, reflectCustomType]
      simp [mapGet, h0, hc, hp, hip, htt, hut, hM, reflectStruct_self]

/-! ## Types on which the reflection does not terminate -/

/-- Where no type implements the custom-schema interface, `reflectCustomType`
runs out of fuel or returns nil and leaves the state alone. -/
theorem reflectCustomType_plain (env : TypeEnv) (r : Reflector)
    (hc : ∀ t, env.JSONSchemaType t = none) :
    ∀ fuel t s, reflectCustomType env r fuel t s = Res.timeout ∨
      reflectCustomType env r fuel t s = Res.ok (none, s) := by
  intro fuel
  induction fuel with
  | zero => intro t s; left; simp [reflectCustomType]
  | succ n ih =>
    intro t s
    rw [reflectCustomType]
    split
    · exact ih _ _
    · right; simp [hc t]

/-- In `listEnv`, `reflectTypeToSchema` on `L` does not return, whatever the fuel:
the slice case calls it again on the element type, `L` itself, and no rule before
the switch applies, since only struct and custom-schema types are ever entered in
the definitions. -/
theorem reflectTypeToSchema_list (fuel : Nat) :
    ∀ s : State, s.definitions = [] →
      reflectTypeToSchema listEnv defaultReflector fuel 0 s = Res.timeout := by
  induction fuel with
  | zero => intro s _; simp [reflectTypeToSchema]
  | succ n ih =>
    intro s hs
    have hk : listEnv.kind 0 = Kind.Slice := by decide
    have he : listEnv.elem 0 = 0 := by decide
    have hp : listEnv.implementsProtoEnum 0 = false := rfl
    have hip : (0 : TypeId) ≠ listEnv.ipType := by decide
    have hraw : (0 : TypeId) ≠ listEnv.rawMessageType := by decide
    have hb : (0 : TypeId) ≠ listEnv.byteType := by decide
    have hM : defaultReflector.TypeMapper = none := rfl
    rw [reflectTypeToSchema]
    rcases reflectCustomType_plain listEnv defaultReflector (fun _ => rfl) n 0 s with hC | hC
    · simp [hs, mapGet, hM, hC]
    · simp [hs, mapGet, hM, hC, hk, he, hp, hip, hraw, hb, ih s hs]

/-- In `nodeEnv` with `DoNotReference` set, `reflectTypeToSchema` on `N` and on
`*N` does not return, whatever the fuel: the test on the definitions is switched
off, so the field `Next` leads back to `N` again and again. -/
theorem reflectTypeToSchema_inline (fuel : Nat) :
    ∀ s : State,
      reflectTypeToSchema nodeEnv inlineReflector fuel 0 s = Res.timeout ∧
      reflectTypeToSchema nodeEnv inlineReflector fuel 1 s = Res.timeout := by
  induction fuel using Nat.strong_induction_on with
  | _ fuel ih =>
    intro s
    have hD : inlineReflector.DoNotReference = true := rfl
    have hM : inlineReflector.TypeMapper = none := rfl
    have hA : inlineReflector.AdditionalFields = none := rfl
    have hI : ∀ t : TypeId, t ∉ inlineReflector.IgnoredTypes := by simp [inlineReflector]
    have hk0 : nodeEnv.kind 0 = Kind.Struct := by decide
    have hk1 : nodeEnv.kind 1 = Kind.Ptr := by decide
    have he : nodeEnv.elem 1 = 0 := by decide
    have hp : ∀ t, nodeEnv.implementsProtoEnum t = false := fun _ => rfl
    have hip0 : (0 : TypeId) ≠ nodeEnv.ipType := by decide
    have hip1 : (1 : TypeId) ≠ nodeEnv.ipType := by decide
    have htt : (0 : TypeId) ≠ nodeEnv.timeType := by decide
    have hut : (0 : TypeId) ≠ nodeEnv.uriType := by decide
    have hfields : nodeEnv.fields 0 = [ { Name := "Next", Typ := 1 } ] := by decide
    have hname : reflectFieldName inlineReflector { Name := "Next", Typ := 1 } =
        ("Next", false, true, false) := by decide
    have hC := reflectCustomType_plain nodeEnv inlineReflector (fun _ => rfl)
    -- the field `Next`
    have hNext : ∀ n, n ≤ fuel → ∀ st s,
        handleField nodeEnv inlineReflector n st 0 { Name := "Next", Typ := 1 } s =
          Res.timeout := by
      intro n hn st s
      cases n with
      | zero => simp [handleField]
      | succ m =>
        simp only [handleField, hname]
        simp [(ih m (by omega) s).2]
    -- the loop over the fields
    have hLoop : ∀ n, n ≤ fuel → ∀ st s,
        forEach (handleField nodeEnv inlineReflector n st 0) (nodeEnv.fields 0) s =
          Res.timeout := by
      intro n hn st s
      rw [hfields]
      simp [forEach, hNext n hn st s]
    -- the struct
    have hStruct : ∀ n, n ≤ fuel → ∀ s, reflectStruct nodeEnv inlineReflector n 0 s =
        Res.timeout := by
      intro n hn s
      cases n with
      | zero => simp [reflectStruct]
      | succ m =>
        rw [reflectStruct]
        rcases hC m 0 s with h | h
        · simp [h]
        · cases m with
          | zero => simp [reflectCustomType] at h
          | succ k =>
            simp only [h, Res.ok_bind, reflectStructFields]
            simp [hI, hk0, hLoop k (by omega)]
    cases fuel with
    | zero => simp [reflectTypeToSchema]
    | succ n =>
      constructor
      · rw [reflectTypeToSchema]
        rcases hC n 0 s with h | h
        · simp [hD, hM, h]
        · simp [hD, hM, h, hp, hip0, hk0, htt, hut, hStruct n (by omega)]
      · rw [reflectTypeToSchema]
        rcases hC n 1 s with h | h
        · simp [hD, hM, h]
        · simp [hD, hM, h, hp, hip1, hk1, he, (ih n (by omega) s).1]

/-- C4 as stated fails.  Every type below has a supported kind (a slice, a struct,
a pointer), yet `ReflectFromType` never returns, whatever the fuel: on the named
slice `type L []L` with the default reflector, and on
`type N struct { Next *N }` with `DoNotReference` set. -/
theorem self_reference_counterexample :
    listEnv.kind 0 = Kind.Slice ∧ listEnv.elem 0 = 0 ∧
      (∀ fuel, ReflectFromType listEnv defaultReflector fuel 0 = Res.timeout) ∧
      nodeEnv.kind 0 = Kind.Struct ∧ nodeEnv.kind 1 = Kind.Ptr ∧ nodeEnv.elem 1 = 0 ∧
      (nodeEnv.fields 0).map (fun f => (f.Name, f.Typ)) = [("Next", 1)] ∧
      (∀ fuel, ReflectFromType nodeEnv inlineReflector fuel 0 = Res.timeout) := by
  refine ⟨by decide, by decide, ?_, by decide, by decide, by decide, by decide, ?_⟩
  · intro fuel
    have hE : defaultReflector.ExpandedStruct = false := rfl
    simp [ReflectFromType, hE, reflectTypeToSchema_list fuel {} rfl]
  · intro fuel
    have hE : inlineReflector.ExpandedStruct = false := rfl
    simp [ReflectFromType, hE, (reflectTypeToSchema_inline fuel {}).1]

/-! ## Termination on ranked types -/

theorem Res.Ends.of_ok {α : Type} (a : α) : (Res.ok a).Ends :=
  ⟨by simp, by simp⟩

theorem Res.Ends.of_nil {α : Type} : (Res.abort Abort.nilDereference : Res α).Ends :=
  ⟨by simp, by simp⟩

theorem Res.Ends.bind {α β : Type} {x : Res α} {f : α → Res β} (hx : x.Ends)
    (hf : ∀ a, x = Res.ok a → (f a).Ends) : (x.bind f).Ends := by
  cases x with
  | ok a => simpa using hf a rfl
  | abort e =>
    cases e with
    | unsupportedType msg => exact absurd rfl (hx.2 msg)
    | nilDereference => simpa using Res.Ends.of_nil
  | timeout => exact absurd rfl hx.1

theorem returnNew_ends (s : State) (n : Node) : (returnNew s n).Ends :=
  Res.Ends.of_ok _

theorem pending_le (env : TypeEnv) (r : Reflector) (U : List TypeId) (d : Definitions) :
    pending env r U d ≤ U.length :=
  List.countP_le_length _

theorem pending_mono (env : TypeEnv) (r : Reflector) (U : List TypeId) (d d' : Definitions)
    (h : ∀ k, (mapGet d k).isSome = true → (mapGet d' k).isSome = true) :
    pending env r U d' ≤ pending env r U d := by
  unfold pending
  apply List.countP_mono_left
  intro t _ ht
  cases hd : mapGet d (typeName env r t) with
  | none => rfl
  | some v =>
    have := h _ (by rw [hd]; rfl)
    cases hd' : mapGet d' (typeName env r t) with
    | none => rw [hd'] at this; simp at this
    | some v' => rw [hd'] at ht; simp at ht

theorem countP_lt_of_mem {α : Type} (p q : α → Bool) :
    ∀ (l : List α), (∀ x ∈ l, p x = true → q x = true) →
      ∀ a ∈ l, q a = true → p a = false → l.countP p < l.countP q := by
  intro l
  induction l with
  | nil => intro _ a ha; simp at ha
  | cons x xs ih =>
    intro himp a ha hq hp
    have hmono : xs.countP p ≤ xs.countP q :=
      List.countP_mono_left (fun y hy => himp y (List.mem_cons_of_mem _ hy))
    rcases List.mem_cons.mp ha with hax | hax
    · subst hax
      rw [List.countP_cons, List.countP_cons]
      simp only [hq, hp, if_true]
      simp only [Bool.false_eq_true, if_false]
      omega
    · have hrec := ih (fun y hy => himp y (List.mem_cons_of_mem _ hy)) a hax hq hp
      have hx := himp x (List.mem_cons_self _ _)
      rw [List.countP_cons, List.countP_cons]
      by_cases hpx : p x = true
      · simp only [hpx, hx hpx, if_true]; omega
      · have hpx' : p x = false := by simpa using hpx
        by_cases hqx : q x = true
        · simp only [hpx', hqx, if_true, Bool.false_eq_true, if_false]; omega
        · have hqx' : q x = false := by simpa using hqx
          simp only [hpx', hqx', Bool.false_eq_true, if_false]; omega

/-- Entering the name of a pending type of `U` in the definitions leaves fewer
types pending. -/
theorem pending_set_lt (env : TypeEnv) (r : Reflector) (U : List TypeId) (d : Definitions)
    (t : TypeId) (v : Addr) (ht : t ∈ U) (hnone : (mapGet d (typeName env r t)).isSome = false) :
    pending env r U (mapSet d (typeName env r t) v) < pending env r U d := by
  unfold pending
  apply countP_lt_of_mem _ _ U _ t ht
  · cases hd : mapGet d (typeName env r t) with
    | none => rfl
    | some w => rw [hd] at hnone; simp at hnone
  · rw [mapGet_mapSet]; simp
  · intro u _ hu
    rw [mapGet_mapSet] at hu
    by_cases e : typeName env r u = typeName env r t
    · simp [e] at hu
    · simpa [e] using hu

theorem pending_set_le (env : TypeEnv) (r : Reflector) (U : List TypeId) (d : Definitions)
    (name : String) (v : Addr) :
    pending env r U (mapSet d name v) ≤ pending env r U d := by
  apply pending_mono
  intro k hk
  rw [mapGet_mapSet]
  by_cases e : k = name
  · simp [e]
  · simpa [e] using hk

theorem rank_le_bound (rank : TypeId → Nat) (U : List TypeId) (t : TypeId) (ht : t ∈ U) :
    rank t ≤ rankBound rank U := by
  unfold rankBound
  induction U with
  | nil => simp at ht
  | cons x xs ih =>
    rcases List.mem_cons.mp ht with h | h
    · subst h; simp
    · have := ih h
      simp only [List.foldr_cons]
      omega

theorem fuelT_mono (b : Bool) (R k k' ρ ρ' : Nat) (hk : k' ≤ k) (hρ : ρ' ≤ ρ) :
    fuelT b R k' ρ' ≤ fuelT b R k ρ := by
  have := Nat.mul_le_mul_left (2 * R + 8) hk
  unfold fuelT
  cases b <;> simp <;> omega

theorem fuelF_mono (b : Bool) (R k k' ρ ρ' : Nat) (hk : k' ≤ k) (hρ : ρ' ≤ ρ) :
    fuelF b R k' ρ' ≤ fuelF b R k ρ := by
  have := Nat.mul_le_mul_left (2 * R + 8) hk
  unfold fuelF
  cases b <;> simp <;> omega

theorem fuelT_rank (b : Bool) (R k ρ : Nat) : ρ + 4 ≤ fuelT b R k ρ := by
  unfold fuelT
  cases b <;> simp <;> omega

theorem fuelF_rank (b : Bool) (R k ρ : Nat) : ρ + 2 ≤ fuelF b R k ρ := by
  unfold fuelF
  cases b <;> simp <;> omega

/-- From a container to its element type. -/
theorem fuelT_elem (b : Bool) (R k k' ρ ρ' : Nat) (hk : k' ≤ k) (hρ : ρ' < ρ) :
    fuelT b R k' ρ' + 1 ≤ fuelT b R k ρ := by
  have := Nat.mul_le_mul_left (2 * R + 8) hk
  unfold fuelT
  cases b <;> simp <;> omega

/-- From a struct type to its fields, with referencing on: its name has just been
entered in the definitions. -/
theorem fuelT_struct (R k k' ρ : Nat) (hk : k' < k) :
    fuelF false R k' ρ + 2 ≤ fuelT false R k ρ := by
  have := Nat.mul_le_mul_left (2 * R + 8) (Nat.succ_le_of_lt hk)
  rw [Nat.mul_succ] at this
  unfold fuelT fuelF
  simp
  omega

/-- From a struct type to its fields, with `DoNotReference` set. -/
theorem fuelT_struct_inline (R k k' ρ : Nat) : fuelF true R k' ρ + 2 ≤ fuelT true R k ρ := by
  unfold fuelT fuelF
  simp

/-- From the fields of a struct to the type of a field that gets a property, with
referencing on. -/
theorem fuelF_named (R k k' ρ ρ' : Nat) (hk : k' ≤ k) (hρ : ρ' ≤ R) :
    fuelT false R k' ρ' + 2 ≤ fuelF false R k ρ := by
  have := Nat.mul_le_mul_left (2 * R + 8) hk
  unfold fuelT fuelF
  simp
  omega

/-- From the fields of a struct to the type of a field that gets a property, with
`DoNotReference` set. -/
theorem fuelF_named_inline (R k k' ρ ρ' : Nat) (hρ : ρ' < ρ) :
    fuelT true R k' ρ' + 2 ≤ fuelF true R k ρ := by
  unfold fuelT fuelF
  simp
  omega

/-- From the fields of a struct to those of a type spliced into it. -/
theorem fuelF_spliced (b : Bool) (R k k' ρ ρ' : Nat) (hk : k' ≤ k) (hρ : ρ' < ρ) :
    fuelF b R k' ρ' + 2 ≤ fuelF b R k ρ := by
  have := Nat.mul_le_mul_left (2 * R + 8) hk
  unfold fuelF
  cases b <;> simp <;> omega

theorem arrayKeyword_ends (t : Addr) (st : Heap × List String) (tag : String) :
    (arrayKeyword t st tag).Ends := by
  obtain ⟨h, dv⟩ := st
  unfold arrayKeyword
  simp only
  split
  · repeat' split
    all_goals first
      | exact Res.Ends.of_ok _
      | exact Res.Ends.of_nil
  · exact Res.Ends.of_ok _

theorem arrayKeywordsLoop_ends (t : Addr) :
    ∀ (tags : List String) (st : Heap × List String), (arrayKeywordsLoop t tags st).Ends := by
  intro tags
  induction tags with
  | nil => intro st; exact Res.Ends.of_ok _
  | cons tag rest ih =>
    intro st
    simp only [arrayKeywordsLoop]
    exact (arrayKeyword_ends t st tag).bind (fun a _ => ih a)

theorem arrayKeywords_ends (t : Addr) (tags : List String) (h : Heap) :
    (arrayKeywords t tags h).Ends := by
  unfold arrayKeywords
  apply (arrayKeywordsLoop_ends _ _ _).bind
  intro a _
  obtain ⟨h1, dv⟩ := a
  simp only
  split <;> exact Res.Ends.of_ok _

theorem structKeywordsFromTags_ends (t : Addr) (f : StructField) (parentType : Addr)
    (propertyName : String) (h : Heap) :
    (structKeywordsFromTags t f parentType propertyName h).Ends := by
  unfold structKeywordsFromTags
  simp only
  apply Res.Ends.bind
  · repeat' split
    all_goals first
      | exact Res.Ends.of_ok _
      | exact arrayKeywords_ends _ _ _
  · intro a _; exact Res.Ends.of_ok _

theorem storeProperty_ends (st : Addr) (name : String) (required : Bool) (property : Addr)
    (h : Heap) : (storeProperty st name required property h).Ends := by
  unfold storeProperty
  split
  · exact Res.Ends.of_nil
  · exact Res.Ends.of_ok _

theorem finishField_ends (env : TypeEnv) (t : TypeId) (st : Addr) (f : StructField)
    (name : String) (required nullable : Bool) (property : Addr) (s : State) :
    (finishField env t st f name required nullable property s).Ends := by
  unfold finishField
  apply (structKeywordsFromTags_ends _ _ _ _ _).bind
  intro h1 _
  apply (storeProperty_ends _ _ _ _ _).bind
  intro h2 _
  exact Res.Ends.of_ok _

/-- A loop whose body comes to an end in every state that satisfies an invariant
the body keeps comes to an end. -/
theorem forEach_ends {α : Type} (body : α → State → Res State) (P : State → Prop)
    (xs : List α) (hends : ∀ x ∈ xs, ∀ s, P s → (body x s).Ends)
    (hkeep : ∀ x ∈ xs, ∀ s s', P s → body x s = Res.ok s' → P s') :
    ∀ s, P s → (forEach body xs s).Ends := by
  induction xs with
  | nil => intro s _; exact Res.Ends.of_ok _
  | cons x rest ih =>
    intro s hs
    simp only [forEach]
    apply (hends x (List.mem_cons_self _ _) s hs).bind
    intro s1 h1
    exact ih (fun y hy => hends y (List.mem_cons_of_mem _ hy))
      (fun y hy => hkeep y (List.mem_cons_of_mem _ hy)) s1
      (hkeep x (List.mem_cons_self _ _) s s1 hs h1)

/-- `reflectCustomType` returns once the fuel exceeds the rank: it only steps down
chains of pointers. -/
theorem reflectCustomType_returns (env : TypeEnv) (r : Reflector) (U : List TypeId)
    (rank : TypeId → Nat) (hclosed : ComponentClosed env r U) (hranked : Ranked env r U rank) :
    ∀ fuel t s, t ∈ U → rank t + 1 ≤ fuel →
      ∃ o s', reflectCustomType env r fuel t s = Res.ok (o, s') := by
  intro fuel
  induction fuel with
  | zero => intro t s _ h; omega
  | succ n ih =>
    intro t s ht hfuel
    rw [reflectCustomType]
    split
    · rename_i hptr
      have hel : hasElem (env.kind t) := Or.inl hptr
      have h1 := (hclosed t ht).1 hel
      have h2 := (hranked t ht).1 hel
      exact ih _ s h1 (by omega)
    · split
      · simp only
        split <;> exact ⟨_, _, rfl⟩
      · exact ⟨_, _, rfl⟩

theorem ends_T (env : TypeEnv) (r : Reflector) (U : List TypeId) (rank : TypeId → Nat)
    (R : Nat) (hclosed : ComponentClosed env r U) (hranked : Ranked env r U rank)
    (hkinds : ∀ u ∈ U, supportedKind (env.kind u)) (fuel : Nat)
    (ih : EndsAt env r U rank R fuel) :
    ∀ t s, t ∈ U →
      fuelT r.DoNotReference R (pending env r U s.definitions) (rank t) ≤ fuel + 1 →
      (reflectTypeToSchema env r (fuel + 1) t s).Ends := by
  obtain ⟨ihT, ihS, -, -⟩ := ih
  intro t s ht hfuel
  have hrk := fuelT_rank r.DoNotReference R (pending env r U s.definitions) (rank t)
  have hElem : hasElem (env.kind t) → (reflectTypeToSchema env r fuel (env.elem t) s).Ends := by
    intro hel
    have h1 := (hclosed t ht).1 hel
    have h2 := (hranked t ht).1 hel
    have := fuelT_elem r.DoNotReference R _ _ _ _ (le_refl (pending env r U s.definitions)) h2
    exact ihT _ s h1 (by omega)
  rw [reflectTypeToSchema]
  split
  · exact returnNew_ends _ _
  rename_i hfirst
  split
  · exact Res.Ends.of_ok _
  obtain ⟨o, s1, hc⟩ :=
    reflectCustomType_returns env r U rank hclosed hranked fuel t s ht (by omega)
  rw [hc]
  simp only [Res.ok_bind]
  cases o with
  | some a => exact Res.Ends.of_ok _
  | none =>
    have hs1 : s1 = s := reflectCustomType_nil env r fuel t s s1 hc
    subst hs1
    simp only
    split
    · exact returnNew_ends _ _
    split
    · exact returnNew_ends _ _
    have hsup := hkinds t ht
    split
    · -- struct
      rename_i hkind
      split
      · exact returnNew_ends _ _
      split
      · exact returnNew_ends _ _
      · apply ihS t s1 ht (by omega)
        cases hD : r.DoNotReference with
        | true =>
          rw [hD] at hfuel
          have := fuelT_struct_inline R (pending env r U s1.definitions)
            (pending env r U (mapSet s1.definitions (typeName env r t) s1.heap.length)) (rank t)
          omega
        | false =>
          rw [hD] at hfuel
          have hnone : (mapGet s1.definitions (typeName env r t)).isSome = false := by
            simpa [hD] using hfirst
          have hlt := pending_set_lt env r U s1.definitions t s1.heap.length ht hnone
          have := fuelT_struct R _ _ (rank t) hlt
          omega
    · -- map
      rename_i hkind
      have hE := hElem (Or.inr (Or.inr (Or.inr hkind)))
      split
      all_goals
        exact hE.bind (fun a _ => returnNew_ends _ _)
    all_goals first
      | exact returnNew_ends _ _
      | (rename_i hkind; exact hElem (Or.inl hkind))
      | skip
    all_goals first
      | (rename_i hkind
         have hE : (reflectTypeToSchema env r fuel (env.elem t) s1).Ends := by
           first
             | exact hElem (Or.inr (Or.inl hkind))
             | exact hElem (Or.inr (Or.inr (Or.inl hkind)))
         split
         · exact returnNew_ends _ _
         split
         · exact returnNew_ends _ _
         · exact hE.bind (fun a _ => returnNew_ends _ _))
      | skip
    -- no other kind is supported
    exfalso
    obtain ⟨hinv, hun⟩ := hsup
    unfold unsupportedKind at hun
    cases hk : env.kind t <;> simp_all

theorem ends_S (env : TypeEnv) (r : Reflector) (U : List TypeId) (rank : TypeId → Nat)
    (R : Nat) (hclosed : ComponentClosed env r U) (hranked : Ranked env r U rank) (fuel : Nat)
    (ih : EndsAt env r U rank R fuel) :
    ∀ t s, t ∈ U → rank t + 2 ≤ fuel + 1 →
      fuelF r.DoNotReference R
          (pending env r U (mapSet s.definitions (typeName env r t) s.heap.length))
          (rank t) + 1 ≤ fuel + 1 →
      (reflectStruct env r (fuel + 1) t s).Ends := by
  obtain ⟨-, -, ihF, -⟩ := ih
  intro t s ht hrank hfuel
  rw [reflectStruct]
  obtain ⟨o, s1, hc⟩ :=
    reflectCustomType_returns env r U rank hclosed hranked fuel t s ht (by omega)
  rw [hc]
  simp only [Res.ok_bind]
  cases o with
  | some a => exact Res.Ends.of_ok _
  | none =>
    have hs1 : s1 = s := reflectCustomType_nil env r fuel t s s1 hc
    subst hs1
    simp only
    split
    · split
      · exact Res.Ends.of_ok _
      · exact returnNew_ends _ _
    · apply (ihF _ t _ ht (by simpa using hfuel)).bind
      intro s2 _
      split
      · exact Res.Ends.of_ok _
      · exact returnNew_ends _ _

theorem mem_handledFields_left (env : TypeEnv) (r : Reflector) (t : TypeId) (f : StructField)
    (h : f ∈ env.fields t) : f ∈ handledFields env r t :=
  List.mem_append_left _ h

theorem mem_handledFields_right (env : TypeEnv) (r : Reflector) (t : TypeId) (f : StructField)
    (additional : TypeId → List StructField) (ha : r.AdditionalFields = some additional)
    (h : f ∈ additional t) : f ∈ handledFields env r t := by
  unfold handledFields
  rw [ha]
  exact List.mem_append_right _ h

theorem ends_H (env : TypeEnv) (r : Reflector) (U : List TypeId) (rank : TypeId → Nat)
    (R : Nat) (hclosed : ComponentClosed env r U) (hranked : Ranked env r U rank)
    (hR : ∀ u ∈ U, rank u ≤ R) (fuel : Nat) (ih : EndsAt env r U rank R fuel) :
    ∀ st t f s, t ∈ U → env.kind t = Kind.Struct → f ∈ handledFields env r t →
      fuelF r.DoNotReference R (pending env r U s.definitions) (rank t) ≤ fuel + 2 →
      (handleField env r (fuel + 1) st t f s).Ends := by
  obtain ⟨ihT, -, ihF, -⟩ := ih
  intro st t f s ht hkind hf hfuel
  rw [handleField]
  simp only
  split
  · rename_i hname
    split
    · rename_i hembed
      have hsp : splicedField r f := ⟨hname, hembed⟩
      have h1 := (hclosed t ht).2 hkind f hf (Or.inl hsp)
      have h2 := (hranked t ht).2 hkind f hf (Or.inl hsp)
      have := fuelF_spliced r.DoNotReference R _ _ _ _
        (le_refl (pending env r U s.definitions)) h2
      exact ihF st _ s h1 (by omega)
    · exact Res.Ends.of_ok _
  · rename_i hname
    have hnm : namedField r f := hname
    have h1 := (hclosed t ht).2 hkind f hf (Or.inr hnm)
    apply Res.Ends.bind
    · apply ihT _ s h1
      cases hD : r.DoNotReference with
      | true =>
        rw [hD] at hfuel
        have h2 := (hranked t ht).2 hkind f hf (Or.inr ⟨hnm, hD⟩)
        have := fuelF_named_inline R (pending env r U s.definitions)
          (pending env r U s.definitions) _ _ h2
        omega
      | false =>
        rw [hD] at hfuel
        have := fuelF_named R _ _ (rank t) _ (le_refl (pending env r U s.definitions))
          (hR _ h1)
        omega
    · intro a _
      exact finishField_ends _ _ _ _ _ _ _ _ _

theorem ends_F (env : TypeEnv) (r : Reflector) (U : List TypeId) (rank : TypeId → Nat)
    (R : Nat) (hclosed : ComponentClosed env r U) (hranked : Ranked env r U rank) (fuel : Nat)
    (ih : EndsAt env r U rank R fuel) :
    ∀ st t s, t ∈ U →
      fuelF r.DoNotReference R (pending env r U s.definitions) (rank t) ≤ fuel + 1 →
      (reflectStructFields env r (fuel + 1) st t s).Ends := by
  obtain ⟨-, -, -, ihH⟩ := ih
  intro st t s ht hfuel
  -- the fields of a struct type of `U` whose rank is at most that of `t`
  have loop : ∀ (u : TypeId) (fs : List StructField) (s0 : State), u ∈ U →
      env.kind u = Kind.Struct → rank u ≤ rank t → (∀ f ∈ fs, f ∈ handledFields env r u) →
      pending env r U s0.definitions ≤ pending env r U s.definitions →
      (forEach (handleField env r fuel st u) fs s0).Ends := by
    intro u fs s0 hu hkind hrank hfs hs0
    apply forEach_ends _
      (fun s' => pending env r U s'.definitions ≤ pending env r U s.definitions) fs
    · intro f hf s' hs'
      apply ihH st u f s' hu hkind (hfs f hf)
      have := fuelF_mono r.DoNotReference R _ _ _ _ hs' hrank
      omega
    · intro f _ s' s'' hs' hrun
      have hstep := (defsInv env r fuel).2.2.2.2 st u f s' s'' hrun
      exact le_trans (pending_mono env r U _ _ hstep.1) hs'
    · exact hs0
  have keep : ∀ (u : TypeId) (fs : List StructField) (s0 s1 : State),
      forEach (handleField env r fuel st u) fs s0 = Res.ok s1 →
      pending env r U s1.definitions ≤ pending env r U s0.definitions := by
    intro u fs s0 s1 hrun
    have hstep := forEach_defs env r _
      (fun f s s' hr => (defsInv env r fuel).2.2.2.2 st u f s s' hr) fs s0 s1 hrun
    exact pending_mono env r U _ _ hstep.1
  have body : ∀ u, u ∈ U → rank u ≤ rank t →
      (if env.kind u ≠ Kind.Struct then Res.ok s
        else
          (forEach (handleField env r fuel st u) (env.fields u) s).bind fun s =>
            match r.AdditionalFields with
            | some additional => forEach (handleField env r fuel st u) (additional u) s
            | none => Res.ok s).Ends := by
    intro u hu hrank
    split
    · exact Res.Ends.of_ok _
    · rename_i hkind
      have hkind : env.kind u = Kind.Struct := by simpa using hkind
      apply (loop u _ s hu hkind hrank
        (fun f hf => mem_handledFields_left env r u f hf) (le_refl _)).bind
      intro s1 h1
      split
      · rename_i additional ha
        exact loop u _ s1 hu hkind hrank
          (fun f hf => mem_handledFields_right env r u f additional ha hf) (keep _ _ _ _ h1)
      · exact Res.Ends.of_ok _
  rw [reflectStructFields]
  by_cases hp : env.kind t = Kind.Ptr
  · have hel : hasElem (env.kind t) := Or.inl hp
    have h1 := (hclosed t ht).1 hel
    have h2 := (hranked t ht).1 hel
    simp only [hp, if_true]
    exact body _ h1 (by omega)
  · simp only [hp, if_false]
    exact body _ ht (le_refl _)

/-- Every amount of fuel: each of the mutually recursive functions comes to an end
on the types of `U` when the fuel covers its rank and the pending types. -/
theorem endsInv (env : TypeEnv) (r : Reflector) (U : List TypeId) (rank : TypeId → Nat)
    (R : Nat) (hclosed : ComponentClosed env r U) (hranked : Ranked env r U rank)
    (hkinds : ∀ u ∈ U, supportedKind (env.kind u)) (hR : ∀ u ∈ U, rank u ≤ R) :
    ∀ fuel, EndsAt env r U rank R fuel := by
  intro fuel
  induction fuel with
  | zero =>
    refine ⟨?_, ?_, ?_, ?_⟩
    · intro t s _ h
      have := fuelT_rank r.DoNotReference R (pending env r U s.definitions) (rank t)
      omega
    · intro t s _ h; omega
    · intro st t s _ h
      have := fuelF_rank r.DoNotReference R (pending env r U s.definitions) (rank t)
      omega
    · intro st t f s _ _ _ h
      have := fuelF_rank r.DoNotReference R (pending env r U s.definitions) (rank t)
      omega
  | succ n ih =>
    exact ⟨ends_T env r U rank R hclosed hranked hkinds n ih,
      ends_S env r U rank R hclosed hranked n ih,
      ends_F env r U rank R hclosed hranked n ih,
      ends_H env r U rank R hclosed hranked hR n ih⟩


/-! ## The cases of the switch on the kind -/

/-- The first test of `reflectTypeToSchema` fails on a type no earlier rule
intercepts. -/
theorem notIntercepted_first {env : TypeEnv} {r : Reflector} {t : TypeId} {s : State}
    (hn : notIntercepted env r t s) :
    ((mapGet s.definitions (typeName env r t)).isSome && !r.DoNotReference) = false := by
  rcases hn.1 with h | h <;> simp [h]

/-- What `reflectTypeToSchema` returns for a type whose kind is a primitive one,
when no earlier rule intercepts it: a new node with `Typ` set, whatever the fuel
above one. -/
theorem primitive_returns (env : TypeEnv) (r : Reflector) (t : TypeId) (s : State)
    (hn : notIntercepted env r t s) (fuel : Nat) :
    (integerKind (env.kind t) →
      reflectTypeToSchema env r (fuel + 2) t s =
        Res.ok (s.heap.length, withNode s { Typ := "integer" })) ∧
    (floatKind (env.kind t) →
      reflectTypeToSchema env r (fuel + 2) t s =
        Res.ok (s.heap.length, withNode s { Typ := "number" })) ∧
    (env.kind t = Kind.Bool →
      reflectTypeToSchema env r (fuel + 2) t s =
        Res.ok (s.heap.length, withNode s { Typ := "boolean" })) ∧
    (env.kind t = Kind.String →
      reflectTypeToSchema env r (fuel + 2) t s =
        Res.ok (s.heap.length, withNode s { Typ := "string" })) := by
  have hfirst := notIntercepted_first hn
  obtain ⟨-, hmap, hcustom, hproto, hip⟩ := hn
  rw [Option.isNone_iff_eq_none] at hmap
  refine ⟨?_, ?_, ?_, ?_⟩
  · intro hk
    have hptr : env.kind t ≠ Kind.Ptr := by
      rcases hk with h | h | h | h | h | h | h | h | h | h <;> simp [h]
    rw [reflectTypeToSchema]
    simp only [hfirst, hmap, reflectCustomType_none env r fuel t s hptr hcustom, Res.ok_bind,
      hproto, hip]
    rcases hk with h | h | h | h | h | h | h | h | h | h <;> simp [h, returnNew, withNode]
  · intro hk
    have hptr : env.kind t ≠ Kind.Ptr := by
      rcases hk with h | h <;> simp [h]
    rw [reflectTypeToSchema]
    simp only [hfirst, hmap, reflectCustomType_none env r fuel t s hptr hcustom, Res.ok_bind,
      hproto, hip]
    rcases hk with h | h <;> simp [h, returnNew, withNode]
  · intro h
    have hptr : env.kind t ≠ Kind.Ptr := by simp [h]
    rw [reflectTypeToSchema]
    simp only [hfirst, hmap, reflectCustomType_none env r fuel t s hptr hcustom, Res.ok_bind,
      hproto, hip]
    simp [h, returnNew, withNode]
  · intro h
    have hptr : env.kind t ≠ Kind.Ptr := by simp [h]
    rw [reflectTypeToSchema]
    simp only [hfirst, hmap, reflectCustomType_none env r fuel t s hptr hcustom, Res.ok_bind,
      hproto, hip]
    simp [h, returnNew, withNode]

/-- C13: for a type that no earlier dispatch rule intercepts, `reflectTypeToSchema`
returns a new node that is exactly `{type: "integer"}` when the kind is one of the
ten integer kinds, `{type: "number"}` for `float32` and `float64`,
`{type: "boolean"}` for `bool` and `{type: "string"}` for `string`; the state it
returns differs from the one it was given by that node alone, so the definitions
are unchanged.  It does so with any fuel above one. -/
theorem reflectTypeToSchema_primitive (env : TypeEnv) (r : Reflector) (t : TypeId) (s : State)
    (hn : notIntercepted env r t s) (fuel : Nat) :
    (integerKind (env.kind t) →
      reflectTypeToSchema env r (fuel + 2) t s =
        Res.ok (s.heap.length, withNode s { Typ := "integer" })) ∧
    (floatKind (env.kind t) →
      reflectTypeToSchema env r (fuel + 2) t s =
        Res.ok (s.heap.length, withNode s { Typ := "number" })) ∧
    (env.kind t = Kind.Bool →
      reflectTypeToSchema env r (fuel + 2) t s =
        Res.ok (s.heap.length, withNode s { Typ := "boolean" })) ∧
    (env.kind t = Kind.String →
      reflectTypeToSchema env r (fuel + 2) t s =
        Res.ok (s.heap.length, withNode s { Typ := "string" })) ∧
    ∀ n, (withNode s n).definitions = s.definitions :=
  ⟨(primitive_returns env r t s hn fuel).1, (primitive_returns env r t s hn fuel).2.1,
    (primitive_returns env r t s hn fuel).2.2.1, (primitive_returns env r t s hn fuel).2.2.2,
    fun _ => rfl⟩

set_option maxRecDepth 100000 in
/-- C13, at an input: the type `int` of `personEnv`, with the definition of
`Person` already in the table. -/
theorem reflectTypeToSchema_primitive_witness :
    notIntercepted personEnv defaultReflector 2 { definitions := [("Person", 0)], heap := [{}] } ∧
      integerKind (personEnv.kind 2) ∧
      reflectTypeToSchema personEnv defaultReflector 2 2
          { definitions := [("Person", 0)], heap := [{}] } =
        Res.ok (1, { definitions := [("Person", 0)], heap := [{}, { Typ := "integer" }] }) :=
  ⟨by decide, by decide,
    (reflectTypeToSchema_primitive personEnv defaultReflector 2
      { definitions := [("Person", 0)], heap := [{}] } (by decide) 0).1 (by decide)⟩

/-! ## Unexported fields -/

/-- C11 as stated fails: the unexported, non-anonymous field `inner` of `Outer`
is tagged `yaml:",inline"`, and the property `X` of its type `Inner` is spliced
into the node of `Outer`, with its required entry.  Without the tag (`Plain`) the
field contributes nothing. -/
theorem unexported_inline_counterexample :
    (inlineEnv.fields 0).map (fun f => (f.Name, f.PkgPath, f.Anonymous, f.Tag)) =
        [("inner", "main", false, [("yaml", ",inline")]), ("Y", "", false, [])] ∧
      (documentReport (ReflectFromType inlineEnv defaultReflector 8 0) "Outer").map
          (fun report => report.2) = some (["X", "Y"], ["X", "Y"]) ∧
      (documentReport (ReflectFromType inlineEnv defaultReflector 8 3) "Plain").map
          (fun report => report.2) = some (["Y"], ["Y"]) := by
  decide

/-- What `reflectFieldName` returns for an unexported field that is not anonymous
and whose `yaml` tag does not ask for inlining: no name, no embedding. -/
theorem reflectFieldName_unexported (r : Reflector) (f : StructField)
    (hpkg : f.PkgPath ≠ "") (hanon : f.Anonymous = false) (hinline : yamlInline f = false) :
    (reflectFieldName r f).1 = "" ∧ (reflectFieldName r f).2.1 = false := by
  unfold yamlInline at hinline
  unfold reflectFieldName
  simp only
  split
  · exact ⟨rfl, rfl⟩
  split
  · exact ⟨rfl, rfl⟩
  simp [hanon, hpkg, hinline]

/-- C11, amended: a struct field that is unexported and not anonymous, and whose
`yaml` tag does not ask for inlining, contributes nothing, whatever its other tags
and whatever the Reflector switches: `reflectFieldName` gives it no name and no
embedding, and `handleField` returns the state it was given (no property, no
required entry, nothing spliced in, no node allocated). -/
theorem handleField_unexported (env : TypeEnv) (r : Reflector) (f : StructField)
    (hpkg : f.PkgPath ≠ "") (hanon : f.Anonymous = false) (hinline : yamlInline f = false) :
    (reflectFieldName r f).1 = "" ∧ (reflectFieldName r f).2.1 = false ∧
      ∀ fuel st t s, handleField env r (fuel + 1) st t f s = Res.ok s := by
  obtain ⟨hname, hembed⟩ := reflectFieldName_unexported r f hpkg hanon hinline
  refine ⟨hname, hembed, ?_⟩
  intro fuel st t s
  rw [handleField]
  simp [hname, hembed]

set_option maxRecDepth 100000 in
/-- C11, amended, at an input: the untagged unexported field `inner` of `Plain`. -/
theorem handleField_unexported_witness :
    innerField.PkgPath ≠ "" ∧ innerField.Anonymous = false ∧ yamlInline innerField = false ∧
      handleField inlineEnv defaultReflector 1 0 3 innerField
          { definitions := [("Plain", 0)], heap := [structNode defaultReflector] } =
        Res.ok { definitions := [("Plain", 0)], heap := [structNode defaultReflector] } :=
  ⟨by decide, by decide, by decide,
    (handleField_unexported inlineEnv defaultReflector innerField (by decide) (by decide)
      (by decide)).2.2 0 0 3 _⟩
/-! ## The serialization tag `reflectFieldName` reads -/

/-- C12 as stated fails in one direction.  With `PreferYAMLSchema` set, the field
`Host` that has only the tag `json:"host,omitempty"` is named `Host`, after its Go
identifier, and is required: nothing is taken from the `json` tag.  With
`PreferYAMLSchema` unset the same field is named `host` and not required, and the
field `Port` that has only the tag `yaml:"port,omitempty"` is named `port` and not
required. -/
theorem prefer_yaml_counterexample :
    hostField.Tag.Lookup "yaml" = none ∧
      reflectFieldName yamlReflector hostField = ("Host", false, true, false) ∧
      reflectFieldName defaultReflector hostField = ("host", false, false, false) ∧
      portField.Tag.Lookup "json" = none ∧
      reflectFieldName defaultReflector portField = ("port", false, false, false) := by
  decide

/-- The fields of `g` that `reflectFieldName` reads besides the `json` and the
`yaml` tag are those of `f`. -/
theorem reflectFieldName_congr (r : Reflector) (f g : StructField)
    (hn : g.Name = f.Name) (hp : g.PkgPath = f.PkgPath) (ha : g.Anonymous = f.Anonymous)
    (hs : g.Tag.Get "jsonschema" = f.Tag.Get "jsonschema")
    (ht : serializationTag r g = serializationTag r f)
    (he : serializationTagExists r g = serializationTagExists r f)
    (hi : yamlInline g = yamlInline f) :
    reflectFieldName r g = reflectFieldName r f := by
  unfold yamlInline at hi
  unfold reflectFieldName
  simp only [hn, hp, ha, hs, ht, he, hi]

/-- C12, amended.  `reflectFieldName` reads one serialization tag for the name,
the markers and the test whether an anonymous field is tagged: with
`PreferYAMLSchema` unset the `json` tag when the field has one and the `yaml` tag
when it has none; with `PreferYAMLSchema` set the `yaml` tag in every case, taken
as empty and absent when the field has none.  With the switch set the `json` tag
is not read at all: two fields that differ in it only get the same result, so
there is no fallback to it.  With the switch unset and a `json` tag present the
`yaml` tag counts for one thing only, its `inline` option.  A field ignored by the
tag read or by the `jsonschema` tag gets no name and no marker.  For any other
field the required marker comes from the tag read (or from the `jsonschema` tag
when `RequiredFromJSONSchemaTags` is set); a field whose `yaml` tag asks for
inlining gets no name and is spliced in, whatever tag was read; otherwise an
exported field that is not anonymous is named by the first piece of the tag read,
or by its Go identifier when that piece is empty, and an anonymous field is
spliced in when the tag read is absent (and `YAMLEmbeddedStructs` is unset) and
named like any other field when it is present. -/
theorem reflectFieldName_tag_choice (r : Reflector) (f : StructField) :
    (r.PreferYAMLSchema = false → ∀ j, f.Tag.Lookup "json" = some j →
        serializationTag r f = j ∧ serializationTagExists r f = true) ∧
    (r.PreferYAMLSchema = false → f.Tag.Lookup "json" = none →
        serializationTag r f = (f.Tag.Lookup "yaml").getD "" ∧
        serializationTagExists r f = (f.Tag.Lookup "yaml").isSome) ∧
    (r.PreferYAMLSchema = true →
        serializationTag r f = (f.Tag.Lookup "yaml").getD "" ∧
        serializationTagExists r f = (f.Tag.Lookup "yaml").isSome) ∧
    (r.PreferYAMLSchema = true → ∀ g : StructField, g.Name = f.Name →
        g.PkgPath = f.PkgPath → g.Anonymous = f.Anonymous →
        g.Tag.Lookup "yaml" = f.Tag.Lookup "yaml" →
        g.Tag.Get "jsonschema" = f.Tag.Get "jsonschema" →
        reflectFieldName r g = reflectFieldName r f) ∧
    (r.PreferYAMLSchema = false → (f.Tag.Lookup "json").isSome = true →
      ∀ g : StructField, g.Name = f.Name → g.PkgPath = f.PkgPath →
        g.Anonymous = f.Anonymous → g.Tag.Lookup "json" = f.Tag.Lookup "json" →
        g.Tag.Get "jsonschema" = f.Tag.Get "jsonschema" → yamlInline g = yamlInline f →
        reflectFieldName r g = reflectFieldName r f) ∧
    (ignoredByJSONTags (Split (serializationTag r f) ',') = true ∨
        ignoredByJSONSchemaTags (Split (f.Tag.Get "jsonschema") ',') = true →
      reflectFieldName r f = ("", false, false, false)) ∧
    (ignoredByJSONTags (Split (serializationTag r f) ',') = false →
      ignoredByJSONSchemaTags (Split (f.Tag.Get "jsonschema") ',') = false →
      (reflectFieldName r f).2.2.1 =
          (if r.RequiredFromJSONSchemaTags then
            requiredFromJSONSchemaTags (Split (f.Tag.Get "jsonschema") ',')
          else requiredFromJSONTags (Split (serializationTag r f) ',')) ∧
      (reflectFieldName r f).2.2.2 =
          nullableFromJSONSchemaTags (Split (f.Tag.Get "jsonschema") ',') ∧
      (yamlInline f = true →
        (reflectFieldName r f).1 = "" ∧ (reflectFieldName r f).2.1 = true) ∧
      (yamlInline f = false → f.Anonymous = false → f.PkgPath = "" →
        (reflectFieldName r f).1 =
            (if (Split (serializationTag r f) ',').headD "" ≠ "" then
              (Split (serializationTag r f) ',').headD ""
            else f.Name) ∧
        (reflectFieldName r f).2.1 = false) ∧
      (yamlInline f = false → f.Anonymous = true → serializationTagExists r f = false →
        r.YAMLEmbeddedStructs = false →
        (reflectFieldName r f).1 = "" ∧ (reflectFieldName r f).2.1 = true) ∧
      (yamlInline f = false → f.Anonymous = true → serializationTagExists r f = true →
        (reflectFieldName r f).1 =
            (if (Split (serializationTag r f) ',').headD "" ≠ "" then
              (Split (serializationTag r f) ',').headD ""
            else f.Name) ∧
        (reflectFieldName r f).2.1 = false)) := by
  refine ⟨?_, ?_, ?_, ?_, ?_, ?_, ?_⟩
  · intro hp j hj
    simp [serializationTag, serializationTagExists, hp, hj]
  · intro hp hj
    simp [serializationTag, serializationTagExists, hj]
  · intro hp
    simp [serializationTag, serializationTagExists, hp]
  · intro hp g hn hpk ha hy hs
    apply reflectFieldName_congr r f g hn hpk ha hs
    · simp [serializationTag, hp, hy]
    · simp [serializationTagExists, hp, hy]
    · simp [yamlInline, hy]
  · intro hp hj g hn hpk ha hjs hs hi
    apply reflectFieldName_congr r f g hn hpk ha hs _ _ hi
    · simp [serializationTag, hp, hjs, hj]
    · simp [serializationTagExists, hp, hjs, hj]
  · intro hig
    unfold reflectFieldName
    simp only
    rcases hig with h | h
    · simp [h]
    · simp [h]
  · intro h1 h2
    unfold yamlInline
    unfold reflectFieldName
    simp only [h1, h2]
    refine ⟨?_, ?_, ?_, ?_, ?_, ?_⟩
    · simp
    · simp
    · intro hi
      simp [hi]
    · intro hi ha hpk
      simp [hi, ha, hpk]
    · intro hi ha he hy
      simp [hi, ha, he, hy]
    · intro hi ha he
      simp [hi, ha, he]

set_option maxRecDepth 100000 in
/-- C12, amended, at inputs: the field `A` tagged `json:"a" yaml:",inline"` is
spliced in without the switch, although its name would come from the `json` tag;
the embedded field `Base` tagged `json:"base"` is the property `base` without the
switch and is spliced in with it, since the `json` tag is then not read; the
`yaml`-only field `Port` is named from its `yaml` tag. -/
theorem reflectFieldName_tag_choice_witness :
    ignoredByJSONTags (Split (serializationTag defaultReflector inlineTagField) ',') = false ∧
      ignoredByJSONSchemaTags (Split (inlineTagField.Tag.Get "jsonschema") ',') = false ∧
      serializationTag defaultReflector inlineTagField = "a" ∧
      yamlInline inlineTagField = true ∧
      ((reflectFieldName defaultReflector inlineTagField).1 = "" ∧
        (reflectFieldName defaultReflector inlineTagField).2.1 = true) ∧
      reflectFieldName defaultReflector baseField = ("base", false, true, false) ∧
      yamlReflector.PreferYAMLSchema = true ∧
      serializationTagExists yamlReflector baseField = false ∧
      ((reflectFieldName yamlReflector baseField).1 = "" ∧
        (reflectFieldName yamlReflector baseField).2.1 = true) ∧
      reflectFieldName yamlReflector hostField =
        reflectFieldName yamlReflector { hostField with Tag := [] } ∧
      (serializationTag defaultReflector portField = "port,omitempty" ∧
        serializationTagExists defaultReflector portField = true) :=
  ⟨by decide, by decide, by decide, by decide,
    ((reflectFieldName_tag_choice defaultReflector inlineTagField).2.2.2.2.2.2
      (by decide) (by decide)).2.2.1 (by decide),
    by decide, rfl, by decide,
    ((reflectFieldName_tag_choice yamlReflector baseField).2.2.2.2.2.2
      (by decide) (by decide)).2.2.2.2.1 (by decide) (by decide) (by decide) (by decide),
    (reflectFieldName_tag_choice yamlReflector { hostField with Tag := [] }).2.2.2.1 rfl
      hostField rfl rfl rfl (by decide) (by decide),
    (reflectFieldName_tag_choice defaultReflector portField).2.1 rfl (by decide)⟩

/-! ## Maps -/

/-- C14 as stated fails for unsigned keys: `map[uint]string` reflects to an object
node whose pattern is `.*` and whose `additionalProperties` is unset, while
`map[int]string` gets the pattern `^[0-9]+$` and `additionalProperties` false. -/
theorem unsigned_key_counterexample :
    mapEnv.kind 0 = Kind.Map ∧ mapEnv.kind (mapEnv.key 0) = Kind.Uint ∧
      reflectTypeToSchema mapEnv defaultReflector 3 0 {} =
        Res.ok (1, { definitions := [],
                     heap := [{ Typ := "string" },
                              { Typ := "object", PatternProperties := [(".*", 0)] }] }) ∧
      mapEnv.kind 2 = Kind.Map ∧ mapEnv.kind (mapEnv.key 2) = Kind.Int ∧
      reflectTypeToSchema mapEnv defaultReflector 3 2 {} =
        Res.ok (1, { definitions := [],
                     heap := [{ Typ := "string" },
                              { Typ := "object", PatternProperties := [("^[0-9]+$", 0)],
                                AdditionalProperties := "false" }] }) := by
  decide

/-- C14, amended: for a map type that reaches the switch on the kind (no earlier
dispatch rule applies), `reflectTypeToSchema` reflects the value type and, when
that returns the node `v`, returns a new node that is exactly
`{type: "object", patternProperties: {"^[0-9]+$": v}, additionalProperties: false}`
when the key kind is one of the signed integer kinds `int`, `int8`, `int16`,
`int32`, `int64`, and exactly `{type: "object", patternProperties: {".*": v}}`,
with `additionalProperties` unset, for every other key kind, the unsigned integer
kinds included. -/
theorem reflectTypeToSchema_map (env : TypeEnv) (r : Reflector) (t : TypeId) (s : State)
    (hk : env.kind t = Kind.Map) (hn : notIntercepted env r t s) (fuel : Nat) :
    (signedKind (env.kind (env.key t)) →
      reflectTypeToSchema env r (fuel + 2) t s =
        (reflectTypeToSchema env r (fuel + 1) (env.elem t) s).bind fun x =>
          Res.ok (x.2.heap.length,
            withNode x.2
              { Typ := "object", PatternProperties := [("^[0-9]+$", x.1)],
                AdditionalProperties := "false" })) ∧
    (¬ signedKind (env.kind (env.key t)) →
      reflectTypeToSchema env r (fuel + 2) t s =
        (reflectTypeToSchema env r (fuel + 1) (env.elem t) s).bind fun x =>
          Res.ok (x.2.heap.length,
            withNode x.2 { Typ := "object", PatternProperties := [(".*", x.1)] })) := by
  have hfirst := notIntercepted_first hn
  obtain ⟨-, hmap, hcustom, hproto, hip⟩ := hn
  rw [Option.isNone_iff_eq_none] at hmap
  have hptr : env.kind t ≠ Kind.Ptr := by simp [hk]
  have hdel : ∀ v : Addr, mapDelete [(".*", v)] "additionalProperties" = [(".*", v)] := by
    intro v; simp [mapDelete]
  constructor
  · intro hkey
    rw [reflectTypeToSchema]
    simp only [hfirst, hmap, reflectCustomType_none env r fuel t s hptr hcustom, Res.ok_bind,
      hproto, hip]
    rcases hkey with h | h | h | h | h <;> simp [hk, h, returnNew, withNode]
  · intro hkey
    rw [reflectTypeToSchema]
    simp only [hfirst, hmap, reflectCustomType_none env r fuel t s hptr hcustom, Res.ok_bind,
      hproto, hip]
    unfold signedKind at hkey
    simp only [not_or] at hkey
    obtain ⟨h1, h2, h3, h4, h5⟩ := hkey
    simp [hk, h1, h2, h3, h4, h5, hdel, returnNew, withNode]

set_option maxRecDepth 100000 in
/-- C14, amended, at an input: `map[uint]string`, an unsigned key. -/
theorem reflectTypeToSchema_map_witness :
    mapEnv.kind 0 = Kind.Map ∧ notIntercepted mapEnv defaultReflector 0 {} ∧
      ¬ signedKind (mapEnv.kind (mapEnv.key 0)) ∧
      reflectTypeToSchema mapEnv defaultReflector 2 0 {} =
        (reflectTypeToSchema mapEnv defaultReflector 1 (mapEnv.elem 0) {}).bind fun x =>
          Res.ok (x.2.heap.length,
            withNode x.2 { Typ := "object", PatternProperties := [(".*", x.1)] }) :=
  ⟨by decide, by decide, by decide,
    (reflectTypeToSchema_map mapEnv defaultReflector 0 {} (by decide) (by decide) 0).2
      (by decide)⟩

/-! ## Byte slices -/

/-- C15 as stated fails for fixed-size arrays: `[4]byte` reflects to an array of
integers with `minItems` and `maxItems` 4, not to a base64 string; so does a slice
`[]B` of a named type `B` of kind `uint8`, whose element type is not the byte type
itself.  The slice `[]byte` reflects to the base64 string. -/
theorem byte_array_counterexample :
    seqEnv.kind 0 = Kind.Array ∧ seqEnv.kind (seqEnv.elem 0) = Kind.Uint8 ∧
      reflectTypeToSchema seqEnv defaultReflector 3 0 {} =
        Res.ok (1, { definitions := [],
                     heap := [{ Typ := "integer" },
                              { Typ := "array", Items := some 0, MinItems := 4,
                                MaxItems := 4 }] }) ∧
      seqEnv.kind 4 = Kind.Slice ∧ seqEnv.kind (seqEnv.elem 4) = Kind.Uint8 ∧
      reflectTypeToSchema seqEnv defaultReflector 3 4 {} =
        Res.ok (1, { definitions := [],
                     heap := [{ Typ := "integer" }, { Typ := "array", Items := some 0 }] }) ∧
      reflectTypeToSchema seqEnv defaultReflector 3 2 {} =
        Res.ok (1, { definitions := [],
                     heap := [{ BinaryEncoding := "base64" },
                              { Typ := "string", Media := some 0 }] }) := by
  decide

/-- C15, amended: for a slice type whose element type is the byte type `uint8`
itself, that is not the raw-JSON type and that reaches the switch on the kind (no
earlier dispatch rule applies), `reflectTypeToSchema` returns a new node that is
exactly `{type: "string", media: m}` with `m` a new node that is exactly
`{binaryEncoding: "base64"}`: no `items`, no `minItems`, no `maxItems`.  (A
fixed-size array of bytes takes the array case.) -/
theorem reflectTypeToSchema_bytes (env : TypeEnv) (r : Reflector) (t : TypeId) (s : State)
    (hk : env.kind t = Kind.Slice) (helem : env.elem t = env.byteType)
    (hraw : t ≠ env.rawMessageType) (hn : notIntercepted env r t s) (fuel : Nat) :
    reflectTypeToSchema env r (fuel + 2) t s =
      Res.ok (s.heap.length + 1,
        { s with
          heap := s.heap ++ [{ BinaryEncoding := "base64" }] ++
            [{ Typ := "string", Media := some s.heap.length }] }) := by
  have hfirst := notIntercepted_first hn
  obtain ⟨-, hmap, hcustom, hproto, hip⟩ := hn
  rw [Option.isNone_iff_eq_none] at hmap
  have hptr : env.kind t ≠ Kind.Ptr := by simp [hk]
  rw [reflectTypeToSchema]
  simp only [hfirst, hmap, reflectCustomType_none env r fuel t s hptr hcustom, Res.ok_bind,
    hproto, hip]
  simp [hk, helem, hraw, returnNew, arrayBounds, Node.setMedia, Node.setTyp]

set_option maxRecDepth 100000 in
/-- C15, amended, at an input: `[]byte`. -/
theorem reflectTypeToSchema_bytes_witness :
    seqEnv.kind 2 = Kind.Slice ∧ seqEnv.elem 2 = seqEnv.byteType ∧
      (2 : TypeId) ≠ seqEnv.rawMessageType ∧ notIntercepted seqEnv defaultReflector 2 {} ∧
      reflectTypeToSchema seqEnv defaultReflector 2 2 {} =
        Res.ok (1, { definitions := [],
                     heap := [{ BinaryEncoding := "base64" },
                              { Typ := "string", Media := some 0 }] }) :=
  ⟨by decide, by decide, by decide, by decide,
    reflectTypeToSchema_bytes seqEnv defaultReflector 2 {} (by decide) (by decide) (by decide)
      (by decide) 0⟩

/-! ## Slices and arrays -/

/-- C16: for a slice or array type with element type `E` that reaches the switch
on the kind (no earlier dispatch rule applies), that is not the raw-JSON type and
not a slice of bytes, `reflectTypeToSchema` reflects `E` and, when that returns
the node `items`, returns a new node with type `"array"` and `Items` pointing to
`items`; for a fixed-size array of length `n` the node has
`minItems = maxItems = n` and nothing else, for a slice it has nothing else, so
`minItems` and `maxItems` are unset. -/
theorem reflectTypeToSchema_array (env : TypeEnv) (r : Reflector) (t : TypeId) (s : State)
    (hraw : t ≠ env.rawMessageType)
    (hbyte : ¬ (env.kind t = Kind.Slice ∧ env.elem t = env.byteType))
    (hn : notIntercepted env r t s) (fuel : Nat) :
    (env.kind t = Kind.Array →
      reflectTypeToSchema env r (fuel + 2) t s =
        (reflectTypeToSchema env r (fuel + 1) (env.elem t) s).bind fun x =>
          Res.ok (x.2.heap.length,
            withNode x.2
              { Typ := "array", Items := some x.1, MinItems := (env.len t : Int),
                MaxItems := (env.len t : Int) })) ∧
    (env.kind t = Kind.Slice →
      reflectTypeToSchema env r (fuel + 2) t s =
        (reflectTypeToSchema env r (fuel + 1) (env.elem t) s).bind fun x =>
          Res.ok (x.2.heap.length, withNode x.2 { Typ := "array", Items := some x.1 })) := by
  have hfirst := notIntercepted_first hn
  obtain ⟨-, hmap, hcustom, hproto, hip⟩ := hn
  rw [Option.isNone_iff_eq_none] at hmap
  constructor
  · intro hk
    have hptr : env.kind t ≠ Kind.Ptr := by simp [hk]
    rw [reflectTypeToSchema]
    simp only [hfirst, hmap, reflectCustomType_none env r fuel t s hptr hcustom, Res.ok_bind,
      hproto, hip]
    simp [hk, hraw, returnNew, withNode, arrayBounds, Node.setItems, Node.setTyp]
  · intro hk
    have hptr : env.kind t ≠ Kind.Ptr := by simp [hk]
    have helem : env.elem t ≠ env.byteType := fun h => hbyte ⟨hk, h⟩
    rw [reflectTypeToSchema]
    simp only [hfirst, hmap, reflectCustomType_none env r fuel t s hptr hcustom, Res.ok_bind,
      hproto, hip]
    simp [hk, hraw, helem, returnNew, withNode, arrayBounds, Node.setItems, Node.setTyp]

set_option maxRecDepth 100000 in
/-- C16, at inputs: `[3]string` and `[]string`. -/
theorem reflectTypeToSchema_array_witness :
    (5 : TypeId) ≠ seqEnv.rawMessageType ∧
      ¬ (seqEnv.kind 5 = Kind.Slice ∧ seqEnv.elem 5 = seqEnv.byteType) ∧
      notIntercepted seqEnv defaultReflector 5 {} ∧ seqEnv.kind 5 = Kind.Array ∧
      reflectTypeToSchema seqEnv defaultReflector 2 5 {} =
        (reflectTypeToSchema seqEnv defaultReflector 1 (seqEnv.elem 5) {}).bind (fun x =>
          Res.ok (x.2.heap.length,
            withNode x.2
              { Typ := "array", Items := some x.1, MinItems := (seqEnv.len 5 : Int),
                MaxItems := (seqEnv.len 5 : Int) })) ∧
      reflectTypeToSchema seqEnv defaultReflector 3 5 {} =
        Res.ok (1, { definitions := [],
                     heap := [{ Typ := "string" },
                              { Typ := "array", Items := some 0, MinItems := 3,
                                MaxItems := 3 }] }) ∧
      reflectTypeToSchema seqEnv defaultReflector 3 7 {} =
        Res.ok (1, { definitions := [],
                     heap := [{ Typ := "string" }, { Typ := "array", Items := some 0 }] }) :=
  ⟨by decide, by decide, by decide, by decide,
    (reflectTypeToSchema_array seqEnv defaultReflector 5 {} (by decide) (by decide)
      (by decide) 0).1 (by decide),
    by decide, by decide⟩

/-! ## Pointers -/

/-- C17 as stated fails.  With a `TypeMapper` that maps the pointer type `*T` and
nothing else, `reflectTypeToSchema` returns `{type: "null"}` for `*T` and
`{type: "string"}` for `T`.  With the default reflector and a table that has an
entry under the empty name, the name of every unnamed type, it returns the
reference `#/definitions/` for `*T` and `{type: "string"}` for `T`. -/
theorem pointer_counterexample :
    ptrEnv.kind 1 = Kind.Ptr ∧ ptrEnv.elem 1 = 0 ∧
      reflectTypeToSchema ptrEnv mapperReflector 3 1 {} =
        Res.ok (0, { definitions := [], heap := [{ Typ := "null" }] }) ∧
      reflectTypeToSchema ptrEnv mapperReflector 3 0 {} =
        Res.ok (0, { definitions := [], heap := [{ Typ := "string" }] }) ∧
      reflectTypeToSchema ptrEnv defaultReflector 3 1 { definitions := [("", 0)], heap := [{}] } =
        Res.ok (1, { definitions := [("", 0)], heap := [{}, { Ref := "#/definitions/" }] }) ∧
      reflectTypeToSchema ptrEnv defaultReflector 3 0 { definitions := [("", 0)], heap := [{}] } =
        Res.ok (1, { definitions := [("", 0)], heap := [{}, { Typ := "string" }] }) := by
  decide

/-- C17, amended: let `p` be a pointer type to which no rule before the switch
applies in the state `s` (no entry under its own name, not mapped by the
`TypeMapper`, not a proto enum, not the IP type).  If the first two rules do not
apply to its element type `T` either, `reflectTypeToSchema` on `p` with one more
unit of fuel is `reflectTypeToSchema` on `T`: same node, same heap, same table,
same failure.  The same holds, whatever applies to `T`, once `reflectCustomType`
finds no custom schema for `T`. -/
theorem reflectTypeToSchema_pointer (env : TypeEnv) (r : Reflector) (p : TypeId) (s : State)
    (hk : env.kind p = Kind.Ptr) (hp : pointerPasses env r p s) :
    (reachesCustom env r (env.elem p) s →
      ∀ fuel, reflectTypeToSchema env r (fuel + 1) p s =
        reflectTypeToSchema env r fuel (env.elem p) s) ∧
    (∀ fuel, reflectCustomType env r fuel (env.elem p) s = Res.ok (none, s) →
      reflectTypeToSchema env r (fuel + 2) p s =
        reflectTypeToSchema env r (fuel + 1) (env.elem p) s) := by
  obtain ⟨hdef, hmap, hproto, hip⟩ := hp
  rw [Option.isNone_iff_eq_none] at hmap
  have hfirst : ((mapGet s.definitions (typeName env r p)).isSome && !r.DoNotReference) =
      false := by
    rcases hdef with h | h <;> simp [h]
  have hstep : ∀ n, reflectTypeToSchema env r (n + 2) p s =
      (reflectCustomType env r n (env.elem p) s).bind fun x =>
        match x.1 with
        | some a => Res.ok (a, x.2)
        | none => reflectTypeToSchema env r (n + 1) (env.elem p) x.2 := by
    intro n
    rw [reflectTypeToSchema]
    simp only [hfirst, hmap]
    rw [reflectCustomType]
    simp only [hk, if_true]
    cases hC : reflectCustomType env r n (env.elem p) s with
    | ok x =>
      obtain ⟨o, s1⟩ := x
      cases o with
      | some a => simp
      | none => simp [hproto, hip, hk]
    | abort e => simp
    | timeout => simp
  constructor
  · intro hT fuel
    obtain ⟨hdefT, hmapT⟩ := hT
    rw [Option.isNone_iff_eq_none] at hmapT
    have hfirstT : ((mapGet s.definitions (typeName env r (env.elem p))).isSome &&
        !r.DoNotReference) = false := by
      rcases hdefT with h | h <;> simp [h]
    cases fuel with
    | zero =>
      rw [reflectTypeToSchema]
      simp [hfirst, hmap, reflectCustomType, reflectTypeToSchema]
    | succ n =>
      rw [hstep n]
      cases hC : reflectCustomType env r n (env.elem p) s with
      | ok x =>
        obtain ⟨o, s1⟩ := x
        cases o with
        | some a =>
          rw [reflectTypeToSchema]
          simp [hfirstT, hmapT, hC]
        | none =>
          have hs1 : s1 = s := reflectCustomType_nil env r n _ s s1 hC
          subst hs1
          simp
      | abort e =>
        rw [reflectTypeToSchema]
        simp [hfirstT, hmapT, hC]
      | timeout =>
        rw [reflectTypeToSchema]
        simp [hfirstT, hmapT, hC]
  · intro fuel hC
    rw [hstep fuel, hC]
    simp

set_option maxRecDepth 100000 in
/-- C17, amended, at an input: `*T` and `T` of `ptrEnv` with the default
reflector and an empty table. -/
theorem reflectTypeToSchema_pointer_witness :
    ptrEnv.kind 1 = Kind.Ptr ∧ pointerPasses ptrEnv defaultReflector 1 {} ∧
      reachesCustom ptrEnv defaultReflector (ptrEnv.elem 1) {} ∧
      reflectTypeToSchema ptrEnv defaultReflector 3 1 {} =
        reflectTypeToSchema ptrEnv defaultReflector 2 (ptrEnv.elem 1) {} ∧
      reflectTypeToSchema ptrEnv defaultReflector 3 1 {} =
        Res.ok (0, { definitions := [], heap := [{ Typ := "string" }] }) :=
  ⟨by decide, by decide, by decide,
    (reflectTypeToSchema_pointer ptrEnv defaultReflector 1 {} (by decide) (by decide)).1
      (by decide) 2,
    by decide⟩

/-! ## The tag tokens `oneof_type` and `enum` -/

/-- The loop of the `oneof_type` case: one new node `{type: ty}` per name, appended
to the `oneOf` of `t`, everything else as before. -/
theorem oneofType_loop (t : Nat) :
    ∀ (parts : List String) (h : Heap), t < h.length →
      ((parts.foldl (oneofTypeStep t) h).length = h.length + parts.length) ∧
      (rd (parts.foldl (oneofTypeStep t) h) t =
        { rd h t with OneOf := (rd h t).OneOf ++ List.range' h.length parts.length }) ∧
      (∀ i (hi : i < parts.length),
        rd (parts.foldl (oneofTypeStep t) h) (h.length + i) = { Typ := parts.get ⟨i, hi⟩ }) ∧
      (∀ a, a < h.length → a ≠ t →
        rd (parts.foldl (oneofTypeStep t) h) a = rd h a) := by
  intro parts
  induction parts with
  | nil =>
    intro h ht
    refine ⟨by simp, by simp, ?_, by simp⟩
    intro i hi; simp at hi
  | cons ty rest ih =>
    intro h ht
    simp only [List.foldl_cons]
    rw [show oneofTypeStep t h ty =
      upd (h ++ [({ Typ := ty } : Node)]) t (Node.addOneOf h.length) from rfl]
    have hlen : (upd (h ++ [({ Typ := ty } : Node)]) t (Node.addOneOf h.length)).length =
        h.length + 1 := by simp
    have ht1 : t < (upd (h ++ [({ Typ := ty } : Node)]) t (Node.addOneOf h.length)).length := by
      rw [hlen]; omega
    have hne : t ≠ h.length := by omega
    have hrt : rd (upd (h ++ [({ Typ := ty } : Node)]) t (Node.addOneOf h.length)) t =
        Node.addOneOf h.length (rd h t) := by
      rw [rd_upd_eq _ _ _ (by simp; omega), rd_append_lt _ _ _ ht]
    have hrn : rd (upd (h ++ [({ Typ := ty } : Node)]) t (Node.addOneOf h.length)) h.length =
        { Typ := ty } := by
      rw [rd_upd_ne _ _ _ _ hne, rd_append_length]
    have hro : ∀ a, a < h.length → a ≠ t →
        rd (upd (h ++ [({ Typ := ty } : Node)]) t (Node.addOneOf h.length)) a = rd h a := by
      intro a ha hat
      rw [rd_upd_ne _ _ _ _ (fun e => hat e.symm), rd_append_lt _ _ _ ha]
    obtain ⟨i1, i2, i3, i4⟩ := ih _ ht1
    refine ⟨?_, ?_, ?_, ?_⟩
    · rw [i1, hlen]; simp; omega
    · rw [i2, hrt, hlen]
      simp [Node.addOneOf, List.range'_succ]
    · intro i hi
      cases i with
      | zero =>
        rw [Nat.add_zero, i4 _ (by rw [hlen]; omega) (fun e => hne e.symm), hrn]
        rfl
      | succ j =>
        have := i3 j (by simpa using hi)
        rw [hlen] at this
        rw [show h.length + (j + 1) = h.length + 1 + j by omega, this]
        rfl
    · intro a ha hat
      rw [i4 a (by rw [hlen]; omega) hat, hro a ha hat]

/-- The loop of `genericKeywords` handles the tokens from left to right: the tokens
before `tag`, then `tag`, then the tokens after it. -/
theorem genericKeywords_split (t parent : Addr) (name : String) (pre post : List String)
    (tag : String) (h0 : Heap) :
    genericKeywords t (pre ++ tag :: post) parent name h0 =
      genericKeywords t post parent name
        (genericKeyword t parent name (genericKeywords t pre parent name h0) tag) := by
  simp [genericKeywords, List.foldl_append]

theorem genericKeywords_length (t parent : Addr) (name : String) (tags : List String)
    (h : Heap) : h.length ≤ (genericKeywords t tags parent name h).length :=
  foldl_length _ (fun hh tag => genericKeyword_length t parent name hh tag) tags h

/-- The round of the loop of `genericKeywords` for a token `oneof_type=val`. -/
theorem oneofType_round (t parent : Nat) (name : String) (h : Heap) (tag val : String)
    (ht : t < h.length) (htag : Split tag '=' = ["oneof_type", val]) :
    (genericKeyword t parent name h tag).length = h.length + (Split val ';').length ∧
    rd (genericKeyword t parent name h tag) t =
      { rd h t with
        Typ := "", OneOf := (rd h t).OneOf ++ List.range' h.length (Split val ';').length } ∧
    (∀ i (hi : i < (Split val ';').length),
      rd (genericKeyword t parent name h tag) (h.length + i) =
        { Typ := (Split val ';').get ⟨i, hi⟩ }) ∧
    (∀ a, a < h.length → a ≠ t → rd (genericKeyword t parent name h tag) a = rd h a) := by
  have hrun : genericKeyword t parent name h tag =
      (Split val ';').foldl (oneofTypeStep t) (upd h t (Node.setTyp "")) := by
    unfold genericKeyword
    rw [htag]
    simp
    rfl
  have ht1 : t < (upd h t (Node.setTyp "")).length := by simpa using ht
  obtain ⟨l1, l2, l3, l4⟩ := oneofType_loop t (Split val ';') _ ht1
  rw [hrun]
  simp only [length_upd] at l1 l2 l3 l4
  refine ⟨l1, ?_, l3, ?_⟩
  · rw [l2, rd_upd_eq _ _ _ ht]
    rfl
  · intro a ha hat
    rw [l4 a ha hat, rd_upd_ne _ _ _ _ (fun e => hat e.symm)]

/-- C19: let `h` be the heap once `genericKeywords` has handled the tokens that
come before a token `oneof_type=n1;...;nk` of the tag of the node `t`.  The round
for that token allocates `k` new nodes, the `i`-th exactly `{type: ni}`, sets the
type of `t` to the empty string and appends the new nodes, in order, to the
`oneOf` of `t` behind the entries it had; nothing else of `t` and no other node
changes.  The tokens after it are then handled from that heap. -/
theorem genericKeywords_oneof_type (t parent : Nat) (name : String) (pre post : List String)
    (tag val : String) (h0 : Heap) (ht : t < h0.length)
    (htag : Split tag '=' = ["oneof_type", val]) :
    genericKeywords t (pre ++ tag :: post) parent name h0 =
      genericKeywords t post parent name
        (genericKeyword t parent name (genericKeywords t pre parent name h0) tag) ∧
    (genericKeyword t parent name (genericKeywords t pre parent name h0) tag).length =
      (genericKeywords t pre parent name h0).length + (Split val ';').length ∧
    rd (genericKeyword t parent name (genericKeywords t pre parent name h0) tag) t =
      { rd (genericKeywords t pre parent name h0) t with
        Typ := "",
        OneOf := (rd (genericKeywords t pre parent name h0) t).OneOf ++
          List.range' (genericKeywords t pre parent name h0).length (Split val ';').length } ∧
    (∀ i (hi : i < (Split val ';').length),
      rd (genericKeyword t parent name (genericKeywords t pre parent name h0) tag)
          ((genericKeywords t pre parent name h0).length + i) =
        { Typ := (Split val ';').get ⟨i, hi⟩ }) ∧
    (∀ a, a < (genericKeywords t pre parent name h0).length → a ≠ t →
      rd (genericKeyword t parent name (genericKeywords t pre parent name h0) tag) a =
        rd (genericKeywords t pre parent name h0) a) := by
  have hlen := genericKeywords_length t parent name pre h0
  have ht1 : t < (genericKeywords t pre parent name h0).length := by omega
  exact ⟨genericKeywords_split t parent name pre post tag h0,
    oneofType_round t parent name _ tag val ht1 htag⟩

set_option maxRecDepth 100000 in
/-- C19, at an input: the tag `title=x,oneof_type=string;null` on a node of type
`"integer"` that already has one `oneOf` entry. -/
theorem genericKeywords_oneof_type_witness :
    (1 : Nat) < [({ } : Node), { Typ := "integer", OneOf := [0] }].length ∧
      Split "oneof_type=string;null" '=' = ["oneof_type", "string;null"] ∧
      genericKeywords 1 (["title=x"] ++ "oneof_type=string;null" :: []) 0 "p"
          [{ }, { Typ := "integer", OneOf := [0] }] =
        [{ }, { Title := "x", OneOf := [0, 2, 3] }, { Typ := "string" }, { Typ := "null" }] ∧
      rd (genericKeyword 1 0 "p"
          (genericKeywords 1 ["title=x"] 0 "p" [{ }, { Typ := "integer", OneOf := [0] }])
          "oneof_type=string;null") 1 =
        { rd (genericKeywords 1 ["title=x"] 0 "p" [{ }, { Typ := "integer", OneOf := [0] }]) 1
          with Typ := "", OneOf := [0] ++ List.range' 2 2 } :=
  ⟨by decide, by decide, by decide,
    (genericKeywords_oneof_type 1 0 "p" ["title=x"] [] "oneof_type=string;null" "string;null"
      [{ }, { Typ := "integer", OneOf := [0] }] (by decide) (by decide)).2.2.1⟩
/-! ## `genericKeywords` on `enum` tokens -/

set_option maxRecDepth 100000 in
set_option exponentiation.threshold 2000 in
/-- `ParseFloat` at sample texts: numbers that are a `float64`, a number between
two of them (rounded to the even mantissa), malformed texts (0), the special
values, a number out of range (infinity), underscores and a hexadecimal text. -/
theorem ParseFloat_samples :
    ParseFloat "1.5" = 0x3FF8000000000000 ∧ ParseFloat "100" = 0x4059000000000000 ∧
    ParseFloat "1e2" = 0x4059000000000000 ∧ ParseFloat "-0" = 0x8000000000000000 ∧
    ParseFloat "0.1" = 0x3FB999999999999A ∧
    ParseFloat "9007199254740993" = ParseFloat "9007199254740992" ∧
    ParseFloat "abc" = 0 ∧ ParseFloat "" = 0 ∧ ParseFloat "1.5x" = 0 ∧ ParseFloat "1e" = 0 ∧
    ParseFloat "+nan" = 0 ∧ ParseFloat "NaN" = float64NaN ∧ ParseFloat "-Inf" = 0xFFF0000000000000 ∧
    ParseFloat "infinity" = float64Inf ∧ ParseFloat "1e400" = float64Inf ∧
    ParseFloat "1e-400" = 0 ∧ ParseFloat "1_000" = ParseFloat "1000" ∧ ParseFloat "1__0" = 0 ∧
    ParseFloat "0x1.8p1" = ParseFloat "3" ∧ ParseFloat "0x1" = 0 := by
  decide

set_option maxRecDepth 100000 in
/-- The encoding of sample floats by `encoding/json`. -/
theorem jsonFloat_samples :
    jsonFloat (ParseFloat "1.5") = some "1.5" ∧ jsonFloat (ParseFloat "100") = some "100" ∧
    jsonFloat (ParseFloat "0.1") = some "0.1" ∧ jsonFloat (ParseFloat "-0") = some "-0" ∧
    jsonFloat (ParseFloat "1e21") = some "1e+21" ∧
    jsonFloat (ParseFloat "0.0000001") = some "1e-7" ∧
    jsonFloat (ParseFloat "123456789.125") = some "123456789.125" ∧
    jsonFloat float64Inf = none ∧ jsonFloat float64NaN = none := by
  decide

/-- C20: let `h` be the heap once `genericKeywords` has handled the tokens that
come before a token `enum=v` of the tag of the node `t` (the tokens are handled
from left to right, so an earlier `type=` token has already set the type).  The
round for that token looks at the type `t` has in `h`: for `"string"` it appends
`v` as a string to the enum list of `t`, for `"integer"` the integer `Atoi` makes
of `v`, for `"number"` the `float64` that `ParseFloat` makes of `v` (the nearest
one to a well-formed number, 0 for a malformed text), and for every other type
it leaves the heap as it is.  Appending changes nothing but the enum list of
`t`. -/
theorem genericKeywords_enum (t parent : Nat) (name : String) (pre post : List String)
    (tag v : String) (h0 : Heap) (ht : t < h0.length) (htag : Split tag '=' = ["enum", v]) :
    genericKeywords t (pre ++ tag :: post) parent name h0 =
      genericKeywords t post parent name
        (genericKeyword t parent name (genericKeywords t pre parent name h0) tag) ∧
    ((rd (genericKeywords t pre parent name h0) t).Typ = "string" →
      genericKeyword t parent name (genericKeywords t pre parent name h0) tag =
        upd (genericKeywords t pre parent name h0) t (Node.addEnum (Value.str v))) ∧
    ((rd (genericKeywords t pre parent name h0) t).Typ = "integer" →
      genericKeyword t parent name (genericKeywords t pre parent name h0) tag =
        upd (genericKeywords t pre parent name h0) t (Node.addEnum (Value.int (Atoi v)))) ∧
    ((rd (genericKeywords t pre parent name h0) t).Typ = "number" →
      genericKeyword t parent name (genericKeywords t pre parent name h0) tag =
        upd (genericKeywords t pre parent name h0) t
          (Node.addEnum (Value.float (ParseFloat v)))) ∧
    ((rd (genericKeywords t pre parent name h0) t).Typ ≠ "string" →
      (rd (genericKeywords t pre parent name h0) t).Typ ≠ "integer" →
      (rd (genericKeywords t pre parent name h0) t).Typ ≠ "number" →
      genericKeyword t parent name (genericKeywords t pre parent name h0) tag =
        genericKeywords t pre parent name h0) ∧
    (∀ x, rd (upd (genericKeywords t pre parent name h0) t (Node.addEnum x)) t =
        { rd (genericKeywords t pre parent name h0) t with
          Enum := (rd (genericKeywords t pre parent name h0) t).Enum ++ [x] }) ∧
    (∀ x a, a ≠ t →
      rd (upd (genericKeywords t pre parent name h0) t (Node.addEnum x)) a =
        rd (genericKeywords t pre parent name h0) a) := by
  have hlen := genericKeywords_length t parent name pre h0
  have ht1 : t < (genericKeywords t pre parent name h0).length := by omega
  refine ⟨genericKeywords_split t parent name pre post tag h0, ?_, ?_, ?_, ?_, ?_, ?_⟩
  · intro hT
    unfold genericKeyword
    rw [htag]
    simp [hT]
  · intro hT
    unfold genericKeyword
    rw [htag]
    simp [hT]
  · intro hT
    unfold genericKeyword
    rw [htag]
    simp [hT]
  · intro h1 h2 h3
    unfold genericKeyword
    rw [htag]
    simp [h1, h2, h3]
  · intro x
    rw [rd_upd_eq _ _ _ ht1]
    rfl
  · intro x a hat
    exact rd_upd_ne _ _ _ _ (fun e => hat e.symm)

set_option maxRecDepth 100000 in
/-- C20, at an input: the tag `type=integer,enum=5,enum=x` on a node that starts
with the type `"string"`; the earlier `type=` token decides, so `5` is appended as
an integer and `x` as the integer 0 that `Atoi` returns for it.  With
`type=number` the texts `1.5`, `abc` and `1e2` are appended as the floats 1.5, 0
and 100, which are written `1.5`, `0` and `100` in the JSON output. -/
theorem genericKeywords_enum_witness :
    (0 : Nat) < [({ Typ := "string" } : Node)].length ∧
      Split "enum=5" '=' = ["enum", "5"] ∧
      (rd (genericKeywords 0 ["type=integer"] 0 "p" [{ Typ := "string" }]) 0).Typ = "integer" ∧
      genericKeyword 0 0 "p" (genericKeywords 0 ["type=integer"] 0 "p" [{ Typ := "string" }])
          "enum=5" =
        upd (genericKeywords 0 ["type=integer"] 0 "p" [{ Typ := "string" }]) 0
          (Node.addEnum (Value.int (Atoi "5"))) ∧
      genericKeywords 0 ["type=integer", "enum=5", "enum=x"] 0 "p" [{ Typ := "string" }] =
        [{ Typ := "integer", Enum := [Value.int 5, Value.int 0] }] ∧
      genericKeywords 0 ["type=boolean", "enum=true"] 0 "p" [{ Typ := "string" }] =
        [{ Typ := "boolean" }] ∧
      genericKeywords 0 ["type=number", "enum=1.5", "enum=abc", "enum=1e2"] 0 "p"
          [{ Typ := "string" }] =
        [{ Typ := "number",
           Enum := [Value.float 0x3FF8000000000000, Value.float 0,
             Value.float 0x4059000000000000] }] ∧
      ParseFloat "1e2" = ParseFloat "100" ∧
      [Value.float 0x3FF8000000000000, Value.float 0, Value.float 0x4059000000000000].map
          marshalValue = [some "1.5", some "0", some "100"] :=
  ⟨by decide, by decide, by decide,
    (genericKeywords_enum 0 0 "p" ["type=integer"] ["enum=x"] "enum=5" "5"
      [{ Typ := "string" }] (by decide) (by decide)).2.2.1 (by decide),
    by decide, by decide, by decide, by decide, by decide⟩

/-! ## The `oneOf` branches of an object node -/

theorem Quiet.qrefl (st : Nat) (h : Heap) : Quiet st h h :=
  ⟨le_refl _, rfl, fun _ _ => ⟨rfl, rfl⟩⟩

theorem Quiet.qtrans {st : Nat} {h1 h2 h3 : Heap} (h12 : Quiet st h1 h2) (h23 : Quiet st h2 h3) :
    Quiet st h1 h3 := by
  obtain ⟨l1, o1, b1⟩ := h12
  obtain ⟨l2, o2, b2⟩ := h23
  refine ⟨le_trans l1 l2, o2.trans o1, ?_⟩
  intro b hb
  have hb2 : b ∈ (rd h2 st).OneOf := by rw [o1]; exact hb
  exact ⟨(b2 b hb2).1.trans (b1 b hb).1, (b2 b hb2).2.trans (b1 b hb).2⟩

/-- A quiet step keeps the branches and their invariant. -/
theorem BranchInv.keep {st : Nat} {h h' : Heap} {bs : List (String × List String)}
    (hinv : BranchInv st h bs) (hq : Quiet st h h') : BranchInv st h' bs := by
  obtain ⟨hst, hown, hbs, hnd⟩ := hinv
  obtain ⟨hlen, hone, hb⟩ := hq
  refine ⟨by omega, ?_, ?_, hnd⟩
  · intro b hmem
    rw [hone] at hmem
    have := hown b hmem
    exact ⟨this.1, lt_of_lt_of_le this.2 hlen⟩
  · rw [← hbs]
    unfold branches
    rw [hone]
    apply List.map_congr_left
    intro b hmem
    rw [(hb b hmem).1, (hb b hmem).2]

/-- Writing a node that is neither `st` nor one of its branches is quiet. -/
theorem Quiet.upd_other {st : Nat} {h : Heap} (a : Nat) (f : Node → Node) (hast : a ≠ st)
    (hmem : a ∉ (rd h st).OneOf) : Quiet st h (upd h a f) := by
  refine ⟨by simp, ?_, ?_⟩
  · rw [rd_upd_ne _ _ _ _ hast]
  · intro b hb
    have hab : a ≠ b := fun e => hmem (e ▸ hb)
    rw [rd_upd_ne _ _ _ _ hab]
    exact ⟨rfl, rfl⟩

/-- A mild assignment is quiet, whatever node it writes. -/
theorem Quiet.upd_mild {st : Nat} {h : Heap} (a : Nat) (f : Node → Node) (hf : Mild f) :
    Quiet st h (upd h a f) := by
  have key : ∀ b, (rd (upd h a f) b).Title = (rd h b).Title ∧
      (rd (upd h a f) b).Required = (rd h b).Required ∧
      (rd (upd h a f) b).OneOf = (rd h b).OneOf := by
    intro b
    by_cases hab : a = b
    · subst hab
      by_cases hlen : a < h.length
      · rw [rd_upd_eq _ _ _ hlen]; exact hf _
      · rw [upd_of_length_le _ _ _ (by omega)]; exact ⟨rfl, rfl, rfl⟩
    · rw [rd_upd_ne _ _ _ _ hab]; exact ⟨rfl, rfl, rfl⟩
  exact ⟨by simp, (key st).2.2, fun b _ => ⟨(key b).1, (key b).2.1⟩⟩

/-- Writing `st` itself without touching its `OneOf` is quiet, as long as `st` is
not among its own branches. -/
theorem Quiet.upd_self {st : Nat} {h : Heap} (f : Node → Node)
    (hf : ∀ n, (f n).OneOf = n.OneOf) (hmem : st ∉ (rd h st).OneOf) :
    Quiet st h (upd h st f) := by
  refine ⟨by simp, ?_, ?_⟩
  · by_cases hlen : st < h.length
    · rw [rd_upd_eq _ _ _ hlen]; exact hf _
    · rw [upd_of_length_le _ _ _ (by omega)]
  · intro b hb
    have hab : st ≠ b := fun e => hmem (e ▸ hb)
    rw [rd_upd_ne _ _ _ _ hab]
    exact ⟨rfl, rfl⟩

/-- Allocation is quiet for an allocated `st` with allocated branches. -/
theorem Quiet.qappend {st : Nat} {h : Heap} (l : Heap) (hst : st < h.length)
    (hown : ∀ b ∈ (rd h st).OneOf, b < h.length) : Quiet st h (h ++ l) := by
  refine ⟨by simp, ?_, ?_⟩
  · rw [rd_append_lt _ _ _ hst]
  · intro b hb
    rw [rd_append_lt _ _ _ (hown b hb)]
    exact ⟨rfl, rfl⟩

/-- A run that only extends the heap is quiet for an allocated `st` with allocated
branches. -/
theorem Quiet.of_grown {st : Nat} {h h' : Heap} (hext : Extends h h') (hst : st < h.length)
    (hown : ∀ b ∈ (rd h st).OneOf, b < h.length) : Quiet st h h' := by
  refine ⟨hext.1, ?_, ?_⟩
  · rw [hext.2 st hst]
  · intro b hb
    rw [hext.2 b (hown b hb)]
    exact ⟨rfl, rfl⟩

theorem Aside.of_quiet {st p : Nat} {h h' : Heap} (ha : Aside st p h) (hq : Quiet st h h') :
    Aside st p h' := by
  obtain ⟨hst, hown, hp, hne, hmem⟩ := ha
  obtain ⟨hlen, hone, -⟩ := hq
  refine ⟨lt_of_lt_of_le hst hlen, ?_, lt_of_lt_of_le hp hlen, hne, ?_⟩
  · intro b hb
    rw [hone] at hb
    exact lt_of_lt_of_le (hown b hb) hlen
  · rw [hone]; exact hmem

theorem Aside.quiet_upd {st p : Nat} {h : Heap} (ha : Aside st p h) (f : Node → Node) :
    Quiet st h (upd h p f) :=
  Quiet.upd_other p f ha.2.2.2.1 ha.2.2.2.2

theorem Aside.quiet_append {st p : Nat} {h : Heap} (ha : Aside st p h) (l : Heap) :
    Quiet st h (h ++ l) :=
  Quiet.qappend l ha.1 ha.2.1

/-- A loop of quiet steps is quiet. -/
theorem quiet_foldl {α : Type} {st p : Nat} (g : Heap → α → Heap)
    (hg : ∀ h x, Aside st p h → Quiet st h (g h x)) :
    ∀ (xs : List α) (h : Heap), Aside st p h → Quiet st h (xs.foldl g h) := by
  intro xs
  induction xs with
  | nil => intro h _; exact Quiet.qrefl st h
  | cons x xs ih =>
    intro h ha
    simp only [List.foldl_cons]
    exact (hg h x ha).qtrans (ih _ (ha.of_quiet (hg h x ha)))

theorem stringKeyword_quiet {st p : Nat} (h : Heap) (tag : String) (ha : Aside st p h) :
    Quiet st h (stringKeyword p h tag) := by
  unfold stringKeyword
  split
  · repeat' split
    all_goals first
      | exact ha.quiet_upd _
      | exact Quiet.qrefl st h
  · exact Quiet.qrefl st h

theorem numbericKeyword_quiet {st p : Nat} (h : Heap) (tag : String) (ha : Aside st p h) :
    Quiet st h (numbericKeyword p h tag) := by
  unfold numbericKeyword
  split
  · repeat' split
    all_goals first
      | exact ha.quiet_upd _
      | exact Quiet.qrefl st h
  · exact Quiet.qrefl st h

theorem extraKeywords_quiet {st p : Nat} (tags : List String) (h : Heap) (ha : Aside st p h) :
    Quiet st h (extraKeywords p tags h) := by
  unfold extraKeywords
  apply quiet_foldl _ _ tags h ha
  intro hh tag hha
  split
  · exact hha.quiet_upd _
  · exact Quiet.qrefl st hh

theorem addEnum_mild (v : Value) : Mild (Node.addEnum v) :=
  fun _ => ⟨rfl, rfl, rfl⟩

theorem arrayKeyword_quiet {st p : Nat} (h h' : Heap) (dv dv' : List String) (tag : String)
    (ha : Aside st p h) (hrun : arrayKeyword p (h, dv) tag = Res.ok (h', dv')) :
    Quiet st h h' := by
  unfold arrayKeyword at hrun
  simp only at hrun
  split at hrun
  · repeat' split at hrun
    all_goals first
      | (simp only [Res.ok.injEq, Prod.mk.injEq] at hrun
         rw [← hrun.1]
         first
           | exact ha.quiet_upd _
           | exact Quiet.upd_mild _ _ (addEnum_mild _)
           | exact Quiet.qrefl st h)
      | cases hrun
  · simp only [Res.ok.injEq, Prod.mk.injEq] at hrun
    rw [← hrun.1]; exact Quiet.qrefl st h

theorem arrayKeywordsLoop_quiet {st p : Nat} (tags : List String) :
    ∀ (h h' : Heap) (dv dv' : List String), Aside st p h →
      arrayKeywordsLoop p tags (h, dv) = Res.ok (h', dv') → Quiet st h h' := by
  induction tags with
  | nil =>
    intro h h' dv dv' _ hrun
    simp only [arrayKeywordsLoop, Res.ok.injEq, Prod.mk.injEq] at hrun
    rw [← hrun.1]; exact Quiet.qrefl st h
  | cons tag rest ih =>
    intro h h' dv dv' ha hrun
    simp only [arrayKeywordsLoop] at hrun
    obtain ⟨⟨h1, dv1⟩, hstep, hrest⟩ := Res.bind_eq_ok hrun
    have q1 := arrayKeyword_quiet h h1 dv dv1 tag ha hstep
    exact q1.qtrans (ih h1 h' dv1 dv' (ha.of_quiet q1) hrest)

theorem arrayKeywords_quiet {st p : Nat} (tags : List String) (h h' : Heap)
    (ha : Aside st p h) (hrun : arrayKeywords p tags h = Res.ok h') : Quiet st h h' := by
  unfold arrayKeywords at hrun
  obtain ⟨⟨h1, dv1⟩, hloop, hrest⟩ := Res.bind_eq_ok hrun
  have q1 := arrayKeywordsLoop_quiet tags h h1 [] dv1 ha hloop
  simp only at hrest
  split at hrest
  · simp only [Res.ok.injEq] at hrest
    rw [← hrest]
    exact q1.qtrans ((ha.of_quiet q1).quiet_upd _)
  · simp only [Res.ok.injEq] at hrest
    rw [← hrest]; exact q1

/-- The search for a branch by title in the `oneof_required` case. -/
theorem typeFound_spec (h : Heap) (val : String) (l : List Addr) :
    ∀ (init : Option Addr),
      (∀ x, l.foldl (fun found i => if (rd h i).Title = val then some i else found) init =
          some x → (x ∈ l ∧ (rd h x).Title = val) ∨ init = some x) ∧
      (l.foldl (fun found i => if (rd h i).Title = val then some i else found) init = none →
          init = none ∧ ∀ i ∈ l, (rd h i).Title ≠ val) := by
  induction l with
  | nil =>
    intro init
    exact ⟨fun x hx => Or.inr (by simpa using hx), fun hn => ⟨by simpa using hn, by simp⟩⟩
  | cons i l ih =>
    intro init
    simp only [List.foldl_cons]
    obtain ⟨ih1, ih2⟩ := ih (if (rd h i).Title = val then some i else init)
    constructor
    · intro x hx
      rcases ih1 x hx with hmem | hinit
      · exact Or.inl ⟨List.mem_cons_of_mem _ hmem.1, hmem.2⟩
      · by_cases hi : (rd h i).Title = val
        · simp only [hi, if_true, Option.some.injEq] at hinit
          subst hinit
          exact Or.inl ⟨List.mem_cons_self _ _, hi⟩
        · simp only [hi, if_false] at hinit
          exact Or.inr hinit
    · intro hn
      obtain ⟨hinit, hrest⟩ := ih2 hn
      by_cases hi : (rd h i).Title = val
      · simp [hi] at hinit
      · simp only [hi, if_false] at hinit
        refine ⟨hinit, ?_⟩
        intro j hj
        rcases List.mem_cons.mp hj with e | e
        · subst e; exact hi
        · exact hrest j e

theorem branches_titles (h : Heap) (st : Nat) :
    (branches h st).map Prod.fst = (rd h st).OneOf.map (fun a => (rd h a).Title) := by
  simp [branches, List.map_map, Function.comp]

/-- The `oneof_required` case when a branch with the title exists: the name goes
to the end of the required list of that branch. -/
theorem round_found {st p : Nat} (n val : String) (h : Heap) (bs : List (String × List String))
    (hinv : BranchInv st h bs) (ha : Aside st p h) (found : Addr)
    (hmem : found ∈ (rd h st).OneOf) (htitle : (rd h found).Title = val) :
    BranchInv st (upd h found (Node.addRequired n)) (joinGroup bs (val, n)) ∧
      Aside st p (upd h found (Node.addRequired n)) := by
  obtain ⟨hst, hown, hbs, hnd⟩ := hinv
  have hfst : found ≠ st := fun e => by
    have := (hown found hmem).1
    rw [e] at this
    exact absurd this (lt_irrefl _)
  have hflen : found < h.length := (hown found hmem).2
  have hrst : rd (upd h found (Node.addRequired n)) st = rd h st := rd_upd_ne _ _ _ _ hfst
  have htitles : bs.map Prod.fst = (rd h st).OneOf.map (fun a => (rd h a).Title) := by
    rw [← hbs]; exact branches_titles h st
  have hin : val ∈ bs.map Prod.fst := by
    rw [htitles]
    exact List.mem_map.mpr ⟨found, hmem, htitle⟩
  have huniq : ∀ b ∈ (rd h st).OneOf, (rd h b).Title = val → b = found := by
    intro b hb hbt
    rw [htitles] at hnd
    exact List.inj_on_of_nodup_map hnd hb hmem (hbt.trans htitle.symm)
  refine ⟨⟨by simpa using hst, ?_, ?_, ?_⟩, ?_⟩
  · intro b hb
    rw [hrst] at hb
    exact ⟨(hown b hb).1, by simpa using (hown b hb).2⟩
  · unfold joinGroup
    simp only [hin, if_true]
    rw [← hbs]
    unfold branches
    rw [hrst, List.map_map]
    apply List.map_congr_left
    intro b hb
    simp only [Function.comp]
    by_cases hbf : b = found
    · subst hbf
      rw [rd_upd_eq _ _ _ hflen]
      simp [Node.addRequired, htitle]
    · rw [rd_upd_ne _ _ _ _ (fun e => hbf e.symm)]
      have : (rd h b).Title ≠ val := fun e => hbf (huniq b hb e)
      simp [this]
  · unfold joinGroup
    simp only [hin, if_true]
    rw [List.map_map]
    have : (Prod.fst ∘ fun b : String × List String =>
        if b.1 = val then (b.1, b.2 ++ [n]) else b) = Prod.fst := by
      funext b
      simp only [Function.comp]
      split <;> rfl
    rw [this]
    exact hnd
  · obtain ⟨-, hown', hp, hne, hpm⟩ := ha
    refine ⟨by simpa using hst, ?_, by simpa using hp, hne, ?_⟩
    · intro b hb
      rw [hrst] at hb
      simpa using hown' b hb
    · rw [hrst]; exact hpm

/-- The `oneof_required` case when no branch has the title: a new branch with the
title and the name is added at the end. -/
theorem round_new {st p : Nat} (n val : String) (h : Heap) (bs : List (String × List String))
    (hinv : BranchInv st h bs) (ha : Aside st p h)
    (hnone : ∀ i ∈ (rd h st).OneOf, (rd h i).Title ≠ val) :
    BranchInv st
        (upd (upd (h ++ [({ Title := val, Required := [] } : Node)]) st
          (Node.addOneOf h.length)) h.length (Node.addRequired n))
        (joinGroup bs (val, n)) ∧
      Aside st p
        (upd (upd (h ++ [({ Title := val, Required := [] } : Node)]) st
          (Node.addOneOf h.length)) h.length (Node.addRequired n)) := by
  obtain ⟨hst, hown, hbs, hnd⟩ := hinv
  obtain ⟨-, -, hp, hne, hpm⟩ := ha
  have hsl : st ≠ h.length := by omega
  have htitles : bs.map Prod.fst = (rd h st).OneOf.map (fun a => (rd h a).Title) := by
    rw [← hbs]; exact branches_titles h st
  have hnin : val ∉ bs.map Prod.fst := by
    rw [htitles]
    intro hc
    obtain ⟨b, hb, hbt⟩ := List.mem_map.mp hc
    exact hnone b hb hbt
  have hrst : rd (upd (upd (h ++ [({ Title := val, Required := [] } : Node)]) st
      (Node.addOneOf h.length)) h.length (Node.addRequired n)) st =
      Node.addOneOf h.length (rd h st) := by
    rw [rd_upd_ne _ _ _ _ (fun e => hsl e.symm), rd_upd_eq _ _ _ (by simp; omega),
      rd_append_lt _ _ _ hst]
  have hrnew : rd (upd (upd (h ++ [({ Title := val, Required := [] } : Node)]) st
      (Node.addOneOf h.length)) h.length (Node.addRequired n)) h.length =
      { Title := val, Required := [n] } := by
    rw [rd_upd_eq _ _ _ (by simp), rd_upd_ne _ _ _ _ hsl, rd_append_length]
    rfl
  have hrold : ∀ b ∈ (rd h st).OneOf,
      rd (upd (upd (h ++ [({ Title := val, Required := [] } : Node)]) st
        (Node.addOneOf h.length)) h.length (Node.addRequired n)) b = rd h b := by
    intro b hb
    have h1 := (hown b hb).1
    have h2 := (hown b hb).2
    have hbl : h.length ≠ b := fun e => by rw [← e] at h2; exact lt_irrefl _ h2
    have hbs' : st ≠ b := fun e => by rw [← e] at h1; exact lt_irrefl _ h1
    rw [rd_upd_ne _ _ _ _ hbl, rd_upd_ne _ _ _ _ hbs', rd_append_lt _ _ _ h2]
  have hone : (Node.addOneOf h.length (rd h st)).OneOf = (rd h st).OneOf ++ [h.length] := rfl
  refine ⟨⟨by simp; omega, ?_, ?_, ?_⟩, ?_⟩
  · intro b hb
    rw [hrst, hone] at hb
    rcases List.mem_append.mp hb with hb | hb
    · exact ⟨(hown b hb).1, by simp; exact Nat.lt_succ_of_lt (hown b hb).2⟩
    · simp only [List.mem_singleton] at hb
      subst hb
      exact ⟨hst, by simp⟩
  · unfold joinGroup
    simp only [hnin, if_false]
    rw [← hbs]
    unfold branches
    rw [hrst, hone, List.map_append]
    congr 1
    · apply List.map_congr_left
      intro b hb
      rw [hrold b hb]
    · simp [hrnew]
  · unfold joinGroup
    simp only [hnin, if_false]
    rw [List.map_append]
    simp only [List.map_cons, List.map_nil]
    refine List.Nodup.append hnd (List.nodup_singleton _) ?_
    intro a ha1 ha2
    simp only [List.mem_singleton] at ha2
    subst ha2
    exact hnin ha1
  · refine ⟨by simp; omega, ?_, by simp; omega, hne, ?_⟩
    · intro b hb
      rw [hrst, hone] at hb
      rcases List.mem_append.mp hb with hb | hb
      · simp; exact Nat.lt_succ_of_lt (hown b hb).2
      · simp only [List.mem_singleton] at hb
        subst hb; simp
    · rw [hrst, hone]
      intro hc
      rcases List.mem_append.mp hc with hc | hc
      · exact hpm hc
      · simp only [List.mem_singleton] at hc
        omega

theorem groupToken_some (n tag : String) (tok : String × String)
    (h : groupToken n tag = some tok) :
    Split tag '=' = ["oneof_required", tok.1] ∧ tok.2 = n := by
  unfold groupToken at h
  split at h
  · rename_i k G hS
    split at h
    · rename_i hk
      simp only [Option.some.injEq] at h
      subst h
      exact ⟨by rw [hS, hk], rfl⟩
    · cases h
  · cases h

theorem groupToken_none (n tag : String) (h : groupToken n tag = none) (G : String) :
    Split tag '=' ≠ ["oneof_required", G] := by
  intro hS
  unfold groupToken at h
  rw [hS] at h
  simp at h

/-- A token other than `oneof_required=G` is quiet. -/
theorem genericKeyword_quiet {st p : Nat} (n : String) (h : Heap) (tag : String)
    (ha : Aside st p h) (hno : ∀ G, Split tag '=' ≠ ["oneof_required", G]) :
    Quiet st h (genericKeyword p st n h tag) := by
  unfold genericKeyword
  split
  · rename_i name val hS
    split
    · exact ha.quiet_upd _
    split
    · exact ha.quiet_upd _
    split
    · exact ha.quiet_upd _
    split
    · rename_i hname
      exact absurd (by rw [hS, hname]) (hno val)
    split
    · have q1 : Quiet st h (upd h p (Node.setTyp "")) := ha.quiet_upd _
      refine q1.qtrans (quiet_foldl _ ?_ _ _ (ha.of_quiet q1))
      intro hh ty hha
      simp only [alloc]
      have q2 : Quiet st hh (hh ++ [({ Typ := ty } : Node)]) := hha.quiet_append _
      exact q2.qtrans ((hha.of_quiet q2).quiet_upd _)
    split
    · repeat' split
      all_goals first
        | exact ha.quiet_upd _
        | exact Quiet.qrefl st h
    · exact Quiet.qrefl st h
  · exact Quiet.qrefl st h

/-- One round of the loop of `genericKeywords` on the node `p` of a field of the
object node `st`: a token `oneof_required=G` joins the field's name to the group
`G`, any other token leaves the branches alone. -/
theorem genericKeyword_branches {st p : Nat} (n : String) (h : Heap) (tag : String)
    (bs : List (String × List String)) (hinv : BranchInv st h bs) (ha : Aside st p h) :
    BranchInv st (genericKeyword p st n h tag)
        (match groupToken n tag with
          | some tok => joinGroup bs tok
          | none => bs) ∧
      Aside st p (genericKeyword p st n h tag) := by
  cases hg : groupToken n tag with
  | none =>
    have q := genericKeyword_quiet n h tag ha (groupToken_none n tag hg)
    exact ⟨hinv.keep q, ha.of_quiet q⟩
  | some tok =>
    obtain ⟨hS, hn⟩ := groupToken_some n tag tok hg
    obtain ⟨G, m⟩ := tok
    simp only at hS hn
    subst hn
    simp only
    unfold genericKeyword
    rw [hS]
    simp only [String.reduceEq, if_false, if_true]
    obtain ⟨f1, f2⟩ := typeFound_spec h G (rd h st).OneOf none
    cases hfound : (rd h st).OneOf.foldl
        (fun found i => if (rd h i).Title = G then some i else found) none with
    | some found =>
      simp only
      rcases f1 found hfound with hm | hm
      · exact round_found m G h bs hinv ha found hm.1 hm.2
      · cases hm
    | none =>
      simp only [alloc]
      exact round_new m G h bs hinv ha (f2 hfound).2

theorem genericKeywords_branches {st p : Nat} (n : String) (tags : List String) :
    ∀ (h : Heap) (bs : List (String × List String)), BranchInv st h bs → Aside st p h →
      BranchInv st (genericKeywords p tags st n h)
          ((tags.filterMap (groupToken n)).foldl joinGroup bs) ∧
        Aside st p (genericKeywords p tags st n h) := by
  induction tags with
  | nil => intro h bs hinv ha; exact ⟨hinv, ha⟩
  | cons tag rest ih =>
    intro h bs hinv ha
    obtain ⟨i1, a1⟩ := genericKeyword_branches n h tag bs hinv ha
    have hstep : genericKeywords p (tag :: rest) st n h =
        genericKeywords p rest st n (genericKeyword p st n h tag) := rfl
    rw [hstep]
    cases hg : groupToken n tag with
    | none =>
      rw [hg] at i1
      simp only [List.filterMap_cons, hg]
      exact ih _ _ i1 a1
    | some tok =>
      rw [hg] at i1
      simp only [List.filterMap_cons, hg, List.foldl_cons]
      exact ih _ _ i1 a1

theorem structKeywordsFromTags_branches {st p : Nat} (f : StructField) (n : String)
    (h h' : Heap) (bs : List (String × List String)) (hinv : BranchInv st h bs)
    (ha : Aside st p h) (hrun : structKeywordsFromTags p f st n h = Res.ok h') :
    BranchInv st h'
        (((Split (f.Tag.Get "jsonschema") ',').filterMap (groupToken n)).foldl joinGroup bs) ∧
      Aside st p h' := by
  unfold structKeywordsFromTags at hrun
  simp only at hrun
  obtain ⟨h3, htyped, hrest⟩ := Res.bind_eq_ok hrun
  simp only [Res.ok.injEq] at hrest
  have q1 : Quiet st h (upd h p (Node.setDescription (f.Tag.Get "jsonschema_description"))) :=
    ha.quiet_upd _
  obtain ⟨i2, a2⟩ := genericKeywords_branches n (Split (f.Tag.Get "jsonschema") ',') _ bs
    (hinv.keep q1) (ha.of_quiet q1)
  have q3 : Quiet st
      (genericKeywords p (Split (f.Tag.Get "jsonschema") ',') st n
        (upd h p (Node.setDescription (f.Tag.Get "jsonschema_description")))) h3 := by
    split at htyped
    · simp only [Res.ok.injEq] at htyped
      rw [← htyped]
      exact quiet_foldl _ (fun hh tag hha => stringKeyword_quiet hh tag hha) _ _ a2
    split at htyped
    · simp only [Res.ok.injEq] at htyped
      rw [← htyped]
      exact quiet_foldl _ (fun hh tag hha => numbericKeyword_quiet hh tag hha) _ _ a2
    split at htyped
    · simp only [Res.ok.injEq] at htyped
      rw [← htyped]
      exact quiet_foldl _ (fun hh tag hha => numbericKeyword_quiet hh tag hha) _ _ a2
    split at htyped
    · exact arrayKeywords_quiet _ _ _ a2 htyped
    · simp only [Res.ok.injEq] at htyped
      rw [← htyped]
      exact Quiet.qrefl st _
  have q4 := extraKeywords_quiet (Split (f.Tag.Get "jsonschema_extras") ',') h3 (a2.of_quiet q3)
  rw [← hrest]
  exact ⟨(i2.keep q3).keep q4, (a2.of_quiet q3).of_quiet q4⟩

theorem BranchInv.not_own {st : Nat} {h : Heap} {bs : List (String × List String)}
    (hinv : BranchInv st h bs) : st ∉ (rd h st).OneOf :=
  fun hc => lt_irrefl _ (hinv.2.1 st hc).1

theorem storeProperty_quiet {st : Nat} (name : String) (required : Bool) (q : Addr)
    (h h' : Heap) (hmem : st ∉ (rd h st).OneOf)
    (hrun : storeProperty st name required q h = Res.ok h') : Quiet st h h' := by
  unfold storeProperty at hrun
  split at hrun
  · cases hrun
  · rename_i properties hprops
    simp only [Res.ok.injEq] at hrun
    have q1 : Quiet st h (upd h st (Node.setProperty properties name q)) :=
      Quiet.upd_self _ (fun _ => rfl) hmem
    have hmem1 : st ∉ (rd (upd h st (Node.setProperty properties name q)) st).OneOf := by
      rw [q1.2.1]; exact hmem
    rw [← hrun]
    split
    · exact q1.qtrans (Quiet.upd_self _ (fun _ => rfl) hmem1)
    · exact q1

theorem finishField_branches (env : TypeEnv) (t : TypeId) {st p : Nat} (f : StructField)
    (name : String) (required nullable : Bool) (s s' : State)
    (bs : List (String × List String)) (hinv : BranchInv st s.heap bs)
    (ha : Aside st p s.heap)
    (hrun : finishField env t st f name required nullable p s = Res.ok s') :
    BranchInv st s'.heap
      (((Split (f.Tag.Get "jsonschema") ',').filterMap (groupToken name)).foldl joinGroup bs) := by
  unfold finishField at hrun
  obtain ⟨h1, htags, hrest⟩ := Res.bind_eq_ok hrun
  obtain ⟨h2, hstore, hfin⟩ := Res.bind_eq_ok hrest
  simp only [Res.ok.injEq] at hfin
  obtain ⟨i1, a1⟩ := structKeywordsFromTags_branches f name s.heap h1 bs hinv ha htags
  have q2 : Quiet st h1 (applyFieldDoc env t f p h1) := by
    unfold applyFieldDoc
    split
    · exact a1.quiet_upd _
    · exact Quiet.qrefl st h1
  have i2 := i1.keep q2
  have a2 := a1.of_quiet q2
  have q3 : Quiet st (applyFieldDoc env t f p h1)
      (wrapNullable nullable p (applyFieldDoc env t f p h1)).2 := by
    unfold wrapNullable
    split
    · simp only [List.append_assoc]
      exact a2.quiet_append _
    · exact Quiet.qrefl st _
  have i3 := i2.keep q3
  have q4 := storeProperty_quiet name required _ _ h2 i3.not_own hstore
  rw [← hfin]
  exact i3.keep q4

theorem groups_H (env : TypeEnv) (r : Reflector) (fuel : Nat) (ih : GroupsAt env r fuel) :
    ∀ (st : Nat) t f s s' bs, BranchInv st s.heap bs →
      handleField env r (fuel + 1) st t f s = Res.ok s' →
      BranchInv st s'.heap ((fieldGroupTokens env r (fuel + 1) f).foldl joinGroup bs) := by
  obtain ⟨ihF, -⟩ := ih
  intro st t f s s' bs hinv hrun
  rw [handleField] at hrun
  simp only at hrun
  rw [fieldGroupTokens]
  split at hrun
  · rename_i hname
    simp only [hname, if_true]
    split at hrun
    · rename_i hembed
      simp only [hembed, if_true]
      exact ihF st _ s s' bs hinv hrun
    · rename_i hembed
      simp only [Res.ok.injEq] at hrun
      rw [← hrun]
      simpa [hembed] using hinv
  · rename_i hname
    simp only [hname, if_false]
    obtain ⟨⟨p, s1⟩, hT, hfin⟩ := Res.bind_eq_ok hrun
    obtain ⟨hext, hfresh⟩ := (frame env r fuel).1 f.Typ s p s1 hT
    have hb : ∀ b ∈ (rd s.heap st).OneOf, b < s.heap.length := fun b hb => (hinv.2.1 b hb).2
    have q1 : Quiet st s.heap s1.heap := Quiet.of_grown hext hinv.1 hb
    have i1 := hinv.keep q1
    have ha : Aside st p s1.heap := by
      refine ⟨i1.1, fun b hb' => (i1.2.1 b hb').2, hfresh.2.1, ?_, ?_⟩
      · have := hinv.1
        have := hfresh.1
        omega
      · rw [q1.2.1]
        intro hc
        have h1 := hb p hc
        have h2 := hfresh.1
        exact absurd h1 (not_lt.mpr h2)
    exact finishField_branches env t f _ _ _ s1 s' bs i1 ha hfin

theorem forEach_branches (env : TypeEnv) (r : Reflector) (fuel : Nat)
    (ih : GroupsAt env r fuel) (st : Nat) (t : TypeId) :
    ∀ (fs : List StructField) s s' bs, BranchInv st s.heap bs →
      forEach (handleField env r fuel st t) fs s = Res.ok s' →
      BranchInv st s'.heap ((fs.flatMap (fieldGroupTokens env r fuel)).foldl joinGroup bs) := by
  intro fs
  induction fs with
  | nil =>
    intro s s' bs hinv hrun
    simp only [forEach, Res.ok.injEq] at hrun
    rw [← hrun]
    simpa using hinv
  | cons f rest ihl =>
    intro s s' bs hinv hrun
    simp only [forEach] at hrun
    obtain ⟨s1, h1, hrest⟩ := Res.bind_eq_ok hrun
    have i1 := ih.2 st t f s s1 bs hinv h1
    simp only [List.flatMap_cons, List.foldl_append]
    exact ihl s1 s' _ i1 hrest

theorem groups_F (env : TypeEnv) (r : Reflector) (fuel : Nat) (ih : GroupsAt env r fuel) :
    ∀ (st : Nat) t s s' bs, BranchInv st s.heap bs →
      reflectStructFields env r (fuel + 1) st t s = Res.ok s' →
      BranchInv st s'.heap ((groupTokens env r (fuel + 1) t).foldl joinGroup bs) := by
  intro st t s s' bs hinv hrun
  have body : ∀ u,
      (if env.kind u ≠ Kind.Struct then Res.ok s
        else
          (forEach (handleField env r fuel st u) (env.fields u) s).bind fun s =>
            match r.AdditionalFields with
            | some additional => forEach (handleField env r fuel st u) (additional u) s
            | none => Res.ok s) = Res.ok s' →
      BranchInv st s'.heap
        ((if env.kind u ≠ Kind.Struct then []
          else (handledFields env r u).flatMap (fieldGroupTokens env r fuel)).foldl
            joinGroup bs) := by
    intro u hu
    split at hu
    · rename_i hk
      simp only [Res.ok.injEq] at hu
      rw [← hu]
      simpa [hk] using hinv
    · rename_i hk
      simp only [hk, if_false]
      obtain ⟨s1, h1, h2⟩ := Res.bind_eq_ok hu
      have i1 := forEach_branches env r fuel ih st u _ s s1 bs hinv h1
      unfold handledFields
      rw [List.flatMap_append, List.foldl_append]
      cases hA : r.AdditionalFields with
      | some additional =>
        simp only [hA] at h2 ⊢
        exact forEach_branches env r fuel ih st u _ s1 s' _ i1 h2
      | none =>
        simp only [hA, Res.ok.injEq] at h2 ⊢
        rw [← h2]
        simpa using i1
  rw [reflectStructFields] at hrun
  rw [groupTokens]
  by_cases hp : env.kind t = Kind.Ptr
  · simp only [hp, if_true] at hrun ⊢
    exact body _ hrun
  · simp only [hp, if_false] at hrun ⊢
    exact body _ hrun

/-- Every amount of fuel: the branches of the object node end as the memberships
of the fields reflected into it, joined to the branches at the start. -/
theorem groupsInv (env : TypeEnv) (r : Reflector) : ∀ fuel, GroupsAt env r fuel := by
  intro fuel
  induction fuel with
  | zero =>
    constructor
    · intro st t s s' bs _ hrun; simp [reflectStructFields] at hrun
    · intro st t f s s' bs _ hrun; simp [handleField] at hrun
  | succ n ih => exact ⟨groups_F env r n ih, groups_H env r n ih⟩

theorem firstSeen_snoc (l : List String) (x : String) :
    firstSeen (l ++ [x]) = if x ∈ firstSeen l then firstSeen l else firstSeen l ++ [x] := by
  simp [firstSeen, List.foldl_append]

theorem mem_firstSeen (x : String) : ∀ l : List String, x ∈ firstSeen l ↔ x ∈ l := by
  intro l
  induction l using List.reverseRecOn with
  | nil => simp [firstSeen]
  | append_singleton l y ih =>
    rw [firstSeen_snoc]
    by_cases hy : y ∈ firstSeen l
    · simp only [hy, if_true, List.mem_append, List.mem_singleton]
      constructor
      · intro h; exact Or.inl (ih.mp h)
      · intro h
        rcases h with h | h
        · exact ih.mpr h
        · rw [h]; exact hy
    · simp only [hy, if_false, List.mem_append, List.mem_singleton, ih]

theorem groupsOf_titles (tokens : List (String × String)) :
    (groupsOf tokens).map Prod.fst = firstSeen (tokens.map Prod.fst) := by
  unfold groupsOf
  rw [List.map_map]
  have : (Prod.fst ∘ fun G : String =>
      (G, ((tokens.filter (fun x => x.1 = G)).map Prod.snd))) = id := by
    funext G; rfl
  rw [this, List.map_id]

/-- Joining one more membership to the groups of a list gives the groups of the
longer list. -/
theorem joinGroup_groupsOf (pre : List (String × String)) (tok : String × String) :
    joinGroup (groupsOf pre) tok = groupsOf (pre ++ [tok]) := by
  unfold joinGroup
  rw [groupsOf_titles]
  have hnames : ∀ G, ((pre ++ [tok]).filter (fun x => x.1 = G)).map Prod.snd =
      (pre.filter (fun x => x.1 = G)).map Prod.snd ++ (if tok.1 = G then [tok.2] else []) := by
    intro G
    rw [List.filter_append, List.map_append]
    by_cases h : tok.1 = G
    · simp [h]
    · simp [h]
  by_cases hin : tok.1 ∈ firstSeen (pre.map Prod.fst)
  · simp only [hin, if_true]
    unfold groupsOf
    rw [List.map_append, List.map_cons, List.map_nil, firstSeen_snoc]
    simp only [hin, if_true, List.map_map]
    apply List.map_congr_left
    intro G _
    simp only [Function.comp, hnames]
    by_cases h : G = tok.1
    · simp [h]
    · have h' : ¬ tok.1 = G := fun e => h e.symm
      simp [h, h']
  · simp only [hin, if_false]
    unfold groupsOf
    rw [List.map_append, List.map_cons, List.map_nil, firstSeen_snoc]
    simp only [hin, if_false, List.map_append, List.map_cons, List.map_nil]
    congr 1
    · apply List.map_congr_left
      intro G hG
      have h' : ¬ tok.1 = G := fun e => hin (e ▸ hG)
      simp [hnames, h']
    · have hpre : pre.filter (fun x => x.1 = tok.1) = [] := by
        rw [List.filter_eq_nil_iff]
        intro x hx
        have hmem : x.1 ∈ pre.map Prod.fst := List.mem_map.mpr ⟨x, hx, rfl⟩
        have hns : tok.1 ∉ pre.map Prod.fst := fun hc => hin ((mem_firstSeen _ _).mpr hc)
        simp only [decide_eq_true_eq]
        intro e
        exact hns (e ▸ hmem)
      simp [hnames, hpre]

theorem foldl_joinGroup (toks : List (String × String)) :
    ∀ pre : List (String × String),
      toks.foldl joinGroup (groupsOf pre) = groupsOf (pre ++ toks) := by
  induction toks with
  | nil => intro pre; simp
  | cons tok rest ih =>
    intro pre
    simp only [List.foldl_cons]
    rw [joinGroup_groupsOf, ih]
    simp

/-- Joining the memberships one after the other, from no branch at all, gives the
groups of the list: one per distinct title in order of first appearance, each with
its names in order. -/
theorem foldl_joinGroup_nil (toks : List (String × String)) :
    toks.foldl joinGroup [] = groupsOf toks := by
  have := foldl_joinGroup toks []
  simpa [groupsOf, firstSeen] using this

/-- The branches of a new struct node: none. -/
theorem branchInv_new (r : Reflector) (h : Heap) : BranchInv h.length (h ++ [structNode r]) [] := by
  have hrd : rd (h ++ [structNode r]) h.length = structNode r := rd_append_length h _
  refine ⟨by simp, ?_, ?_, List.nodup_nil⟩
  · intro b hb
    rw [hrd] at hb
    simp [structNode] at hb
  · unfold branches
    rw [hrd]
    simp [structNode]

/-- C18: for a struct type that is neither a custom-schema type nor listed in
`IgnoredTypes`, when `reflectStruct` returns, the object node it built for the
type has exactly one `oneOf` branch per distinct group title among the
`oneof_required=G` tokens of the fields reflected into it (the fields of embedded
structs spliced in place), in order of first appearance; each branch is titled
`G` and its required list holds the property names of the fields tagged with `G`,
in field order. -/
theorem reflectStruct_oneof_required (env : TypeEnv) (r : Reflector) (fuel : Nat) (t : TypeId)
    (s : State) (hk : env.kind t = Kind.Struct)
    (hc : (env.JSONSchemaType t).isNone = true) (hi : r.IgnoredTypes.contains t = false) :
    ∀ a s', reflectStruct env r (fuel + 2) t s = Res.ok (a, s') →
      branches s'.heap s.heap.length = groupsOf (groupTokens env r (fuel + 1) t) := by
  have hptr : env.kind t ≠ Kind.Ptr := by rw [hk]; decide
  have heq : reflectStruct env r (fuel + 2) t s =
      (reflectStructFields env r (fuel + 1) s.heap.length t
        { definitions := mapSet s.definitions (typeName env r t) s.heap.length,
          heap := s.heap ++ [structNode r] }).bind
        (fun s2 =>
          if r.DoNotReference then Res.ok (s.heap.length, s2)
          else returnNew s2 (refNode r (typeName env r t))) := by
    rw [reflectStruct, reflectCustomType_none env r fuel t s hptr hc]
    simp only [Res.ok_bind, hi]
    rfl
  intro a s' hrun
  rw [heq] at hrun
  obtain ⟨s2, hf, hret⟩ := Res.bind_eq_ok hrun
  have hF := (groupsInv env r (fuel + 1)).1 s.heap.length t _ s2 [] (branchInv_new r s.heap) hf
  rw [foldl_joinGroup_nil] at hF
  split at hret
  · simp only [Res.ok.injEq, Prod.mk.injEq] at hret
    rw [← hret.2]
    exact hF.2.2.1
  · simp only [returnNew, Res.ok.injEq, Prod.mk.injEq] at hret
    rw [← hret.2]
    have q : Quiet s.heap.length s2.heap (s2.heap ++ [refNode r (typeName env r t)]) :=
      Quiet.qappend _ hF.1 (fun b hb => (hF.2.1 b hb).2)
    exact (hF.keep q).2.2.1

set_option maxRecDepth 100000 in
/-- C18, at an input: `Contact`, whose fields `Email`, `Phone` and `Fax` are tagged
with the groups `mail`, `wire` and `wire`. -/
theorem reflectStruct_oneof_required_witness :
    contactEnv.kind 0 = Kind.Struct ∧ (contactEnv.JSONSchemaType 0).isNone = true ∧
      defaultReflector.IgnoredTypes.contains 0 = false ∧
      groupsOf (groupTokens contactEnv defaultReflector 4 0) =
        [("mail", ["Email"]), ("wire", ["Phone", "Fax"])] ∧
      reflectStruct contactEnv defaultReflector 5 0 {} =
        Res.ok (6,
          { definitions := [("Contact", 0)],
            heap :=
              [ { Typ := "object", AdditionalProperties := "false",
                  Required := ["Email", "Phone", "Fax"],
                  Properties := some [("Email", 1), ("Phone", 3), ("Fax", 5)],
                  OneOf := [2, 4] },
                { Typ := "string" }, { Title := "mail", Required := ["Email"] },
                { Typ := "string" }, { Title := "wire", Required := ["Phone", "Fax"] },
                { Typ := "string" },
                { Version := 1, Ref := "#/definitions/Contact" } ] }) ∧
      branches
          [ { Typ := "object", AdditionalProperties := "false",
              Required := ["Email", "Phone", "Fax"],
              Properties := some [("Email", 1), ("Phone", 3), ("Fax", 5)],
              OneOf := [2, 4] },
            { Typ := "string" }, { Title := "mail", Required := ["Email"] },
            { Typ := "string" }, { Title := "wire", Required := ["Phone", "Fax"] },
            { Typ := "string" },
            { Version := 1, Ref := "#/definitions/Contact" } ] 0 =
        groupsOf (groupTokens contactEnv defaultReflector 4 0) :=
  have hrun : reflectStruct contactEnv defaultReflector 5 0 {} =
      Res.ok (6,
        { definitions := [("Contact", 0)],
          heap :=
            [ { Typ := "object", AdditionalProperties := "false",
                Required := ["Email", "Phone", "Fax"],
                Properties := some [("Email", 1), ("Phone", 3), ("Fax", 5)],
                OneOf := [2, 4] },
              { Typ := "string" }, { Title := "mail", Required := ["Email"] },
              { Typ := "string" }, { Title := "wire", Required := ["Phone", "Fax"] },
              { Typ := "string" },
              { Version := 1, Ref := "#/definitions/Contact" } ] }) := by decide
  ⟨by decide, by decide, by decide, by decide, hrun,
    reflectStruct_oneof_required contactEnv defaultReflector 3 0 {} (by decide) (by decide)
      (by decide) _ _ hrun⟩

/-! ## The extension bag -/

theorem Atoi_malformed (v : String) (h : integerText v = false) : Atoi v = 0 := by
  unfold integerText at h
  unfold Atoi
  split at h <;> simp_all

theorem setExtraBag_other (b : List (String × Value)) (k v k' : String) (hk : k' ≠ k) :
    mapGet (setExtraBag b k v) k' = mapGet b k' := by
  unfold setExtraBag
  split <;> try simp [mapGet_mapSet, hk]
  split <;> simp [mapGet_mapSet, hk]

theorem setExtraBag_first (b : List (String × Value)) (k v : String) (hk : k ≠ "minimum")
    (hb : mapGet b k = none) : mapGet (setExtraBag b k v) k = some (Value.str v) := by
  unfold setExtraBag
  simp [hb, hk, mapGet_mapSet]

theorem setExtraBag_str (b : List (String × Value)) (k v x : String)
    (hb : mapGet b k = some (Value.str x)) :
    mapGet (setExtraBag b k v) k = some (Value.strs [x, v]) := by
  unfold setExtraBag
  simp [hb, mapGet_mapSet]

theorem setExtraBag_strs (b : List (String × Value)) (k v : String) (l : List String)
    (hb : mapGet b k = some (Value.strs l)) :
    mapGet (setExtraBag b k v) k = some (Value.strs (l ++ [v])) := by
  unfold setExtraBag
  simp [hb, mapGet_mapSet]

theorem setExtraBag_int (b : List (String × Value)) (k v : String) (i : Int)
    (hb : mapGet b k = some (Value.int i)) :
    mapGet (setExtraBag b k v) k = some (Value.int (Atoi v)) := by
  unfold setExtraBag
  simp [hb, mapGet_mapSet]

theorem setExtraBag_minimum (b : List (String × Value)) (v : String)
    (hb : mapGet b "minimum" = none) :
    mapGet (setExtraBag b "minimum" v) "minimum" = some (Value.int (Atoi v)) := by
  unfold setExtraBag
  simp [hb, mapGet_mapSet]

theorem setExtras_cons (k v : String) (vals : List String) (n : Node) :
    setExtras k (v :: vals) n = setExtras k vals (Node.setExtra k v n) := rfl

theorem setExtras_other (k : String) (vals : List String) :
    ∀ (n : Node) (k' : String), k' ≠ k →
      mapGet (setExtras k vals n).Extras k' = mapGet n.Extras k' := by
  induction vals with
  | nil => intro n k' _; rfl
  | cons v rest ih =>
    intro n k' hk
    rw [setExtras_cons, ih _ k' hk]
    exact setExtraBag_other n.Extras k v k' hk

theorem setExtras_strs (k : String) (vals : List String) :
    ∀ (n : Node) (l : List String), mapGet n.Extras k = some (Value.strs l) →
      mapGet (setExtras k vals n).Extras k = some (Value.strs (l ++ vals)) := by
  induction vals with
  | nil => intro n l h; simpa [setExtras] using h
  | cons v rest ih =>
    intro n l h
    rw [setExtras_cons, ih _ (l ++ [v]) (setExtraBag_strs n.Extras k v l h)]
    simp

theorem setExtras_int (vals : List String) :
    ∀ (n : Node) (i : Int) (hne : vals ≠ []), mapGet n.Extras "minimum" = some (Value.int i) →
      mapGet (setExtras "minimum" vals n).Extras "minimum" =
        some (Value.int (Atoi (vals.getLast hne))) := by
  induction vals with
  | nil => intro n i hne; exact absurd rfl hne
  | cons v rest ih =>
    intro n i hne h
    rw [setExtras_cons]
    have h1 := setExtraBag_int n.Extras "minimum" v i h
    cases rest with
    | nil => simpa [setExtras] using h1
    | cons w more =>
      rw [ih _ _ (by simp) h1]
      simp

/-- C28: for a key other than `"minimum"` that the extension bag of the node does
not hold, after one call of `setExtra` the entry is the string passed, and after
two calls or more it is the list of the strings passed, in call order; the
entries under other keys are as before, whatever the number of calls. -/
theorem setExtra_accumulates (n : Node) (k v1 : String) (hk : k ≠ "minimum")
    (hb : mapGet n.Extras k = none) :
    mapGet (setExtras k [v1] n).Extras k = some (Value.str v1) ∧
    (∀ v2 more, mapGet (setExtras k (v1 :: v2 :: more) n).Extras k =
        some (Value.strs (v1 :: v2 :: more))) ∧
    (∀ vals k', k' ≠ k → mapGet (setExtras k vals n).Extras k' = mapGet n.Extras k') := by
  have h1 : mapGet (Node.setExtra k v1 n).Extras k = some (Value.str v1) :=
    setExtraBag_first n.Extras k v1 hk hb
  refine ⟨h1, ?_, fun vals k' hk' => setExtras_other k vals n k' hk'⟩
  intro v2 more
  rw [setExtras_cons, setExtras_cons]
  have h2 : mapGet (Node.setExtra k v2 (Node.setExtra k v1 n)).Extras k =
      some (Value.strs [v1, v2]) := setExtraBag_str _ k v2 v1 h1
  rw [setExtras_strs k more _ _ h2]
  simp

set_option maxRecDepth 100000 in
/-- C28, at an input: three calls for the key `"x-tag"` on a node whose bag holds
another key. -/
theorem setExtra_accumulates_witness :
    ("x-tag" : String) ≠ "minimum" ∧
      mapGet ({ Extras := [("unit", Value.str "m")] } : Node).Extras "x-tag" = none ∧
      mapGet (setExtras "x-tag" ["a", "b", "c"] { Extras := [("unit", Value.str "m")] }).Extras
        "x-tag" = some (Value.strs ["a", "b", "c"]) ∧
      (setExtras "x-tag" ["a", "b", "c"] { Extras := [("unit", Value.str "m")] }).Extras =
        [("unit", Value.str "m"), ("x-tag", Value.strs ["a", "b", "c"])] :=
  ⟨by decide, by decide,
    (setExtra_accumulates { Extras := [("unit", Value.str "m")] } "x-tag" "a" (by decide)
      (by decide)).2.1 "b" ["c"],
    by decide⟩

/-- C29: for the key `"minimum"` that the extension bag of the node does not hold,
after any non-empty sequence of calls of `setExtra` the entry is an integer, the
one `Atoi` makes of the last value passed; `Atoi` gives 0 for text that is not an
optional sign followed by decimal digits. -/
theorem setExtra_minimum (n : Node) (vals : List String) (hne : vals ≠ [])
    (hb : mapGet n.Extras "minimum" = none) :
    mapGet (setExtras "minimum" vals n).Extras "minimum" =
        some (Value.int (Atoi (vals.getLast hne))) ∧
      (integerText (vals.getLast hne) = false →
        mapGet (setExtras "minimum" vals n).Extras "minimum" = some (Value.int 0)) := by
  have main : mapGet (setExtras "minimum" vals n).Extras "minimum" =
      some (Value.int (Atoi (vals.getLast hne))) := by
    cases vals with
    | nil => exact absurd rfl hne
    | cons v rest =>
      have h1 : mapGet (Node.setExtra "minimum" v n).Extras "minimum" =
          some (Value.int (Atoi v)) := setExtraBag_minimum n.Extras v hb
      cases rest with
      | nil => simpa [setExtras] using h1
      | cons w more =>
        rw [setExtras_cons, setExtras_int (w :: more) _ _ (by simp) h1]
        simp
  refine ⟨main, ?_⟩
  intro hbad
  rw [main, Atoi_malformed _ hbad]

set_option maxRecDepth 100000 in
/-- C29, at an input: the calls with `"5"`, `"12"` and then the malformed `"1x"`. -/
theorem setExtra_minimum_witness :
    (["5", "12", "1x"] : List String) ≠ [] ∧
      mapGet ({ } : Node).Extras "minimum" = none ∧
      mapGet (setExtras "minimum" ["5", "12"] { }).Extras "minimum" = some (Value.int 12) ∧
      mapGet (setExtras "minimum" ["5", "12", "1x"] { }).Extras "minimum" =
        some (Value.int (Atoi "1x")) ∧
      Atoi "1x" = 0 :=
  ⟨by decide, by decide, by decide,
    (setExtra_minimum { } ["5", "12", "1x"] (by decide) (by decide)).1, by decide⟩

/-- A text without the separator is one piece. -/
theorem splitChars_none (sep : Char) (cs : List Char) (h : sep ∉ cs) :
    splitChars sep cs = [cs] := by
  induction cs with
  | nil => rfl
  | cons c cs ih =>
    have hc : c ≠ sep := fun e => h (by simp [e])
    have hcs : sep ∉ cs := fun m => h (List.mem_cons_of_mem _ m)
    simp only [splitChars, if_neg hc, ih hcs]

/-- The first piece ends at the first separator. -/
theorem splitChars_append (sep : Char) (a b : List Char) (h : sep ∉ a) :
    splitChars sep (a ++ sep :: b) = a :: splitChars sep b := by
  induction a with
  | nil => simp [splitChars]
  | cons c cs ih =>
    have hc : c ≠ sep := fun e => h (by simp [e])
    have hcs : sep ∉ cs := fun m => h (List.mem_cons_of_mem _ m)
    have e := ih hcs
    simp only [List.cons_append, splitChars, if_neg hc, List.append_eq, e]

/-- A token `k=v` whose two sides hold no `=` splits into the name and the value. -/
theorem Split_token (k v : String) (hk : '=' ∉ k.data) (hv : '=' ∉ v.data) :
    Split (k ++ "=" ++ v) '=' = [k, v] := by
  unfold Split
  have : (k ++ "=" ++ v).data = k.data ++ '=' :: v.data := by
    simp [String.data_append]
  rw [this, splitChars_append _ _ _ hk, splitChars_none _ _ hv]
  rfl

/-- A token cut at its first `=`, when more of them follow, has more than two pieces. -/
theorem Split_token_more (k v w : String) (hk : '=' ∉ k.data) (hv : '=' ∉ v.data) :
    ∃ rest, Split (k ++ "=" ++ v ++ "=" ++ w) '=' = k :: v :: rest ∧ rest ≠ [] := by
  unfold Split
  have : (k ++ "=" ++ v ++ "=" ++ w).data = k.data ++ '=' :: (v.data ++ '=' :: w.data) := by
    simp [String.data_append]
  rw [this, splitChars_append _ _ _ hk, splitChars_append _ _ _ hv]
  refine ⟨(splitChars '=' w.data).map String.mk, rfl, ?_⟩
  cases hw : w.data with
  | nil => simp [splitChars]
  | cons c cs =>
    simp only [splitChars]
    split
    · simp
    · split <;> simp

/-! ## The keywords of string and array nodes -/

/-- Reading after a write: the node is the written one, or it is as before. -/
theorem rd_upd_cases (h : Heap) (a b : Nat) (f : Node → Node) :
    rd (upd h a f) b = f (rd h b) ∨ rd (upd h a f) b = rd h b := by
  by_cases hab : a = b
  · subst hab
    by_cases hlen : a < h.length
    · left; exact rd_upd_eq _ _ _ hlen
    · right; rw [upd_of_length_le _ _ _ (by omega)]
  · right; exact rd_upd_ne _ _ _ _ hab

theorem stringKeyword_format_step (t : Nat) (h : Heap) (tag : String) :
    (rd (stringKeyword t h tag) t).Format = (rd h t).Format ∨
      formatAllowed (rd (stringKeyword t h tag) t).Format := by
  unfold stringKeyword
  split
  · repeat' split
    all_goals first
      | exact Or.inl rfl
      | (rcases rd_upd_cases h t t _ with e | e
         · rw [e]; first | exact Or.inl rfl | (right; assumption)
         · rw [e]; exact Or.inl rfl)
  · exact Or.inl rfl

theorem stringKeywords_format_all (t : Nat) (tags : List String) :
    ∀ h : Heap, (rd (stringKeywords t tags h) t).Format = (rd h t).Format ∨
      formatAllowed (rd (stringKeywords t tags h) t).Format := by
  induction tags with
  | nil => intro h; exact Or.inl rfl
  | cons tag rest ih =>
    intro h
    have hstep : stringKeywords t (tag :: rest) h =
        stringKeywords t rest (stringKeyword t h tag) := rfl
    rw [hstep]
    rcases ih (stringKeyword t h tag) with e | e
    · rcases stringKeyword_format_step t h tag with e1 | e1
      · left; rw [e, e1]
      · right; rw [e]; exact e1
    · right; exact e

theorem draft07_format_step (t : Nat) (h : Heap) (tag : String) :
    (rd (draft07.stringKeyword t h tag) t).Format = (rd h t).Format ∨
      formatAllowed (rd (draft07.stringKeyword t h tag) t).Format := by
  unfold draft07.stringKeyword
  split
  · repeat' split
    all_goals first
      | exact Or.inl rfl
      | (rcases rd_upd_cases h t t _ with e | e
         · rw [e]; first | exact Or.inl rfl | (right; assumption)
         · rw [e]; exact Or.inl rfl)
  · exact Or.inl rfl

theorem draft07_format_all (t : Nat) (tags : List String) :
    ∀ h : Heap, (rd (draft07.stringKeywords t tags h) t).Format = (rd h t).Format ∨
      formatAllowed (rd (draft07.stringKeywords t tags h) t).Format := by
  induction tags with
  | nil => intro h; exact Or.inl rfl
  | cons tag rest ih =>
    intro h
    have hstep : draft07.stringKeywords t (tag :: rest) h =
        draft07.stringKeywords t rest (draft07.stringKeyword t h tag) := rfl
    rw [hstep]
    rcases ih (draft07.stringKeyword t h tag) with e | e
    · rcases draft07_format_step t h tag with e1 | e1
      · left; rw [e, e1]
      · right; rw [e]; exact e1
    · right; exact e

/-- C24: in `stringKeywords`, of `Type` and of the draft-07 `Schema` alike, the
round for a token `format=v` sets the format of the node to `v` when `v` is one of
`date-time`, `email`, `hostname`, `ipv4`, `ipv6`, `uri`, and leaves the heap as it
is otherwise; so after the whole loop the format of the node is the one it had
before or one of these values. -/
theorem stringKeywords_format (t : Nat) (h : Heap) :
    (∀ tag v, Split tag '=' = ["format", v] → formatAllowed v →
      stringKeyword t h tag = upd h t (Node.setFormat v) ∧
      draft07.stringKeyword t h tag = upd h t (Node.setFormat v)) ∧
    (∀ tag v, Split tag '=' = ["format", v] → ¬ formatAllowed v →
      stringKeyword t h tag = h ∧ draft07.stringKeyword t h tag = h) ∧
    (∀ v, t < h.length → (rd (upd h t (Node.setFormat v)) t).Format = v) ∧
    (∀ tags, (rd (stringKeywords t tags h) t).Format = (rd h t).Format ∨
      formatAllowed (rd (stringKeywords t tags h) t).Format) ∧
    (∀ tags, (rd (draft07.stringKeywords t tags h) t).Format = (rd h t).Format ∨
      formatAllowed (rd (draft07.stringKeywords t tags h) t).Format) := by
  refine ⟨?_, ?_, ?_, fun tags => stringKeywords_format_all t tags h,
    fun tags => draft07_format_all t tags h⟩
  · intro tag v hS hv
    unfold formatAllowed at hv
    constructor
    · unfold stringKeyword
      rw [hS]
      simp [hv]
    · unfold draft07.stringKeyword
      rw [hS]
      simp [hv]
  · intro tag v hS hv
    unfold formatAllowed at hv
    constructor
    · unfold stringKeyword
      rw [hS]
      simp [hv]
    · unfold draft07.stringKeyword
      rw [hS]
      simp [hv]
  · intro v ht
    rw [rd_upd_eq _ _ _ ht]
    rfl

set_option maxRecDepth 100000 in
/-- C24, at an input: the tag `format=email,format=phone,minLength=3` on a string
node. -/
theorem stringKeywords_format_witness :
    Split "format=email" '=' = ["format", "email"] ∧ formatAllowed "email" ∧
      stringKeyword 0 [{ Typ := "string" }] "format=email" =
        upd [{ Typ := "string" }] 0 (Node.setFormat "email") ∧
      ¬ formatAllowed "phone" ∧
      stringKeywords 0 ["format=email", "format=phone", "minLength=3"] [{ Typ := "string" }] =
        [{ Typ := "string", Format := "email", MinLength := 3 }] :=
  ⟨by decide, by decide,
    ((stringKeywords_format 0 [{ Typ := "string" }]).1 "format=email" "email" (by decide)
      (by decide)).1,
    by decide, by decide⟩

/-- A write that keeps `UniqueItems` keeps it at every address. -/
theorem rd_upd_unique (h : Heap) (a b : Nat) (f : Node → Node)
    (hf : ∀ n, (f n).UniqueItems = n.UniqueItems) :
    (rd (upd h a f) b).UniqueItems = (rd h b).UniqueItems := by
  rcases rd_upd_cases h a b f with e | e
  · rw [e]; exact hf _
  · rw [e]

/-- One round of `arrayKeywords` on a token that is not `uniqueItems=v`: the flag
of every node is as before. -/
theorem arrayKeyword_unique_keep (t : Nat) (h h' : Heap) (dv dv' : List String) (tag : String)
    (hno : ∀ v, Split tag '=' ≠ ["uniqueItems", v])
    (hrun : arrayKeyword t (h, dv) tag = Res.ok (h', dv')) (b : Nat) :
    (rd h' b).UniqueItems = (rd h b).UniqueItems := by
  unfold arrayKeyword at hrun
  simp only at hrun
  split at hrun
  · rename_i name val hS
    split at hrun
    · simp only [Res.ok.injEq, Prod.mk.injEq] at hrun
      rw [← hrun.1]; exact rd_upd_unique _ _ _ _ (fun _ => rfl)
    split at hrun
    · simp only [Res.ok.injEq, Prod.mk.injEq] at hrun
      rw [← hrun.1]; exact rd_upd_unique _ _ _ _ (fun _ => rfl)
    split at hrun
    · rename_i hname
      exact absurd (by rw [hS, hname]) (hno val)
    repeat' split at hrun
    all_goals first
      | (simp only [Res.ok.injEq, Prod.mk.injEq] at hrun
         obtain ⟨e1, -⟩ := hrun
         subst e1
         first
           | rfl
           | exact rd_upd_unique _ _ _ _ (fun _ => rfl))
      | cases hrun
  · simp only [Res.ok.injEq, Prod.mk.injEq] at hrun
    rw [← hrun.1]

/-- One round of `arrayKeywords` on a token `uniqueItems=v`. -/
theorem arrayKeyword_unique_set (t : Nat) (h : Heap) (dv : List String) (tag v : String)
    (hS : Split tag '=' = ["uniqueItems", v]) :
    arrayKeyword t (h, dv) tag = Res.ok (upd h t (Node.setUniqueItems true), dv) := by
  unfold arrayKeyword
  simp only [hS]
  simp

/-- One round of `arrayKeywords` never clears the flag of `t`, and it keeps the
length of the heap. -/
theorem arrayKeyword_unique_mono (t : Nat) (h h' : Heap) (dv dv' : List String) (tag : String)
    (hrun : arrayKeyword t (h, dv) tag = Res.ok (h', dv'))
    (hu : (rd h t).UniqueItems = true) : (rd h' t).UniqueItems = true := by
  by_cases hno : ∀ v, Split tag '=' ≠ ["uniqueItems", v]
  · rw [arrayKeyword_unique_keep t h h' dv dv' tag hno hrun t]; exact hu
  · push_neg at hno
    obtain ⟨v, hS⟩ := hno
    rw [arrayKeyword_unique_set t h dv tag v hS] at hrun
    simp only [Res.ok.injEq, Prod.mk.injEq] at hrun
    rw [← hrun.1]
    rcases rd_upd_cases h t t (Node.setUniqueItems true) with e | e
    · rw [e]; rfl
    · rw [e]; exact hu

theorem arrayKeywordsLoop_unique (t : Nat) (tags : List String) :
    ∀ (h h' : Heap) (dv dv' : List String), t < h.length →
      arrayKeywordsLoop t tags (h, dv) = Res.ok (h', dv') →
      ((∃ tag ∈ tags, ∃ v, Split tag '=' = ["uniqueItems", v]) →
        (rd h' t).UniqueItems = true) ∧
      ((rd h t).UniqueItems = true → (rd h' t).UniqueItems = true) ∧
      ((∀ tag ∈ tags, ∀ v, Split tag '=' ≠ ["uniqueItems", v]) →
        (rd h' t).UniqueItems = (rd h t).UniqueItems) := by
  induction tags with
  | nil =>
    intro h h' dv dv' _ hrun
    simp only [arrayKeywordsLoop, Res.ok.injEq, Prod.mk.injEq] at hrun
    rw [← hrun.1]
    exact ⟨fun ⟨tag, hm, _⟩ => by simp at hm, fun hu => hu, fun _ => rfl⟩
  | cons tag rest ih =>
    intro h h' dv dv' ht hrun
    simp only [arrayKeywordsLoop] at hrun
    obtain ⟨⟨h1, dv1⟩, hstep, hrest⟩ := Res.bind_eq_ok hrun
    have hlen : h.length ≤ h1.length := arrayKeyword_length t h h1 dv dv1 tag hstep
    obtain ⟨i1, i2, i3⟩ := ih h1 h' dv1 dv' (lt_of_lt_of_le ht hlen) hrest
    refine ⟨?_, ?_, ?_⟩
    · rintro ⟨tg, hm, v, hS⟩
      rcases List.mem_cons.mp hm with e | e
      · subst e
        rw [arrayKeyword_unique_set t h dv tg v hS] at hstep
        simp only [Res.ok.injEq, Prod.mk.injEq] at hstep
        apply i2
        rw [← hstep.1, rd_upd_eq _ _ _ ht]
        rfl
      · exact i1 ⟨tg, e, v, hS⟩
    · intro hu
      exact i2 (arrayKeyword_unique_mono t h h1 dv dv1 tag hstep hu)
    · intro hno
      rw [i3 (fun tg hm => hno tg (List.mem_cons_of_mem _ hm))]
      exact arrayKeyword_unique_keep t h h1 dv dv1 tag (hno tag (List.mem_cons_self _ _)) hstep t

/-- A write that keeps `Items` keeps it at every address. -/
theorem rd_upd_items (h : Heap) (a b : Nat) (f : Node → Node)
    (hf : ∀ n, (f n).Items = n.Items) :
    (rd (upd h a f) b).Items = (rd h b).Items := by
  rcases rd_upd_cases h a b f with e | e
  · rw [e]; exact hf _
  · rw [e]

/-- A write that keeps `Items` keeps the presence of an items node. -/
theorem items_kept (h : Heap) (a b : Nat) (f : Node → Node)
    (hf : ∀ n, (f n).Items = n.Items) (hI : (rd h b).Items ≠ none) :
    (rd (upd h a f) b).Items ≠ none := by
  rw [rd_upd_items h a b f hf]; exact hI

/-- One round of `arrayKeywords` on a node that has an items node returns, and the
node still has its items node. -/
theorem arrayKeyword_total (t : Nat) (h : Heap) (dv : List String) (tag : String)
    (hI : (rd h t).Items ≠ none) :
    ∃ h' dv', arrayKeyword t (h, dv) tag = Res.ok (h', dv') ∧ (rd h' t).Items ≠ none := by
  unfold arrayKeyword
  simp only
  split
  · rename_i name val hS
    split
    · exact ⟨_, _, rfl, items_kept _ _ _ _ (fun _ => rfl) hI⟩
    split
    · exact ⟨_, _, rfl, items_kept _ _ _ _ (fun _ => rfl) hI⟩
    split
    · exact ⟨_, _, rfl, items_kept _ _ _ _ (fun _ => rfl) hI⟩
    split
    · exact ⟨_, _, rfl, hI⟩
    split
    · cases hItems : (rd h t).Items with
      | none => exact absurd hItems hI
      | some items =>
        simp only
        split
        · exact ⟨_, _, rfl, items_kept _ _ _ _ (fun _ => rfl) hI⟩
        split
        · exact ⟨_, _, rfl, items_kept _ _ _ _ (fun _ => rfl) hI⟩
        split
        · exact ⟨_, _, rfl, items_kept _ _ _ _ (fun _ => rfl) hI⟩
        · exact ⟨_, _, rfl, hI⟩
    · exact ⟨_, _, rfl, hI⟩
  · exact ⟨_, _, rfl, hI⟩

/-- The loop of `arrayKeywords` on a node that has an items node returns. -/
theorem arrayKeywordsLoop_total (t : Nat) (tags : List String) :
    ∀ (h : Heap) (dv : List String), (rd h t).Items ≠ none →
      ∃ h' dv', arrayKeywordsLoop t tags (h, dv) = Res.ok (h', dv') := by
  induction tags with
  | nil => intro h dv _; exact ⟨h, dv, rfl⟩
  | cons tag rest ih =>
    intro h dv hI
    obtain ⟨h1, dv1, hstep, hI1⟩ := arrayKeyword_total t h dv tag hI
    obtain ⟨h2, dv2, hrest⟩ := ih h1 dv1 hI1
    exact ⟨h2, dv2, by simp only [arrayKeywordsLoop, hstep, Res.bind, hrest]⟩

/-- What `arrayKeywords` does to the flag, from what its loop does. -/
theorem arrayKeywords_of_loop (t : Nat) (tags : List String) (h h1 : Heap) (dv1 : List String)
    (hloop : arrayKeywordsLoop t tags (h, []) = Res.ok (h1, dv1)) :
    ∃ h', arrayKeywords t tags h = Res.ok h' ∧
      (rd h' t).UniqueItems = (rd h1 t).UniqueItems := by
  unfold arrayKeywords
  rw [hloop]
  simp only [Res.bind]
  split
  · exact ⟨_, rfl, rd_upd_unique _ _ _ _ (fun _ => rfl)⟩
  · exact ⟨_, rfl, rfl⟩

/-- One round of the loop of draft07/schema.go keeps or grows the heap. -/
theorem draft07_array_length (t : Nat) (h h' : Heap) (dv dv' : List String) (tag : String)
    (hrun : draft07.arrayKeyword t (h, dv) tag = Res.ok (h', dv')) : h.length ≤ h'.length := by
  unfold draft07.arrayKeyword at hrun
  simp only at hrun
  repeat' split at hrun
  all_goals first
    | (cases hrun; simp)
    | cases hrun

/-- One round of `draft07.arrayKeywords` on a token that is not `uniqueItems=v`: the flag
of every node is as before. -/
theorem draft07_array_unique_keep (t : Nat) (h h' : Heap) (dv dv' : List String) (tag : String)
    (hno : ∀ v, Split tag '=' ≠ ["uniqueItems", v])
    (hrun : draft07.arrayKeyword t (h, dv) tag = Res.ok (h', dv')) (b : Nat) :
    (rd h' b).UniqueItems = (rd h b).UniqueItems := by
  unfold draft07.arrayKeyword at hrun
  simp only at hrun
  split at hrun
  · rename_i name val hS
    split at hrun
    · simp only [Res.ok.injEq, Prod.mk.injEq] at hrun
      rw [← hrun.1]; exact rd_upd_unique _ _ _ _ (fun _ => rfl)
    split at hrun
    · simp only [Res.ok.injEq, Prod.mk.injEq] at hrun
      rw [← hrun.1]; exact rd_upd_unique _ _ _ _ (fun _ => rfl)
    split at hrun
    · rename_i hname
      exact absurd (by rw [hS, hname]) (hno val)
    repeat' split at hrun
    all_goals first
      | (simp only [Res.ok.injEq, Prod.mk.injEq] at hrun
         obtain ⟨e1, -⟩ := hrun
         subst e1
         first
           | rfl
           | exact rd_upd_unique _ _ _ _ (fun _ => rfl))
      | cases hrun
  · simp only [Res.ok.injEq, Prod.mk.injEq] at hrun
    rw [← hrun.1]

/-- One round of `draft07.arrayKeywords` on a token `uniqueItems=v`. -/
theorem draft07_array_unique_set (t : Nat) (h : Heap) (dv : List String) (tag v : String)
    (hS : Split tag '=' = ["uniqueItems", v]) :
    draft07.arrayKeyword t (h, dv) tag = Res.ok (upd h t (Node.setUniqueItems true), dv) := by
  unfold draft07.arrayKeyword
  simp only [hS]
  simp

/-- One round of `draft07.arrayKeywords` never clears the flag of `t`, and it keeps the
length of the heap. -/
theorem draft07_array_unique_mono (t : Nat) (h h' : Heap) (dv dv' : List String) (tag : String)
    (hrun : draft07.arrayKeyword t (h, dv) tag = Res.ok (h', dv'))
    (hu : (rd h t).UniqueItems = true) : (rd h' t).UniqueItems = true := by
  by_cases hno : ∀ v, Split tag '=' ≠ ["uniqueItems", v]
  · rw [draft07_array_unique_keep t h h' dv dv' tag hno hrun t]; exact hu
  · push_neg at hno
    obtain ⟨v, hS⟩ := hno
    rw [draft07_array_unique_set t h dv tag v hS] at hrun
    simp only [Res.ok.injEq, Prod.mk.injEq] at hrun
    rw [← hrun.1]
    rcases rd_upd_cases h t t (Node.setUniqueItems true) with e | e
    · rw [e]; rfl
    · rw [e]; exact hu

theorem draft07_arraysLoop_unique (t : Nat) (tags : List String) :
    ∀ (h h' : Heap) (dv dv' : List String), t < h.length →
      draft07.arrayKeywordsLoop t tags (h, dv) = Res.ok (h', dv') →
      ((∃ tag ∈ tags, ∃ v, Split tag '=' = ["uniqueItems", v]) →
        (rd h' t).UniqueItems = true) ∧
      ((rd h t).UniqueItems = true → (rd h' t).UniqueItems = true) ∧
      ((∀ tag ∈ tags, ∀ v, Split tag '=' ≠ ["uniqueItems", v]) →
        (rd h' t).UniqueItems = (rd h t).UniqueItems) := by
  induction tags with
  | nil =>
    intro h h' dv dv' _ hrun
    simp only [draft07.arrayKeywordsLoop, Res.ok.injEq, Prod.mk.injEq] at hrun
    rw [← hrun.1]
    exact ⟨fun ⟨tag, hm, _⟩ => by simp at hm, fun hu => hu, fun _ => rfl⟩
  | cons tag rest ih =>
    intro h h' dv dv' ht hrun
    simp only [draft07.arrayKeywordsLoop] at hrun
    obtain ⟨⟨h1, dv1⟩, hstep, hrest⟩ := Res.bind_eq_ok hrun
    have hlen : h.length ≤ h1.length := draft07_array_length t h h1 dv dv1 tag hstep
    obtain ⟨i1, i2, i3⟩ := ih h1 h' dv1 dv' (lt_of_lt_of_le ht hlen) hrest
    refine ⟨?_, ?_, ?_⟩
    · rintro ⟨tg, hm, v, hS⟩
      rcases List.mem_cons.mp hm with e | e
      · subst e
        rw [draft07_array_unique_set t h dv tg v hS] at hstep
        simp only [Res.ok.injEq, Prod.mk.injEq] at hstep
        apply i2
        rw [← hstep.1, rd_upd_eq _ _ _ ht]
        rfl
      · exact i1 ⟨tg, e, v, hS⟩
    · intro hu
      exact i2 (draft07_array_unique_mono t h h1 dv dv1 tag hstep hu)
    · intro hno
      rw [i3 (fun tg hm => hno tg (List.mem_cons_of_mem _ hm))]
      exact draft07_array_unique_keep t h h1 dv dv1 tag (hno tag (List.mem_cons_self _ _)) hstep t

/-- One round of `draft07.arrayKeywords` on a node that has an items node returns, and the
node still has its items node. -/
theorem draft07_array_total (t : Nat) (h : Heap) (dv : List String) (tag : String)
    (hI : (rd h t).Items ≠ none) :
    ∃ h' dv', draft07.arrayKeyword t (h, dv) tag = Res.ok (h', dv') ∧ (rd h' t).Items ≠ none := by
  unfold draft07.arrayKeyword
  simp only
  split
  · rename_i name val hS
    split
    · exact ⟨_, _, rfl, items_kept _ _ _ _ (fun _ => rfl) hI⟩
    split
    · exact ⟨_, _, rfl, items_kept _ _ _ _ (fun _ => rfl) hI⟩
    split
    · exact ⟨_, _, rfl, items_kept _ _ _ _ (fun _ => rfl) hI⟩
    split
    · exact ⟨_, _, rfl, hI⟩
    split
    · cases hItems : (rd h t).Items with
      | none => exact absurd hItems hI
      | some items =>
        simp only
        split
        · exact ⟨_, _, rfl, items_kept _ _ _ _ (fun _ => rfl) hI⟩
        split
        · exact ⟨_, _, rfl, items_kept _ _ _ _ (fun _ => rfl) hI⟩
        split
        · exact ⟨_, _, rfl, items_kept _ _ _ _ (fun _ => rfl) hI⟩
        · exact ⟨_, _, rfl, hI⟩
    · exact ⟨_, _, rfl, hI⟩
  · exact ⟨_, _, rfl, hI⟩

/-- The loop of `draft07.arrayKeywords` on a node that has an items node returns. -/
theorem draft07_arraysLoop_total (t : Nat) (tags : List String) :
    ∀ (h : Heap) (dv : List String), (rd h t).Items ≠ none →
      ∃ h' dv', draft07.arrayKeywordsLoop t tags (h, dv) = Res.ok (h', dv') := by
  induction tags with
  | nil => intro h dv _; exact ⟨h, dv, rfl⟩
  | cons tag rest ih =>
    intro h dv hI
    obtain ⟨h1, dv1, hstep, hI1⟩ := draft07_array_total t h dv tag hI
    obtain ⟨h2, dv2, hrest⟩ := ih h1 dv1 hI1
    exact ⟨h2, dv2, by simp only [draft07.arrayKeywordsLoop, hstep, Res.bind, hrest]⟩

/-- What `draft07.arrayKeywords` does to the flag, from what its loop does. -/
theorem draft07_arrays_of_loop (t : Nat) (tags : List String) (h h1 : Heap) (dv1 : List String)
    (hloop : draft07.arrayKeywordsLoop t tags (h, []) = Res.ok (h1, dv1)) :
    ∃ h', draft07.arrayKeywords t tags h = Res.ok h' ∧
      (rd h' t).UniqueItems = (rd h1 t).UniqueItems := by
  unfold draft07.arrayKeywords
  rw [hloop]
  simp only [Res.bind]
  split
  · exact ⟨_, rfl, rd_upd_unique _ _ _ _ (fun _ => rfl)⟩
  · exact ⟨_, rfl, rfl⟩

/-- C25 counterexample: on an array node a `uniqueItems` token without a value,
and one whose value holds a further `=`, leave `uniqueItems` false, in `type.go`
and in `draft07/schema.go`: the loop only looks at tokens that split into exactly
a name and a value. -/
theorem uniqueItems_bare_counterexample :
    (rd [{ Typ := "array", Items := some 1 }, { Typ := "string" }] 0).UniqueItems = false ∧
    arrayKeywords 0 ["uniqueItems"] [{ Typ := "array", Items := some 1 }, { Typ := "string" }]
      = Res.ok [{ Typ := "array", Items := some 1 }, { Typ := "string" }] ∧
    arrayKeywords 0 ["uniqueItems=a=b"]
        [{ Typ := "array", Items := some 1 }, { Typ := "string" }]
      = Res.ok [{ Typ := "array", Items := some 1 }, { Typ := "string" }] ∧
    draft07.arrayKeywords 0 ["uniqueItems"]
        [{ Typ := "array", Items := some 1 }, { Typ := "string" }]
      = Res.ok [{ Typ := "array", Items := some 1 }, { Typ := "string" }] := by
  refine ⟨rfl, ?_, ?_, ?_⟩ <;> decide

/-- C25 (amended): on a node of the heap that has an items node, `arrayKeywords`
returns, in `type.go` and in `draft07/schema.go` alike; if some token splits at `=`
into exactly the name `uniqueItems` and a value, whatever the value, `uniqueItems`
is true afterwards; if no token does, `uniqueItems` is as before.  A token
`uniqueItems=v` splits so exactly when `v` holds no further `=`. -/
theorem arrayKeywords_uniqueItems (t : Nat) (tags : List String) (h : Heap)
    (ht : t < h.length) (hI : (rd h t).Items ≠ none) :
    (∃ h', arrayKeywords t tags h = Res.ok h' ∧
      ((∃ tag ∈ tags, ∃ v, Split tag '=' = ["uniqueItems", v]) →
        (rd h' t).UniqueItems = true) ∧
      ((∀ tag ∈ tags, ∀ v, Split tag '=' ≠ ["uniqueItems", v]) →
        (rd h' t).UniqueItems = (rd h t).UniqueItems)) ∧
    (∃ h', draft07.arrayKeywords t tags h = Res.ok h' ∧
      ((∃ tag ∈ tags, ∃ v, Split tag '=' = ["uniqueItems", v]) →
        (rd h' t).UniqueItems = true) ∧
      ((∀ tag ∈ tags, ∀ v, Split tag '=' ≠ ["uniqueItems", v]) →
        (rd h' t).UniqueItems = (rd h t).UniqueItems)) ∧
    (∀ v : String, '=' ∉ v.data → Split ("uniqueItems" ++ "=" ++ v) '=' = ["uniqueItems", v]) := by
  refine ⟨?_, ?_, ?_⟩
  · obtain ⟨h1, dv1, hloop⟩ := arrayKeywordsLoop_total t tags h [] hI
    obtain ⟨h', hrun, hu⟩ := arrayKeywords_of_loop t tags h h1 dv1 hloop
    obtain ⟨i1, _, i3⟩ := arrayKeywordsLoop_unique t tags h h1 [] dv1 ht hloop
    exact ⟨h', hrun, fun hx => by rw [hu]; exact i1 hx, fun hx => by rw [hu]; exact i3 hx⟩
  · obtain ⟨h1, dv1, hloop⟩ := draft07_arraysLoop_total t tags h [] hI
    obtain ⟨h', hrun, hu⟩ := draft07_arrays_of_loop t tags h h1 dv1 hloop
    obtain ⟨i1, _, i3⟩ := draft07_arraysLoop_unique t tags h h1 [] dv1 ht hloop
    exact ⟨h', hrun, fun hx => by rw [hu]; exact i1 hx, fun hx => by rw [hu]; exact i3 hx⟩
  · intro v hv
    exact Split_token "uniqueItems" v (by decide) hv

/-- C25 witness: an array node with a string items node and the tag
`uniqueItems=false`. -/
theorem arrayKeywords_uniqueItems_witness :
    (∃ h', arrayKeywords 0 ["uniqueItems=false"]
        [{ Typ := "array", Items := some 1 }, { Typ := "string" }] = Res.ok h' ∧
      ((∃ tag ∈ ["uniqueItems=false"], ∃ v, Split tag '=' = ["uniqueItems", v]) →
        (rd h' 0).UniqueItems = true) ∧
      ((∀ tag ∈ ["uniqueItems=false"], ∀ v, Split tag '=' ≠ ["uniqueItems", v]) →
        (rd h' 0).UniqueItems
          = (rd [{ Typ := "array", Items := some 1 }, { Typ := "string" }] 0).UniqueItems)) ∧
    (∃ tag ∈ ["uniqueItems=false"], ∃ v, Split tag '=' = ["uniqueItems", v]) :=
  ⟨(arrayKeywords_uniqueItems 0 ["uniqueItems=false"]
      [{ Typ := "array", Items := some 1 }, { Typ := "string" }] (by decide) (by decide)).1,
    ⟨"uniqueItems=false", by simp, "false", by decide⟩⟩

/-! ## Tag keywords on a node without items -/

set_option maxRecDepth 100000 in
/-- The walker's node for the field `Label string` of `Sticker`, allocated after
the node of the struct. -/
theorem labelEnv_base :
    reflectTypeToSchema labelEnv defaultReflector 2 1
        { definitions := [("Sticker", 0)], heap := [structNode defaultReflector] } =
      Res.ok (1, { definitions := [("Sticker", 0)],
                   heap := [structNode defaultReflector, { Typ := "string" }] }) := by
  decide

set_option maxRecDepth 100000 in
/-- The tag of `labelField` on the walker's node for it. -/
theorem labelField_tags :
    structKeywordsFromTags 1 labelField 0 "Label"
        [structNode defaultReflector, { Typ := "string" }] =
      Res.abort Abort.nilDereference := by
  decide

set_option maxRecDepth 100000 in
/-- The whole run on `Sticker`. -/
theorem labelEnv_run (fuel : Nat) :
    ReflectFromType labelEnv defaultReflector (fuel + 6) 0 = Res.abort Abort.nilDereference := by
  rfl

set_option maxRecDepth 100000 in
/-- The same tokens in draft07/schema.go, on a node typed `array` without items. -/
theorem draft07_enum_aborts :
    draft07.arrayKeywords 0 ["type=array", "enum=a"] [{ Typ := "array" }] =
      Res.abort Abort.nilDereference := by
  decide

/-- C27 fails on the field `Label string` tagged `jsonschema:"type=array,enum=a"`
of `type Sticker struct`.  The walker returns the node `{type: string}` for the
field; `structKeywordsFromTags` on it does not complete: `genericKeywords` sets the
type to `array`, `arrayKeywords` is chosen, and its `enum` case reads
`t.Items.Type` although the node has no items node, a nil pointer dereference.
`ReflectFromType` on `Sticker` with the default reflector therefore aborts
whenever the fuel lets it reach the field, and `arrayKeywords` of
draft07/schema.go aborts on the same tokens. -/
theorem enum_without_items_aborts :
    reflectTypeToSchema labelEnv defaultReflector 2 1
        { definitions := [("Sticker", 0)], heap := [structNode defaultReflector] } =
      Res.ok (1, { definitions := [("Sticker", 0)],
                   heap := [structNode defaultReflector, { Typ := "string" }] }) ∧
    structKeywordsFromTags 1 labelField 0 "Label"
        [structNode defaultReflector, { Typ := "string" }] =
      Res.abort Abort.nilDereference ∧
    (∀ fuel, ReflectFromType labelEnv defaultReflector (fuel + 6) 0 =
      Res.abort Abort.nilDereference) ∧
    draft07.arrayKeywords 0 ["type=array", "enum=a"] [{ Typ := "array" }] =
      Res.abort Abort.nilDereference :=
  ⟨labelEnv_base, labelField_tags, labelEnv_run, draft07_enum_aborts⟩

/-! ## Numeric keywords -/

/-- The node at `t` after a write at `t`, for an address of the heap. -/
theorem rd_upd_at (h : Heap) (t : Nat) (f : Node → Node) (ht : t < h.length) :
    rd (upd h t f) t = f (rd h t) := rd_upd_eq h t f ht

/-- What one round of `numbericKeywords` does on a token of each of the five keywords. -/
theorem numbericKeyword_cases (t : Nat) (h : Heap) (tag v : String) :
    (Split tag '=' = ["multipleOf", v] →
      numbericKeyword t h tag = upd h t (Node.setMultipleOf (Atoi v))) ∧
    (Split tag '=' = ["minimum", v] →
      numbericKeyword t h tag = upd h t (Node.setMinimum (Atoi v))) ∧
    (Split tag '=' = ["maximum", v] →
      numbericKeyword t h tag = upd h t (Node.setMaximum (Atoi v))) ∧
    (Split tag '=' = ["exclusiveMaximum", v] →
      numbericKeyword t h tag = upd h t (Node.setExclusiveMaximum (ParseBool v))) ∧
    (Split tag '=' = ["exclusiveMinimum", v] →
      numbericKeyword t h tag = upd h t (Node.setExclusiveMinimum (ParseBool v))) := by
  refine ⟨?_, ?_, ?_, ?_, ?_⟩ <;> intro hS <;> unfold numbericKeyword <;> simp only [hS] <;> simp

/-- The texts `strconv.ParseBool` reads as true. -/
theorem ParseBool_true (v : String) :
    ParseBool v = true ↔ v ∈ ["1", "t", "T", "TRUE", "true", "True"] := by
  unfold ParseBool
  simp

set_option maxRecDepth 100000 in
/-- C21 counterexample: on an integer node the token `exclusiveMinimum=true`, whose
value is no numeric text, sets `exclusiveMinimum` to true, not to its zero value
false; so does `exclusiveMaximum=T`.  In `type.go` the two keywords are booleans
read by `strconv.ParseBool`. -/
theorem exclusive_bool_counterexample :
    integerText "true" = false ∧ integerText "T" = false ∧
    (rd (numbericKeywords 0 ["exclusiveMinimum=true"] [{ Typ := "integer" }]) 0).ExclusiveMinimum
      = true ∧
    (rd (numbericKeywords 0 ["exclusiveMaximum=T"] [{ Typ := "number" }]) 0).ExclusiveMaximum
      = true := by
  decide

/-- C21 (amended): `numbericKeywords` of `type.go` is a total function that runs
the tokens in order, each on the heap the one before left.  On a token `k=v`, for
`k` one of `multipleOf`, `minimum`, `maximum` the node gets `strconv.Atoi(v)` with
the error dropped, which is `0` whenever `v` is not an optionally signed run of
decimal digits; for `k` one of `exclusiveMaximum`, `exclusiveMinimum` the node gets
`strconv.ParseBool(v)` with the error dropped, which is true for `1`, `t`, `T`,
`TRUE`, `true`, `True` and false, the zero value, for every other text. -/
theorem numbericKeywords_malformed (t : Nat) (h : Heap) (tag v : String) (rest : List String)
    (ht : t < h.length) :
    numbericKeywords t (tag :: rest) h = numbericKeywords t rest (numbericKeyword t h tag) ∧
    (Split tag '=' = ["multipleOf", v] →
      (rd (numbericKeyword t h tag) t).MultipleOf = Atoi v ∧
      (integerText v = false → (rd (numbericKeyword t h tag) t).MultipleOf = 0)) ∧
    (Split tag '=' = ["minimum", v] →
      (rd (numbericKeyword t h tag) t).Minimum = Atoi v ∧
      (integerText v = false → (rd (numbericKeyword t h tag) t).Minimum = 0)) ∧
    (Split tag '=' = ["maximum", v] →
      (rd (numbericKeyword t h tag) t).Maximum = Atoi v ∧
      (integerText v = false → (rd (numbericKeyword t h tag) t).Maximum = 0)) ∧
    (Split tag '=' = ["exclusiveMaximum", v] →
      (rd (numbericKeyword t h tag) t).ExclusiveMaximum = ParseBool v ∧
      (v ∉ ["1", "t", "T", "TRUE", "true", "True"] →
        (rd (numbericKeyword t h tag) t).ExclusiveMaximum = false)) ∧
    (Split tag '=' = ["exclusiveMinimum", v] →
      (rd (numbericKeyword t h tag) t).ExclusiveMinimum = ParseBool v ∧
      (v ∉ ["1", "t", "T", "TRUE", "true", "True"] →
        (rd (numbericKeyword t h tag) t).ExclusiveMinimum = false)) := by
  obtain ⟨c1, c2, c3, c4, c5⟩ := numbericKeyword_cases t h tag v
  have hb : v ∉ ["1", "t", "T", "TRUE", "true", "True"] → ParseBool v = false := by
    intro hv
    cases hp : ParseBool v with
    | false => rfl
    | true => exact absurd ((ParseBool_true v).mp hp) hv
  refine ⟨rfl, ?_, ?_, ?_, ?_, ?_⟩
  · intro hS
    have e : (rd (numbericKeyword t h tag) t).MultipleOf = Atoi v := by
      rw [c1 hS, rd_upd_at _ _ _ ht]; rfl
    exact ⟨e, fun hv => by rw [e, Atoi_malformed v hv]⟩
  · intro hS
    have e : (rd (numbericKeyword t h tag) t).Minimum = Atoi v := by
      rw [c2 hS, rd_upd_at _ _ _ ht]; rfl
    exact ⟨e, fun hv => by rw [e, Atoi_malformed v hv]⟩
  · intro hS
    have e : (rd (numbericKeyword t h tag) t).Maximum = Atoi v := by
      rw [c3 hS, rd_upd_at _ _ _ ht]; rfl
    exact ⟨e, fun hv => by rw [e, Atoi_malformed v hv]⟩
  · intro hS
    have e : (rd (numbericKeyword t h tag) t).ExclusiveMaximum = ParseBool v := by
      rw [c4 hS, rd_upd_at _ _ _ ht]; rfl
    exact ⟨e, fun hv => by rw [e, hb hv]⟩
  · intro hS
    have e : (rd (numbericKeyword t h tag) t).ExclusiveMinimum = ParseBool v := by
      rw [c5 hS, rd_upd_at _ _ _ ht]; rfl
    exact ⟨e, fun hv => by rw [e, hb hv]⟩

set_option maxRecDepth 100000 in
/-- C21 witness: the token `minimum=abc` on an integer node whose minimum was 7,
with a further token behind it. -/
theorem numbericKeywords_malformed_witness :
    Split "minimum=abc" '=' = ["minimum", "abc"] ∧ integerText "abc" = false ∧
    (rd (numbericKeyword 0 [{ Typ := "integer", Minimum := 7 }] "minimum=abc") 0).Minimum = 0 ∧
    numbericKeywords 0 ["minimum=abc", "maximum=9"] [{ Typ := "integer", Minimum := 7 }] =
      numbericKeywords 0 ["maximum=9"]
        (numbericKeyword 0 [{ Typ := "integer", Minimum := 7 }] "minimum=abc") :=
  have hw := numbericKeywords_malformed 0 [{ Typ := "integer", Minimum := 7 }] "minimum=abc"
    "abc" ["maximum=9"] (by decide)
  ⟨by decide, by decide, (hw.2.2.1 (by decide)).2 (by decide), hw.1⟩

/-! ## Length and size keywords -/

/-- Once a character was no digit, the run of digits has no value. -/
theorem parseDigits_fold_none (cs : List Char) :
    cs.foldl (fun (acc : Option Nat) c => do
      let n ← acc
      let d ← digitVal c
      pure (n * 10 + d)) none = none := by
  induction cs with
  | nil => rfl
  | cons c cs ih => simpa using ih

/-- A text that has a value as a run of digits starts with a digit. -/
theorem parseDigits_head (c : Char) (cs : List Char) (n : Nat)
    (h : parseDigits (c :: cs) = some n) : (digitVal c).isSome = true := by
  cases hd : digitVal c with
  | some d => rfl
  | none =>
    have : parseDigits (c :: cs) = none := by
      simp only [parseDigits, List.foldl_cons, hd]
      exact parseDigits_fold_none cs
    rw [this] at h
    cases h

/-- On a run of digits `strconv.Atoi` gives its value, cut at the largest `int`. -/
theorem Atoi_digits (v : String) (n : Nat) (h : parseDigits v.data = some n) :
    Atoi v = if (n : Int) > maxInt then maxInt else (n : Int) := by
  unfold Atoi
  cases hv : v.data with
  | nil => rw [hv] at h; cases h
  | cons c cs =>
    rw [hv] at h
    have hc := parseDigits_head c cs n h
    have h1 : c ≠ '-' := by
      intro e; rw [e] at hc; revert hc; decide
    have h2 : c ≠ '+' := by
      intro e; rw [e] at hc; revert hc; decide
    have hn : ¬ ((n : Int) < minInt) := by
      unfold minInt
      have : (0 : Int) ≤ n := Int.ofNat_nonneg n
      omega
    simp only
    split
    · rename_i heq
      split at heq
      · rename_i e; exact absurd (List.cons.inj e).1 h1
      · rename_i e; exact absurd (List.cons.inj e).1 h2
      · rw [h] at heq; cases heq
    · rename_i x heq
      split at heq
      · rename_i e; exact absurd (List.cons.inj e).1 h1
      · rename_i e; exact absurd (List.cons.inj e).1 h2
      · rw [h] at heq
        cases heq
        simp only [hn, if_false]

/-- On a run of digits `strconv.ParseUint` gives its value, cut at the largest `uint64`. -/
theorem ParseUint_digits (v : String) (n : Nat) (h : parseDigits v.data = some n) :
    ParseUint v = if n > 2 ^ 64 - 1 then 2 ^ 64 - 1 else n := by
  unfold ParseUint
  rw [h]

/-- What one round of `stringKeywords` does on a `minLength` or `maxLength` token. -/
theorem stringKeyword_lengths (t : Nat) (h : Heap) (tag v : String) :
    (Split tag '=' = ["minLength", v] →
      stringKeyword t h tag = upd h t (Node.setMinLength (Atoi v)) ∧
      draft07.stringKeyword t h tag = upd h t (Node.setMinLength ((ParseUint v : Nat) : Int))) ∧
    (Split tag '=' = ["maxLength", v] →
      stringKeyword t h tag = upd h t (Node.setMaxLength (Atoi v)) ∧
      draft07.stringKeyword t h tag = upd h t (Node.setMaxLength ((ParseUint v : Nat) : Int))) := by
  refine ⟨?_, ?_⟩ <;> intro hS <;> unfold stringKeyword draft07.stringKeyword <;>
    simp only [hS] <;> simp

/-- What one round of `arrayKeywords` does on a `minItems` or `maxItems` token. -/
theorem arrayKeyword_sizes (t : Nat) (h : Heap) (dv : List String) (tag v : String) :
    (Split tag '=' = ["minItems", v] →
      arrayKeyword t (h, dv) tag = Res.ok (upd h t (Node.setMinItems (Atoi v)), dv) ∧
      draft07.arrayKeyword t (h, dv) tag =
        Res.ok (upd h t (Node.setMinItems ((ParseUint v : Nat) : Int)), dv)) ∧
    (Split tag '=' = ["maxItems", v] →
      arrayKeyword t (h, dv) tag = Res.ok (upd h t (Node.setMaxItems (Atoi v)), dv) ∧
      draft07.arrayKeyword t (h, dv) tag =
        Res.ok (upd h t (Node.setMaxItems ((ParseUint v : Nat) : Int)), dv)) := by
  refine ⟨?_, ?_⟩ <;> intro hS <;> unfold arrayKeyword draft07.arrayKeyword <;>
    simp only [hS] <;> simp

set_option maxRecDepth 100000 in
/-- C22 counterexample: in `type.go` the token `minLength=-5` stores -5 and
`minItems=-1` stores -1, negative numbers; and the unsigned decimal literals
`9223372036854775808` (in `type.go`) and `18446744073709551616` (in
draft07/schema.go) are stored as the largest `int` and the largest `uint64`, not as
themselves. -/
theorem negative_length_counterexample :
    (rd (stringKeywords 0 ["minLength=-5"] [{ Typ := "string" }]) 0).MinLength = -5 ∧
    arrayKeywords 0 ["minItems=-1"] [{ Typ := "array" }] =
      Res.ok [{ Typ := "array", MinItems := -1 }] ∧
    (rd (stringKeywords 0 ["maxLength=9223372036854775808"] [{ Typ := "string" }]) 0).MaxLength
      = 9223372036854775807 ∧
    (rd (draft07.stringKeywords 0 ["maxLength=18446744073709551616"]
      [{ Typ := "string" }]) 0).MaxLength = 18446744073709551615 := by
  decide

/-- C22 (amended): on a token `k=v` with `k` one of `minLength`, `maxLength`
(`stringKeywords`) or `minItems`, `maxItems` (`arrayKeywords`), `type.go` stores
`strconv.Atoi(v)` and draft07/schema.go stores `strconv.ParseUint(v, 10, 64)`, the
error dropped in both.  The number draft07 stores is never negative.  When `v` is
an unsigned decimal literal of value `n`, `type.go` stores `n` if it fits `int` and
the largest `int` otherwise, draft07 stores `n` if it fits `uint64` and the largest
`uint64` otherwise; so for `n ≤ 2^63 - 1` both store `n`. -/
theorem length_keywords_stored (t : Nat) (h : Heap) (dv : List String) (tag v : String)
    (ht : t < h.length) :
    (Split tag '=' = ["minLength", v] →
      (rd (stringKeyword t h tag) t).MinLength = Atoi v ∧
      (rd (draft07.stringKeyword t h tag) t).MinLength = (ParseUint v : Int)) ∧
    (Split tag '=' = ["maxLength", v] →
      (rd (stringKeyword t h tag) t).MaxLength = Atoi v ∧
      (rd (draft07.stringKeyword t h tag) t).MaxLength = (ParseUint v : Int)) ∧
    (Split tag '=' = ["minItems", v] →
      (∃ h', arrayKeyword t (h, dv) tag = Res.ok (h', dv) ∧ (rd h' t).MinItems = Atoi v) ∧
      (∃ h', draft07.arrayKeyword t (h, dv) tag = Res.ok (h', dv) ∧
        (rd h' t).MinItems = (ParseUint v : Int))) ∧
    (Split tag '=' = ["maxItems", v] →
      (∃ h', arrayKeyword t (h, dv) tag = Res.ok (h', dv) ∧ (rd h' t).MaxItems = Atoi v) ∧
      (∃ h', draft07.arrayKeyword t (h, dv) tag = Res.ok (h', dv) ∧
        (rd h' t).MaxItems = (ParseUint v : Int))) ∧
    (0 : Int) ≤ (ParseUint v : Int) ∧
    (∀ n, parseDigits v.data = some n →
      Atoi v = (if (n : Int) > maxInt then maxInt else (n : Int)) ∧
      ParseUint v = (if n > 2 ^ 64 - 1 then 2 ^ 64 - 1 else n) ∧
      (n ≤ 2 ^ 63 - 1 → Atoi v = (n : Int) ∧ ParseUint v = n)) := by
  obtain ⟨s1, s2⟩ := stringKeyword_lengths t h tag v
  obtain ⟨a1, a2⟩ := arrayKeyword_sizes t h dv tag v
  refine ⟨?_, ?_, ?_, ?_, Int.ofNat_nonneg _, ?_⟩
  · intro hS
    rw [(s1 hS).1, (s1 hS).2, rd_upd_at _ _ _ ht, rd_upd_at _ _ _ ht]
    exact ⟨rfl, rfl⟩
  · intro hS
    rw [(s2 hS).1, (s2 hS).2, rd_upd_at _ _ _ ht, rd_upd_at _ _ _ ht]
    exact ⟨rfl, rfl⟩
  · intro hS
    exact ⟨⟨_, (a1 hS).1, by rw [rd_upd_at _ _ _ ht]; rfl⟩,
      ⟨_, (a1 hS).2, by rw [rd_upd_at _ _ _ ht]; rfl⟩⟩
  · intro hS
    exact ⟨⟨_, (a2 hS).1, by rw [rd_upd_at _ _ _ ht]; rfl⟩,
      ⟨_, (a2 hS).2, by rw [rd_upd_at _ _ _ ht]; rfl⟩⟩
  · intro n hn
    have e1 := Atoi_digits v n hn
    have e2 := ParseUint_digits v n hn
    refine ⟨e1, e2, ?_⟩
    intro hle
    have h1 : ¬ ((n : Int) > maxInt) := by
      unfold maxInt
      have : (n : Int) ≤ 2 ^ 63 - 1 := by
        have : ((n : Nat) : Int) ≤ ((2 ^ 63 - 1 : Nat) : Int) := Int.ofNat_le.mpr hle
        simpa using this
      omega
    have h2 : ¬ (n > 2 ^ 64 - 1) := by
      have : (2 : Nat) ^ 63 - 1 ≤ 2 ^ 64 - 1 := by norm_num
      omega
    rw [e1, e2, if_neg h1, if_neg h2]
    exact ⟨rfl, rfl⟩

set_option maxRecDepth 100000 in
/-- C22 witness: the token `maxLength=64` on a string node. -/
theorem length_keywords_stored_witness :
    Split "maxLength=64" '=' = ["maxLength", "64"] ∧ parseDigits "64".data = some 64 ∧
    (rd (stringKeyword 0 [{ Typ := "string" }] "maxLength=64") 0).MaxLength = Atoi "64" ∧
    (rd (draft07.stringKeyword 0 [{ Typ := "string" }] "maxLength=64") 0).MaxLength
      = (ParseUint "64" : Int) ∧
    Atoi "64" = ((64 : Nat) : Int) ∧ ParseUint "64" = 64 :=
  have hw := length_keywords_stored 0 [{ Typ := "string" }] [] "maxLength=64" "64" (by decide)
  ⟨by decide, by decide, (hw.2.1 (by decide)).1, (hw.2.1 (by decide)).2,
    ((hw.2.2.2.2.2 64 (by decide)).2.2 (by decide)).1,
    ((hw.2.2.2.2.2 64 (by decide)).2.2 (by decide)).2⟩

/-! ## Serialization: the splice of the extension bag -/

theorem jsonObject_braced (l : List (String × String)) : Braced (jsonObject l) := by
  refine ⟨(",".intercalate (l.map (fun m => jsonString m.1 ++ ":" ++ m.2))).data, ?_⟩
  simp [jsonObject, String.data_append]

/-- A braced text of two characters is the empty object. -/
theorem Braced.two {s : String} (hs : Braced s) : s.length = 2 ↔ s = "\x7b\x7d" := by
  obtain ⟨body, hb⟩ := hs
  constructor
  · intro hl
    have : s.data.length = 2 := hl
    rw [hb] at this
    simp at this
    subst this
    apply String.ext
    rw [hb]; rfl
  · intro e; rw [e]; rfl

/-- The splice of two braced texts. -/
theorem splice_braced (b m : String) (hb : Braced b) (hm : Braced m) :
    (b = "\x7b\x7d" → splice b m = m) ∧
    (b ≠ "\x7b\x7d" → ∃ bs ms, b.data = bs ++ ['\x7d'] ∧ m.data = '\x7b' :: ms ∧
      splice b m = String.mk (bs ++ [','] ++ ms)) ∧
    Braced (splice b m) := by
  have h2 := hb.two
  obtain ⟨x, hx⟩ := hb
  obtain ⟨y, hy⟩ := hm
  have hd : ('\x7b' :: (x ++ ['\x7d'])).dropLast = '\x7b' :: x := by
    rw [← List.cons_append, List.dropLast_concat]
  refine ⟨?_, ?_, ?_⟩
  · intro e
    unfold splice
    rw [if_pos (h2.mpr e)]
  · intro ne
    have hl : ¬ b.length = 2 := fun hl => ne (h2.mp hl)
    refine ⟨'\x7b' :: x, y ++ ['\x7d'], by rw [hx]; simp, hy, ?_⟩
    unfold splice
    rw [if_neg hl, hx, hy, hd]
    simp
  · unfold splice
    split
    · exact ⟨y, hy⟩
    · refine ⟨x ++ [','] ++ y, ?_⟩
      rw [hx, hy, hd]
      simp

theorem marshalMembers_braced (ms : List Member) (b : String)
    (h : marshalMembers ms = some b) : Braced b := by
  unfold marshalMembers at h
  cases ha : allSome ((ms.filterMap id).map (fun m => m.2.map (fun v => (m.1, v)))) with
  | none => rw [ha] at h; cases h
  | some l =>
    rw [ha] at h
    cases h
    exact jsonObject_braced l

theorem marshalExtras_braced (e : List (String × Value)) (m : String)
    (h : marshalExtras e = some m) : Braced m := by
  unfold marshalExtras at h
  cases ha : allSome ((sortByKey e).map (fun e => (marshalValue e.2).map (fun v => (e.1, v)))) with
  | none => rw [ha] at h; cases h
  | some l =>
    rw [ha] at h
    cases h
    exact jsonObject_braced l

/-- The run of `MarshalJSON` on a node, from the two encodings. -/
theorem MarshalJSON_eq (h : Heap) (fuel a : Nat) :
    MarshalJSON h (fuel + 1) a =
      (marshalMembers (structMembers (MarshalJSON h fuel) (rd h a))).bind fun b =>
        if (rd h a).Extras.length = 0 then some b
        else (marshalExtras (rd h a).Extras).bind fun m => some (splice b m) := rfl

/-- Whatever `MarshalJSON` returns is braced. -/
theorem MarshalJSON_braced (h : Heap) (fuel a : Nat) (b : String)
    (hrun : MarshalJSON h fuel a = some b) : Braced b := by
  cases fuel with
  | zero => cases hrun
  | succ fuel =>
    rw [MarshalJSON_eq] at hrun
    cases hb : marshalMembers (structMembers (MarshalJSON h fuel) (rd h a)) with
    | none => rw [hb] at hrun; cases hrun
    | some b0 =>
      rw [hb] at hrun
      simp only [Option.bind] at hrun
      have hb0 := marshalMembers_braced _ _ hb
      split at hrun
      · cases hrun; exact hb0
      · cases hm : marshalExtras (rd h a).Extras with
        | none => rw [hm] at hrun; cases hrun
        | some m =>
          rw [hm] at hrun
          cases hrun
          exact (splice_braced b0 m hb0 (marshalExtras_braced _ _ hm)).2.2

/-- C30: `MarshalJSON` of `type.go` on a node whose structured encoding is `b`
returns `b` alone when the extension bag is empty; with a non-empty bag encoded as
`m` it returns `m` alone when `b` is the empty object, and otherwise `b` without
its closing brace, a comma, and `m` without its opening brace.  `MarshalJSON` of
`schema.go` does the same on the root schema, with the encoding `r` of the root
node as the structured encoding and the object that holds the definitions under
the key `definitions` in the role of the bag. -/
theorem MarshalJSON_splice (h : Heap) (fuel a : Nat) (b : String)
    (hb : marshalMembers (structMembers (MarshalJSON h fuel) (rd h a)) = some b) :
    ((rd h a).Extras = [] → MarshalJSON h (fuel + 1) a = some b) ∧
    (∀ m, (rd h a).Extras ≠ [] → marshalExtras (rd h a).Extras = some m →
      (b = "\x7b\x7d" → MarshalJSON h (fuel + 1) a = some m) ∧
      (b ≠ "\x7b\x7d" → ∃ bs ms, b.data = bs ++ ['\x7d'] ∧ m.data = '\x7b' :: ms ∧
        MarshalJSON h (fuel + 1) a = some (String.mk (bs ++ [','] ++ ms)))) ∧
    (∀ (s : Schema) (r : String), MarshalJSON h fuel s.TypeDraft04 = some r →
      (s.Definitions = [] → Schema.MarshalJSON h fuel s = some r) ∧
      (∀ d, s.Definitions ≠ [] →
        marshalEntries (MarshalJSON h fuel) (sortByKey s.Definitions) = some d →
        (r = "\x7b\x7d" →
          Schema.MarshalJSON h fuel s = some (jsonObject [("definitions", d)])) ∧
        (r ≠ "\x7b\x7d" → ∃ rs ds, r.data = rs ++ ['\x7d'] ∧
          (jsonObject [("definitions", d)]).data = '\x7b' :: ds ∧
          Schema.MarshalJSON h fuel s = some (String.mk (rs ++ [','] ++ ds))))) := by
  have hbb := marshalMembers_braced _ _ hb
  refine ⟨?_, ?_, ?_⟩
  · intro he
    rw [MarshalJSON_eq, hb]
    simp [he]
  · intro m he hm
    have hl : ¬ (rd h a).Extras.length = 0 := by
      intro e; exact he (List.length_eq_zero.mp e)
    have hrun : MarshalJSON h (fuel + 1) a = some (splice b m) := by
      rw [MarshalJSON_eq, hb]
      simp only [Option.bind, if_neg hl, hm]
    obtain ⟨s1, s2, _⟩ := splice_braced b m hbb (marshalExtras_braced _ _ hm)
    refine ⟨fun e => by rw [hrun, s1 e], fun ne => ?_⟩
    obtain ⟨bs, ms, e1, e2, e3⟩ := s2 ne
    exact ⟨bs, ms, e1, e2, by rw [hrun, e3]⟩
  · intro s r hr
    have hrb := MarshalJSON_braced h fuel _ r hr
    refine ⟨?_, ?_⟩
    · intro he
      unfold Schema.MarshalJSON
      rw [hr]
      simp [he]
    · intro d he hd
      have hl : ¬ s.Definitions.length = 0 := by
        intro e; exact he (List.length_eq_zero.mp e)
      have hrun : Schema.MarshalJSON h fuel s =
          some (splice r (jsonObject [("definitions", d)])) := by
        unfold Schema.MarshalJSON
        rw [hr]
        simp only [Option.bind, if_neg hl, hd]
      obtain ⟨s1, s2, _⟩ := splice_braced r _ hrb (jsonObject_braced [("definitions", d)])
      refine ⟨fun e => by rw [hrun, s1 e], fun ne => ?_⟩
      obtain ⟨rs, ds, e1, e2, e3⟩ := s2 ne
      exact ⟨rs, ds, e1, e2, by rw [hrun, e3]⟩

set_option maxRecDepth 100000 in
/-- C30 witness: a string node with one entry in its extension bag: the entry
lands behind the `type` member, in the same object. -/
theorem MarshalJSON_splice_witness :
    marshalMembers (structMembers
        (MarshalJSON [{ Typ := "string", Extras := [("x-unit", Value.str "cm")] }] 0)
        (rd [{ Typ := "string", Extras := [("x-unit", Value.str "cm")] }] 0)) =
      some (jsonObject [("type", jsonString "string")]) ∧
    marshalExtras [("x-unit", Value.str "cm")] = some (jsonObject [("x-unit", jsonString "cm")]) ∧
    (∃ bs ms, (jsonObject [("type", jsonString "string")]).data = bs ++ ['\x7d'] ∧
      (jsonObject [("x-unit", jsonString "cm")]).data = '\x7b' :: ms ∧
      MarshalJSON [{ Typ := "string", Extras := [("x-unit", Value.str "cm")] }] 1 0 =
        some (String.mk (bs ++ [','] ++ ms))) :=
  have hb : marshalMembers (structMembers
        (MarshalJSON [{ Typ := "string", Extras := [("x-unit", Value.str "cm")] }] 0)
        (rd [{ Typ := "string", Extras := [("x-unit", Value.str "cm")] }] 0)) =
      some (jsonObject [("type", jsonString "string")]) := by decide
  have hm : marshalExtras [("x-unit", Value.str "cm")] =
      some (jsonObject [("x-unit", jsonString "cm")]) := by decide
  ⟨hb, hm,
    ((MarshalJSON_splice [{ Typ := "string", Extras := [("x-unit", Value.str "cm")] }] 0 0
      (jsonObject [("type", jsonString "string")]) hb).2.1
        (jsonObject [("x-unit", jsonString "cm")]) (by decide) hm).2 (by decide)⟩

/-! ## Members of a node that a step leaves alone -/

theorem Keeps.krefl {α : Type} (g : Node → α) (h : Heap) : Keeps g h h :=
  ⟨le_refl _, fun _ _ => rfl⟩

theorem Keeps.ktrans {α : Type} {g : Node → α} {h h1 h2 : Heap}
    (k1 : Keeps g h h1) (k2 : Keeps g h1 h2) : Keeps g h h2 :=
  ⟨le_trans k1.1 k2.1, fun b hb => by rw [k2.2 b (lt_of_lt_of_le hb k1.1), k1.2 b hb]⟩

/-- A write that leaves the member alone, after steps that keep it. -/
theorem Keeps.upd_after {α : Type} {g : Node → α} {h x : Heap} {a : Nat} {f : Node → Node}
    (hf : ∀ n, g (f n) = g n) (k : Keeps g h x) : Keeps g h (upd x a f) := by
  refine ⟨by simpa using k.1, fun b hb => ?_⟩
  rcases rd_upd_cases x a b f with e | e
  · rw [e, hf, k.2 b hb]
  · rw [e, k.2 b hb]

/-- An allocation, after steps that keep the member. -/
theorem Keeps.append_after {α : Type} {g : Node → α} {h x : Heap} (l : Heap)
    (k : Keeps g h x) : Keeps g h (x ++ l) := by
  refine ⟨le_trans k.1 (by simp), fun b hb => ?_⟩
  rw [rd_append_lt _ _ _ (lt_of_lt_of_le hb k.1), k.2 b hb]

theorem Keeps.kfoldl {α β : Type} {g : Node → α} (step : Heap → β → Heap) (xs : List β)
    (hstep : ∀ x ∈ xs, ∀ hh, Keeps g hh (step hh x)) :
    ∀ h, Keeps g h (xs.foldl step h) := by
  induction xs with
  | nil => intro h; exact Keeps.krefl g h
  | cons x xs ih =>
    intro h
    exact Keeps.ktrans (hstep x (List.mem_cons_self _ _) h)
      (ih (fun y hy => hstep y (List.mem_cons_of_mem _ hy)) _)

/-- The loop of the `oneof_type` case leaves every member of the nodes at hand but
`oneOf` alone. -/
theorem oneofTypeStep_keeps {α : Type} (g : Node → α) (t : Nat)
    (hf : ∀ a n, g (Node.addOneOf a n) = g n) (parts : List String) (h : Heap) :
    Keeps g h (parts.foldl (oneofTypeStep t) h) := by
  refine Keeps.kfoldl _ _ (fun ty _ hh => ?_) h
  show Keeps g hh (upd (hh ++ [({ Typ := ty } : Node)]) t (Node.addOneOf hh.length))
  exact Keeps.upd_after (hf _) (Keeps.append_after _ (Keeps.krefl g hh))

/-- One round of `genericKeywords` on a token that is not `description=v` keeps the
description of every node. -/
theorem genericKeyword_description (t parent : Nat) (name : String) (h : Heap) (tag : String)
    (hno : ∀ v, Split tag '=' ≠ ["description", v]) :
    Keeps Node.Description h (genericKeyword t parent name h tag) := by
  unfold genericKeyword
  split
  · rename_i nm val hS
    split
    · exact Keeps.upd_after (fun _ => rfl) (Keeps.krefl _ h)
    split
    · rename_i hname
      exact absurd (by rw [hS, hname]) (hno val)
    split
    · exact Keeps.upd_after (fun _ => rfl) (Keeps.krefl _ h)
    split
    · simp only [alloc]
      split
      · exact Keeps.upd_after (fun _ => rfl) (Keeps.krefl _ h)
      · exact Keeps.upd_after (fun _ => rfl)
          (Keeps.upd_after (fun _ => rfl) (Keeps.append_after _ (Keeps.krefl _ h)))
    split
    · have k1 : Keeps Node.Description h (upd h t (Node.setTyp "")) :=
        Keeps.upd_after (fun _ => rfl) (Keeps.krefl _ h)
      exact Keeps.ktrans k1
        (oneofTypeStep_keeps Node.Description t (fun _ _ => rfl) (Split val ';') _)
    split
    · split
      · exact Keeps.upd_after (fun _ => rfl) (Keeps.krefl _ h)
      split
      · exact Keeps.upd_after (fun _ => rfl) (Keeps.krefl _ h)
      split
      · exact Keeps.upd_after (fun _ => rfl) (Keeps.krefl _ h)
      · exact Keeps.krefl _ h
    · exact Keeps.krefl _ h
  · exact Keeps.krefl _ h

/-- One round of `stringKeywords` keeps the description of every node. -/
theorem stringKeyword_description (t : Nat) (h : Heap) (tag : String) :
    Keeps Node.Description h (stringKeyword t h tag) := by
  unfold stringKeyword
  repeat' split
  all_goals first
    | exact Keeps.krefl _ h
    | exact Keeps.upd_after (fun _ => rfl) (Keeps.krefl _ h)

/-- One round of `numbericKeywords` keeps the description of every node. -/
theorem numbericKeyword_description (t : Nat) (h : Heap) (tag : String) :
    Keeps Node.Description h (numbericKeyword t h tag) := by
  unfold numbericKeyword
  repeat' split
  all_goals first
    | exact Keeps.krefl _ h
    | exact Keeps.upd_after (fun _ => rfl) (Keeps.krefl _ h)

/-- One round of `arrayKeywords` keeps the description of every node. -/
theorem arrayKeyword_description (t : Nat) (h h' : Heap) (dv dv' : List String) (tag : String)
    (hrun : arrayKeyword t (h, dv) tag = Res.ok (h', dv')) : Keeps Node.Description h h' := by
  unfold arrayKeyword at hrun
  simp only at hrun
  repeat' split at hrun
  all_goals first
    | (simp only [Res.ok.injEq, Prod.mk.injEq] at hrun
       obtain ⟨e1, -⟩ := hrun
       subst e1
       first
         | exact Keeps.krefl _ _
         | exact Keeps.upd_after (fun _ => rfl) (Keeps.krefl _ _))
    | cases hrun

/-- The loop of `arrayKeywords` keeps the description of every node. -/
theorem arrayKeywordsLoop_description (t : Nat) (tags : List String) :
    ∀ (h h' : Heap) (dv dv' : List String),
      arrayKeywordsLoop t tags (h, dv) = Res.ok (h', dv') → Keeps Node.Description h h' := by
  induction tags with
  | nil =>
    intro h h' dv dv' hrun
    simp only [arrayKeywordsLoop, Res.ok.injEq, Prod.mk.injEq] at hrun
    rw [← hrun.1]
    exact Keeps.krefl _ h
  | cons tag rest ih =>
    intro h h' dv dv' hrun
    simp only [arrayKeywordsLoop] at hrun
    obtain ⟨⟨h1, dv1⟩, hstep, hrest⟩ := Res.bind_eq_ok hrun
    exact Keeps.ktrans (arrayKeyword_description t h h1 dv dv1 tag hstep) (ih h1 h' dv1 dv' hrest)

/-- Go `arrayKeywords` keeps the description of every node. -/
theorem arrayKeywords_description (t : Nat) (tags : List String) (h h' : Heap)
    (hrun : arrayKeywords t tags h = Res.ok h') : Keeps Node.Description h h' := by
  unfold arrayKeywords at hrun
  obtain ⟨⟨h1, dv1⟩, hloop, hrest⟩ := Res.bind_eq_ok hrun
  have k1 := arrayKeywordsLoop_description t tags h h1 [] dv1 hloop
  simp only at hrest
  split at hrest
  · cases hrest
    exact Keeps.upd_after (fun _ => rfl) k1
  · cases hrest
    exact k1

/-- Go `extraKeywords` only writes the extension bag. -/
theorem extraKeywords_keeps {α : Type} (g : Node → α)
    (hE : ∀ k v n, g (Node.setExtra k v n) = g n) (t : Nat) (tags : List String) (h : Heap) :
    Keeps g h (extraKeywords t tags h) := by
  unfold extraKeywords
  refine Keeps.kfoldl _ _ (fun tag _ hh => ?_) h
  split
  · exact Keeps.upd_after (hE _ _) (Keeps.krefl g hh)
  · exact Keeps.krefl g hh

/-- The nullable wrapper is made of new nodes. -/
theorem wrapNullable_keeps {α : Type} (g : Node → α) (nullable : Bool) (p : Nat) (h : Heap) :
    Keeps g h (wrapNullable nullable p h).2 := by
  unfold wrapNullable
  split
  · exact Keeps.append_after _ (Keeps.append_after _ (Keeps.krefl g h))
  · exact Keeps.krefl g h

/-- Storing the property only writes `properties` and `required` of the parent. -/
theorem storeProperty_keeps {α : Type} (g : Node → α)
    (hP : ∀ ps nm p n, g (Node.setProperty ps nm p n) = g n)
    (hR : ∀ nm n, g (Node.addRequired nm n) = g n)
    (st : Nat) (name : String) (required : Bool) (w : Nat) (h h' : Heap)
    (hrun : storeProperty st name required w h = Res.ok h') : Keeps g h h' := by
  unfold storeProperty at hrun
  split at hrun
  · cases hrun
  · simp only [Res.ok.injEq] at hrun
    subst hrun
    split
    · exact Keeps.upd_after (hR _) (Keeps.upd_after (hP _ _ _) (Keeps.krefl g h))
    · exact Keeps.upd_after (hP _ _ _) (Keeps.krefl g h)

/-- The tail of `handleField` behind the documentation string keeps a member that
storing the property does not write. -/
theorem finishField_tail {α : Type} (g : Node → α)
    (hP : ∀ ps nm p n, g (Node.setProperty ps nm p n) = g n)
    (hR : ∀ nm n, g (Node.addRequired nm n) = g n)
    (env : TypeEnv) (t : TypeId) (st : Nat) (f : StructField) (name : String)
    (required nullable : Bool) (property : Nat) (s s' : State)
    (hrun : finishField env t st f name required nullable property s = Res.ok s') :
    ∃ h1, structKeywordsFromTags property f st name s.heap = Res.ok h1 ∧
      Keeps g (applyFieldDoc env t f property h1) s'.heap := by
  unfold finishField at hrun
  obtain ⟨h1, hk, hrest⟩ := Res.bind_eq_ok hrun
  simp only at hrest
  obtain ⟨h2, hs, hok⟩ := Res.bind_eq_ok hrest
  simp only [Res.ok.injEq] at hok
  subst hok
  exact ⟨h1, hk, Keeps.ktrans (wrapNullable_keeps g nullable property _)
    (storeProperty_keeps g hP hR _ _ _ _ _ _ hs)⟩

/-! ## The `pattern` keyword -/

/-- One round of `stringKeywords` on a token that is not `pattern=v` keeps the
pattern of every node. -/
theorem stringKeyword_pattern_keep (t : Nat) (h : Heap) (tag : String)
    (hno : ∀ v, Split tag '=' ≠ ["pattern", v]) :
    Keeps Node.Pattern h (stringKeyword t h tag) := by
  unfold stringKeyword
  split
  · rename_i nm val hS
    split
    · exact Keeps.upd_after (fun _ => rfl) (Keeps.krefl _ h)
    split
    · exact Keeps.upd_after (fun _ => rfl) (Keeps.krefl _ h)
    split
    · rename_i hname
      exact absurd (by rw [hS, hname]) (hno val)
    repeat' split
    all_goals first
      | exact Keeps.krefl _ h
      | exact Keeps.upd_after (fun _ => rfl) (Keeps.krefl _ h)
  · exact Keeps.krefl _ h

/-- One round of `stringKeywords` on a token `pattern=p`. -/
theorem stringKeyword_pattern_set (t : Nat) (h : Heap) (tag p : String)
    (hS : Split tag '=' = ["pattern", p]) :
    stringKeyword t h tag = upd h t (Node.setPattern p) := by
  unfold stringKeyword
  simp only [hS]
  simp

/-- After `stringKeywords` the pattern of the node is the value of the last
`pattern` token. -/
theorem stringKeywords_pattern (t : Nat) (pre post : List String) (tok p : String) (h : Heap)
    (ht : t < h.length) (htok : Split tok '=' = ["pattern", p])
    (hpost : ∀ x ∈ post, ∀ q, Split x '=' ≠ ["pattern", q]) :
    (rd (stringKeywords t (pre ++ tok :: post) h) t).Pattern = p := by
  unfold stringKeywords
  rw [List.foldl_append, List.foldl_cons, stringKeyword_pattern_set _ _ _ _ htok]
  have hl : h.length ≤ (pre.foldl (stringKeyword t) h).length :=
    foldl_length _ (stringKeyword_length t) pre h
  have ht1 : t < (pre.foldl (stringKeyword t) h).length := lt_of_lt_of_le ht hl
  have k := Keeps.kfoldl (stringKeyword t) post
    (fun x hx hh => stringKeyword_pattern_keep t hh x (hpost x hx))
    (upd (pre.foldl (stringKeyword t) h) t (Node.setPattern p))
  rw [k.2 t (by simpa using ht1), rd_upd_eq _ _ _ ht1]
  rfl

/-- The run of `structKeywordsFromTags` on a node that has type `string` once the
generic keywords are done. -/
theorem structKeywordsFromTags_string (t parent : Nat) (f : StructField) (name : String)
    (h : Heap)
    (hty : (rd (genericKeywords t (Split (f.Tag.Get "jsonschema") ',') parent name
      (upd h t (Node.setDescription (f.Tag.Get "jsonschema_description")))) t).Typ = "string") :
    structKeywordsFromTags t f parent name h =
      Res.ok (extraKeywords t (Split (f.Tag.Get "jsonschema_extras") ',')
        (stringKeywords t (Split (f.Tag.Get "jsonschema") ',')
          (genericKeywords t (Split (f.Tag.Get "jsonschema") ',') parent name
            (upd h t (Node.setDescription (f.Tag.Get "jsonschema_description")))))) := by
  unfold structKeywordsFromTags
  simp only [hty, if_true]
  rfl

set_option maxRecDepth 100000 in
/-- C23 counterexample: on the node of a string field, the tag `pattern=^[ab],[cd]$`
leaves the pattern `^[ab]`, the text up to the first comma, and the tag
`pattern=k=v` leaves no pattern at all: the tag is cut at every comma first, and a
token with more than one `=` is skipped. -/
theorem pattern_comma_counterexample :
    structKeywordsFromTags 1 (codeField "pattern=^[ab],[cd]$") 0 "Code"
        [structNode defaultReflector, { Typ := "string" }] =
      Res.ok [structNode defaultReflector, { Typ := "string", Pattern := "^[ab]" }] ∧
    structKeywordsFromTags 1 (codeField "pattern=k=v") 0 "Code"
        [structNode defaultReflector, { Typ := "string" }] =
      Res.ok [structNode defaultReflector, { Typ := "string" }] := by
  decide

/-- C23 (amended): take a field whose `jsonschema` tag, cut at the commas, has a
token that splits at `=` into exactly `pattern` and `p`, with no such token behind
it, and whose node `property` has type `string` once the generic keywords have
run.  Then `structKeywordsFromTags` returns and the pattern of the node is `p`,
and it still is `p` when `handleField` has stored the property.  A tag that is
just `pattern=q` is such a tag with `p = q` whenever `q` holds neither a comma nor
a `=`. -/
theorem finishField_pattern (env : TypeEnv) (t : TypeId) (st property : Nat) (f : StructField)
    (name : String) (required nullable : Bool) (s : State) (pre post : List String)
    (tok p : String)
    (hp : property < s.heap.length)
    (htags : Split (f.Tag.Get "jsonschema") ',' = pre ++ tok :: post)
    (htok : Split tok '=' = ["pattern", p])
    (hpost : ∀ x ∈ post, ∀ q, Split x '=' ≠ ["pattern", q])
    (hty : (rd (genericKeywords property (pre ++ tok :: post) st name
      (upd s.heap property (Node.setDescription (f.Tag.Get "jsonschema_description"))))
        property).Typ = "string") :
    (∃ h1, structKeywordsFromTags property f st name s.heap = Res.ok h1 ∧
      (rd h1 property).Pattern = p) ∧
    (∀ s', finishField env t st f name required nullable property s = Res.ok s' →
      (rd s'.heap property).Pattern = p) ∧
    (∀ q : String, ',' ∉ q.data → '=' ∉ q.data →
      Split ("pattern" ++ "=" ++ q) ',' = ["pattern" ++ "=" ++ q] ∧
      Split ("pattern" ++ "=" ++ q) '=' = ["pattern", q]) := by
  have hrun := structKeywordsFromTags_string property st f name s.heap (by rw [htags]; exact hty)
  have hg : s.heap.length ≤ (genericKeywords property (pre ++ tok :: post) st name
      (upd s.heap property (Node.setDescription (f.Tag.Get "jsonschema_description")))).length :=
    le_trans (by simp) (genericKeywords_length _ _ _ _ _)
  have hs := stringKeywords_pattern property pre post tok p _ (lt_of_lt_of_le hp hg) htok hpost
  have hsl := le_trans hg (foldl_length _ (stringKeyword_length property) (pre ++ tok :: post) _)
  have hpat : ∀ h1, structKeywordsFromTags property f st name s.heap = Res.ok h1 →
      h1.length ≥ s.heap.length ∧ (rd h1 property).Pattern = p := by
    intro h1 h1run
    rw [hrun, htags] at h1run
    simp only [Res.ok.injEq] at h1run
    subst h1run
    have k := extraKeywords_keeps Node.Pattern (fun _ _ _ => rfl) property
      (Split (f.Tag.Get "jsonschema_extras") ',')
      (stringKeywords property (pre ++ tok :: post)
        (genericKeywords property (pre ++ tok :: post) st name
          (upd s.heap property (Node.setDescription (f.Tag.Get "jsonschema_description")))))
    refine ⟨le_trans hsl k.1, ?_⟩
    rw [k.2 property (lt_of_lt_of_le hp hsl)]
    exact hs
  refine ⟨⟨_, hrun, (hpat _ hrun).2⟩, ?_, ?_⟩
  · intro s' hfin
    obtain ⟨h1, h1run, k⟩ := finishField_tail Node.Pattern (fun _ _ _ _ => rfl)
      (fun _ _ => rfl) env t st f name required nullable property s s' hfin
    obtain ⟨hlen, hp1⟩ := hpat h1 h1run
    have kd : Keeps Node.Pattern h1 (applyFieldDoc env t f property h1) := by
      unfold applyFieldDoc
      split
      · exact Keeps.upd_after (fun _ => rfl) (Keeps.krefl _ h1)
      · exact Keeps.krefl _ h1
    rw [(Keeps.ktrans kd k).2 property (lt_of_lt_of_le hp hlen)]
    exact hp1
  · intro q hq1 hq2
    refine ⟨?_, Split_token "pattern" q (by decide) hq2⟩
    unfold Split
    rw [splitChars_none]
    · rfl
    · intro hm
      have : (',' : Char) ∈ "pattern".data ++ "=".data ++ q.data := by
        simpa [String.data_append] using hm
      rcases List.mem_append.mp this with h1 | h1
      · revert h1; decide
      · exact hq1 h1

set_option maxRecDepth 100000 in
/-- C23 witness: the field `Code string` tagged `jsonschema:"pattern=^[a-z]+$"`,
its node at address 1 behind the node of the struct. -/
theorem finishField_pattern_witness :
    Split ((codeField "pattern=^[a-z]+$").Tag.Get "jsonschema") ',' = [] ++ "pattern=^[a-z]+$" :: [] ∧
    Split "pattern=^[a-z]+$" '=' = ["pattern", "^[a-z]+$"] ∧
    (∃ h1, structKeywordsFromTags 1 (codeField "pattern=^[a-z]+$") 0 "Code"
        [structNode defaultReflector, { Typ := "string" }] = Res.ok h1 ∧
      (rd h1 1).Pattern = "^[a-z]+$") :=
  ⟨by decide, by decide,
    (finishField_pattern labelEnv 0 0 1 (codeField "pattern=^[a-z]+$") "Code" true false
      { heap := [structNode defaultReflector, { Typ := "string" }] } [] []
      "pattern=^[a-z]+$" "^[a-z]+$" (by decide) (by decide) (by decide)
      (fun x hx => by simp at hx) (by decide)).1⟩

/-! ## The `description` keyword and the documentation string -/

/-- One round of `genericKeywords` on a token `description=X`. -/
theorem genericKeyword_description_set (t parent : Nat) (name : String) (h : Heap)
    (tag X : String) (hS : Split tag '=' = ["description", X]) :
    genericKeyword t parent name h tag = upd h t (Node.setDescription X) := by
  unfold genericKeyword
  simp only [hS]
  simp

/-- After `genericKeywords` the description of the node is the value of the last
`description` token. -/
theorem genericKeywords_description (t parent : Nat) (name : String) (pre post : List String)
    (tok X : String) (h : Heap) (ht : t < h.length)
    (htok : Split tok '=' = ["description", X])
    (hpost : ∀ x ∈ post, ∀ q, Split x '=' ≠ ["description", q]) :
    (rd (genericKeywords t (pre ++ tok :: post) parent name h) t).Description = X := by
  rw [genericKeywords_split, genericKeyword_description_set _ _ _ _ _ _ htok]
  have ht1 : t < (genericKeywords t pre parent name h).length :=
    lt_of_lt_of_le ht (genericKeywords_length _ _ _ _ _)
  have k := Keeps.kfoldl (genericKeyword t parent name) post
    (fun x hx hh => genericKeyword_description t parent name hh x (hpost x hx))
    (upd (genericKeywords t pre parent name h) t (Node.setDescription X))
  unfold genericKeywords at k ht1 ⊢
  rw [k.2 t (by simpa using ht1), rd_upd_eq _ _ _ ht1]
  rfl

/-- The keywords behind the generic ones keep the description of every node. -/
theorem typedKeywords_description (t : Nat) (f : StructField) (parent : Nat) (name : String)
    (h h1 : Heap) (hrun : structKeywordsFromTags t f parent name h = Res.ok h1) :
    Keeps Node.Description
      (genericKeywords t (Split (f.Tag.Get "jsonschema") ',') parent name
        (upd h t (Node.setDescription (f.Tag.Get "jsonschema_description")))) h1 := by
  unfold structKeywordsFromTags at hrun
  simp only at hrun
  obtain ⟨h3, htyped, hrest⟩ := Res.bind_eq_ok hrun
  simp only [Res.ok.injEq] at hrest
  subst hrest
  refine Keeps.ktrans ?_ (extraKeywords_keeps Node.Description (fun _ _ _ => rfl) t _ h3)
  split at htyped
  · cases htyped
    exact Keeps.kfoldl _ _ (fun x _ hh => stringKeyword_description t hh x) _
  split at htyped
  · cases htyped
    exact Keeps.kfoldl _ _ (fun x _ hh => numbericKeyword_description t hh x) _
  split at htyped
  · cases htyped
    exact Keeps.kfoldl _ _ (fun x _ hh => numbericKeyword_description t hh x) _
  split at htyped
  · exact arrayKeywords_description t _ _ _ htyped
  · cases htyped
    exact Keeps.krefl _ _

/-- The description of the node after `structKeywordsFromTags`. -/
theorem structKeywordsFromTags_description (t : Nat) (f : StructField) (parent : Nat)
    (name : String) (pre post : List String) (tok X : String) (h h1 : Heap)
    (ht : t < h.length)
    (htags : Split (f.Tag.Get "jsonschema") ',' = pre ++ tok :: post)
    (htok : Split tok '=' = ["description", X])
    (hpost : ∀ x ∈ post, ∀ q, Split x '=' ≠ ["description", q])
    (hrun : structKeywordsFromTags t f parent name h = Res.ok h1) :
    h.length ≤ h1.length ∧ (rd h1 t).Description = X := by
  have k := typedKeywords_description t f parent name h h1 hrun
  have hl : h.length ≤ (genericKeywords t (Split (f.Tag.Get "jsonschema") ',') parent name
      (upd h t (Node.setDescription (f.Tag.Get "jsonschema_description")))).length :=
    le_trans (by simp) (genericKeywords_length _ _ _ _ _)
  refine ⟨le_trans hl k.1, ?_⟩
  rw [k.2 t (lt_of_lt_of_le ht hl), htags]
  exact genericKeywords_description t parent name pre post tok X _ (by simpa using ht) htok hpost

/-- The description of the node after `applyFieldDoc`. -/
theorem applyFieldDoc_description (env : TypeEnv) (t : TypeId) (f : StructField)
    (property : Nat) (h : Heap) (hp : property < h.length) :
    (rd (applyFieldDoc env t f property h) property).Description =
      match env.GetFieldDocString t with
      | some getFieldDocString => getFieldDocString f.Name
      | none => (rd h property).Description := by
  unfold applyFieldDoc
  cases hg : env.GetFieldDocString t with
  | some g => simp only; rw [rd_upd_eq _ _ _ hp]; rfl
  | none => rfl

/-- What `storeProperty` leaves in the parent. -/
theorem storeProperty_stored (st : Nat) (name : String) (required : Bool) (w : Nat)
    (h h' : Heap) (hst : st < h.length)
    (hrun : storeProperty st name required w h = Res.ok h') :
    ∃ ps, (rd h' st).Properties = some ps ∧ mapGet ps name = some w := by
  unfold storeProperty at hrun
  split at hrun
  · cases hrun
  · rename_i properties hprops
    simp only [Res.ok.injEq] at hrun
    subst hrun
    refine ⟨mapSet properties name w, ?_, by rw [mapGet_mapSet]; simp⟩
    split
    · rw [rd_upd_eq _ _ _ (by simpa using hst), rd_upd_eq _ _ _ hst]
      rfl
    · rw [rd_upd_eq _ _ _ hst]
      rfl

set_option maxRecDepth 100000 in
/-- The run on `Doc`, whose field has a `description` token and whose type has
the method `GetFieldDocString`. -/
theorem docEnv_run :
    ReflectFromType docEnv defaultReflector 6 0 =
      Res.ok ({ TypeDraft04 := 2, Definitions := [("Doc", 0)] },
        [{ structNode defaultReflector with
            Required := ["Name"], Properties := some [("Name", 1)] },
          { Typ := "string", Description := "from the documentation" },
          refNode defaultReflector "Doc"]) := by
  decide

/-- C26 counterexample: `type Doc struct` has the method `GetFieldDocString`, and
its field `Name string` is tagged `jsonschema:"description=from the tag"`.  The
property node stored under `Name` (address 1) has the description the method
gives, not the one of the tag: `handleField` assigns the documentation string
after the tag keywords have run. -/
theorem doc_string_counterexample :
    docField.Tag.Get "jsonschema" = "description=from the tag" ∧
    (docEnv.GetFieldDocString 0).map (fun g => g "Name") = some "from the documentation" ∧
    ReflectFromType docEnv defaultReflector 6 0 =
      Res.ok ({ TypeDraft04 := 2, Definitions := [("Doc", 0)] },
        [{ structNode defaultReflector with
            Required := ["Name"], Properties := some [("Name", 1)] },
          { Typ := "string", Description := "from the documentation" },
          refNode defaultReflector "Doc"]) :=
  ⟨rfl, rfl, docEnv_run⟩

/-- C26 (amended): take a field whose `jsonschema` tag, cut at the commas, has a
token that splits at `=` into exactly `description` and `X`, with no such token
behind it, and let `property` be the node the walker returned for the field.
When `structKeywordsFromTags` returns, the description of `property` is `X`,
whatever the `jsonschema_description` tag says.  When `handleField` has stored the
property, the description of `property` is what `GetFieldDocString` gives for the
field if the struct type has that method, and `X` otherwise; the node stored in
the parent under the property name is `property` itself, or for a nullable field
the new `oneOf` wrapper around it, which has no description. -/
theorem finishField_description (env : TypeEnv) (t : TypeId) (st property : Nat)
    (f : StructField) (name : String) (required nullable : Bool) (s : State)
    (pre post : List String) (tok X : String)
    (hp : property < s.heap.length) (hst : st < s.heap.length)
    (htags : Split (f.Tag.Get "jsonschema") ',' = pre ++ tok :: post)
    (htok : Split tok '=' = ["description", X])
    (hpost : ∀ x ∈ post, ∀ q, Split x '=' ≠ ["description", q]) :
    (∀ h1, structKeywordsFromTags property f st name s.heap = Res.ok h1 →
      (rd h1 property).Description = X) ∧
    (∀ s', finishField env t st f name required nullable property s = Res.ok s' →
      (rd s'.heap property).Description =
        (match env.GetFieldDocString t with
         | some getFieldDocString => getFieldDocString f.Name
         | none => X) ∧
      ∃ ps stored, (rd s'.heap st).Properties = some ps ∧ mapGet ps name = some stored ∧
        (nullable = false → stored = property) ∧
        (nullable = true → (rd s'.heap stored).OneOf.head? = some property ∧
          (rd s'.heap stored).Description = "")) := by
  refine ⟨fun h1 hrun => (structKeywordsFromTags_description property f st name pre post tok X
    s.heap h1 hp htags htok hpost hrun).2, ?_⟩
  intro s' hfin
  obtain ⟨h1, h1run, k⟩ := finishField_tail Node.Description (fun _ _ _ _ => rfl)
    (fun _ _ => rfl) env t st f name required nullable property s s' hfin
  obtain ⟨hlen, hd⟩ := structKeywordsFromTags_description property f st name pre post tok X
    s.heap h1 hp htags htok hpost h1run
  have hp1 : property < h1.length := lt_of_lt_of_le hp hlen
  have hdl := applyFieldDoc_length env t f property h1
  refine ⟨?_, ?_⟩
  · rw [k.2 property (by rw [hdl]; exact hp1), applyFieldDoc_description env t f property h1 hp1]
    split
    · rfl
    · exact hd
  · unfold finishField at hfin
    rw [h1run] at hfin
    simp only [Res.bind] at hfin
    obtain ⟨h2, hs, hok⟩ := Res.bind_eq_ok hfin
    simp only [Res.ok.injEq] at hok
    subst hok
    have hw : st < (wrapNullable nullable property (applyFieldDoc env t f property h1)).2.length :=
      lt_of_lt_of_le (lt_of_lt_of_le hst hlen)
        (by rw [← hdl]; exact (wrapNullable_keeps Node.Description nullable property _).1)
    obtain ⟨ps, e1, e2⟩ := storeProperty_stored st name required _ _ h2 hw hs
    refine ⟨ps, _, e1, e2, ?_, ?_⟩
    · intro hn; rw [hn]; rfl
    · intro hn
      subst hn
      have kO := storeProperty_keeps Node.OneOf (fun _ _ _ _ => rfl) (fun _ _ => rfl)
        _ _ _ _ _ _ hs
      have kD := storeProperty_keeps Node.Description (fun _ _ _ _ => rfl) (fun _ _ => rfl)
        _ _ _ _ _ _ hs
      have hwl : (wrapNullable true property (applyFieldDoc env t f property h1)).1 <
          (wrapNullable true property (applyFieldDoc env t f property h1)).2.length := by
        simp [wrapNullable]
      have hnode : rd (wrapNullable true property (applyFieldDoc env t f property h1)).2
          (wrapNullable true property (applyFieldDoc env t f property h1)).1 =
          { OneOf := [property, (applyFieldDoc env t f property h1).length] } := by
        simp only [wrapNullable, if_true]
        rw [show (applyFieldDoc env t f property h1).length + 1 =
          ((applyFieldDoc env t f property h1) ++ [({ Typ := "null" } : Node)]).length by simp]
        exact rd_append_length _ _
      rw [kO.2 _ hwl, kD.2 _ hwl, hnode]
      exact ⟨rfl, rfl⟩

set_option maxRecDepth 100000 in
/-- C26 witness: the field `Label string` of `Sticker`, tagged here with
`jsonschema:"title=T,description=from the tag"` and
`jsonschema_description:"other"`; `Sticker` has no `GetFieldDocString`. -/
theorem finishField_description_witness :
    (∀ s', finishField labelEnv 0 0
        { Name := "Label", Typ := 1,
          Tag := [("jsonschema", "title=T,description=from the tag"),
                  ("jsonschema_description", "other")] }
        "Label" true false 1 { heap := [structNode defaultReflector, { Typ := "string" }] }
          = Res.ok s' →
      (rd s'.heap 1).Description = "from the tag") ∧
    (∃ s', finishField labelEnv 0 0
        { Name := "Label", Typ := 1,
          Tag := [("jsonschema", "title=T,description=from the tag"),
                  ("jsonschema_description", "other")] }
        "Label" true false 1 { heap := [structNode defaultReflector, { Typ := "string" }] }
          = Res.ok s') :=
  ⟨fun s' hfin =>
    ((finishField_description labelEnv 0 0 1
      { Name := "Label", Typ := 1,
        Tag := [("jsonschema", "title=T,description=from the tag"),
                ("jsonschema_description", "other")] }
      "Label" true false { heap := [structNode defaultReflector, { Typ := "string" }] }
      ["title=T"] [] "description=from the tag" "from the tag"
      (by decide) (by decide) (by decide) (by decide) (fun x hx => by simp at hx)).2 s' hfin).1,
   ⟨{ heap := [{ structNode defaultReflector with
                  Required := ["Label"], Properties := some [("Label", 1)] },
               { Typ := "string", Title := "T", Description := "from the tag" }] },
    by decide⟩⟩

/-! ## The version registry -/

/-- A URI that is none of the four registered ones is not in `versionToID`. -/
theorem versionToID_other (j : String)
    (hj : j ∉ [DRAFT04, DRAFT07, DRAFT201909, DRAFT202012].map Version.String) :
    versionToID j = none := by
  have h1 : j ≠ "https://json-schema.org/draft-04/schema#" := fun e => hj (by rw [e]; decide)
  have h2 : j ≠ "https://json-schema.org/draft-07/schema#" := fun e => hj (by rw [e]; decide)
  have h3 : j ≠ "https://json-schema.org/draft/2019-09/schema#" :=
    fun e => hj (by rw [e]; decide)
  have h4 : j ≠ "https://json-schema.org/draft/2020-12/schema#" :=
    fun e => hj (by rw [e]; decide)
  simp [versionToID, h1, h2, h3, h4]

/-- A value that is none of the four drafts is not in `versionToString`. -/
theorem Version_String_other (v : Nat)
    (hv : v ∉ [DRAFT04, DRAFT07, DRAFT201909, DRAFT202012]) : Version.String v = "" := by
  have h1 : v ≠ 1 := fun e => hv (by rw [e]; decide)
  have h2 : v ≠ 2 := fun e => hv (by rw [e]; decide)
  have h3 : v ≠ 3 := fun e => hv (by rw [e]; decide)
  have h4 : v ≠ 4 := fun e => hv (by rw [e]; decide)
  simp [Version.String, h1, h2, h3, h4]

set_option maxRecDepth 100000 in
/-- The four drafts come back from their JSON encoding, and from their URI. -/
theorem version_round_trip (v : Nat) (hv : v ∈ [DRAFT04, DRAFT07, DRAFT201909, DRAFT202012]) :
    Version.UnmarshalJSON (Version.MarshalJSON v) = some v ∧
      versionToID (Version.String v) = some v := by
  simp only [List.mem_cons, List.mem_singleton, List.not_mem_nil, or_false] at hv
  rcases hv with e | e | e | e <;> subst e <;> decide

set_option maxRecDepth 100000 in
/-- The URIs of the four drafts are pairwise distinct. -/
theorem version_uri_injective (v w : Nat)
    (hv : v ∈ [DRAFT04, DRAFT07, DRAFT201909, DRAFT202012])
    (hw : w ∈ [DRAFT04, DRAFT07, DRAFT201909, DRAFT202012])
    (h : Version.String v = Version.String w) : v = w := by
  simp only [List.mem_cons, List.mem_singleton, List.not_mem_nil, or_false] at hv hw
  rcases hv with e | e | e | e <;> rcases hw with e' | e' | e' | e' <;> subst e <;> subst e' <;>
    first
      | rfl
      | (exfalso; revert h; decide)

/-- C31: for each of the four drafts, `UnmarshalJSON` on the JSON encoding of
`v.String()` gives `v` without error, and `versionToID` maps the URI back to `v`;
distinct drafts have distinct URIs; whenever the JSON text decodes to a string
that is none of the four URIs, `UnmarshalJSON` gives `DRAFT04` without error; and
`String()` of a value that is none of the four drafts is the empty string. -/
theorem version_registry :
    (∀ v, v ∈ [DRAFT04, DRAFT07, DRAFT201909, DRAFT202012] →
      Version.UnmarshalJSON (Version.MarshalJSON v) = some v ∧
      versionToID (Version.String v) = some v) ∧
    (∀ v w, v ∈ [DRAFT04, DRAFT07, DRAFT201909, DRAFT202012] →
      w ∈ [DRAFT04, DRAFT07, DRAFT201909, DRAFT202012] →
      Version.String v = Version.String w → v = w) ∧
    (∀ (b : String) (j : String), unmarshalString b = some (some j) →
      j ∉ [DRAFT04, DRAFT07, DRAFT201909, DRAFT202012].map Version.String →
      Version.UnmarshalJSON b = some DRAFT04) ∧
    (∀ v, v ∉ [DRAFT04, DRAFT07, DRAFT201909, DRAFT202012] → Version.String v = "") := by
  refine ⟨version_round_trip, version_uri_injective, ?_, Version_String_other⟩
  intro b j hb hj
  unfold Version.UnmarshalJSON
  rw [hb]
  simp only [Option.getD_some]
  rw [versionToID_other j hj]

set_option maxRecDepth 100000 in
/-- C31 witness: the draft `DRAFT201909`, the JSON string `"draft-99"`, and the
value 9. -/
theorem version_registry_witness :
    Version.UnmarshalJSON (Version.MarshalJSON DRAFT201909) = some DRAFT201909 ∧
    unmarshalString "\"draft-99\"" = some (some "draft-99") ∧
    Version.UnmarshalJSON "\"draft-99\"" = some DRAFT04 ∧
    Version.String 9 = "" :=
  ⟨(version_registry.1 DRAFT201909 (by decide)).1, by decide,
    version_registry.2.2.1 "\"draft-99\"" "draft-99" (by decide) (by decide),
    version_registry.2.2.2 9 (by decide)⟩

/-! ## The two tag engines side by side -/

/-- Text that `strconv.Atoi` rejects is rejected by `strconv.ParseUint` too. -/
theorem ParseUint_malformed (v : String) (h : integerText v = false) : ParseUint v = 0 := by
  unfold ParseUint
  cases hp : parseDigits v.data with
  | none => rfl
  | some n =>
    exfalso
    unfold integerText at h
    cases hv : v.data with
    | nil => rw [hv] at hp; cases hp
    | cons c cs =>
      rw [hv] at hp h
      have hc := parseDigits_head c cs n hp
      split at h
      · rename_i e
        rw [(List.cons.inj e).1] at hc
        revert hc; decide
      · rename_i e
        rw [(List.cons.inj e).1] at hc
        revert hc; decide
      · rw [hp] at h
        cases h

/-- One round of `stringKeywords` is the same in the two engines when the value of
a `minLength` or `maxLength` token is read alike by `Atoi` and `ParseUint`. -/
theorem stringKeyword_agree (t : Nat) (h : Heap) (tag : String)
    (hv : ∀ v, (Split tag '=' = ["minLength", v] ∨ Split tag '=' = ["maxLength", v]) →
      Atoi v = ((ParseUint v : Nat) : Int)) :
    draft07.stringKeyword t h tag = stringKeyword t h tag := by
  unfold draft07.stringKeyword stringKeyword
  split
  · rename_i name val hS
    by_cases h1 : name = "minLength"
    · rw [if_pos h1, if_pos h1, hv val (Or.inl (by rw [hS, h1]))]
    · rw [if_neg h1, if_neg h1]
      by_cases h2 : name = "maxLength"
      · rw [if_pos h2, if_pos h2, hv val (Or.inr (by rw [hS, h2]))]
      · rw [if_neg h2, if_neg h2]
  · rfl

/-- One round of `arrayKeywords` is the same in the two engines when the value of
a `minItems` or `maxItems` token is read alike by `Atoi` and `ParseUint`. -/
theorem arrayKeyword_agree (t : Nat) (st : Heap × List String) (tag : String)
    (hv : ∀ v, (Split tag '=' = ["minItems", v] ∨ Split tag '=' = ["maxItems", v]) →
      Atoi v = ((ParseUint v : Nat) : Int)) :
    draft07.arrayKeyword t st tag = arrayKeyword t st tag := by
  unfold draft07.arrayKeyword arrayKeyword
  simp only
  split
  · rename_i name val hS
    by_cases h1 : name = "minItems"
    · rw [if_pos h1, if_pos h1, hv val (Or.inl (by rw [hS, h1]))]
    · rw [if_neg h1, if_neg h1]
      by_cases h2 : name = "maxItems"
      · rw [if_pos h2, if_pos h2, hv val (Or.inr (by rw [hS, h2]))]
      · rw [if_neg h2, if_neg h2]
  · rfl

theorem arrayKeywordsLoop_agree (t : Nat) (tags : List String) :
    ∀ (st : Heap × List String),
      (∀ tag ∈ tags, ∀ v,
        (Split tag '=' = ["minItems", v] ∨ Split tag '=' = ["maxItems", v]) →
        Atoi v = ((ParseUint v : Nat) : Int)) →
      draft07.arrayKeywordsLoop t tags st = arrayKeywordsLoop t tags st := by
  induction tags with
  | nil => intro st _; rfl
  | cons tag rest ih =>
    intro st hv
    simp only [draft07.arrayKeywordsLoop, arrayKeywordsLoop]
    rw [arrayKeyword_agree t st tag (hv tag (List.mem_cons_self _ _))]
    cases arrayKeyword t st tag with
    | ok x => exact ih x (fun tg hm => hv tg (List.mem_cons_of_mem _ hm))
    | abort e => rfl
    | timeout => rfl

theorem stringKeywords_agree (t : Nat) (tags : List String) :
    ∀ (h : Heap),
      (∀ tag ∈ tags, ∀ v,
        (Split tag '=' = ["minLength", v] ∨ Split tag '=' = ["maxLength", v]) →
        Atoi v = ((ParseUint v : Nat) : Int)) →
      draft07.stringKeywords t tags h = stringKeywords t tags h := by
  induction tags with
  | nil => intro h _; rfl
  | cons tag rest ih =>
    intro h hv
    simp only [draft07.stringKeywords, stringKeywords, List.foldl_cons]
    rw [stringKeyword_agree t h tag (hv tag (List.mem_cons_self _ _))]
    exact ih _ (fun tg hm => hv tg (List.mem_cons_of_mem _ hm))

set_option maxRecDepth 100000 in
/-- C36 counterexample: on the token `minLength=-5` the engine of `type.go` stores
-5 and the engine of draft07/schema.go stores 0; on `maxItems=+3` the first stores
3 and the second 0. -/
theorem engines_differ_counterexample :
    (rd (stringKeywords 0 ["minLength=-5"] [{ Typ := "string" }]) 0).MinLength = -5 ∧
    (rd (draft07.stringKeywords 0 ["minLength=-5"] [{ Typ := "string" }]) 0).MinLength = 0 ∧
    arrayKeywords 0 ["maxItems=+3"] [{ Typ := "array" }] =
      Res.ok [{ Typ := "array", MaxItems := 3 }] ∧
    draft07.arrayKeywords 0 ["maxItems=+3"] [{ Typ := "array" }] =
      Res.ok [{ Typ := "array" }] := by
  decide

/-- C36 (amended): `genericKeywords` and `setExtra` of the two engines are the
same function.  `stringKeywords` gives the same heap in the two engines when
`strconv.Atoi` and `strconv.ParseUint` read the value of every `minLength` and
`maxLength` token alike, and so does `arrayKeywords` for the `minItems` and
`maxItems` tokens.  The two parsers read a value alike when it is an unsigned
decimal literal of value at most `2^63 - 1`, and when it is no integer text at
all (both give 0). -/
theorem engines_agree (t parent : Nat) (name : String) (tags : List String) (h : Heap) :
    draft07.genericKeywords t tags parent name h = genericKeywords t tags parent name h ∧
    (∀ key val, draft07.setExtra t key val h = setExtra t key val h) ∧
    ((∀ tag ∈ tags, ∀ v,
        (Split tag '=' = ["minLength", v] ∨ Split tag '=' = ["maxLength", v]) →
        Atoi v = ((ParseUint v : Nat) : Int)) →
      draft07.stringKeywords t tags h = stringKeywords t tags h) ∧
    ((∀ tag ∈ tags, ∀ v,
        (Split tag '=' = ["minItems", v] ∨ Split tag '=' = ["maxItems", v]) →
        Atoi v = ((ParseUint v : Nat) : Int)) →
      draft07.arrayKeywords t tags h = arrayKeywords t tags h) ∧
    (∀ (v : String) n, parseDigits v.data = some n → n ≤ 2 ^ 63 - 1 →
      Atoi v = ((ParseUint v : Nat) : Int)) ∧
    (∀ v : String, integerText v = false → Atoi v = ((ParseUint v : Nat) : Int)) := by
  refine ⟨rfl, fun _ _ => rfl, stringKeywords_agree t tags h, ?_, ?_, ?_⟩
  · intro hv
    unfold draft07.arrayKeywords arrayKeywords
    rw [arrayKeywordsLoop_agree t tags (h, []) hv]
  · intro v n hn hle
    have e1 := Atoi_digits v n hn
    have e2 := ParseUint_digits v n hn
    have h1 : ¬ ((n : Int) > maxInt) := by
      unfold maxInt
      have : ((n : Nat) : Int) ≤ ((2 ^ 63 - 1 : Nat) : Int) := Int.ofNat_le.mpr hle
      have : (n : Int) ≤ 2 ^ 63 - 1 := by simpa using this
      omega
    have h2 : ¬ (n > 2 ^ 64 - 1) := by
      have : (2 : Nat) ^ 63 - 1 ≤ 2 ^ 64 - 1 := by norm_num
      omega
    rw [e1, e2, if_neg h1, if_neg h2]
  · intro v hv
    rw [Atoi_malformed v hv, ParseUint_malformed v hv]
    rfl

set_option maxRecDepth 100000 in
/-- C36 witness: the tag `minLength=2,maxLength=x,pattern=a` on a string node. -/
theorem engines_agree_witness :
    (∀ tag ∈ ["minLength=2", "maxLength=x", "pattern=a"], ∀ v,
        (Split tag '=' = ["minLength", v] ∨ Split tag '=' = ["maxLength", v]) →
        Atoi v = ((ParseUint v : Nat) : Int)) ∧
    draft07.stringKeywords 0 ["minLength=2", "maxLength=x", "pattern=a"] [{ Typ := "string" }] =
      stringKeywords 0 ["minLength=2", "maxLength=x", "pattern=a"] [{ Typ := "string" }] ∧
    stringKeywords 0 ["minLength=2", "maxLength=x", "pattern=a"] [{ Typ := "string" }] =
      [{ Typ := "string", MinLength := 2, Pattern := "a" }] :=
  have hv : ∀ tag ∈ ["minLength=2", "maxLength=x", "pattern=a"], ∀ v,
      (Split tag '=' = ["minLength", v] ∨ Split tag '=' = ["maxLength", v]) →
      Atoi v = ((ParseUint v : Nat) : Int) := by
    intro tag hm v hS
    simp only [List.mem_cons, List.mem_singleton, List.not_mem_nil, or_false] at hm
    rcases hm with e | e | e <;> subst e
    · have e1 : Split "minLength=2" '=' = ["minLength", "2"] := by decide
      rw [e1] at hS
      rcases hS with hS | hS
      · have : v = "2" := by simpa using hS.symm
        subst this; decide
      · exact absurd hS (by simp)
    · have e1 : Split "maxLength=x" '=' = ["maxLength", "x"] := by decide
      rw [e1] at hS
      rcases hS with hS | hS
      · exact absurd hS (by simp)
      · have : v = "x" := by simpa using hS.symm
        subst this; decide
    · have e1 : Split "pattern=a" '=' = ["pattern", "a"] := by decide
      rw [e1] at hS
      rcases hS with hS | hS
      · exact absurd hS (by simp)
      · exact absurd hS (by simp)
  ⟨hv,
    (engines_agree 0 0 "" ["minLength=2", "maxLength=x", "pattern=a"] [{ Typ := "string" }]).2.2.1
      hv,
    by decide⟩

/-! ## Two types under one name -/

set_option maxRecDepth 100000 in
/-- The run on `Root` with referencing on, for every amount of fuel that lets it
return. -/
theorem clashEnv_run (fuel : Nat) :
    ReflectFromType clashEnv defaultReflector (fuel + 10) 0 =
      Res.ok ({ TypeDraft04 := 5, Definitions := [("Root", 0), ("T", 1)] },
        [{ structNode defaultReflector with
            Required := ["A", "B"], Properties := some [("A", 3), ("B", 4)] },
          { structNode defaultReflector with
            Required := ["X"], Properties := some [("X", 2)] },
          { Typ := "string" },
          refNode defaultReflector "T",
          { Ref := "#/definitions/T" },
          refNode defaultReflector "Root"]) := by
  rfl

set_option maxRecDepth 100000 in
/-- The run on `Root` with `DoNotReference` set, for every amount of fuel that
lets it return. -/
theorem clashEnv_inline_run (fuel : Nat) :
    ReflectFromType clashEnv inlineReflector (fuel + 10) 0 =
      Res.ok ({ TypeDraft04 := 0, Definitions := [("Root", 0), ("T", 3)] },
        [{ structNode inlineReflector with
            Required := ["A", "B"], Properties := some [("A", 1), ("B", 3)] },
          { structNode inlineReflector with
            Required := ["X"], Properties := some [("X", 2)] },
          { Typ := "string" },
          { structNode inlineReflector with
            Required := ["Y"], Properties := some [("Y", 4)] },
          { Typ := "integer" }]) := by
  rfl

/-- C32 fails on `Root`, which has the fields `A a.T` and `B b.T`, two struct
types of the bare name `T`; `a.T` has the field `X`, `b.T` the field `Y`.  The
claim, like the comment on `FullyQualifyTypeNames`, says that the definitions
overwrite each other and the entry ends as the node of the type reached later.
With the default reflector the table ends with one entry under `T`, and it is the
node built from `a.T`, the type reached first: it has the property `X`, and the
property `B` of `Root` is a bare reference to it; `b.T` is never reflected and no
node has its property `Y`.  Only with `DoNotReference` set is the entry the node
built from `b.T`.  Both runs are the same for every amount of fuel that lets them
return. -/
theorem name_clash_keeps_first :
    typeName clashEnv defaultReflector 1 = typeName clashEnv defaultReflector 2 ∧
    (∀ fuel, ReflectFromType clashEnv defaultReflector (fuel + 10) 0 =
      Res.ok ({ TypeDraft04 := 5, Definitions := [("Root", 0), ("T", 1)] },
        [{ structNode defaultReflector with
            Required := ["A", "B"], Properties := some [("A", 3), ("B", 4)] },
          { structNode defaultReflector with
            Required := ["X"], Properties := some [("X", 2)] },
          { Typ := "string" },
          refNode defaultReflector "T",
          { Ref := "#/definitions/T" },
          refNode defaultReflector "Root"])) ∧
    (∀ fuel, ReflectFromType clashEnv inlineReflector (fuel + 10) 0 =
      Res.ok ({ TypeDraft04 := 0, Definitions := [("Root", 0), ("T", 3)] },
        [{ structNode inlineReflector with
            Required := ["A", "B"], Properties := some [("A", 1), ("B", 3)] },
          { structNode inlineReflector with
            Required := ["X"], Properties := some [("X", 2)] },
          { Typ := "string" },
          { structNode inlineReflector with
            Required := ["Y"], Properties := some [("Y", 4)] },
          { Typ := "integer" }])) :=
  ⟨by decide, clashEnv_run, clashEnv_inline_run⟩

/-- The general fact behind the run on `Root`: with referencing on
(`DoNotReference` unset), no custom-schema type and `ExpandedStruct` unset, an
entry of the definitions table, once written, is never overwritten during the
pass: whatever the table holds under a name when `reflectTypeToSchema` is called,
it still holds when the call returns, and so whatever it holds at any moment of
`ReflectFromType` is in the returned table.  A type reached later under a name
the table already has is not reflected: `reflectTypeToSchema` returns a bare
reference to the entry and leaves the table as it is, whatever the type. -/
theorem definitions_first_wins (env : TypeEnv) (r : Reflector)
    (href : r.DoNotReference = false) (hnc : NoCustom env) :
    (∀ fuel t s a s', reflectTypeToSchema env r fuel t s = Res.ok (a, s') →
      ∀ k v, mapGet s.definitions k = some v → mapGet s'.definitions k = some v) ∧
    (∀ fuel u s, (mapGet s.definitions (typeName env r u)).isSome = true →
      reflectTypeToSchema env r (fuel + 1) u s =
        Res.ok (s.heap.length,
          { definitions := s.definitions,
            heap := s.heap ++ [{ Ref := "#/definitions/" ++ typeName env r u }] })) ∧
    (r.ExpandedStruct = false → ∀ fuel t schema h,
      ReflectFromType env r fuel t = Res.ok (schema, h) →
      ∀ s0 a s', reflectTypeToSchema env r fuel t s0 = Res.ok (a, s') → s0 = {} →
        schema.Definitions = s'.definitions) := by
  refine ⟨?_, ?_, ?_⟩
  · intro fuel t s a s' hrun k v hk
    exact ((defsInv env r fuel).1 t s a s' hrun).2.2 href hnc k v (by simp) hk
  · intro fuel u s hdef
    simp [reflectTypeToSchema, hdef, href, returnNew]
  · intro hexp fuel t schema h hrun s0 a s' hT hs0
    subst hs0
    unfold ReflectFromType at hrun
    simp only [hexp, Bool.false_eq_true, if_false] at hrun
    rw [hT] at hrun
    simp only [Res.bind, Res.ok.injEq, Prod.mk.injEq] at hrun
    rw [← hrun.1]

set_option maxRecDepth 100000 in
/-- An instance of `definitions_first_wins`: in the run on `Root`, once `a.T` is registered at node 1 the call
for `b.T` returns a reference and the entry under `T` stays node 1. -/
theorem definitions_first_wins_witness :
    defaultReflector.DoNotReference = false ∧
    reflectTypeToSchema clashEnv defaultReflector 5 2
        { definitions := [("Root", 0), ("T", 1)], heap := [{}, {}] } =
      Res.ok (2, { definitions := [("Root", 0), ("T", 1)],
                   heap := [{}, {}, { Ref := "#/definitions/T" }] }) ∧
    (∀ k v, mapGet [("Root", 0), ("T", 1)] k = some v →
      mapGet ({ definitions := [("Root", 0), ("T", 1)],
                heap := [{}, {}, { Ref := "#/definitions/T" }] } : State).definitions k =
        some v) :=
  have hw := definitions_first_wins clashEnv defaultReflector rfl (fun _ => rfl)
  have hrun : reflectTypeToSchema clashEnv defaultReflector 5 2
        { definitions := [("Root", 0), ("T", 1)], heap := [{}, {}] } =
      Res.ok (2, { definitions := [("Root", 0), ("T", 1)],
                   heap := [{}, {}, { Ref := "#/definitions/T" }] }) :=
    hw.2.1 4 2 { definitions := [("Root", 0), ("T", 1)], heap := [{}, {}] } (by decide)
  ⟨rfl, hrun, hw.1 5 2 _ 2 _ hrun⟩

/-! ## The calls that set properties and required entries -/

/-- The keys of a map after an assignment. -/
theorem mapSet_keys {α : Type} (m : List (String × α)) (k : String) (v : α) :
    (mapSet m k v).map Prod.fst = addKey (m.map Prod.fst) k := by
  induction m with
  | nil => simp [mapSet, addKey]
  | cons e rest ih =>
    obtain ⟨k', v'⟩ := e
    by_cases hk : k' = k
    · subst hk
      simp [mapSet, addKey]
    · have hk2 : ¬ k = k' := fun e => hk e.symm
      simp only [mapSet, if_neg hk, List.map_cons, ih]
      unfold addKey
      by_cases hm : k ∈ rest.map Prod.fst
      · simp [hm]
      · simp [hm, hk2]

/-- What `storeProperty` does to the keys of the properties of the parent. -/
theorem storeProperty_keys {st : Nat} (name : String) (required : Bool) (q : Addr)
    (h h' : Heap) (hst : st < h.length) (hrun : storeProperty st name required q h = Res.ok h') :
    (rd h' st).Properties.map (fun ps => ps.map Prod.fst) =
      (rd h st).Properties.map (fun ps => addKey (ps.map Prod.fst) name) := by
  unfold storeProperty at hrun
  split at hrun
  · cases hrun
  · rename_i properties hprops
    simp only [Res.ok.injEq] at hrun
    rw [← hrun, hprops]
    have e1 : (rd (upd h st (Node.setProperty properties name q)) st).Properties =
        some (mapSet properties name q) := by
      rw [rd_upd_eq _ _ _ hst]; rfl
    split
    · rw [rd_upd_eq _ _ _ (by simpa using hst)]
      show (Node.addRequired name (rd (upd h st (Node.setProperty properties name q)) st)).Properties.map _ = _
      have : (Node.addRequired name
          (rd (upd h st (Node.setProperty properties name q)) st)).Properties =
          (rd (upd h st (Node.setProperty properties name q)) st).Properties := rfl
      rw [this, e1]
      simp [mapSet_keys]
    · rw [e1]
      simp [mapSet_keys]

theorem Stored.snil {st : Nat} {h h' : Heap} (hr : (rd h' st).Required = (rd h st).Required)
    (hp : (rd h' st).Properties = (rd h st).Properties) : Stored st h h' [] := by
  refine ⟨by simp [requiredNames, hr], ?_⟩
  rw [hp]
  cases (rd h st).Properties <;> simp [keysAfter]

theorem Stored.sappend {st : Nat} {h1 h2 h3 : Heap} {es1 es2 : List (String × Bool)}
    (a : Stored st h1 h2 es1) (b : Stored st h2 h3 es2) : Stored st h1 h3 (es1 ++ es2) := by
  refine ⟨?_, ?_⟩
  · rw [b.1, a.1]
    simp [requiredNames, List.filter_append]
  · rw [b.2]
    cases hp2 : (rd h2 st).Properties with
    | none =>
      have := a.2
      rw [hp2] at this
      cases hp1 : (rd h1 st).Properties with
      | none => rfl
      | some ps => rw [hp1] at this; cases this
    | some ps2 =>
      have := a.2
      rw [hp2] at this
      cases hp1 : (rd h1 st).Properties with
      | none => rw [hp1] at this; cases this
      | some ps1 =>
        rw [hp1] at this
        simp only [Option.map_some', Option.some.injEq] at this ⊢
        rw [this]
        simp [keysAfter, List.foldl_append]

/-- Handling one field that gets a property: one call under its name. -/
theorem handleField_stored (env : TypeEnv) (r : Reflector) (fuel : Nat) (st : Nat)
    (t : TypeId) (f : StructField) (s s' : State) (ho : Own st s.heap)
    (hname : (reflectFieldName r f).1 ≠ "")
    (hrun : handleField env r (fuel + 1) st t f s = Res.ok s') :
    Stored st s.heap s'.heap [((reflectFieldName r f).1, (reflectFieldName r f).2.2.1)] := by
  refine ⟨?_, ?_⟩
  · rw [handleField_required env r fuel st t f s s' ho hname hrun]
    cases (reflectFieldName r f).2.2.1 <;> simp [requiredNames]
  · rcases hfn : reflectFieldName r f with ⟨name, embed, required, nullable⟩
    rw [hfn] at hname
    simp only at hname
    rw [handleField, hfn] at hrun
    simp only [hname, if_false] at hrun
    obtain ⟨⟨base, s1⟩, hT, hfin⟩ := Res.bind_eq_ok hrun
    have hx := (frame env r fuel).1 _ s base s1 hT
    have hst := ho.1
    have hsb : st < (base : Nat) := lt_of_lt_of_le hst hx.2.1
    have ho1 := ho.of_extends hx.1
    unfold finishField at hfin
    obtain ⟨h1, htags, hrest⟩ := Res.bind_eq_ok hfin
    obtain ⟨h2, hstore, hok⟩ := Res.bind_eq_ok hrest
    cases hok
    have t1 := structKeywordsFromTags_step f name s1.heap h1 ho1 hsb hx.2.2.1
      (fun i hi => lt_of_lt_of_le hst (hx.2.2.2 i hi)) htags
    have t2 := applyFieldDoc_step env t f h1 t1.1 hsb
    have t12 := t1.ttrans t2
    have e3 := wrapNullable_extends nullable base (applyFieldDoc env t f base h1)
    have hst3 : st < (wrapNullable nullable base (applyFieldDoc env t f base h1)).2.length :=
      lt_of_lt_of_le t12.1.1 e3.1
    have hkeys := storeProperty_keys name required _ _ h2 hst3 hstore
    have hp3 : (rd (wrapNullable nullable base (applyFieldDoc env t f base h1)).2 st).Properties =
        (rd s.heap st).Properties := by
      rw [e3.2 st t12.1.1]
      have := congrArg Node.Properties t12.2.2.2.1
      simp only [clearOneOf] at this
      rw [this, hx.1.2 st hst]
    show (rd h2 st).Properties.map _ = _
    rw [hkeys, hp3]
    cases (rd s.heap st).Properties <;> simp [keysAfter]

theorem names_H (env : TypeEnv) (r : Reflector) (fuel : Nat) (ih : NamesAt env r fuel) :
    ∀ (st : Nat) t f s s', Own st s.heap →
      handleField env r (fuel + 1) st t f s = Res.ok s' →
      Stored st s.heap s'.heap (storedField env r (fuel + 1) f) := by
  obtain ⟨ihF, -⟩ := ih
  intro st t f s s' ho hrun
  by_cases hname : (reflectFieldName r f).1 = ""
  · rw [handleField] at hrun
    simp only at hrun
    rw [storedField]
    simp only [hname, if_true] at hrun ⊢
    split at hrun
    · rename_i hembed
      simp only [hembed, if_true]
      exact ihF st _ s s' ho hrun
    · rename_i hembed
      simp only [Res.ok.injEq] at hrun
      rw [← hrun]
      simp only [hembed, Bool.false_eq_true, if_false]
      exact Stored.snil rfl rfl
  · have := handleField_stored env r fuel st t f s s' ho hname hrun
    rw [storedField]
    simp only [hname, if_false]
    exact this

theorem forEach_names (env : TypeEnv) (r : Reflector) (fuel : Nat)
    (ih : NamesAt env r fuel) (st : Nat) (t : TypeId) :
    ∀ (fs : List StructField) s s', Own st s.heap →
      forEach (handleField env r fuel st t) fs s = Res.ok s' →
      Own st s'.heap ∧ Stored st s.heap s'.heap (fs.flatMap (storedField env r fuel)) := by
  intro fs
  induction fs with
  | nil =>
    intro s s' ho hrun
    simp only [forEach, Res.ok.injEq] at hrun
    rw [← hrun]
    exact ⟨ho, Stored.snil rfl rfl⟩
  | cons f rest ihl =>
    intro s s' ho hrun
    simp only [forEach] at hrun
    obtain ⟨s1, h1, hrest⟩ := Res.bind_eq_ok hrun
    have i1 := ih.2 st t f s s1 ho h1
    have o1 := ((frame env r fuel).2.2.2.2 st t f s s1 ho h1).1
    obtain ⟨o2, i2⟩ := ihl s1 s' o1 hrest
    simp only [List.flatMap_cons]
    exact ⟨o2, i1.sappend i2⟩

theorem names_F (env : TypeEnv) (r : Reflector) (fuel : Nat) (ih : NamesAt env r fuel) :
    ∀ (st : Nat) t s s', Own st s.heap →
      reflectStructFields env r (fuel + 1) st t s = Res.ok s' →
      Stored st s.heap s'.heap (storedFields env r (fuel + 1) t) := by
  intro st t s s' ho hrun
  have body : ∀ u,
      (if env.kind u ≠ Kind.Struct then Res.ok s
        else
          (forEach (handleField env r fuel st u) (env.fields u) s).bind fun s =>
            match r.AdditionalFields with
            | some additional => forEach (handleField env r fuel st u) (additional u) s
            | none => Res.ok s) = Res.ok s' →
      Stored st s.heap s'.heap
        (if env.kind u ≠ Kind.Struct then []
          else (handledFields env r u).flatMap (storedField env r fuel)) := by
    intro u hu
    split at hu
    · rename_i hk
      simp only [Res.ok.injEq] at hu
      rw [← hu, if_pos hk]
      exact Stored.snil rfl rfl
    · rename_i hk
      rw [if_neg hk]
      obtain ⟨s1, h1, h2⟩ := Res.bind_eq_ok hu
      obtain ⟨o1, i1⟩ := forEach_names env r fuel ih st u _ s s1 ho h1
      unfold handledFields
      rw [List.flatMap_append]
      cases hA : r.AdditionalFields with
      | some additional =>
        simp only [hA] at h2 ⊢
        exact i1.sappend (forEach_names env r fuel ih st u _ s1 s' o1 h2).2
      | none =>
        simp only [hA, Res.ok.injEq] at h2 ⊢
        rw [← h2]
        simpa using i1
  rw [reflectStructFields] at hrun
  rw [storedFields]
  by_cases hp : env.kind t = Kind.Ptr
  · simp only [hp, if_true] at hrun ⊢
    exact body _ hrun
  · simp only [hp, if_false] at hrun ⊢
    exact body _ hrun

/-- Every amount of fuel: the required list and the property keys of the object
node end as the calls of the fields reflected into it leave them. -/
theorem namesInv (env : TypeEnv) (r : Reflector) : ∀ fuel, NamesAt env r fuel := by
  intro fuel
  induction fuel with
  | zero =>
    constructor
    · intro st t s s' _ hrun; simp [reflectStructFields] at hrun
    · intro st t f s s' _ hrun; simp [handleField] at hrun
  | succ n ih => exact ⟨names_F env r n ih, names_H env r n ih⟩

/-! ## Property names shared by several fields -/

set_option maxRecDepth 100000 in
/-- The fields of `Twin` reflected into an empty object node. -/
theorem twinEnv_run :
    reflectStructFields twinEnv {} 4 0 0 emptyObject =
      Res.ok { heap :=
        [{ structNode {} with Required := ["x", "x"], Properties := some [("x", 2)] },
          { Typ := "string" }, { Typ := "integer" }] } := by
  decide

set_option maxRecDepth 100000 in
/-- The fields of `Outer` reflected into an empty object node. -/
theorem twinEnv_outer_run :
    reflectStructFields twinEnv {} 6 0 3 emptyObject =
      Res.ok { heap :=
        [{ structNode {} with Required := ["X", "X"], Properties := some [("X", 2)] },
          { Typ := "string" }, { Typ := "integer" }] } := by
  decide

/-- C34 counterexample: in `Twin` the fields `A string` and `B int` are both
tagged `json:"x"`.  The property `x` is set twice, the node of `B` replacing the
node of `A`, and the required list ends as `[x, x]`.  In `Outer`, which embeds
`Inner` with its field `X string` and has a field `X int` of its own, the same
happens with `X`. -/
theorem twin_fields_counterexample :
    reflectStructFields twinEnv {} 4 0 0 emptyObject =
      Res.ok { heap :=
        [{ structNode {} with Required := ["x", "x"], Properties := some [("x", 2)] },
          { Typ := "string" }, { Typ := "integer" }] } ∧
    storedFields twinEnv {} 4 0 = [("x", true), ("x", true)] ∧
    reflectStructFields twinEnv {} 6 0 3 emptyObject =
      Res.ok { heap :=
        [{ structNode {} with Required := ["X", "X"], Properties := some [("X", 2)] },
          { Typ := "string" }, { Typ := "integer" }] } ∧
    storedFields twinEnv {} 6 3 = [("X", true), ("X", true)] :=
  ⟨twinEnv_run, by decide, twinEnv_outer_run, by decide⟩

/-- Keys that are all different are added one by one. -/
theorem keysAfter_nodup (es : List (String × Bool)) :
    ∀ keys : List String, (keys ++ es.map Prod.fst).Nodup →
      keysAfter keys es = keys ++ es.map Prod.fst := by
  induction es with
  | nil => intro keys _; simp [keysAfter]
  | cons e rest ih =>
    intro keys hnd
    have hnot : e.1 ∉ keys := by
      intro hm
      have := List.nodup_append.mp hnd
      exact this.2.2 hm (by simp)
    have hstep : keysAfter keys (e :: rest) = keysAfter (keys ++ [e.1]) rest := by
      simp [keysAfter, addKey, hnot]
    rw [hstep, ih (keys ++ [e.1]) (by simpa using hnd)]
    simp

/-- The names of the required calls are among the names of all calls, in order. -/
theorem requiredNames_sublist (es : List (String × Bool)) :
    (requiredNames es).Sublist (es.map Prod.fst) := by
  unfold requiredNames
  exact (List.filter_sublist es).map Prod.fst

/-- C34 (amended): when the fields of a type are reflected into the object node
`st`, every field that gets a property name, the fields of spliced structs
included, makes one call `Properties.Set(name, ·)` and, if it is required, one
`append(st.Required, name)`, in order (`storedFields`); nothing is tested for
being there already.  So the required list ends as the list it was followed by
the name of every required call, a name as often as required fields carry it,
and the keys of the properties end as the keys before with each new name added
once at its first call, a later call under the same name replacing the node.
When the names of the calls are pairwise different and none of them is a key of
the node before, each property name is set exactly once, and if the required list
was empty it ends without duplicates. -/
theorem reflectStructFields_names (env : TypeEnv) (r : Reflector) (fuel : Nat) (st : Nat)
    (t : TypeId) (s s' : State) (ho : Own st s.heap)
    (hrun : reflectStructFields env r fuel st t s = Res.ok s') :
    (rd s'.heap st).Required =
      (rd s.heap st).Required ++ requiredNames (storedFields env r fuel t) ∧
    (rd s'.heap st).Properties.map (fun ps => ps.map Prod.fst) =
      (rd s.heap st).Properties.map
        (fun ps => keysAfter (ps.map Prod.fst) (storedFields env r fuel t)) ∧
    (∀ ps, (rd s.heap st).Properties = some ps →
      (ps.map Prod.fst ++ (storedFields env r fuel t).map Prod.fst).Nodup →
      (rd s'.heap st).Properties.map (fun ps => ps.map Prod.fst) =
        some (ps.map Prod.fst ++ (storedFields env r fuel t).map Prod.fst)) ∧
    (((storedFields env r fuel t).map Prod.fst).Nodup → (rd s.heap st).Required = [] →
      (rd s'.heap st).Required.Nodup) := by
  obtain ⟨h1, h2⟩ := (namesInv env r fuel).1 st t s s' ho hrun
  refine ⟨h1, h2, ?_, ?_⟩
  · intro ps hps hnd
    rw [h2, hps]
    simp only [Option.map_some']
    rw [keysAfter_nodup _ _ hnd]
  · intro hnd hreq
    rw [h1, hreq, List.nil_append]
    exact hnd.sublist (requiredNames_sublist _)

set_option maxRecDepth 100000 in
/-- C34 witness: `Person` with the fields `Name` and `Age`, the second tagged
omit-if-empty, reflected into an empty object node. -/
theorem reflectStructFields_names_witness :
    Own 0 emptyObject.heap ∧
    storedFields personEnv {} 4 0 = [("Name", true), ("Age", false)] ∧
    (∀ s', reflectStructFields personEnv {} 4 0 0 emptyObject = Res.ok s' →
      (rd s'.heap 0).Required = (rd emptyObject.heap 0).Required ++ ["Name"]) ∧
    (∃ s', reflectStructFields personEnv {} 4 0 0 emptyObject = Res.ok s') :=
  ⟨by decide, by decide,
    fun s' hrun =>
      (reflectStructFields_names personEnv {} 4 0 0 emptyObject s' (by decide) hrun).1.trans
        (by
          have : requiredNames (storedFields personEnv {} 4 0) = ["Name"] := by decide
          rw [this]),
    ⟨{ heap := [{ structNode {} with
          Required := ["Name"], Properties := some [("Name", 1), ("Age", 2)] },
        { Typ := "string" }, { Typ := "integer" }] }, by decide⟩⟩

/-! ## The expanded root -/

/-- A deleted key is not in the map. -/
theorem mapGet_mapDelete {α : Type} (m : List (String × α)) (k : String) :
    mapGet (mapDelete m k) k = none := by
  induction m with
  | nil => rfl
  | cons e rest ih =>
    obtain ⟨k', v'⟩ := e
    by_cases hk : k' = k
    · have : mapDelete ((k', v') :: rest) k = mapDelete rest k := by
        simp [mapDelete, hk]
      rw [this]; exact ih
    · have : mapDelete ((k', v') :: rest) k = (k', v') :: mapDelete rest k := by
        simp [mapDelete, hk]
      rw [this]
      simp only [mapGet, if_neg hk]
      exact ih

/-- Deleting a key leaves the other keys as they are. -/
theorem mapGet_mapDelete_ne {α : Type} (m : List (String × α)) (k k' : String) (hk : k' ≠ k) :
    mapGet (mapDelete m k) k' = mapGet m k' := by
  induction m with
  | nil => rfl
  | cons e rest ih =>
    obtain ⟨k0, v0⟩ := e
    by_cases h0 : k0 = k
    · have : mapDelete ((k0, v0) :: rest) k = mapDelete rest k := by
        simp [mapDelete, h0]
      have h1 : ¬ k0 = k' := fun e => hk (by rw [← e, h0])
      rw [this, ih]
      simp only [mapGet, if_neg h1]
    · have : mapDelete ((k0, v0) :: rest) k = (k0, v0) :: mapDelete rest k := by
        simp [mapDelete, h0]
      rw [this]
      simp only [mapGet, ih]

/-- The run of `ReflectFromType` with `ExpandedStruct` set. -/
theorem ReflectFromType_expanded_eq (env : TypeEnv) (r : Reflector) (fuel : Nat) (t : TypeId)
    (hexp : r.ExpandedStruct = true) :
    ReflectFromType env r fuel t =
      (reflectStructFields env r fuel 0 t
          { heap := [{ structNode r with Version := r.Version }] }).bind fun s =>
        (reflectStruct env r fuel t s).bind fun x =>
          Res.ok ({ TypeDraft04 := 0,
                    Definitions := mapDelete x.2.definitions (typeName env r t) }, x.2.heap) := by
  simp only [ReflectFromType, hexp, if_true]
  rfl

/-- The root node of the expanded mode, alone in the heap, is an object node of
its own. -/
theorem expanded_root_own (r : Reflector) :
    Own 0 [{ structNode r with Version := r.Version }] := by
  refine ⟨by simp, ?_⟩
  intro i hi
  simp [rd, structNode] at hi

/-- What the run with `ExpandedStruct` set leaves at the root. -/
theorem expanded_parts (env : TypeEnv) (r : Reflector) (fuel : Nat) (t : TypeId)
    (schema : Schema) (h : Heap) (hexp : r.ExpandedStruct = true)
    (hrun : ReflectFromType env r fuel t = Res.ok (schema, h)) :
    ∃ s1 a s2,
      reflectStructFields env r fuel 0 t
        { heap := [{ structNode r with Version := r.Version }] } = Res.ok s1 ∧
      reflectStruct env r fuel t s1 = Res.ok (a, s2) ∧
      schema = { TypeDraft04 := 0,
                 Definitions := mapDelete s2.definitions (typeName env r t) } ∧
      h = s2.heap ∧ 0 < s1.heap.length ∧ rd h 0 = rd s1.heap 0 := by
  rw [ReflectFromType_expanded_eq env r fuel t hexp] at hrun
  obtain ⟨s1, hF, hrest⟩ := Res.bind_eq_ok hrun
  obtain ⟨⟨a, s2⟩, hS, hfin⟩ := Res.bind_eq_ok hrest
  simp only [Res.ok.injEq, Prod.mk.injEq] at hfin
  have fs := (frame env r fuel).2.2.2.1 0 t _ s1 (expanded_root_own r) hF
  have ex := ((frame env r fuel).2.2.1 t s1 a s2 hS).1
  refine ⟨s1, a, s2, hF, hS, hfin.1.symm, hfin.2.symm, fs.1.1, ?_⟩
  rw [← hfin.2]
  exact ex.2 0 fs.1.1


/-! ## References resolve in the definitions table -/

theorem RefStep.rrefl (h : Heap) : RefStep h h :=
  ⟨le_refl _, fun _ ha => Or.inr ⟨ha, rfl⟩⟩

theorem RefStep.rtrans {h1 h2 h3 : Heap} (a : RefStep h1 h2) (b : RefStep h2 h3) :
    RefStep h1 h3 := by
  refine ⟨le_trans a.1 b.1, fun x hx => ?_⟩
  rcases b.2 x hx with e | ⟨hlt, e⟩
  · exact Or.inl e
  · rcases a.2 x hlt with e1 | ⟨hlt1, e1⟩
    · exact Or.inl (e.trans e1)
    · exact Or.inr ⟨hlt1, e.trans e1⟩

/-- A write that leaves `$ref` alone, after steps that write no reference. -/
theorem RefStep.rupd {h x : Heap} {a : Nat} {f : Node → Node}
    (hf : ∀ n, (f n).Ref = n.Ref) (k : RefStep h x) : RefStep h (upd x a f) := by
  refine ⟨by simpa using k.1, fun b hb => ?_⟩
  have hb1 : b < x.length := by simpa using hb
  rcases rd_upd_cases x a b f with e | e
  · rw [e, hf]; exact k.2 b hb1
  · rw [e]; exact k.2 b hb1

/-- The node at an address behind `x` in `x ++ l` is one of `l`. -/
theorem rd_append_ge (x l : Heap) (b : Nat) (h1 : x.length ≤ b) (h2 : b < (x ++ l).length) :
    rd (x ++ l) b ∈ l := by
  have hl : b - x.length < l.length := by
    simp only [List.length_append] at h2
    omega
  have : rd (x ++ l) b = l.get ⟨b - x.length, hl⟩ := by
    unfold rd
    rw [List.getD_eq_getElem _ _ h2, List.getElem_append_right h1]
    rfl
  rw [this]
  exact List.get_mem _ _ _

/-- An allocation of nodes without `$ref`, after steps that write no reference. -/
theorem RefStep.rappend {h x : Heap} (l : Heap) (hl : ∀ n ∈ l, n.Ref = "")
    (k : RefStep h x) : RefStep h (x ++ l) := by
  refine ⟨le_trans k.1 (by simp), fun b hb => ?_⟩
  by_cases hbx : b < x.length
  · rw [rd_append_lt _ _ _ hbx]; exact k.2 b hbx
  · exact Or.inl (hl _ (rd_append_ge x l b (not_lt.mp hbx) hb))

theorem RefStep.rfoldl {β : Type} (step : Heap → β → Heap) (xs : List β)
    (hstep : ∀ x hh, RefStep hh (step hh x)) : ∀ h, RefStep h (xs.foldl step h) := by
  induction xs with
  | nil => intro h; exact RefStep.rrefl h
  | cons x xs ih => intro h; exact (hstep x h).rtrans (ih _)

/-- A reference into the definitions is not the empty string. -/
theorem ref_ne_empty (N : String) : "#/definitions/" ++ N ≠ "" := by
  intro e
  have := congrArg String.length e
  simp only [String.length_append] at this
  have h1 : "#/definitions/".length = 14 := by decide
  have h2 : "".length = 0 := rfl
  omega

/-- The name behind `#/definitions/` is determined by the reference. -/
theorem ref_name_inj (N M : String) (e : "#/definitions/" ++ N = "#/definitions/" ++ M) :
    N = M := by
  have := congrArg String.data e
  simp only [String.data_append] at this
  exact String.ext (List.append_cancel_left this)

theorem Resolved.rstep {d : Definitions} {h h' : Heap} (hr : Resolved d h) (k : RefStep h h') :
    Resolved d h' := by
  intro a ha N hN
  rcases k.2 a ha with e | ⟨hlt, e⟩
  · rw [e] at hN
    exact absurd hN.symm (ref_ne_empty N)
  · rw [e] at hN
    exact hr a hlt N hN

theorem Resolved.rgrow {d d' : Definitions} {h : Heap} (hr : Resolved d h)
    (hk : ∀ k, (mapGet d k).isSome = true → (mapGet d' k).isSome = true) : Resolved d' h :=
  fun a ha N hN => hk N (hr a ha N hN)

theorem Resolved.rset {d : Definitions} {h : Heap} (hr : Resolved d h) (k : String) (v : Addr) :
    Resolved (mapSet d k v) h := by
  refine hr.rgrow (fun k' hk' => ?_)
  rw [mapGet_mapSet]
  split
  · rfl
  · exact hk'

/-- A new node that refers to a key of the table. -/
theorem Resolved.rref {d : Definitions} {h : Heap} (hr : Resolved d h) (n : Node) (N : String)
    (hn : n.Ref = "#/definitions/" ++ N) (hN : (mapGet d N).isSome = true) :
    Resolved d (h ++ [n]) := by
  intro a ha M hM
  by_cases hlt : a < h.length
  · rw [rd_append_lt _ _ _ hlt] at hM
    exact hr a hlt M hM
  · have hmem := rd_append_ge h [n] a (not_lt.mp hlt) ha
    simp only [List.mem_singleton] at hmem
    rw [hmem, hn] at hM
    rw [← ref_name_inj N M hM]
    exact hN

/-- One round of `genericKeywords` writes no reference. -/
theorem genericKeyword_refs (t parent : Nat) (name : String) (h : Heap) (tag : String) :
    RefStep h (genericKeyword t parent name h tag) := by
  unfold genericKeyword
  split
  · rename_i nm val hS
    split
    · exact RefStep.rupd (fun _ => rfl) (RefStep.rrefl h)
    split
    · exact RefStep.rupd (fun _ => rfl) (RefStep.rrefl h)
    split
    · exact RefStep.rupd (fun _ => rfl) (RefStep.rrefl h)
    split
    · simp only [alloc]
      split
      · exact RefStep.rupd (fun _ => rfl) (RefStep.rrefl h)
      · exact RefStep.rupd (fun _ => rfl)
          (RefStep.rupd (fun _ => rfl)
            (RefStep.rappend _ (fun n hn => by
              simp only [List.mem_singleton] at hn; rw [hn]) (RefStep.rrefl h)))
    split
    · have k1 : RefStep h (upd h t (Node.setTyp "")) :=
        RefStep.rupd (fun _ => rfl) (RefStep.rrefl h)
      refine k1.rtrans (RefStep.rfoldl (oneofTypeStep t) (Split val ';') (fun ty hh => ?_) _)
      show RefStep hh (upd (hh ++ [({ Typ := ty } : Node)]) t (Node.addOneOf hh.length))
      exact RefStep.rupd (fun _ => rfl)
        (RefStep.rappend _ (fun n hn => by
          simp only [List.mem_singleton] at hn; rw [hn]) (RefStep.rrefl hh))
    split
    · split
      · exact RefStep.rupd (fun _ => rfl) (RefStep.rrefl h)
      split
      · exact RefStep.rupd (fun _ => rfl) (RefStep.rrefl h)
      split
      · exact RefStep.rupd (fun _ => rfl) (RefStep.rrefl h)
      · exact RefStep.rrefl h
    · exact RefStep.rrefl h
  · exact RefStep.rrefl h

theorem stringKeyword_refs (t : Nat) (h : Heap) (tag : String) :
    RefStep h (stringKeyword t h tag) := by
  unfold stringKeyword
  repeat' split
  all_goals first
    | exact RefStep.rrefl h
    | exact RefStep.rupd (fun _ => rfl) (RefStep.rrefl h)

theorem numbericKeyword_refs (t : Nat) (h : Heap) (tag : String) :
    RefStep h (numbericKeyword t h tag) := by
  unfold numbericKeyword
  repeat' split
  all_goals first
    | exact RefStep.rrefl h
    | exact RefStep.rupd (fun _ => rfl) (RefStep.rrefl h)

theorem arrayKeyword_refs (t : Nat) (h h' : Heap) (dv dv' : List String) (tag : String)
    (hrun : arrayKeyword t (h, dv) tag = Res.ok (h', dv')) : RefStep h h' := by
  unfold arrayKeyword at hrun
  simp only at hrun
  repeat' split at hrun
  all_goals first
    | (simp only [Res.ok.injEq, Prod.mk.injEq] at hrun
       obtain ⟨e1, -⟩ := hrun
       subst e1
       first
         | exact RefStep.rrefl _
         | exact RefStep.rupd (fun _ => rfl) (RefStep.rrefl _))
    | cases hrun

theorem arrayKeywordsLoop_refs (t : Nat) (tags : List String) :
    ∀ (h h' : Heap) (dv dv' : List String),
      arrayKeywordsLoop t tags (h, dv) = Res.ok (h', dv') → RefStep h h' := by
  induction tags with
  | nil =>
    intro h h' dv dv' hrun
    simp only [arrayKeywordsLoop, Res.ok.injEq, Prod.mk.injEq] at hrun
    rw [← hrun.1]
    exact RefStep.rrefl h
  | cons tag rest ih =>
    intro h h' dv dv' hrun
    simp only [arrayKeywordsLoop] at hrun
    obtain ⟨⟨h1, dv1⟩, hstep, hrest⟩ := Res.bind_eq_ok hrun
    exact (arrayKeyword_refs t h h1 dv dv1 tag hstep).rtrans (ih h1 h' dv1 dv' hrest)

theorem arrayKeywords_refs (t : Nat) (tags : List String) (h h' : Heap)
    (hrun : arrayKeywords t tags h = Res.ok h') : RefStep h h' := by
  unfold arrayKeywords at hrun
  obtain ⟨⟨h1, dv1⟩, hloop, hrest⟩ := Res.bind_eq_ok hrun
  have k1 := arrayKeywordsLoop_refs t tags h h1 [] dv1 hloop
  simp only at hrest
  split at hrest
  · cases hrest
    exact RefStep.rupd (fun _ => rfl) k1
  · cases hrest
    exact k1

theorem extraKeywords_refs (t : Nat) (tags : List String) (h : Heap) :
    RefStep h (extraKeywords t tags h) := by
  unfold extraKeywords
  refine RefStep.rfoldl _ _ (fun tag hh => ?_) h
  split
  · exact RefStep.rupd (fun _ => rfl) (RefStep.rrefl hh)
  · exact RefStep.rrefl hh

/-- The tag keywords write no reference. -/
theorem structKeywordsFromTags_refs (t : Nat) (f : StructField) (parent : Nat) (name : String)
    (h h1 : Heap) (hrun : structKeywordsFromTags t f parent name h = Res.ok h1) :
    RefStep h h1 := by
  unfold structKeywordsFromTags at hrun
  simp only at hrun
  obtain ⟨h3, htyped, hrest⟩ := Res.bind_eq_ok hrun
  simp only [Res.ok.injEq] at hrest
  subst hrest
  have k1 : RefStep h (upd h t (Node.setDescription (f.Tag.Get "jsonschema_description"))) :=
    RefStep.rupd (fun _ => rfl) (RefStep.rrefl h)
  have k2 : RefStep h (genericKeywords t (Split (f.Tag.Get "jsonschema") ',') parent name
      (upd h t (Node.setDescription (f.Tag.Get "jsonschema_description")))) :=
    k1.rtrans (RefStep.rfoldl _ _ (fun tag hh => genericKeyword_refs t parent name hh tag) _)
  refine RefStep.rtrans ?_ (extraKeywords_refs t _ h3)
  split at htyped
  · cases htyped
    exact k2.rtrans (RefStep.rfoldl _ _ (fun tag hh => stringKeyword_refs t hh tag) _)
  split at htyped
  · cases htyped
    exact k2.rtrans (RefStep.rfoldl _ _ (fun tag hh => numbericKeyword_refs t hh tag) _)
  split at htyped
  · cases htyped
    exact k2.rtrans (RefStep.rfoldl _ _ (fun tag hh => numbericKeyword_refs t hh tag) _)
  split at htyped
  · exact k2.rtrans (arrayKeywords_refs t _ _ _ htyped)
  · cases htyped
    exact k2

/-- The tail of `handleField` writes no reference and leaves the table alone. -/
theorem finishField_refs (env : TypeEnv) (t : TypeId) (st : Nat) (f : StructField)
    (name : String) (required nullable : Bool) (property : Nat) (s s' : State)
    (hrun : finishField env t st f name required nullable property s = Res.ok s') :
    RefStep s.heap s'.heap ∧ s'.definitions = s.definitions := by
  refine ⟨?_, finishField_defs env t st f name required nullable property s s' hrun⟩
  unfold finishField at hrun
  obtain ⟨h1, hk, hrest⟩ := Res.bind_eq_ok hrun
  simp only at hrest
  obtain ⟨h2, hs, hok⟩ := Res.bind_eq_ok hrest
  simp only [Res.ok.injEq] at hok
  subst hok
  have k1 := structKeywordsFromTags_refs property f st name s.heap h1 hk
  have k2 : RefStep h1 (applyFieldDoc env t f property h1) := by
    unfold applyFieldDoc
    split
    · exact RefStep.rupd (fun _ => rfl) (RefStep.rrefl h1)
    · exact RefStep.rrefl h1
  have k3 : RefStep (applyFieldDoc env t f property h1)
      (wrapNullable nullable property (applyFieldDoc env t f property h1)).2 := by
    unfold wrapNullable
    split
    · exact RefStep.rappend _ (fun n hn => by simp only [List.mem_singleton] at hn; rw [hn])
        (RefStep.rappend _ (fun n hn => by simp only [List.mem_singleton] at hn; rw [hn])
          (RefStep.rrefl _))
    · exact RefStep.rrefl _
  have k4 : RefStep (wrapNullable nullable property (applyFieldDoc env t f property h1)).2 h2 := by
    unfold storeProperty at hs
    split at hs
    · cases hs
    · simp only [Res.ok.injEq] at hs
      subst hs
      split
      · exact RefStep.rupd (fun _ => rfl) (RefStep.rupd (fun _ => rfl) (RefStep.rrefl _))
      · exact RefStep.rupd (fun _ => rfl) (RefStep.rrefl _)
  exact ((k1.rtrans k2).rtrans k3).rtrans k4

/-- A new node without `$ref`. -/
theorem returnNew_refs (s s' : State) (n : Node) (a : Addr)
    (hr : Resolved s.definitions s.heap) (hn : n.Ref = "")
    (hrun : returnNew s n = Res.ok (a, s')) :
    Resolved s'.definitions s'.heap := by
  simp only [returnNew, Res.ok.injEq, Prod.mk.injEq] at hrun
  obtain ⟨-, rfl⟩ := hrun
  exact hr.rstep (RefStep.rappend _ (fun m hm => by
    simp only [List.mem_singleton] at hm; rw [hm, hn]) (RefStep.rrefl _))

theorem refs_C (env : TypeEnv) (r : Reflector) (hnc : NoCustom env) (fuel : Nat)
    (ih : RefsAt env r fuel) :
    ∀ t s o s', Resolved s.definitions s.heap →
      reflectCustomType env r (fuel + 1) t s = Res.ok (o, s') →
      Resolved s'.definitions s'.heap := by
  obtain ⟨-, ihC, -, -, -⟩ := ih
  intro t s o s' hr hrun
  rw [reflectCustomType] at hrun
  split at hrun
  · exact ihC _ _ _ _ hr hrun
  have hn := hnc t
  rw [Option.isNone_iff_eq_none] at hn
  simp only [hn, Res.ok.injEq, Prod.mk.injEq] at hrun
  rw [← hrun.2]
  exact hr

theorem refs_T (env : TypeEnv) (r : Reflector) (hm : r.TypeMapper = none) (fuel : Nat)
    (ih : RefsAt env r fuel) :
    ∀ t s a s', Resolved s.definitions s.heap →
      reflectTypeToSchema env r (fuel + 1) t s = Res.ok (a, s') →
      Resolved s'.definitions s'.heap := by
  obtain ⟨ihT, ihC, ihS, -, -⟩ := ih
  intro t s a s' hr hrun
  have leaf : ∀ (s1 : State) (n : Node), Resolved s1.definitions s1.heap → n.Ref = "" →
      returnNew s1 n = Res.ok (a, s') → Resolved s'.definitions s'.heap := by
    intro s1 n h1 hn hret
    exact returnNew_refs s1 s' n a h1 hn hret
  rw [reflectTypeToSchema] at hrun
  split at hrun
  · rename_i hfirst
    simp only [returnNew, Res.ok.injEq, Prod.mk.injEq] at hrun
    obtain ⟨-, rfl⟩ := hrun
    simp only [Bool.and_eq_true] at hfirst
    exact hr.rref _ (typeName env r t) rfl hfirst.1
  split at hrun
  · rename_i mapped hmap
    rw [hm] at hmap
    cases hmap
  obtain ⟨⟨rt, s1⟩, hc, hrest⟩ := Res.bind_eq_ok hrun
  have hC := ihC t s rt s1 hr hc
  simp only at hrest
  split at hrest
  · simp only [Res.ok.injEq, Prod.mk.injEq] at hrest
    rw [← hrest.2]
    exact hC
  split at hrest
  · refine leaf _ _ ?_ rfl hrest
    exact hC.rstep (RefStep.rappend _ (fun m hm' => by
        simp only [List.mem_singleton] at hm'; rw [hm'])
      (RefStep.rappend _ (fun m hm' => by
        simp only [List.mem_singleton] at hm'; rw [hm']) (RefStep.rrefl _)))
  split at hrest
  · exact leaf _ _ hC rfl hrest
  split at hrest
  · -- struct
    split at hrest
    · exact leaf _ _ hC rfl hrest
    split at hrest
    · exact leaf _ _ hC rfl hrest
    · exact ihS t s1 a s' hC hrest
  · -- map
    split at hrest
    all_goals
      obtain ⟨⟨v, s2⟩, hv, hret⟩ := Res.bind_eq_ok hrest
      exact leaf _ _ (ihT _ _ _ _ hC hv) rfl hret
  all_goals first
    | exact leaf _ _ hC rfl hrest
    | cases hrest
    | exact ihT _ _ _ _ hC hrest
    | skip
  all_goals
    -- slice, array
    split at hrest
    · exact leaf _ _ hC rfl hrest
    clear hrun
    split at hrest
    · refine leaf _ _ ?_ ?_ hrest
      · exact hC.rstep (RefStep.rappend _ (fun m hm' => by
          simp only [List.mem_singleton] at hm'; rw [hm']) (RefStep.rrefl _))
      · simp only [Node.setMedia, Node.setTyp, arrayBounds]
        split <;> rfl
    · obtain ⟨⟨items, s2⟩, hv, hret⟩ := Res.bind_eq_ok hrest
      refine leaf _ _ (ihT _ _ _ _ hC hv) ?_ hret
      simp only [Node.setItems, Node.setTyp, arrayBounds]
      split <;> rfl

theorem refs_S (env : TypeEnv) (r : Reflector) (fuel : Nat) (ih : RefsAt env r fuel) :
    ∀ t s a s', Resolved s.definitions s.heap →
      reflectStruct env r (fuel + 1) t s = Res.ok (a, s') →
      Resolved s'.definitions s'.heap := by
  obtain ⟨-, ihC, -, ihF, -⟩ := ih
  intro t s a s' hr hrun
  rw [reflectStruct] at hrun
  obtain ⟨⟨custom, s1⟩, hc, hrest⟩ := Res.bind_eq_ok hrun
  clear hrun
  have hC := ihC t s custom s1 hr hc
  have hset : ∀ (n : Node), n.Ref = "" →
      Resolved (mapSet s1.definitions (typeName env r t) s1.heap.length) (s1.heap ++ [n]) := by
    intro n hn
    exact (hC.rset _ _).rstep (RefStep.rappend _ (fun m hm' => by
      simp only [List.mem_singleton] at hm'; rw [hm', hn]) (RefStep.rrefl _))
  have hkey : (mapGet (mapSet s1.definitions (typeName env r t) s1.heap.length)
      (typeName env r t)).isSome = true := by
    rw [mapGet_mapSet]; simp
  simp only at hrest
  split at hrest
  · simp only [Res.ok.injEq, Prod.mk.injEq] at hrest
    rw [← hrest.2]
    exact hC
  split at hrest
  · split at hrest
    · simp only [Res.ok.injEq, Prod.mk.injEq] at hrest
      rw [← hrest.2]
      exact hset _ rfl
    · simp only [returnNew, Res.ok.injEq, Prod.mk.injEq] at hrest
      rw [← hrest.2]
      exact (hset _ rfl).rref _ (typeName env r t) rfl hkey
  · obtain ⟨s2, hF, hfin⟩ := Res.bind_eq_ok hrest
    have hF2 := ihF _ t _ s2 (hset _ rfl) hF
    have hkey2 : (mapGet s2.definitions (typeName env r t)).isSome = true :=
      ((defsInv env r fuel).2.2.2.1 _ t _ s2 hF).1 _ hkey
    split at hfin
    · simp only [Res.ok.injEq, Prod.mk.injEq] at hfin
      rw [← hfin.2]
      exact hF2
    · simp only [returnNew, Res.ok.injEq, Prod.mk.injEq] at hfin
      rw [← hfin.2]
      exact hF2.rref _ (typeName env r t) rfl hkey2

theorem forEach_refs {α : Type} (body : α → State → Res State)
    (hbody : ∀ x s s', Resolved s.definitions s.heap → body x s = Res.ok s' →
      Resolved s'.definitions s'.heap) :
    ∀ (xs : List α) (s s' : State), Resolved s.definitions s.heap →
      forEach body xs s = Res.ok s' → Resolved s'.definitions s'.heap := by
  intro xs
  induction xs with
  | nil =>
    intro s s' hr hrun
    simp only [forEach, Res.ok.injEq] at hrun
    rw [← hrun]; exact hr
  | cons x xs ih =>
    intro s s' hr hrun
    simp only [forEach] at hrun
    obtain ⟨s1, h1, h2⟩ := Res.bind_eq_ok hrun
    exact ih s1 s' (hbody x s s1 hr h1) h2

theorem refs_F (env : TypeEnv) (r : Reflector) (fuel : Nat) (ih : RefsAt env r fuel) :
    ∀ st t s s', Resolved s.definitions s.heap →
      reflectStructFields env r (fuel + 1) st t s = Res.ok s' →
      Resolved s'.definitions s'.heap := by
  obtain ⟨-, -, -, -, ihH⟩ := ih
  intro st t s s' hr hrun
  rw [reflectStructFields] at hrun
  split at hrun
  all_goals
    split at hrun
    · simp only [Res.ok.injEq] at hrun
      rw [← hrun]; exact hr
    · obtain ⟨s1, h1, h2⟩ := Res.bind_eq_ok hrun
      have r1 := forEach_refs _ (fun x a b ha hb => ihH st _ x a b ha hb) _ s s1 hr h1
      split at h2
      · exact forEach_refs _ (fun x a b ha hb => ihH st _ x a b ha hb) _ s1 s' r1 h2
      · simp only [Res.ok.injEq] at h2
        rw [← h2]; exact r1

theorem refs_H (env : TypeEnv) (r : Reflector) (fuel : Nat) (ih : RefsAt env r fuel) :
    ∀ st t f s s', Resolved s.definitions s.heap →
      handleField env r (fuel + 1) st t f s = Res.ok s' →
      Resolved s'.definitions s'.heap := by
  obtain ⟨ihT, -, -, ihF, -⟩ := ih
  intro st t f s s' hr hrun
  rw [handleField] at hrun
  simp only at hrun
  split at hrun
  · split at hrun
    · exact ihF st _ s s' hr hrun
    · simp only [Res.ok.injEq] at hrun
      rw [← hrun]; exact hr
  · obtain ⟨⟨p, s1⟩, hT, hfin⟩ := Res.bind_eq_ok hrun
    have r1 := ihT _ s p s1 hr hT
    obtain ⟨k, hd⟩ := finishField_refs env t st f _ _ _ p s1 s' hfin
    rw [hd]
    exact r1.rstep k

/-- With no `TypeMapper` and no custom-schema type, references that resolve
before a run resolve after it, at every amount of fuel. -/
theorem refsInv (env : TypeEnv) (r : Reflector) (hm : r.TypeMapper = none)
    (hnc : NoCustom env) : ∀ fuel, RefsAt env r fuel := by
  intro fuel
  induction fuel with
  | zero =>
    refine ⟨?_, ?_, ?_, ?_, ?_⟩
    · intro t s a s' _ h; simp [reflectTypeToSchema] at h
    · intro t s a s' _ h; simp [reflectCustomType] at h
    · intro t s a s' _ h; simp [reflectStruct] at h
    · intro st t s s' _ h; simp [reflectStructFields] at h
    · intro st t f s s' _ h; simp [handleField] at h
  | succ n ih =>
    exact ⟨refs_T env r hm n ih, refs_C env r hnc n ih, refs_S env r n ih, refs_F env r n ih,
      refs_H env r n ih⟩

/-! ## No reference without a definition -/

set_option maxRecDepth 100000 in
set_option maxHeartbeats 2000000 in
/-- The run on `N` with `ExpandedStruct` set. -/
theorem nodeEnv_expanded_run :
    ReflectFromType nodeEnv expandedReflector 12 0 =
      Res.ok ({ TypeDraft04 := 0, Definitions := [] },
        [{ structNode expandedReflector with
            Version := DRAFT04, Required := ["Next"], Properties := some [("Next", 3)] },
          { structNode expandedReflector with
            Required := ["Next"], Properties := some [("Next", 2)] },
          { Ref := "#/definitions/N" },
          refNode expandedReflector "N",
          { structNode expandedReflector with
            Required := ["Next"], Properties := some [("Next", 5)] },
          { Ref := "#/definitions/N" },
          refNode expandedReflector "N"]) := by
  decide

set_option maxRecDepth 100000 in
/-- The run on `N` with the default reflector. -/
theorem nodeEnv_run :
    ReflectFromType nodeEnv defaultReflector 12 0 =
      Res.ok ({ TypeDraft04 := 2, Definitions := [("N", 0)] },
        [{ structNode defaultReflector with
            Required := ["Next"], Properties := some [("Next", 1)] },
          { Ref := "#/definitions/N" },
          refNode defaultReflector "N"]) := by
  decide

/-- C35 counterexample: `type N struct { Next *N }` with
`&Reflector{Version: DRAFT04, ExpandedStruct: true}`, no `TypeMapper`, no
custom-schema type.  The returned root node (address 0) holds under `Next` the
node 3, which is the reference `#/definitions/N`, and the returned table is empty:
the entry `N` was deleted at the end. -/
theorem expanded_dangling_counterexample :
    expandedReflector.TypeMapper.isNone = true ∧ NoCustom nodeEnv ∧
    ReflectFromType nodeEnv expandedReflector 12 0 =
      Res.ok ({ TypeDraft04 := 0, Definitions := [] },
        [{ structNode expandedReflector with
            Version := DRAFT04, Required := ["Next"], Properties := some [("Next", 3)] },
          { structNode expandedReflector with
            Required := ["Next"], Properties := some [("Next", 2)] },
          { Ref := "#/definitions/N" },
          refNode expandedReflector "N",
          { structNode expandedReflector with
            Required := ["Next"], Properties := some [("Next", 5)] },
          { Ref := "#/definitions/N" },
          refNode expandedReflector "N"]) ∧
    (refNode expandedReflector "N").Ref = "#/definitions/" ++ "N" ∧
    mapGet ([] : Definitions) "N" = none :=
  ⟨rfl, fun _ => rfl, nodeEnv_expanded_run, rfl, rfl⟩

/-- C35 (amended): with no `TypeMapper` and no custom-schema type, whenever
`ReflectFromType` returns, every `$ref` of the form `#/definitions/N` in any node
of the returned heap (the root node, the entries of the table and all nodes
below them are among these) names a key `N` of the returned table, or else
`ExpandedStruct` is set and `N` is `typeName` of the root type, whose entry is
deleted before the return.  So with `ExpandedStruct` unset no reference
dangles. -/
theorem refs_resolve (env : TypeEnv) (r : Reflector) (hm : r.TypeMapper = none)
    (hnc : NoCustom env) (fuel : Nat) (t : TypeId) (schema : Schema) (h : Heap)
    (hrun : ReflectFromType env r fuel t = Res.ok (schema, h)) :
    (∀ a, a < h.length → ∀ N, (rd h a).Ref = "#/definitions/" ++ N →
      (mapGet schema.Definitions N).isSome = true ∨
        (r.ExpandedStruct = true ∧ N = typeName env r t)) ∧
    (r.ExpandedStruct = false → Resolved schema.Definitions h) := by
  have inv := refsInv env r hm hnc fuel
  have hfalse : r.ExpandedStruct = false → Resolved schema.Definitions h := by
    intro hexp
    unfold ReflectFromType at hrun
    simp only [hexp, Bool.false_eq_true, if_false] at hrun
    obtain ⟨⟨root, s'⟩, hT, hfin⟩ := Res.bind_eq_ok hrun
    simp only [Res.ok.injEq, Prod.mk.injEq] at hfin
    have h0 : Resolved ({} : State).definitions ({} : State).heap := by
      intro a ha
      exact absurd ha (by simp)
    have := inv.1 t {} root s' h0 hT
    rw [← hfin.1, ← hfin.2]
    exact this
  refine ⟨?_, hfalse⟩
  cases hexp : r.ExpandedStruct with
  | false =>
    intro a ha N hN
    exact Or.inl (hfalse hexp a ha N hN)
  | true =>
    obtain ⟨s1, a1, s2, hF, hS, hsch, hh, -, -⟩ := expanded_parts env r fuel t schema h hexp hrun
    have h0 : Resolved ({ heap := [{ structNode r with Version := r.Version }] } : State).definitions
        ({ heap := [{ structNode r with Version := r.Version }] } : State).heap := by
      intro a ha N hN
      have ha0 : a = 0 := by
        simp only [List.length_singleton] at ha
        omega
      subst ha0
      exact absurd hN.symm (ref_ne_empty N)
    have r1 := inv.2.2.2.1 0 t _ s1 h0 hF
    have r2 := inv.2.2.1 t s1 a1 s2 r1 hS
    intro a ha N hN
    rw [hh] at ha hN
    by_cases hN2 : N = typeName env r t
    · exact Or.inr ⟨rfl, hN2⟩
    · left
      rw [hsch]
      simp only
      rw [mapGet_mapDelete_ne _ _ _ hN2]
      exact r2 a ha N hN

set_option maxRecDepth 100000 in
/-- C35 witness: `type N struct { Next *N }` with the default reflector: the two
references to `N` resolve. -/
theorem refs_resolve_witness :
    defaultReflector.TypeMapper = none ∧ NoCustom nodeEnv ∧
    ReflectFromType nodeEnv defaultReflector 12 0 =
      Res.ok ({ TypeDraft04 := 2, Definitions := [("N", 0)] },
        [{ structNode defaultReflector with
            Required := ["Next"], Properties := some [("Next", 1)] },
          { Ref := "#/definitions/N" },
          refNode defaultReflector "N"]) ∧
    Resolved [("N", 0)]
        [{ structNode defaultReflector with
            Required := ["Next"], Properties := some [("Next", 1)] },
          { Ref := "#/definitions/N" },
          refNode defaultReflector "N"] :=
  ⟨rfl, fun _ => rfl, nodeEnv_run,
    (refs_resolve nodeEnv defaultReflector rfl (fun _ => rfl) 12 0
      { TypeDraft04 := 2, Definitions := [("N", 0)] }
      [{ structNode defaultReflector with
          Required := ["Next"], Properties := some [("Next", 1)] },
        { Ref := "#/definitions/N" },
        refNode defaultReflector "N"] nodeEnv_run).2 rfl⟩
/-! ## Runs that read no nil pointer -/

theorem Res.NoNil.nn_ok {α : Type} (a : α) : (Res.ok a).NoNil := by
  simp [Res.NoNil]

theorem Res.NoNil.nbind {α β : Type} {x : Res α} {f : α → Res β} (hx : x.NoNil)
    (hf : ∀ a, x = Res.ok a → (f a).NoNil) : (x.bind f).NoNil := by
  cases x with
  | ok a => simpa using hf a rfl
  | abort e =>
    cases e with
    | unsupportedType msg => simp [Res.NoNil]
    | nilDereference => exact absurd rfl hx
  | timeout => simp [Res.NoNil]

/-- A run that neither is out of fuel nor aborts returns. -/
theorem Res.returns_of {α : Type} {x : Res α} (he : x.Ends) (hn : x.NoNil) :
    ∃ a, x = Res.ok a := by
  cases x with
  | ok a => exact ⟨a, rfl⟩
  | abort e =>
    cases e with
    | unsupportedType msg => exact absurd rfl (he.2 msg)
    | nilDereference => exact absurd rfl hn
  | timeout => exact absurd rfl he.1

/-- One round of `arrayKeywords` on a token that is not `enum=v` returns. -/
theorem arrayKeyword_plain (t : Nat) (st : Heap × List String) (tag : String)
    (hno : enumToken tag = false) : ∃ st', arrayKeyword t st tag = Res.ok st' := by
  obtain ⟨h, dv⟩ := st
  unfold enumToken at hno
  unfold arrayKeyword
  simp only
  split
  · rename_i name val hS
    rw [hS] at hno
    simp only [decide_eq_false_iff_not] at hno
    split
    · exact ⟨_, rfl⟩
    split
    · exact ⟨_, rfl⟩
    split
    · exact ⟨_, rfl⟩
    split
    · exact ⟨_, rfl⟩
    · exact ⟨_, rfl⟩
  · exact ⟨_, rfl⟩

/-- The loop of `arrayKeywords` over tokens none of which is `enum=v` returns. -/
theorem arrayKeywordsLoop_plain (t : Nat) (tags : List String)
    (hno : ∀ tag ∈ tags, enumToken tag = false) :
    ∀ st, ∃ st', arrayKeywordsLoop t tags st = Res.ok st' := by
  induction tags with
  | nil => intro st; exact ⟨st, rfl⟩
  | cons tag rest ih =>
    intro st
    obtain ⟨st1, h1⟩ := arrayKeyword_plain t st tag (hno tag (List.mem_cons_self _ _))
    obtain ⟨st2, h2⟩ := ih (fun x hx => hno x (List.mem_cons_of_mem _ hx)) st1
    exact ⟨st2, by simp only [arrayKeywordsLoop, h1, Res.bind, h2]⟩

/-- `arrayKeywords` returns when its loop does. -/
theorem arrayKeywords_returns (t : Nat) (tags : List String) (h : Heap)
    (hloop : ∃ st', arrayKeywordsLoop t tags (h, []) = Res.ok st') :
    ∃ h', arrayKeywords t tags h = Res.ok h' := by
  obtain ⟨⟨h1, dv1⟩, hl⟩ := hloop
  obtain ⟨h', hrun, -⟩ := arrayKeywords_of_loop t tags h h1 dv1 hl
  exact ⟨h', hrun⟩

/-- A step that keeps the type of every node makes no node an array. -/
theorem array_of_keeps {h h' : Heap} (k : Keeps Node.Typ h h') :
    h.length ≤ h'.length ∧
      ∀ b, b < h.length → (rd h' b).Typ = "array" → (rd h b).Typ = "array" :=
  ⟨k.1, fun b hb hT => by rw [← k.2 b hb]; exact hT⟩

set_option maxHeartbeats 1000000 in
/-- One round of `genericKeywords` on a token other than `type=array` makes no
node an array. -/
theorem genericKeyword_array (t parent : Nat) (name : String) (h : Heap) (tag : String)
    (hno : arrayOverride tag = false) :
    h.length ≤ (genericKeyword t parent name h tag).length ∧
      ∀ b, b < h.length → (rd (genericKeyword t parent name h tag) b).Typ = "array" →
        (rd h b).Typ = "array" := by
  unfold arrayOverride at hno
  simp only [decide_eq_false_iff_not] at hno
  unfold genericKeyword
  split
  · rename_i nm val hS
    split
    · apply array_of_keeps
      exact Keeps.upd_after (fun _ => rfl) (Keeps.krefl _ h)
    split
    · apply array_of_keeps
      exact Keeps.upd_after (fun _ => rfl) (Keeps.krefl _ h)
    split
    · rename_i hname
      refine ⟨by rw [length_upd], fun b _ hT => ?_⟩
      rcases rd_upd_cases h t b (Node.setTyp val) with e | e
      · rw [e] at hT
        have hv : val = "array" := hT
        exact absurd (by rw [hS, hname, hv]) hno
      · rw [e] at hT; exact hT
    split
    · apply array_of_keeps
      simp only [alloc]
      split
      · exact Keeps.upd_after (fun _ => rfl) (Keeps.krefl _ h)
      · exact Keeps.upd_after (fun _ => rfl)
          (Keeps.upd_after (fun _ => rfl) (Keeps.append_after _ (Keeps.krefl _ h)))
    split
    · have k2 := oneofTypeStep_keeps Node.Typ t (fun _ _ => rfl) (Split val ';')
        (upd h t (Node.setTyp ""))
      have hl : h.length = (upd h t (Node.setTyp "")).length := by rw [length_upd]
      refine ⟨le_trans (le_of_eq hl) k2.1, fun b hb hT => ?_⟩
      have hT' : (rd (List.foldl (oneofTypeStep t) (upd h t (Node.setTyp "")) (Split val ';'))
          b).Typ = "array" := hT
      rw [k2.2 b (by rw [← hl]; exact hb)] at hT'
      rcases rd_upd_cases h t b (Node.setTyp "") with e | e
      · rw [e] at hT'
        have hv : ("" : String) = "array" := hT'
        exact absurd hv (by decide)
      · rw [e] at hT'; exact hT'
    split
    · apply array_of_keeps
      split
      · exact Keeps.upd_after (fun _ => rfl) (Keeps.krefl _ h)
      split
      · exact Keeps.upd_after (fun _ => rfl) (Keeps.krefl _ h)
      split
      · exact Keeps.upd_after (fun _ => rfl) (Keeps.krefl _ h)
      · exact Keeps.krefl _ h
    · apply array_of_keeps
      exact Keeps.krefl _ h
  · apply array_of_keeps
    exact Keeps.krefl _ h

/-- `genericKeywords` over tokens none of which is `type=array` makes no node an
array. -/
theorem genericKeywords_array (t parent : Nat) (name : String) (tags : List String)
    (hno : ∀ tag ∈ tags, arrayOverride tag = false) :
    ∀ h, h.length ≤ (genericKeywords t tags parent name h).length ∧
      ∀ b, b < h.length → (rd (genericKeywords t tags parent name h) b).Typ = "array" →
        (rd h b).Typ = "array" := by
  induction tags with
  | nil => intro h; exact ⟨le_refl _, fun _ _ hT => hT⟩
  | cons tag rest ih =>
    intro h
    have s1 := genericKeyword_array t parent name h tag (hno tag (List.mem_cons_self _ _))
    have s2 := ih (fun x hx => hno x (List.mem_cons_of_mem _ hx))
      (genericKeyword t parent name h tag)
    refine ⟨le_trans s1.1 s2.1, fun b hb hT => ?_⟩
    exact s1.2 b hb (s2.2 b (lt_of_lt_of_le hb s1.1) hT)

/-- The tag keywords of a field return when its `jsonschema` tag does not combine
`type=array` with an `enum` token and the node of the field, if an array, has its
items node. -/
theorem structKeywordsFromTags_returns {st p : Nat} (f : StructField) (name : String)
    (h : Heap) (hsafe : plainArrayTags f) (hw : HasItems (rd h p))
    (ho : Own st h) (hsp : st < p) (hp : p < h.length) :
    ∃ h', structKeywordsFromTags p f st name h = Res.ok h' := by
  have s1 : TagStep st p h (upd h p (Node.setDescription (f.Tag.Get "jsonschema_description"))) :=
    TagStep.upd_above _ ho hsp (fun _ => rfl)
  have s2 := TagStep.foldl (genericKeyword p st name)
    (fun hh tag hoh hph => genericKeyword_step name hh tag hoh hsp hph)
    (Split (f.Tag.Get "jsonschema") ',') _ s1.1 (lt_of_lt_of_le hp s1.2.1)
  have s12 := s1.ttrans s2
  have hitems : (rd (genericKeywords p (Split (f.Tag.Get "jsonschema") ',') st name
      (upd h p (Node.setDescription (f.Tag.Get "jsonschema_description")))) p).Items =
      (rd h p).Items := s12.2.2.2.2
  have harr : ∃ h3, arrayKeywords p (Split (f.Tag.Get "jsonschema") ',')
      (genericKeywords p (Split (f.Tag.Get "jsonschema") ',') st name
        (upd h p (Node.setDescription (f.Tag.Get "jsonschema_description")))) = Res.ok h3 ∨
      (rd (genericKeywords p (Split (f.Tag.Get "jsonschema") ',') st name
        (upd h p (Node.setDescription (f.Tag.Get "jsonschema_description")))) p).Typ ≠
        "array" := by
    rcases hsafe with hno | hno
    · exact ⟨_, Or.inl (arrayKeywords_returns p _ _ (arrayKeywordsLoop_plain p _ hno _)).choose_spec⟩
    · by_cases hT : (rd (genericKeywords p (Split (f.Tag.Get "jsonschema") ',') st name
          (upd h p (Node.setDescription (f.Tag.Get "jsonschema_description")))) p).Typ = "array"
      · have h1 := (genericKeywords_array p st name _ hno
          (upd h p (Node.setDescription (f.Tag.Get "jsonschema_description")))).2 p
          (by simpa using hp) hT
        rw [rd_upd_eq h p _ hp] at h1
        have h0 : (rd h p).Typ = "array" := h1
        have hI : (rd h p).Items.isSome = true := hw h0
        have hI2 : (rd (genericKeywords p (Split (f.Tag.Get "jsonschema") ',') st name
            (upd h p (Node.setDescription (f.Tag.Get "jsonschema_description")))) p).Items ≠
            none := by
          rw [hitems]
          intro e
          rw [e] at hI
          simp at hI
        obtain ⟨h', dv', hl⟩ := arrayKeywordsLoop_total p _ _ [] hI2
        exact ⟨_, Or.inl (arrayKeywords_returns p _ _ ⟨_, hl⟩).choose_spec⟩
      · exact ⟨h, Or.inr hT⟩
  obtain ⟨h3, harr⟩ := harr
  unfold structKeywordsFromTags
  simp only
  split
  · exact ⟨_, rfl⟩
  split
  · exact ⟨_, rfl⟩
  split
  · exact ⟨_, rfl⟩
  split
  · rename_i hT
    rcases harr with e | e
    · rw [e]; exact ⟨_, rfl⟩
    · exact absurd hT e
  · exact ⟨_, rfl⟩
/-- The tail of `handleField` returns when the tag of the field does not combine
`type=array` with an `enum` token, the node of the field has its items node if it
is an array, and the enclosing object node has its `Properties` map. -/
theorem finishField_returns (env : TypeEnv) (t : TypeId) {st p : Nat} (f : StructField)
    (name : String) (required nullable : Bool) (s : State)
    (hsafe : plainArrayTags f) (hw : HasItems (rd s.heap p))
    (ho : Own st s.heap) (hsp : st < p) (hp : p < s.heap.length)
    (hitems : ∀ i, (rd s.heap p).Items = some i → st < i)
    (hprops : (rd s.heap st).Properties.isSome = true) :
    ∃ s', finishField env t st f name required nullable p s = Res.ok s' := by
  obtain ⟨h1, htags⟩ := structKeywordsFromTags_returns f name s.heap hsafe hw ho hsp hp
  have s1 := structKeywordsFromTags_step f name s.heap h1 ho hsp hp hitems htags
  have s2 := applyFieldDoc_step env t f h1 s1.1 hsp
  have s12 := s1.ttrans s2
  have ext := wrapNullable_extends nullable p (applyFieldDoc env t f p h1)
  have hst : st < (applyFieldDoc env t f p h1).length := s12.1.1
  have hP : (rd (wrapNullable nullable p (applyFieldDoc env t f p h1)).2 st).Properties =
      (rd s.heap st).Properties := by
    rw [ext.2 st hst]
    have := congrArg Node.Properties s12.2.2.2.1
    simpa [clearOneOf] using this
  unfold finishField
  rw [htags]
  simp only [Res.ok_bind]
  unfold storeProperty
  rw [hP]
  cases hq : (rd s.heap st).Properties with
  | none => rw [hq] at hprops; simp at hprops
  | some ps => exact ⟨_, rfl⟩

theorem hasItems_of_typ (n : Node) (hn : n.Typ ≠ "array") : HasItems n :=
  fun h => absurd h hn

theorem hasItems_setItems (a : Addr) (n : Node) : HasItems (Node.setItems a n) :=
  fun _ => rfl

theorem hasItems_shift (base : Nat) (n : Node) (hn : HasItems n) :
    HasItems (shiftNode base n) := by
  intro h
  have h1 : n.Typ = "array" := h
  have h2 := hn h1
  show (n.Items.map (· + base)).isSome = true
  cases hI : n.Items with
  | none => rw [hI] at h2; simp at h2
  | some i => rfl

theorem Res.Safe.safe_ok (a : Addr) (s : State) (hn : HasItems (rd s.heap a)) :
    (Res.ok (a, s)).Safe := by
  refine ⟨Res.NoNil.nn_ok _, ?_⟩
  intro a' s' heq
  simp only [Res.ok.injEq, Prod.mk.injEq] at heq
  obtain ⟨rfl, rfl⟩ := heq
  exact hn

theorem Res.Safe.ret (s : State) (n : Node) (hn : HasItems n) : (returnNew s n).Safe := by
  unfold returnNew
  apply Res.Safe.safe_ok
  show HasItems (rd (s.heap ++ [n]) s.heap.length)
  rw [rd_append_length]
  exact hn

theorem Res.Safe.of_unsupported (msg : String) :
    (Res.abort (Abort.unsupportedType msg) : Res (Addr × State)).Safe := by
  refine ⟨by simp [Res.NoNil], ?_⟩
  intro a s' heq
  simp at heq

theorem Res.Safe.sbind {α : Type} {x : Res α} {f : α → Res (Addr × State)} (hx : x.NoNil)
    (hf : ∀ a, x = Res.ok a → (f a).Safe) : (x.bind f).Safe := by
  cases x with
  | ok a => simpa using hf a rfl
  | abort e =>
    cases e with
    | unsupportedType msg => exact Res.Safe.of_unsupported msg
    | nilDereference => exact absurd rfl hx
  | timeout =>
    refine ⟨by simp [Res.NoNil], ?_⟩
    intro a s' heq
    simp at heq

theorem nonil_C (env : TypeEnv) (r : Reflector) (U : List TypeId)
    (hclosed : ComponentClosed env r U) (hhooks : ∀ u ∈ U, arrayHooks env r u)
    (fuel : Nat) (ih : NoNilAt env r U fuel) :
    ∀ t s, t ∈ U →
      (reflectCustomType env r (fuel + 1) t s).NoNil ∧
      ∀ a s', reflectCustomType env r (fuel + 1) t s = Res.ok (some a, s') →
        HasItems (rd s'.heap a) := by
  obtain ⟨-, ihC, -, -, -⟩ := ih
  intro t s ht
  rw [reflectCustomType]
  split
  · rename_i hptr
    exact ihC _ s ((hclosed t ht).1 (Or.inl hptr))
  split
  · rename_i built hb
    have hroot := (hhooks t ht).2 built hb
    simp only
    split
    · refine ⟨Res.NoNil.nn_ok _, ?_⟩
      intro a s' heq
      simp only [Res.ok.injEq, Prod.mk.injEq, Option.some.injEq] at heq
      obtain ⟨rfl, rfl⟩ := heq
      show HasItems (rd (allocFragment s.heap built).2 s.heap.length)
      rw [rd_allocFragment]
      exact hasItems_shift _ _ hroot
    · refine ⟨Res.NoNil.nn_ok _, ?_⟩
      intro a s' heq
      simp only [Res.ok.injEq, Prod.mk.injEq, Option.some.injEq] at heq
      obtain ⟨rfl, rfl⟩ := heq
      show HasItems (rd ((allocFragment s.heap built).2 ++ [refNode r (typeName env r t)])
        (allocFragment s.heap built).2.length)
      rw [rd_append_length]
      exact hasItems_of_typ _ (by simp +decide [refNode])
  · refine ⟨Res.NoNil.nn_ok _, ?_⟩
    intro a s' heq
    simp at heq

theorem nonil_T (env : TypeEnv) (r : Reflector) (U : List TypeId)
    (hclosed : ComponentClosed env r U) (hhooks : ∀ u ∈ U, arrayHooks env r u)
    (fuel : Nat) (ih : NoNilAt env r U fuel) :
    ∀ t s, t ∈ U → (reflectTypeToSchema env r (fuel + 1) t s).Safe := by
  obtain ⟨ihT, ihC, ihS, -, -⟩ := ih
  intro t s ht
  have hElem : ∀ s0, hasElem (env.kind t) → (reflectTypeToSchema env r fuel (env.elem t) s0).Safe :=
    fun s0 hel => ihT _ s0 ((hclosed t ht).1 hel)
  rw [reflectTypeToSchema]
  split
  · exact Res.Safe.ret _ _ (hasItems_of_typ _ (by simp +decide))
  split
  · rename_i mapped hm
    have hroot := (hhooks t ht).1 mapped hm
    apply Res.Safe.safe_ok
    show HasItems (rd (allocFragment s.heap mapped).2 s.heap.length)
    rw [rd_allocFragment]
    exact hasItems_shift _ _ hroot
  apply Res.Safe.sbind (ihC t s ht).1
  intro x hc
  obtain ⟨o, s1⟩ := x
  cases o with
  | some a => exact Res.Safe.safe_ok _ _ ((ihC t s ht).2 a s1 hc)
  | none =>
    simp only
    split
    · exact Res.Safe.ret _ _ (hasItems_of_typ _ (by simp +decide))
    split
    · exact Res.Safe.ret _ _ (hasItems_of_typ _ (by simp +decide))
    split
    · -- struct
      split
      · exact Res.Safe.ret _ _ (hasItems_of_typ _ (by simp +decide))
      split
      · exact Res.Safe.ret _ _ (hasItems_of_typ _ (by simp +decide))
      · exact ihS t s1 ht
    · -- map
      rename_i hkind
      have hE := hElem s1 (Or.inr (Or.inr (Or.inr hkind)))
      split
      all_goals
        exact Res.Safe.sbind hE.1
          (fun a _ => Res.Safe.ret _ _ (hasItems_of_typ _ (by simp +decide)))
    all_goals first
      | exact Res.Safe.ret _ _ (hasItems_of_typ _ (by simp +decide))
      | (rename_i hkind; exact hElem s1 (Or.inl hkind))
      | exact Res.Safe.of_unsupported _
      | skip
    all_goals
      rename_i hkind
      have hE : (reflectTypeToSchema env r fuel (env.elem t) s1).Safe := by
        first
          | exact hElem s1 (Or.inr (Or.inl hkind))
          | exact hElem s1 (Or.inr (Or.inr (Or.inl hkind)))
      split
      · exact Res.Safe.ret _ _ (hasItems_of_typ _ (by simp +decide))
      split
      · exact Res.Safe.ret _ _
          (hasItems_of_typ _ (by simp +decide [Node.setMedia, Node.setTyp]))
      · exact Res.Safe.sbind hE.1 (fun a _ => Res.Safe.ret _ _ (hasItems_setItems _ _))

theorem nonil_S (env : TypeEnv) (r : Reflector) (U : List TypeId)
    (fuel : Nat) (ih : NoNilAt env r U fuel) :
    ∀ t s, t ∈ U → (reflectStruct env r (fuel + 1) t s).Safe := by
  obtain ⟨-, ihC, -, ihF, -⟩ := ih
  intro t s ht
  rw [reflectStruct]
  apply Res.Safe.sbind (ihC t s ht).1
  intro x hc
  obtain ⟨o, s1⟩ := x
  cases o with
  | some a => exact Res.Safe.safe_ok _ _ ((ihC t s ht).2 a s1 hc)
  | none =>
    simp only
    split
    · split
      · apply Res.Safe.safe_ok
        show HasItems (rd (s1.heap ++ [ignoredNode]) s1.heap.length)
        rw [rd_append_length]
        exact hasItems_of_typ _ (by simp +decide [ignoredNode])
      · exact Res.Safe.ret _ _ (hasItems_of_typ _ (by simp +decide [refNode]))
    · have hown : Own s1.heap.length (s1.heap ++ [structNode r]) := own_new s1.heap _ rfl
      have hprops : (rd (s1.heap ++ [structNode r]) s1.heap.length).Properties.isSome = true := by
        rw [rd_append_length]; rfl
      apply Res.Safe.sbind
        (ihF s1.heap.length t
          { definitions := mapSet s1.definitions (typeName env r t) s1.heap.length,
            heap := s1.heap ++ [structNode r] } ht hown hprops)
      intro s2 hF
      split
      · apply Res.Safe.safe_ok
        have fs := (frame env r fuel).2.2.2.1 s1.heap.length t _ s2 hown hF
        have hnode := fs.2.2.2.1
        simp only at hnode
        rw [rd_append_length] at hnode
        have htyp : (rd s2.heap s1.heap.length).Typ = "object" := by
          have := congrArg Node.Typ hnode
          simpa [clearParent, structNode] using this
        exact hasItems_of_typ _ (by rw [htyp]; decide)
      · exact Res.Safe.ret _ _ (hasItems_of_typ _ (by simp +decide [refNode]))

theorem nonil_H (env : TypeEnv) (r : Reflector) (U : List TypeId)
    (hclosed : ComponentClosed env r U)
    (htags : ∀ u ∈ U, ∀ f ∈ handledFields env r u, plainArrayTags f)
    (fuel : Nat) (ih : NoNilAt env r U fuel) :
    ∀ (st : Nat) t f s, t ∈ U → env.kind t = Kind.Struct → f ∈ handledFields env r t →
      Own st s.heap → (rd s.heap st).Properties.isSome = true →
      (handleField env r (fuel + 1) st t f s).NoNil := by
  obtain ⟨ihT, -, -, ihF, -⟩ := ih
  intro st t f s ht hkind hf ho hprops
  rw [handleField]
  simp only
  split
  · rename_i hname
    split
    · rename_i hembed
      exact ihF st _ s ((hclosed t ht).2 hkind f hf (Or.inl ⟨hname, hembed⟩)) ho hprops
    · exact Res.NoNil.nn_ok _
  · rename_i hname
    have h1 := (hclosed t ht).2 hkind f hf (Or.inr hname)
    apply Res.NoNil.nbind (ihT _ s h1).1
    intro x hT
    obtain ⟨p, s1⟩ := x
    have hx := (frame env r fuel).1 _ s p s1 hT
    have hw := (ihT _ s h1).2 p s1 hT
    have hst := ho.1
    have hp : st < p := lt_of_lt_of_le hst hx.2.1
    have s1step := hx.1.toFieldStep ho
    have hprops1 : (rd s1.heap st).Properties.isSome = true := by
      rw [hx.1.2 st hst]; exact hprops
    obtain ⟨s', hfin⟩ := finishField_returns env t f _ _ _ s1 (htags t ht f hf) hw s1step.1 hp
      hx.2.2.1 (fun i hi => lt_of_lt_of_le hst (hx.2.2.2 i hi)) hprops1
    show (finishField env t st f _ _ _ p s1).NoNil
    rw [hfin]
    exact Res.NoNil.nn_ok _

/-- A loop whose body reads no nil pointer in the states that satisfy an invariant
the body keeps reads none, and keeps the invariant. -/
theorem forEach_nonil {α : Type} (body : α → State → Res State) (P : State → Prop)
    (xs : List α) (hnn : ∀ x ∈ xs, ∀ s, P s → (body x s).NoNil)
    (hkeep : ∀ x ∈ xs, ∀ s s', P s → body x s = Res.ok s' → P s') :
    ∀ s, P s → (forEach body xs s).NoNil ∧ ∀ s', forEach body xs s = Res.ok s' → P s' := by
  induction xs with
  | nil =>
    intro s hs
    refine ⟨Res.NoNil.nn_ok _, ?_⟩
    intro s' heq
    simp only [forEach, Res.ok.injEq] at heq
    rw [← heq]; exact hs
  | cons x rest ih =>
    intro s hs
    have ih' := ih (fun y hy => hnn y (List.mem_cons_of_mem _ hy))
      (fun y hy => hkeep y (List.mem_cons_of_mem _ hy))
    simp only [forEach]
    refine ⟨?_, ?_⟩
    · apply (hnn x (List.mem_cons_self _ _) s hs).nbind
      intro s1 h1
      exact (ih' s1 (hkeep x (List.mem_cons_self _ _) s s1 hs h1)).1
    · intro s' heq
      obtain ⟨s1, h1, h2⟩ := Res.bind_eq_ok heq
      exact (ih' s1 (hkeep x (List.mem_cons_self _ _) s s1 hs h1)).2 s' h2

theorem nonil_F (env : TypeEnv) (r : Reflector) (U : List TypeId)
    (hclosed : ComponentClosed env r U) (fuel : Nat) (ih : NoNilAt env r U fuel) :
    ∀ (st : Nat) t s, t ∈ U → Own st s.heap → (rd s.heap st).Properties.isSome = true →
      (reflectStructFields env r (fuel + 1) st t s).NoNil := by
  obtain ⟨-, -, -, -, ihH⟩ := ih
  intro st t s ht ho hprops
  have loop : ∀ (u : TypeId) (fs : List StructField), u ∈ U → env.kind u = Kind.Struct →
      (∀ f ∈ fs, f ∈ handledFields env r u) →
      ∀ s0, (Own st s0.heap ∧ (rd s0.heap st).Properties.isSome = true) →
        (forEach (handleField env r fuel st u) fs s0).NoNil ∧
        ∀ s', forEach (handleField env r fuel st u) fs s0 = Res.ok s' →
          (Own st s'.heap ∧ (rd s'.heap st).Properties.isSome = true) := by
    intro u fs hu hkind hfs
    apply forEach_nonil _ (fun s' => Own st s'.heap ∧ (rd s'.heap st).Properties.isSome = true)
    · intro f hf s0 hs0
      exact ihH st u f s0 hu hkind (hfs f hf) hs0.1 hs0.2
    · intro f _ s0 s' hs0 hrun
      have fs' := (frame env r fuel).2.2.2.2 st u f s0 s' hs0.1 hrun
      have nm := (namesInv env r fuel).2 st u f s0 s' hs0.1 hrun
      refine ⟨fs'.1, ?_⟩
      have h2 := nm.2
      cases hq : (rd s0.heap st).Properties with
      | none => rw [hq] at hs0; simp at hs0
      | some ps =>
        rw [hq] at h2
        cases hq' : (rd s'.heap st).Properties with
        | none => rw [hq'] at h2; simp at h2
        | some ps' => rfl
  have body : ∀ u, u ∈ U →
      (if env.kind u ≠ Kind.Struct then Res.ok s
        else
          (forEach (handleField env r fuel st u) (env.fields u) s).bind fun s =>
            match r.AdditionalFields with
            | some additional => forEach (handleField env r fuel st u) (additional u) s
            | none => Res.ok s).NoNil := by
    intro u hu
    split
    · exact Res.NoNil.nn_ok _
    · rename_i hkind
      have hkind : env.kind u = Kind.Struct := by simpa using hkind
      have l1 := loop u _ hu hkind (fun f hf => mem_handledFields_left env r u f hf) s
        ⟨ho, hprops⟩
      apply l1.1.nbind
      intro s1 h1
      split
      · rename_i additional ha
        exact (loop u _ hu hkind
          (fun f hf => mem_handledFields_right env r u f additional ha hf) s1 (l1.2 s1 h1)).1
      · exact Res.NoNil.nn_ok _
  rw [reflectStructFields]
  by_cases hp : env.kind t = Kind.Ptr
  · simp only [hp, if_true]
    exact body _ ((hclosed t ht).1 (Or.inl hp))
  · simp only [hp, if_false]
    exact body _ ht

/-- Every amount of fuel: none of the mutually recursive functions reads a nil
pointer on the types of `U`, when no field combines `type=array` with an `enum`
token and the array nodes of the hooks have their items node. -/
theorem noNilInv (env : TypeEnv) (r : Reflector) (U : List TypeId)
    (hclosed : ComponentClosed env r U)
    (htags : ∀ u ∈ U, ∀ f ∈ handledFields env r u, plainArrayTags f)
    (hhooks : ∀ u ∈ U, arrayHooks env r u) :
    ∀ fuel, NoNilAt env r U fuel := by
  intro fuel
  induction fuel with
  | zero =>
    refine ⟨?_, ?_, ?_, ?_, ?_⟩
    · intro t s _
      refine ⟨by simp [reflectTypeToSchema, Res.NoNil], ?_⟩
      intro a s' h; simp [reflectTypeToSchema] at h
    · intro t s _
      refine ⟨by simp [reflectCustomType, Res.NoNil], ?_⟩
      intro a s' h; simp [reflectCustomType] at h
    · intro t s _
      refine ⟨by simp [reflectStruct, Res.NoNil], ?_⟩
      intro a s' h; simp [reflectStruct] at h
    · intro st t s _ _ _; simp [reflectStructFields, Res.NoNil]
    · intro st t f s _ _ _ _ _; simp [handleField, Res.NoNil]
  | succ n ih =>
    exact ⟨nonil_T env r U hclosed hhooks n ih, nonil_C env r U hclosed hhooks n ih,
      nonil_S env r U n ih, nonil_F env r U hclosed n ih, nonil_H env r U hclosed htags n ih⟩
/-- `ReflectFromType` reads no nil pointer on a root type of `U`, when no field
combines `type=array` with an `enum` token and the array nodes of the hooks have
their items node. -/
theorem ReflectFromType_nonil (env : TypeEnv) (r : Reflector) (U : List TypeId) (t : TypeId)
    (ht : t ∈ U) (hclosed : ComponentClosed env r U)
    (htags : ∀ u ∈ U, ∀ f ∈ handledFields env r u, plainArrayTags f)
    (hhooks : ∀ u ∈ U, arrayHooks env r u) (fuel : Nat) :
    (ReflectFromType env r fuel t).NoNil := by
  obtain ⟨hT, -, hS, hF, -⟩ := noNilInv env r U hclosed htags hhooks fuel
  unfold ReflectFromType
  simp only
  split
  · apply Res.NoNil.nbind
    · exact hF 0 t _ ht (expanded_root_own r) rfl
    · intro s1 _
      apply Res.NoNil.nbind (hS t s1 ht).1
      intro a _
      exact Res.NoNil.nn_ok _
  · apply Res.NoNil.nbind (hT t _ ht).1
    intro a _
    exact Res.NoNil.nn_ok _

/-- `ReflectFromType` comes to an end on a root type of `U` when the types of `U`
are ranked: with enough fuel it is not out of fuel and does not abort on an
unsupported kind. -/
theorem ReflectFromType_ends (env : TypeEnv) (r : Reflector) (U : List TypeId)
    (rank : TypeId → Nat) (t : TypeId) (ht : t ∈ U)
    (hclosed : ComponentClosed env r U) (hranked : Ranked env r U rank)
    (hkinds : ∀ u ∈ U, supportedKind (env.kind u)) :
    ∀ fuel,
      fuelT r.DoNotReference (rankBound rank U) U.length (rankBound rank U) +
        fuelF r.DoNotReference (rankBound rank U) U.length (rankBound rank U) + 2 ≤ fuel →
      (ReflectFromType env r fuel t).Ends := by
  have hR : ∀ u ∈ U, rank u ≤ rankBound rank U := fun u hu => rank_le_bound rank U u hu
  have hinv := endsInv env r U rank (rankBound rank U) hclosed hranked hkinds hR
  intro fuel hN
  obtain ⟨hT, hS, hF, -⟩ := hinv fuel
  have boundT : ∀ d, fuelT r.DoNotReference (rankBound rank U) (pending env r U d) (rank t) ≤
      fuelT r.DoNotReference (rankBound rank U) U.length (rankBound rank U) :=
    fun d => fuelT_mono _ _ _ _ _ _ (pending_le env r U d) (hR t ht)
  have boundF : ∀ d, fuelF r.DoNotReference (rankBound rank U) (pending env r U d) (rank t) ≤
      fuelF r.DoNotReference (rankBound rank U) U.length (rankBound rank U) :=
    fun d => fuelF_mono _ _ _ _ _ _ (pending_le env r U d) (hR t ht)
  have hrk := fuelF_rank r.DoNotReference (rankBound rank U) U.length (rankBound rank U)
  have hrt := hR t ht
  unfold ReflectFromType
  simp only
  split
  · apply Res.Ends.bind
    · apply hF _ t _ ht
      have := boundF ([] : Definitions)
      exact le_trans this (by omega)
    · intro s1 _
      apply Res.Ends.bind
      · apply hS t s1 ht (by omega)
        have := boundF (mapSet s1.definitions (typeName env r t) s1.heap.length)
        omega
      · intro a _
        exact Res.Ends.of_ok _
  · apply Res.Ends.bind
    · apply hT t _ ht
      have := boundT ([] : Definitions)
      exact le_trans this (by omega)
    · intro a _
      exact Res.Ends.of_ok _

/-- `ReflectFromType` returns a schema on a root type of `U` when the types of `U`
are ranked, no field combines `type=array` with an `enum` token and the array
nodes of the hooks have their items node. -/
theorem ReflectFromType_returns (env : TypeEnv) (r : Reflector) (U : List TypeId)
    (rank : TypeId → Nat) (t : TypeId) (ht : t ∈ U)
    (hclosed : ComponentClosed env r U) (hranked : Ranked env r U rank)
    (hkinds : ∀ u ∈ U, supportedKind (env.kind u))
    (htags : ∀ u ∈ U, ∀ f ∈ handledFields env r u, plainArrayTags f)
    (hhooks : ∀ u ∈ U, arrayHooks env r u) :
    ∀ fuel,
      fuelT r.DoNotReference (rankBound rank U) U.length (rankBound rank U) +
        fuelF r.DoNotReference (rankBound rank U) U.length (rankBound rank U) + 2 ≤ fuel →
      ∃ schema h, ReflectFromType env r fuel t = Res.ok (schema, h) := by
  intro fuel hN
  obtain ⟨⟨schema, h⟩, hrun⟩ := Res.returns_of
    (ReflectFromType_ends env r U rank t ht hclosed hranked hkinds fuel hN)
    (ReflectFromType_nonil env r U t ht hclosed htags hhooks fuel)
  exact ⟨schema, h, hrun⟩
/-! ## Termination of `ReflectFromType` -/

/-- C4, amended: let `U` be a list of types that holds the root type `t` and every
component type the reflection steps to, all of a supported kind, and let a rank go
down along every step that no test on the definitions guards (pointer, slice,
array and map elements, fields spliced in as embedded and, when `DoNotReference`
is set, every field that gets a property).  Then for every configuration
`ReflectFromType` terminates: with enough fuel the run is never out of fuel, and
it does not end in the abort on an unsupported kind.  With referencing on, cycles
through a struct field that gets a property are allowed.  If moreover no field of
a type of `U` combines the override `type=array` with an `enum` token in its
`jsonschema` tag, and the nodes of type `"array"` that the `TypeMapper` and
`JSONSchemaType` hooks hand over for the types of `U` have an items node, the run
returns a schema. -/
theorem ReflectFromType_terminates (env : TypeEnv) (r : Reflector) (U : List TypeId)
    (rank : TypeId → Nat) (t : TypeId) (ht : t ∈ U)
    (hclosed : ComponentClosed env r U) (hranked : Ranked env r U rank)
    (hkinds : ∀ u ∈ U, supportedKind (env.kind u)) :
    ∃ N, ∀ fuel, N ≤ fuel →
      (ReflectFromType env r fuel t ≠ Res.timeout ∧
        ∀ msg, ReflectFromType env r fuel t ≠ Res.abort (Abort.unsupportedType msg)) ∧
      ((∀ u ∈ U, ∀ f ∈ handledFields env r u, plainArrayTags f) →
        (∀ u ∈ U, arrayHooks env r u) →
        ∃ schema h, ReflectFromType env r fuel t = Res.ok (schema, h)) :=
  ⟨fuelT r.DoNotReference (rankBound rank U) U.length (rankBound rank U) +
      fuelF r.DoNotReference (rankBound rank U) U.length (rankBound rank U) + 2,
    fun fuel hN =>
      ⟨ReflectFromType_ends env r U rank t ht hclosed hranked hkinds fuel hN,
        fun htags hhooks =>
          ReflectFromType_returns env r U rank t ht hclosed hranked hkinds htags hhooks
            fuel hN⟩⟩

set_option maxRecDepth 100000 in
/-- C4, amended, at an input: `type N struct { Next *N }` with the default
reflector; the cycle goes through the named field `Next`, and the run returns a
schema for every amount of fuel from some amount on. -/
theorem ReflectFromType_terminates_witness :
    (0 : TypeId) ∈ [0, 1] ∧ ComponentClosed nodeEnv defaultReflector [0, 1] ∧
      Ranked nodeEnv defaultReflector [0, 1] nodeRank ∧
      (∀ u ∈ [0, 1], supportedKind (nodeEnv.kind u)) ∧
      (∀ u ∈ [0, 1], ∀ f ∈ handledFields nodeEnv defaultReflector u, plainArrayTags f) ∧
      (∀ u ∈ [0, 1], arrayHooks nodeEnv defaultReflector u) ∧
      (documentReport (ReflectFromType nodeEnv defaultReflector 8 0) "N").isSome = true ∧
      ∃ N, ∀ fuel, N ≤ fuel →
        ∃ schema h, ReflectFromType nodeEnv defaultReflector fuel 0 = Res.ok (schema, h) :=
  ⟨by decide, by decide, by decide, by decide, by decide, by decide, by decide,
    (ReflectFromType_terminates nodeEnv defaultReflector [0, 1] nodeRank 0 (by decide)
      (by decide) (by decide) (by decide)).imp
      (fun _ hN fuel hf => (hN fuel hf).2 (by decide) (by decide))⟩
/-! ## The expanded root: return and shape -/

/-- In `selfEnv` the embedded field of `T` is spliced in under the expanded mode
too. -/
theorem selfField_name_expanded :
    reflectFieldName expandedReflector selfField = ("", true, true, false) := by
  decide

/-- In `selfEnv`, with `ExpandedStruct` set, `reflectStructFields` on `T` or on
`*T` does not return, however much fuel it is given. -/
theorem reflectStructFields_self_expanded (fuel : Nat) :
    ∀ (st : Addr) (s : State),
      reflectStructFields selfEnv expandedReflector fuel st 0 s = Res.timeout ∧
      reflectStructFields selfEnv expandedReflector fuel st 1 s = Res.timeout := by
  induction fuel using Nat.strong_induction_on with
  | _ fuel ih =>
    intro st s
    have key : ∀ n, n ≤ fuel →
        forEach (handleField selfEnv expandedReflector n st 0) [selfField] s = Res.timeout := by
      intro n hn
      cases n with
      | zero => simp [forEach, handleField]
      | succ m =>
        have hm : reflectStructFields selfEnv expandedReflector m st selfField.Typ s =
            Res.timeout := (ih m (by omega) st s).2
        simp only [forEach, handleField, selfField_name_expanded]
        simp [hm]
    cases fuel with
    | zero => simp [reflectStructFields]
    | succ n =>
      have hk := key n (by omega)
      have hfields : selfEnv.fields 0 = [selfField] := by decide
      have h0 : selfEnv.kind 0 = Kind.Struct := by decide
      have h1 : selfEnv.kind 1 = Kind.Ptr := by decide
      have he : selfEnv.elem 1 = 0 := by decide
      constructor
      · simp only [reflectStructFields]
        simp [h0, hfields, hk]
      · simp only [reflectStructFields]
        simp [h0, h1, he, hfields, hk]

set_option maxRecDepth 100000 in
/-- C33 counterexample: with `ExpandedStruct` set, `ReflectFromType` does not
return for every root type.  On `type T struct { *T }` the run never leaves the
recursion of `reflectStructFields` through the embedded field, whatever the fuel;
on `type Sticker struct { Label string }` with the tag
`jsonschema:"type=array,enum=a"` it stops on a nil pointer dereference. -/
theorem expanded_no_return_counterexample :
    expandedReflector.ExpandedStruct = true ∧
    (∀ fuel, ReflectFromType selfEnv expandedReflector fuel 0 = Res.timeout) ∧
    (∀ fuel, ReflectFromType labelEnv expandedReflector (fuel + 4) 0 =
      Res.abort Abort.nilDereference) := by
  refine ⟨rfl, ?_, ?_⟩
  · intro fuel
    rw [ReflectFromType_expanded_eq selfEnv expandedReflector fuel 0 rfl,
      (reflectStructFields_self_expanded fuel 0 _).1]
    rfl
  · intro fuel
    rfl

/-- What the root looks like whenever the run with `ExpandedStruct` set returns:
the root node is the node at address 0, of type `object`, without `$ref`, with
the version of the reflector and the `additionalProperties` the reflector asks
for; it is the node as reflecting the fields of the root type into it left it, so
its required list is the names of the required fields and the keys of its
properties are the property names of the fields, in order (`storedFields`); and
the returned table has no entry under `typeName` of the root type. -/
theorem expanded_root (env : TypeEnv) (r : Reflector) (fuel : Nat) (t : TypeId)
    (schema : Schema) (h : Heap) (hexp : r.ExpandedStruct = true)
    (hrun : ReflectFromType env r fuel t = Res.ok (schema, h)) :
    schema.TypeDraft04 = 0 ∧
    (rd h 0).Typ = "object" ∧ (rd h 0).Ref = "" ∧ (rd h 0).Version = r.Version ∧
    (rd h 0).AdditionalProperties = (if r.AllowAdditionalProperties then "true" else "false") ∧
    (∃ s1, reflectStructFields env r fuel 0 t
        { heap := [{ structNode r with Version := r.Version }] } = Res.ok s1 ∧
      rd h 0 = rd s1.heap 0) ∧
    (rd h 0).Required = requiredNames (storedFields env r fuel t) ∧
    (∃ ps, (rd h 0).Properties = some ps ∧
      ps.map Prod.fst = keysAfter [] (storedFields env r fuel t)) ∧
    mapGet schema.Definitions (typeName env r t) = none := by
  obtain ⟨s1, a, s2, hF, hS, hsch, hh, hlen, hroot⟩ := expanded_parts env r fuel t schema h hexp hrun
  have fs := (frame env r fuel).2.2.2.1 0 t _ s1 (expanded_root_own r) hF
  have hclear := fs.2.2.2.1
  have h0 : rd [({ structNode r with Version := r.Version } : Node)] 0 =
      { structNode r with Version := r.Version } := rfl
  simp only [h0] at hclear
  obtain ⟨n1, n2⟩ := (namesInv env r fuel).1 0 t _ s1 (expanded_root_own r) hF
  simp only [h0] at n1 n2
  refine ⟨by rw [hsch], ?_, ?_, ?_, ?_, ⟨s1, hF, hroot⟩, ?_, ?_, ?_⟩
  · rw [hroot]
    have := congrArg Node.Typ hclear
    simpa [clearParent, structNode] using this
  · rw [hroot]
    have := congrArg Node.Ref hclear
    simpa [clearParent, structNode] using this
  · rw [hroot]
    have := congrArg Node.Version hclear
    simpa [clearParent, structNode] using this
  · rw [hroot]
    have := congrArg Node.AdditionalProperties hclear
    simpa [clearParent, structNode] using this
  · rw [hroot, n1]
    simp [structNode]
  · rw [hroot]
    cases hp : (rd s1.heap 0).Properties with
    | none =>
      rw [hp] at n2
      simp [structNode] at n2
    | some ps =>
      rw [hp] at n2
      refine ⟨ps, rfl, ?_⟩
      simpa [structNode] using n2
  · rw [hsch]
    exact mapGet_mapDelete _ _

/-- C33, amended: with `ExpandedStruct` set, let `U` be a list of types that holds
the root type `t` and every component type the reflection steps to, all of a
supported kind and ranked as for termination, such that no field combines the
override `type=array` with an `enum` token and the array nodes of the hooks have
an items node.  Then `ReflectFromType` returns, for every amount of fuel from
some amount on, and the root node it returns is the node at address 0: it has
type `object`, no `$ref`, the version of the reflector and the
`additionalProperties` the reflector asks for; it is the node as reflecting the
fields of the root type into it left it, so its required list is the names of the
required fields and the keys of its properties are the property names of the
fields, in order (`storedFields`); and the returned table has no entry under
`typeName` of the root type. -/
theorem ReflectFromType_expanded (env : TypeEnv) (r : Reflector) (U : List TypeId)
    (rank : TypeId → Nat) (t : TypeId) (ht : t ∈ U)
    (hclosed : ComponentClosed env r U) (hranked : Ranked env r U rank)
    (hkinds : ∀ u ∈ U, supportedKind (env.kind u))
    (htags : ∀ u ∈ U, ∀ f ∈ handledFields env r u, plainArrayTags f)
    (hhooks : ∀ u ∈ U, arrayHooks env r u) (hexp : r.ExpandedStruct = true) :
    ∃ N, ∀ fuel, N ≤ fuel → ∃ schema h,
      ReflectFromType env r fuel t = Res.ok (schema, h) ∧
      schema.TypeDraft04 = 0 ∧
      (rd h 0).Typ = "object" ∧ (rd h 0).Ref = "" ∧ (rd h 0).Version = r.Version ∧
      (rd h 0).AdditionalProperties = (if r.AllowAdditionalProperties then "true" else "false") ∧
      (∃ s1, reflectStructFields env r fuel 0 t
          { heap := [{ structNode r with Version := r.Version }] } = Res.ok s1 ∧
        rd h 0 = rd s1.heap 0) ∧
      (rd h 0).Required = requiredNames (storedFields env r fuel t) ∧
      (∃ ps, (rd h 0).Properties = some ps ∧
        ps.map Prod.fst = keysAfter [] (storedFields env r fuel t)) ∧
      mapGet schema.Definitions (typeName env r t) = none := by
  refine ⟨fuelT r.DoNotReference (rankBound rank U) U.length (rankBound rank U) +
      fuelF r.DoNotReference (rankBound rank U) U.length (rankBound rank U) + 2, ?_⟩
  intro fuel hN
  obtain ⟨schema, h, hrun⟩ :=
    ReflectFromType_returns env r U rank t ht hclosed hranked hkinds htags hhooks fuel hN
  exact ⟨schema, h, hrun, expanded_root env r fuel t schema h hexp hrun⟩

set_option maxRecDepth 100000 in
set_option maxHeartbeats 2000000 in
/-- C33, amended, at an input: `Person` with the reflector
`&Reflector{Version: DRAFT04, ExpandedStruct: true}`; the run with fuel 5, and
the return and the shape of the root for every amount of fuel from some amount
on. -/
theorem ReflectFromType_expanded_witness :
    (0 : TypeId) ∈ [0, 1, 2] ∧ ComponentClosed personEnv expandedReflector [0, 1, 2] ∧
    Ranked personEnv expandedReflector [0, 1, 2] (fun _ => 0) ∧
    (∀ u ∈ [0, 1, 2], supportedKind (personEnv.kind u)) ∧
    (∀ u ∈ [0, 1, 2], ∀ f ∈ handledFields personEnv expandedReflector u, plainArrayTags f) ∧
    (∀ u ∈ [0, 1, 2], arrayHooks personEnv expandedReflector u) ∧
    ReflectFromType personEnv expandedReflector 5 0 =
      Res.ok ({ TypeDraft04 := 0, Definitions := [] },
        [{ structNode expandedReflector with
            Version := DRAFT04, Required := ["Name"],
            Properties := some [("Name", 1), ("Age", 2)] },
          { Typ := "string" }, { Typ := "integer", Minimum := 0 },
          { structNode expandedReflector with
            Required := ["Name"], Properties := some [("Name", 4), ("Age", 5)] },
          { Typ := "string" }, { Typ := "integer", Minimum := 0 },
          refNode expandedReflector "Person"]) ∧
    ∃ N, ∀ fuel, N ≤ fuel → ∃ schema h,
      ReflectFromType personEnv expandedReflector fuel 0 = Res.ok (schema, h) ∧
      (rd h 0).Typ = "object" ∧ (rd h 0).Ref = "" ∧
      mapGet schema.Definitions (typeName personEnv expandedReflector 0) = none :=
  ⟨by decide, by decide, by decide, by decide, by decide, by decide, by decide,
    (ReflectFromType_expanded personEnv expandedReflector [0, 1, 2] (fun _ => 0) 0
      (by decide) (by decide) (by decide) (by decide) (by decide) (by decide) rfl).imp
      (fun _ hN fuel hf =>
        (hN fuel hf).imp (fun _ hs =>
          hs.imp (fun _ hp => ⟨hp.1, hp.2.2.1, hp.2.2.2.1, hp.2.2.2.2.2.2.2.2.2⟩)))⟩
end Jsonschema
